import Mathlib

/-!
ISMCTS: the search engine of `MCTS.h`

A shallow embedding of the information-set Monte Carlo tree search engine
(`template<State, Agent> class MCTS` in `src/MCTS.h`) and of the statements
made about it.

Modelling decisions, all of them visible in the definitions below.

* The tree.  A `Node` owns its children through `std::vector<std::shared_ptr<Node>>`
  and nothing else owns a node, so the heap reachable from `root` is a tree and is
  embedded as a tree value.  A `NodePtr` into the tree is the list of child indices
  leading from the root to the node.  In-place mutation through a pointer becomes
  returning the updated tree.
* `parent` is a `std::weak_ptr`, used only by the backpropagation loop of `iterate`.
  The parent of the node at path `p ++ [i]` is the node at path `p`.  The root has
  no live parent: it is constructed with `nullptr`, and after `makeMove` assigns
  `root = child` the previous root has lost its only owner, is destroyed, and
  `parent.lock()` of the new root yields null.
* `MovePtr` is `std::shared_ptr<Move>`: an address together with the pointed-to
  value.  `operator==` on two `MovePtr` compares addresses; `SharedEqual` compares
  the values with the `operator==` of `Move`; `SharedHash` hashes the value.
* `double` is embedded as a linearly ordered field `K` (no rounding, no NaN, no
  infinities) with the `<cmath>` functions `sqrt` and `log` passed in a `CMath K`;
  the intended reading is `K = ℝ` with `realMath`.
* `size_t` counters (`visits`, `avails`) are natural numbers: each is only ever
  incremented by one per selection or backpropagation step, so wrap-around would
  need `2^64` such steps.
* `rand()` and every other source of randomness is an explicit stream `RandStream`.
* A call that throws (or reaches undefined behaviour) returns `none`.  The two
  `while` loops whose length depends on the game and the tree (`select`, `rollout`)
  run on a step bound `fuel`; exhausting it also gives `none`.
* `DurakState` (`src/Durak.h`) is embedded with its data members; `numberOfPlayers` is
  the constant 2.  Its generator `std::mt19937 rd` has an abstract state, and
  `std::shuffle` is a parameter of which the statements assume only that it
  reorders its range.  `int` values stay far from the bounds of `int` (a game has 36
  cards) and are integers.
* Besides the token game, two small State types serve as inputs: a card game with one
  hidden card and a game of one move out of 101.
* `durakOps` is `DurakState` as the `State` argument of the engine, the instance
  `main.cpp` builds.  An object on which a call has thrown carries the mark `thrown`, and no
  call of the engine returns after that.  The parameters of `std::hash<Card>`, drawn by the
  program at every call of the hash, are two numbers `a` and `b`; the statements on
  `DurakState` hash only moves without cards, whose hash values do not depend on them.
* The methods of `DurakState` and `ttt::State` that can throw return a `CallResult`:
  the object after a normal return, the object as the exception leaves it, or
  undefined behaviour (`front()` of an empty vector, a shift by 32 or more bits).
  An `int` used as an index is converted to `size_t` modulo `2^64`; `/` and `%` on
  `int` truncate towards zero.
* `DurakState::Move` and its three subclasses are one inductive type; `std::set` is an
  increasing list of keys, `std::sort` an insertion sort (the order on cards is total
  on distinct cards), `std::string` the list of its characters.
* `std::all_of(attack.begin() + 1, attack.end(), ...)` in `getMoves` is read as the
  empty range when `attack` is empty.
* The bit boards of `ttt::State` are natural numbers below `2^32`.
* The constructor of `ttt::State` that takes all six members is private, so a
  `ttt::State` object is one made by `State()` or `State(player, opponent)` and then
  changed by `makeMove`: the predicate `ttt.State.Built`.  `ttt::State` has neither
  `MovePtr` moves nor `getResult`, so the rollout loop of the engine is embedded for it
  separately, as `ttt.State.rollout`, with the random choice among `getMoves()`.
* The state at a node of the tree is the root state after the moves on the path to the
  node (`MCTS.stateAt`); the calls of `UCBSelectChild` made by `select` are the relation
  `MCTS.SelectCalls`; the size of a tree is the number of its nodes (`MCTS.Node.size`).
* The cards of a `DurakState` are counted as the multiset of their numbers over `deck`,
  the hands, `attack`, both cards of each pair of `defended`, and `discard`
  (`DurakState.allCards`, `DurakState.numbers`); the hidden flag of a card is not part
  of its identity, as in `Card::operator==`.
-/

set_option autoImplicit false
set_option linter.unusedVariables false
set_option linter.unusedSectionVars false

/-! ## Pointers, randomness, arithmetic -/

/-- A `std::shared_ptr<Move>` (`State::MovePtr`): `addr` is the identity of the
pointed-to object, `val` the object itself. -/
structure MovePtr (Move : Type) where
  addr : Nat
  val : Move

/-- The stream of values that successive calls of `rand()` (and of the other random
generators the game uses) will return. -/
abbrev RandStream := Nat → Nat

/-- One call of `rand()`: the next value and the rest of the stream. -/
def rand (r : RandStream) : Nat × RandStream := (r 0, fun i => r (i + 1))

/-- The two `<cmath>` functions used by `Node::ucb`. -/
structure CMath (K : Type) where
  sqrt : K → K
  log : K → K

/-- Real-number reading of `<cmath>`: `sqrt` and `log` on `double` without rounding. -/
noncomputable def realMath : CMath ℝ := ⟨Real.sqrt, Real.log⟩

/-! ## The State/Move contract consumed by the engine

Everything `MCTS<State, Agent>` calls on its template arguments
(`MCTS.h` lines 12, 18-28, 93, 107, 162, 169, 172, 178, 191, 192, 216, 234, 308). -/

/-- The operations of `State`, `State::Move` and `std::hash<Move>` the engine uses.
`getMoves` and `randomMove` are non-const in `Durak.h`, so they return the state too;
`makeMove` returns `none` when it throws.  `moveString` is the conversion
`static_cast<std::string>(move)`, `none` when it does not return. -/
structure StateOps (S Move K : Type) where
  getMoves : S → List (MovePtr Move) × S
  makeMove : S → MovePtr Move → Option S
  isTerminal : S → Bool
  getResult : S → Int → K
  playerToMove : S → Int
  randomizeHiddenState : S → RandStream → S × RandStream
  randomMove : S → RandStream → MovePtr Move × S × RandStream
  null : MovePtr Move
  moveEq : Move → Move → Bool
  moveHash : Move → Nat
  moveString : Move → Option (List Char)

/-- The requirements `std::unordered_set` puts on its `Pred` and `Hash` arguments:
`operator==` of `Move` is symmetric and transitive, and equal moves hash equally. -/
structure StateOps.LawfulMove {S Move K : Type} (ops : StateOps S Move K) : Prop where
  eq_symm : ∀ a b, ops.moveEq a b = true → ops.moveEq b a = true
  eq_trans : ∀ a b c, ops.moveEq a b = true → ops.moveEq b c = true → ops.moveEq a c = true
  hash_eq : ∀ a b, ops.moveEq a b = true → ops.moveHash a = ops.moveHash b

/-- The functor `SharedEqual<Move>::operator()`: `(*ptr1) == (*ptr2)`. -/
def SharedEqual {S Move K : Type} (ops : StateOps S Move K) (ptr1 ptr2 : MovePtr Move) : Bool :=
  ops.moveEq ptr1.val ptr2.val

/-- The functor `SharedHash<Move>::operator()`: `h(*ptr)`. -/
def SharedHash {S Move K : Type} (ops : StateOps S Move K) (ptr : MovePtr Move) : Nat :=
  ops.moveHash ptr.val

/-! ## `std::unordered_set<MovePtr, SharedHash<Move>, SharedEqual<Move>>`

The set is the list of its keys.  A lookup finds a stored key when the hash codes
agree and `SharedEqual(searched, stored)` holds. -/

/-- The test `set.find(m) != set.end()`. -/
def USet.find {S Move K : Type} (ops : StateOps S Move K) (set : List (MovePtr Move))
    (m : MovePtr Move) : Bool :=
  set.any (fun k => SharedHash ops k == SharedHash ops m && SharedEqual ops m k)

/-- The call `set.emplace(m)`: inserts unless an equivalent key is already stored. -/
def USet.emplace {S Move K : Type} (ops : StateOps S Move K) (set : List (MovePtr Move))
    (m : MovePtr Move) : List (MovePtr Move) :=
  if USet.find ops set m then set else set ++ [m]

/-- The range constructor `unordered_set(first, last)`. -/
def USet.ofRange {S Move K : Type} (ops : StateOps S Move K) (l : List (MovePtr Move)) :
    List (MovePtr Move) :=
  l.foldl (USet.emplace ops) []

/-! ## `MCTS::Node` -/

/-- The type `struct MCTS::Node` (`MCTS.h` 38-58) without the `parent` back-reference, which is
the position of the node in the tree. -/
structure MCTS.Node (Move K : Type) where
  move : MovePtr Move
  just_moved : Int
  children : List (MCTS.Node Move K)
  wins : K
  visits : Nat
  avails : Nat

namespace MCTS.Node

variable {S Move K : Type} [LinearOrderedField K]

/-- The constructor `Node::Node(m, parent, p)` (`MCTS.h` 223-227): no children, `wins(0.0)`,
`visits(0)`, `avails(1)`. -/
def ctor (m : MovePtr Move) (p : Int) : MCTS.Node Move K :=
  { move := m, just_moved := p, children := [], wins := 0, visits := 0, avails := 1 }

/-- The method `Node::update(state)` (`MCTS.h` 229-235). -/
def update (ops : StateOps S Move K) (n : MCTS.Node Move K) (state : S) : MCTS.Node Move K :=
  let n1 := { n with visits := n.visits + 1 }
  if n1.just_moved ≠ -1 then { n1 with wins := n1.wins + ops.getResult state n1.just_moved }
  else n1

/-- The method `Node::addChild(m, p)` (`MCTS.h` 237-242): the node with the new child pushed
back, and the pointer to the new child (its index among the children). -/
def addChild (n : MCTS.Node Move K) (m : MovePtr Move) (p : Int) : MCTS.Node Move K × Nat :=
  ({ n with children := n.children ++ [ctor m p] }, n.children.length)

/-- The method `Node::getUntriedMoves(legalMoves)` (`MCTS.h` 244-263). -/
def getUntriedMoves (ops : StateOps S Move K) (n : MCTS.Node Move K)
    (legalMoves : List (MovePtr Move)) : List (MovePtr Move) :=
  let tried := n.children.foldl (fun t c => USet.emplace ops t c.move) []
  legalMoves.foldl (fun untried m => if USet.find ops tried m then untried else untried ++ [m]) []

/-- The method `Node::ucb(exploration)` (`MCTS.h` 300-304). -/
def ucb (cm : CMath K) (n : MCTS.Node Move K) (exploration : K) : K :=
  n.wins / (n.visits : K) + exploration * cm.sqrt (cm.log (n.avails : K) / (n.visits : K))

/-- The scan of `UCBSelectChild` for the best score (`MCTS.h` 286-291): `rest` are the
scores from index `i` on, `max` and `ind` the loop variables; returns the final `ind`. -/
def maxScan : List K → Nat → K → Nat → Nat
  | [], _, _, ind => ind
  | u :: rest, i, max, ind => if u > max then maxScan rest (i + 1) u i else maxScan rest (i + 1) max ind

/-- The children a `UCBSelectChild` call collects in `legalChildren` (`MCTS.h` 268-274),
each with its index in `children` (the pointer). -/
def legalChildren (ops : StateOps S Move K) (n : MCTS.Node Move K)
    (legalMoves : List (MovePtr Move)) : List (Nat × MCTS.Node Move K) :=
  let moves := USet.ofRange ops legalMoves
  n.children.enum.filter (fun p => USet.find ops moves p.2.move)

/-- The method `Node::UCBSelectChild(legalMoves, exploration)` (`MCTS.h` 265-298).  Returns the node
as the call leaves it and the pointer to the chosen child (its index in `children`);
the pointer is `none` when `ucbs.at(0)` throws `std::out_of_range`.  The scores are
`n->ucb()`, that is `ucb` with its default argument `0.7`. -/
def UCBSelectChild (ops : StateOps S Move K) (cm : CMath K) (n : MCTS.Node Move K)
    (legalMoves : List (MovePtr Move)) (exploration : K) : MCTS.Node Move K × Option Nat :=
  let legal := legalChildren ops n legalMoves
  let ucbs := legal.map (fun p => p.2.ucb cm (7 / 10))
  match ucbs with
  | [] => (n, none)
  | max :: rest =>
    let ind := maxScan rest 1 max 0
    let bumped := legal.foldl
      (fun cs p => cs.modify (fun c => { c with avails := c.avails + 1 }) p.1) n.children
    ({ n with children := bumped }, (legal[ind]?).map Prod.fst)

end MCTS.Node

/-! ## The engine `MCTS<State, Agent>` with the default `RandomAgent` -/

/-- The data members of `class MCTS` (`MCTS.h` 62-78); the agent is `RandomAgent<State>`. -/
structure MCTS (S Move K : Type) where
  root : MCTS.Node Move K
  root_state : S
  exploration : K

namespace MCTS

variable {S Move K : Type} [LinearOrderedField K]

/-- The constructor `MCTS(exploration, state, agent)` (`MCTS.h` 91-96). -/
def ctor (ops : StateOps S Move K) (exploration : K) (state : S) : MCTS S Move K :=
  { root := Node.ctor ops.null (-1), root_state := state, exploration := exploration }

/-- The method `RandomAgent<State>::getMove(state)` (`MCTS.h` 306-309). -/
def RandomAgent.getMove (ops : StateOps S Move K) (state : S) (rnd : RandStream) :
    MovePtr Move × S × RandStream :=
  ops.randomMove state rnd

/-- The method `MCTS::determinize(state)` (`MCTS.h` 159-164): the copy, randomized. -/
def determinize (ops : StateOps S Move K) (state : S) (rnd : RandStream) : S × RandStream :=
  let newState := state
  ops.randomizeHiddenState newState rnd

/-- The method `MCTS::expand(node, state, untried)` (`MCTS.h` 187-194).  Returns the node with the
new child, the pointer to that child as a path below `node`, the state after the move
and the rest of the random stream.  With `untried` empty the index `rand() % 0` is
undefined behaviour. -/
def expand (ops : StateOps S Move K) (node : Node Move K) (state : S)
    (untried : List (MovePtr Move)) (rnd : RandStream) :
    Option (Node Move K × List Nat × S × RandStream) :=
  let (r, rnd) := rand rnd
  if untried.length = 0 then none
  else
    match untried[r % untried.length]? with
    | none => none
    | some move =>
      let justMoved := ops.playerToMove state
      match ops.makeMove state move with
      | none => none
      | some state =>
        let (node, child) := node.addChild move justMoved
        some (node, [child], state, rnd)

/-- The method `MCTS::select(node, state)` (`MCTS.h` 166-185).  One unfolding is one test of the
`while` condition, entered with `legalMoves` and `untried` freshly computed for the
current `node`.  Returns the tree below the node the call started at (as the call
leaves it), the pointer to the returned node as a path below that node, the state and
the rest of the random stream. -/
def select (ops : StateOps S Move K) (cm : CMath K) (exploration : K) :
    Nat → Node Move K → S → RandStream → Option (Node Move K × List Nat × S × RandStream)
  | 0, _, _, _ => none
  | fuel + 1, node, state, rnd =>
    let (legalMoves, state) := ops.getMoves state
    let untried := node.getUntriedMoves ops legalMoves
    if ops.isTerminal state then some (node, [], state, rnd)
    else if !untried.isEmpty then expand ops node state untried rnd
    else
      match node.UCBSelectChild ops cm legalMoves exploration with
      | (_, none) => none
      | (node, some i) =>
        match node.children[i]? with
        | none => none
        | some child =>
          match ops.makeMove state child.move with
          | none => none
          | some state =>
            match select ops cm exploration fuel child state rnd with
            | none => none
            | some (child, path, state, rnd) =>
              some ({ node with children := node.children.set i child }, i :: path, state, rnd)

/-- The method `MCTS::rollout(state, agent)` (`MCTS.h` 196-202). -/
def rollout (ops : StateOps S Move K) : Nat → S → RandStream → Option (S × RandStream)
  | 0, _, _ => none
  | fuel + 1, state, rnd =>
    if ops.isTerminal state then some (state, rnd)
    else
      let (move, state, rnd) := RandomAgent.getMove ops state rnd
      match ops.makeMove state move with
      | none => none
      | some state => rollout ops fuel state rnd

/-- The backpropagation loop of `iterate` (`MCTS.h` 150-154): `update(state)` on the
node at `path` and on each of its ancestors up to the node the path starts at, whose
`parent.lock()` is null. -/
def backpropagate (ops : StateOps S Move K) (state : S) : List Nat → Node Move K → Node Move K
  | [], node => node.update ops state
  | i :: path, node =>
    Node.update ops { node with children := node.children.modify (backpropagate ops state path) i }
      state

/-- The private `MCTS::iterate(node, initial)` (`MCTS.h` 138-157), called on the root:
the tree after the iteration, the returned state and the rest of the random stream. -/
def iterateNode (ops : StateOps S Move K) (cm : CMath K) (exploration : K) (fuel : Nat)
    (node : Node Move K) (initial : S) (rnd : RandStream) :
    Option (Node Move K × S × RandStream) :=
  let (state, rnd) := determinize ops initial rnd
  match select ops cm exploration fuel node state rnd with
  | none => none
  | some (tree, node, state, rnd) =>
    match rollout ops fuel state rnd with
    | none => none
    | some (state, rnd) => some (backpropagate ops state node tree, state, rnd)

/-- The public `MCTS::iterate()` (`MCTS.h` 125-128). -/
def iterate (ops : StateOps S Move K) (cm : CMath K) (fuel : Nat) (e : MCTS S Move K)
    (rnd : RandStream) : Option (MCTS S Move K × S × RandStream) :=
  match iterateNode ops cm e.exploration fuel e.root e.root_state rnd with
  | none => none
  | some (tree, state, rnd) => some ({ e with root := tree }, state, rnd)

/-- The `for` loop of the private `MCTS::loop` (`MCTS.h` 134-135), for `iters` below the
greatest `size_t`; the state returned by each `iterate` is discarded. -/
def loopFor (ops : StateOps S Move K) (cm : CMath K) (exploration : K) (fuel : Nat) (state : S) :
    Nat → Node Move K → RandStream → Option (Node Move K × RandStream)
  | 0, node, rnd => some (node, rnd)
  | iters + 1, node, rnd =>
    match iterateNode ops cm exploration fuel node state rnd with
    | none => none
    | some (node, _, rnd) => loopFor ops cm exploration fuel state iters node rnd

/-- The private `MCTS::loop(node, initial, iters)` (`MCTS.h` 130-136). -/
def loopNode (ops : StateOps S Move K) (cm : CMath K) (exploration : K) (fuel : Nat)
    (node : Node Move K) (initial : S) (iters : Nat) (rnd : RandStream) :
    Option (Node Move K × RandStream) :=
  let (state, rnd) := determinize ops initial rnd
  loopFor ops cm exploration fuel state iters node rnd

/-- The public `MCTS::loop(iters)` (`MCTS.h` 120-123). -/
def loop (ops : StateOps S Move K) (cm : CMath K) (fuel : Nat) (e : MCTS S Move K)
    (iters : Nat) (rnd : RandStream) : Option (MCTS S Move K × RandStream) :=
  match loopNode ops cm e.exploration fuel e.root e.root_state iters rnd with
  | none => none
  | some (tree, rnd) => some ({ e with root := tree }, rnd)

/-- The algorithm `std::max_element(first, last, comp)`: the first element no later element is
greater than; `none` stands for `last` on the empty range. -/
def maxElement {α : Type} (comp : α → α → Bool) : List α → Option α
  | [] => none
  | x :: xs => some (xs.foldl (fun largest y => if comp largest y then y else largest) x)

/-- The loop of `getMove` that prints the children of the root (`MCTS.h` 105-107): for each
child, in the order of `children`, it evaluates `static_cast<std::string>(*((*it)->move))`.
The value is whether all these conversions return; the text sent to `std::cout` is not
kept. -/
def printsChildren (ops : StateOps S Move K) (children : List (Node Move K)) : Bool :=
  children.all (fun c => (ops.moveString c.move.val).isSome)

/-- The method `MCTS::getMove(iters)` (`MCTS.h` 98-118): the returned move, the engine after the
call and the rest of the random stream; `none` when the loop does not complete or a
conversion in the printing of the children does not return. -/
def getMove (ops : StateOps S Move K) (cm : CMath K) (fuel : Nat) (e : MCTS S Move K)
    (iters : Nat) (rnd : RandStream) : Option (MovePtr Move × MCTS S Move K × RandStream) :=
  match loop ops cm fuel e iters rnd with
  | none => none
  | some (e, rnd) =>
    if e.root.children.isEmpty then some (ops.null, e, rnd)
    else if !printsChildren ops e.root.children then none
    else
      match maxElement (fun a b => decide (a.visits < b.visits)) e.root.children with
      | none => none
      | some best => some (best.move, e, rnd)

/-- The method `MCTS::makeMove(move)` (`MCTS.h` 204-221).  The search `n->move == move` compares
two `shared_ptr`, that is two addresses. -/
def makeMove (ops : StateOps S Move K) (e : MCTS S Move K) (move : MovePtr Move) :
    Option (MCTS S Move K) :=
  let child :=
    match e.root.children.find? (fun n => n.move.addr == move.addr) with
    | some n => some n
    | none =>
      let (root, child) := e.root.addChild move (ops.playerToMove e.root_state)
      root.children[child]?
  match child with
  | none => none
  | some child =>
    match ops.makeMove e.root_state move with
    | none => none
    | some state => some { e with root := child, root_state := state }

end MCTS

/-! ## A small State type to run the engine on

The engine is a template; this is one admissible argument for it.  A pile of `tokens`,
the players alternately take one or two, the game ends when the pile is empty and the
player who took the last token has won. -/

/-- The state of the token game. -/
structure Nim where
  tokens : Nat
  playerToMove : Int

/-- The token game as a `State` for the engine.  A move is the number of tokens taken;
`null()` is `-1`; the move taking `k` tokens lives at address `k`, and its text is the
number `k` in decimal digits. -/
def nimOps (K : Type) [LinearOrderedField K] : StateOps Nim Int K where
  getMoves s :=
    (if s.tokens = 0 then [] else if s.tokens = 1 then [⟨1, 1⟩] else [⟨1, 1⟩, ⟨2, 2⟩], s)
  makeMove s m :=
    if 1 ≤ m.val ∧ m.val ≤ 2 ∧ m.val.toNat ≤ s.tokens then
      some { tokens := s.tokens - m.val.toNat, playerToMove := s.playerToMove % 2 + 1 }
    else none
  isTerminal s := s.tokens == 0
  getResult s p := if p = s.playerToMove then 0 else 1
  playerToMove s := s.playerToMove
  randomizeHiddenState s rnd := (s, rnd)
  randomMove s rnd :=
    let (r, rnd) := rand rnd
    (if s.tokens ≥ 2 ∧ r % 2 = 1 then ⟨2, 2⟩ else ⟨1, 1⟩, s, rnd)
  null := ⟨0, -1⟩
  moveEq a b := a == b
  moveHash a := a.toNat
  moveString a := some (Nat.toDigits 10 a.toNat)

/-! ## A State type with hidden information

Player 1 passes; then player 2, who holds one card face down, has to play it: the move
`high` if the card is high, the move `low` if not.  Player 2 sees the card, player 1 does
not.  The game is over after the card is played. -/

/-- The state of the card game: the number of moves made, and whether the card of
player 2 is high. -/
structure Sealed where
  stage : Nat
  high : Bool

/-- The card game as a `State` for the engine.  The moves are `pass = 1`, `high = 2`,
`low = 3`, each at the address of its number; `null()` is `-1`.  `randomizeHiddenState()`
takes the player to move as the observer: for player 1 the card is drawn again, for
player 2 it stays. -/
def sealedOps (K : Type) [LinearOrderedField K] : StateOps Sealed Int K where
  getMoves s :=
    (if s.stage = 0 then [⟨1, 1⟩] else if s.stage = 1 then (if s.high then [⟨2, 2⟩] else [⟨3, 3⟩])
      else [], s)
  makeMove s m :=
    if s.stage = 0 ∧ m.val = 1 then some { s with stage := 1 }
    else if s.stage = 1 ∧ m.val = (if s.high then 2 else 3) then some { s with stage := 2 }
    else none
  isTerminal s := decide (2 ≤ s.stage)
  getResult s p := if p = 2 then 1 else 0
  playerToMove s := if s.stage % 2 = 0 then 1 else 2
  randomizeHiddenState s rnd :=
    if s.stage % 2 = 0 then
      let (r, rnd) := rand rnd
      ({ s with high := decide (r % 2 = 1) }, rnd)
    else (s, rnd)
  randomMove s rnd :=
    (if s.stage = 0 then ⟨1, 1⟩ else if s.high then ⟨2, 2⟩ else ⟨3, 3⟩, s, rnd)
  null := ⟨0, -1⟩
  moveEq a b := a == b
  moveHash a := a.toNat
  moveString a := some (Nat.toDigits 10 a.toNat)

/-! ## A State type with more moves than a search has iterations

One player, one move out of 101: the move `100` wins, every other move loses. -/

/-- The game of one move as a `State` for the engine: the state is the move made, if any;
the move `k` lives at address `k`, and `null()` is `101`. -/
def oneShotOps (K : Type) [LinearOrderedField K] : StateOps (Option Nat) Nat K where
  getMoves s := (if s.isNone then (List.range 101).map (fun k => ⟨k, k⟩) else [], s)
  makeMove s m := if s.isNone ∧ m.val ≤ 100 then some (some m.val) else none
  isTerminal s := s.isSome
  getResult s p :=
    if s = some 100 then (if p = 1 then 1 else 0) else (if p = 1 then 0 else 1)
  playerToMove s := if s.isNone then 1 else 2
  randomizeHiddenState s rnd := (s, rnd)
  randomMove s rnd :=
    let (r, rnd) := rand rnd
    (⟨r % 101, r % 101⟩, s, rnd)
  null := ⟨101, 101⟩
  moveEq a b := a == b
  moveHash a := a
  moveString a := some (Nat.toDigits 10 a)

/-! ## The game `DurakState`: cards, members, determinization

`std::mt19937` and `std::shuffle` are library code: the generator state is a type `G`, and
the two calls made on it are the fields of a `Shuffler G`.  The vectors are lists; `at`
out of range and an invalid iterator range give `none`. -/

/-- The struct `DurakState::Card` (`Durak.h` 19-54): the number of the card and whether it is
face down. -/
structure DurakState.Card where
  n : Int
  hidden : Bool
deriving DecidableEq

/-- The library calls of `DurakState` on its generator: `std::mt19937(seed)` and
`std::shuffle(first, last, rd)` on a range of cards, which returns the range reordered
and the generator advanced. -/
structure Shuffler (G : Type) where
  seed : Nat → G
  shuffle : List DurakState.Card → G → List DurakState.Card × G

/-- The data members of `DurakState` (`Durak.h` 131-148); `numberOfPlayers` is the constant
2 and `rd_dev` is never read. -/
structure DurakState (G : Type) where
  deck : List DurakState.Card
  hands : List (List DurakState.Card)
  attack : List DurakState.Card
  defended : List (DurakState.Card × DurakState.Card)
  discard : List DurakState.Card
  trump : Int
  defending : Bool
  defendingPlayer : Int
  attackingPlayer : Int
  rd : G
  playerToMove : Int

namespace DurakState

variable {G : Type}

/-- The member `numberOfPlayers` (`Durak.h` 147). -/
def numberOfPlayers : Nat := 2

/-- The copy constructor `DurakState(const DurakState& other)` (`Durak.h` 231-237): every
member is copied but the generator, which is seeded with 5. -/
def copy (sh : Shuffler G) (other : DurakState G) : DurakState G :=
  { other with rd := sh.seed 5 }

/-- The body of the first loop of `randomizeHiddenState(observer)` for player `i`
(`Durak.h` 507-512) on `(deck, newHands)`; `none` when `at` throws. -/
def foldHand (hands : List (List Card)) (observer : Int)
    (acc : List Card × List (List Card)) (i : Nat) : Option (List Card × List (List Card)) :=
  match hands[i]? with
  | none => none
  | some hand =>
    hand.foldlM (fun acc card =>
      if card.hidden && decide (observer ≠ (i : Int) + 1) then some (acc.1 ++ [card], acc.2)
      else
        match acc.2[i]? with
        | none => none
        | some h => some (acc.1, acc.2.set i (h ++ [card]))) acc

/-- The body of the dealing loop of `randomizeHiddenState(observer)` for `player`
(`Durak.h` 526-531) on `(newHands, total)`; `none` when `at` throws or the range of the
deck is not a valid range. -/
def dealHand (hands : List (List Card)) (deck : List Card)
    (acc : List (List Card) × Int) (player : Nat) : Option (List (List Card) × Int) :=
  match acc.1[player]? with
  | none => none
  | some hand =>
    match hands[player]? with
    | none => none
    | some full =>
      let toGet : Int := (full.length : Int) - (hand.length : Int)
      let first : Int := (deck.length : Int) - acc.2 - toGet
      let last : Int := (deck.length : Int) - acc.2
      if 0 ≤ first ∧ first ≤ last ∧ last ≤ deck.length then
        some (acc.1.set player (hand ++ (deck.drop first.toNat).take (last - first).toNat),
          acc.2 + toGet)
      else none

/-- The shuffle of `randomizeHiddenState(observer)` (`Durak.h` 515-522): with a trump card
at the front of the deck, the cards behind it are shuffled if the deck has more than two
cards; without one, the whole deck is shuffled if it has more than one card. -/
def shuffleDeck (sh : Shuffler G) (hasTrump : Bool) (deck : List Card) (rd : G) :
    List Card × G :=
  if hasTrump then
    if deck.length > 2 then
      let r := sh.shuffle (deck.drop 1) rd
      (deck.take 1 ++ r.1, r.2)
    else (deck, rd)
  else if deck.length > 1 then sh.shuffle deck rd
  else (deck, rd)

/-- The method `DurakState::randomizeHiddenState(int observer)` (`Durak.h` 498-537): the state
after the call, `none` when the call throws.  The sizes cast to `int` are read as
integers without bound. -/
def randomizeHiddenState (sh : Shuffler G) (s : DurakState G) (observer : Int) :
    Option (DurakState G) :=
  let newHands : List (List Card) := List.replicate s.hands.length []
  let hasTrump := !s.deck.isEmpty
  match (List.range numberOfPlayers).foldlM (foldHand s.hands observer) (s.deck, newHands) with
  | none => none
  | some folded =>
    let shuffled := shuffleDeck sh hasTrump folded.1 s.rd
    match (List.range numberOfPlayers).foldlM (dealHand s.hands shuffled.1) (folded.2, 0) with
    | none => none
    | some dealt =>
      if 0 ≤ dealt.2 ∧ dealt.2 ≤ shuffled.1.length then
        some { s with
          deck := shuffled.1.take (shuffled.1.length - dealt.2.toNat),
          hands := dealt.1,
          rd := shuffled.2 }
      else none

/-- The method `DurakState::randomizeHiddenState()` (`Durak.h` 494-496). -/
def randomizeHiddenStateDefault (sh : Shuffler G) (s : DurakState G) : Option (DurakState G) :=
  s.randomizeHiddenState sh s.playerToMove

end DurakState

namespace DurakState

variable {G : Type}

/-- The method `DurakState::isTerminal()` (`Durak.h` 539-542). -/
def isTerminal (s : DurakState G) : Bool := s.hands.any (fun hand => hand.isEmpty)

/-- The loop of `getResult` (`Durak.h` 546-551) from index `i` on: `i + 1` for the first
empty hand at index `i`, and 0 when there is none. -/
def firstEmpty : List (List Card) → Nat → Int
  | [], _ => 0
  | hand :: hands, i => if hand.isEmpty then (i : Int) + 1 else firstEmpty hands (i + 1)

/-- The method `DurakState::getResult(player)` (`Durak.h` 544-554): the `bool` `win == player`
as a `double`. -/
def getResult {K : Type} [LinearOrderedField K] (s : DurakState G) (player : Int) : K :=
  if firstEmpty s.hands 0 = player then 1 else 0

end DurakState

/-- The method `MCTS::determinize(state)` (`MCTS.h` 159-164) for `State = DurakState`: the
argument as the call leaves it (it is a `const` reference, read by the copy constructor
only), and the returned state, `none` when `randomizeHiddenState` throws. -/
def MCTS.determinizeDurak {G : Type} (sh : Shuffler G) (state : DurakState G) :
    DurakState G × Option (DurakState G) :=
  let newState := DurakState.copy sh state
  (state, newState.randomizeHiddenStateDefault sh)


/-! ## `DurakState`: cards, moves, equality, hashing, text

The class hierarchy of moves is an inductive type: the dynamic type of the object with
its data members.  The member `_null` is `true` for an object of the base class and
`false` for the derived classes (their constructors set it).  A `std::string` is the list
of its characters. -/

/-- A call that returns a value, throws, or has undefined behaviour. -/
inductive Returned (α : Type) where
  | value (a : α)
  | throws
  | undefined

namespace DurakState

/-- The method `Card::rank()` (`Durak.h` 31): `n / numberOfSuits`, the division of `int`. -/
def Card.rank (c : Card) : Int := Int.tdiv c.n 4

/-- The method `Card::suit()` (`Durak.h` 29): `n % numberOfSuits`, the remainder of `int`. -/
def Card.suit (c : Card) : Int := Int.tmod c.n 4

/-- The method `Card::reveal()` (`Durak.h` 35). -/
def Card.reveal (c : Card) : Card := { c with hidden := false }

/-- The method `Card::beat(other, trump)` (`Durak.h` 45-53). -/
def Card.beat (c other : Card) (trump : Int) : Bool :=
  if c.suit = trump then
    if other.suit ≠ trump then true
    else decide (c.rank > other.rank)
  else if other.suit = trump ∨ c.suit ≠ other.suit then false
  else decide (c.rank > other.rank)

/-- The classes `Move`, `AttackMove`, `DefendMove`, `ThrowInMove` (`Durak.h` 59-129). -/
inductive Move where
  | null
  | attack (cards : List Card)
  | defend (cards : List (Card × Card)) (giveUp : Bool)
  | throwIn (cards : List Card)
deriving DecidableEq

/-- The member `_null` of a move. -/
def Move.isNull : Move → Bool
  | Move.null => true
  | _ => false

/-- One `insert` into a `std::set` kept as the increasing list of its keys. -/
def setInsert {α : Type} (lt : α → α → Bool) (x : α) : List α → List α
  | [] => [x]
  | y :: ys => if lt x y then x :: y :: ys else if lt y x then y :: setInsert lt x ys else y :: ys

/-- The constructor `std::set<Card>(first, last)`: cards are ordered and compared by `n`, and
the set is the increasing list of the numbers of its cards. -/
def cardSet (cards : List Card) : List Int :=
  (cards.map (fun c => c.n)).foldl (fun set x => setInsert (fun a b => decide (a < b)) x set) []

/-- The constructor `std::set<std::pair<Card, Card>>(first, last)`, with the order of
`std::pair`. -/
def pairSet (cards : List (Card × Card)) : List (Int × Int) :=
  (cards.map (fun p => (p.1.n, p.2.n))).foldl
    (fun set x => setInsert (fun a b => decide (a.1 < b.1) || (!decide (b.1 < a.1) &&
      decide (a.2 < b.2))) x set) []

/-- The function `operator==(const Move&, const Move&)` (`Durak.h` 943-990). -/
def Move.eq (move other : Move) : Bool :=
  match move with
  | Move.attack c1 =>
    match other with
    | Move.attack c2 => cardSet c1 == cardSet c2
    | _ => false
  | Move.defend c1 _ =>
    match other with
    | Move.defend c2 _ => pairSet c1 == pairSet c2
    | _ => false
  | Move.throwIn c1 =>
    match other with
    | Move.throwIn c2 => cardSet c1 == cardSet c2
    | _ => false
  | Move.null => move.isNull == other.isNull

/-- The call `std::hash<Card>::operator()` (`Durak.h` 883-885) for the parameters `a` and `b`
drawn by the constructor; `size_t` has 64 bits and `unsigned int` 32. -/
def Card.hash (a b : Nat) (card : Card) : Nat :=
  (((a * (card.n % 4294967296).toNat) % 2 ^ 64) % 3313483909 + b) % 2 ^ 64 % 3313483909

/-- The value of `e1 || e2` on two `size_t`, converted to `size_t`. -/
def logicalOr (x y : Nat) : Nat := if x ≠ 0 ∨ y ≠ 0 then 1 else 0

/-- The call `std::hash<Move>::operator()` (`Durak.h` 890-939), for the parameters `a`, `b` of
the `std::hash<Card>` it constructs. -/
def Move.hash (a b : Nat) : Move → Nat
  | Move.attack cards => cards.foldl (fun value c => value ^^^ Card.hash a b c) 0
  | Move.defend cards giveUp =>
    let value := cards.foldl (fun value p => (value ^^^ Card.hash a b p.1) ^^^ Card.hash a b p.2) 0
    let value := logicalOr ((value <<< 8) % 2 ^ 64) (value >>> 24)
    if giveUp then value ^^^ 0b100000001 else value
  | Move.throwIn cards =>
    let value := cards.foldl (fun value c => value ^^^ Card.hash a b c) 0
    logicalOr ((value <<< 16) % 2 ^ 64) (value >>> 16)
  | Move.null => 0

/-- The array `DurakState::ranks` (`Durak.h` 200). -/
def ranks : List (List Char) :=
  ["6".toList, "7".toList, "8".toList, "9".toList, "10".toList, "J".toList, "Q".toList,
    "K".toList, "A".toList]

/-- The array `DurakState::suits` (`Durak.h` 202). -/
def suits : List (List Char) := ["S".toList, "C".toList, "H".toList, "D".toList]

/-- An element of an array of strings; an index outside the array is undefined behaviour. -/
def arrayGet (arr : List (List Char)) (i : Int) : Option (List Char) :=
  if i < 0 then none else arr[i.toNat]?

/-- The conversion `Card::operator std::string()` (`Durak.h` 37-39). -/
def Card.toString (c : Card) : Option (List Char) :=
  match arrayGet ranks c.rank, arrayGet suits c.suit with
  | some r, some s => some (r ++ s)
  | _, _ => none

/-- The loops `for (i = 0; i < size; ++i) if (arr[i] == x) { k = i; break; }` of the
constructor of `Card`, started with `k = -1`. -/
def indexIn (arr : List (List Char)) (x : List Char) : Int :=
  match arr.indexOf? x with
  | some i => (i : Int)
  | none => -1

/-- The constructor `Card::Card(const std::string& s, bool hidden)` (`Durak.h` 204-229).  On the
empty string `s.back()` is undefined.  The second test repeats `suit == -1`. -/
def Card.ofString (s : List Char) (hidden : Bool) : Returned Card :=
  match s.getLast? with
  | none => Returned.undefined
  | some last =>
    let r := s.dropLast
    let suit := indexIn suits [last]
    if suit = -1 then Returned.throws
    else
      let rank := indexIn ranks r
      if suit = -1 then Returned.throws
      else Returned.value { n := rank * 4 + suit, hidden := hidden }

/-- The text of a list of cards as `AttackMove` writes it (`Durak.h` 79-86): joined by
`", "`; `front()` of an empty list is undefined. -/
def cardsText : List Card → Option (List Char)
  | [] => none
  | c :: cs =>
    cs.foldl (fun acc d =>
      match acc, d.toString with
      | some s, some t => some (s ++ ", ".toList ++ t)
      | _, _ => none) c.toString

/-- The character `s += card` appends in `ThrowInMove`: the card converts to its `int`, and
that to `char`. -/
def Card.toChar (c : Card) : Char := Char.ofNat (c.n % 256).toNat

/-- The text of the pairs after the first as `DefendMove` writes it (`Durak.h` 101-104). -/
def pairsText (cards : List (Card × Card)) : Option (List Char) :=
  cards.foldl (fun acc p =>
    match acc, p.1.toString, p.2.toString with
    | some s, some t, some u => some (s ++ "\n- beat ".toList ++ t ++ " with ".toList ++ u)
    | _, _, _ => none) (some [])

/-- The conversions `operator std::string()` of the four classes (`Durak.h` 67, 79-88, 97-108,
118-128); `none` where the behaviour is undefined. -/
def Move.toString : Move → Option (List Char)
  | Move.null => some "Null move".toList
  | Move.attack cards =>
    match cardsText cards with
    | some t => some ("Attack move: ".toList ++ t)
    | none => none
  | Move.defend cards giveUp =>
    if giveUp then some "Giving up defend move".toList
    else
      match cards with
      | [] => none
      | p :: rest =>
        match p.1.toString, p.2.toString, pairsText rest with
        | some t, some u, some v =>
          some ("Defend move:\n".toList ++ "- beat ".toList ++ t ++ " with ".toList ++ u ++ v)
        | _, _, _ => none
  | Move.throwIn cards =>
    match cards with
    | [] => none
    | c :: rest =>
      some (rest.foldl (fun s d => s ++ ", ".toList ++ [d.toChar])
        ("Throw-in move: ".toList ++ [c.toChar]))

/-- The loop of `stringToMove` that cuts `s` at the spaces and constructs a card from each
piece (`Durak.h` 806-811): the characters still to read, the piece read so far, the cards
so far. -/
def parseCards : List Char → List Char → List Card → Returned (List Card)
  | [], piece, cards =>
    match Card.ofString piece true with
    | Returned.value c => Returned.value (cards ++ [c])
    | Returned.throws => Returned.throws
    | Returned.undefined => Returned.undefined
  | ch :: rest, piece, cards =>
    if ch = ' ' then
      match Card.ofString piece true with
      | Returned.value c => parseCards rest [] (cards ++ [c])
      | Returned.throws => Returned.throws
      | Returned.undefined => Returned.undefined
    else parseCards rest (piece ++ [ch]) cards

/-- The loop `for (i = 0; i < _cards.size(); i += 2)` of `stringToMove` on an even number of
cards. -/
def pairUp : List Card → List (Card × Card)
  | c1 :: c2 :: rest => (c1, c2) :: pairUp rest
  | _ => []

/-- The static method `DurakState::stringToMove(_s)` (`Durak.h` 797-856).  On the empty string
`front()` is undefined; on a string of one character `substr(2, ...)` throws; otherwise `s` is
the string from the third character on. -/
def stringToMove (str : List Char) : Returned Move :=
  match str with
  | [] => Returned.undefined
  | [_] => Returned.throws
  | first :: _ :: s =>
    if first = 'A' then
      match parseCards s [] [] with
      | Returned.value cards => Returned.value (Move.attack cards)
      | Returned.throws => Returned.throws
      | Returned.undefined => Returned.undefined
    else if first = 'D' then
      if s.take 6 = "GIVEUP".toList then Returned.value (Move.defend [] true)
      else
        match parseCards s [] [] with
        | Returned.value cards =>
          if cards.length % 2 ≠ 0 then Returned.throws
          else Returned.value (Move.defend (pairUp cards) false)
        | Returned.throws => Returned.throws
        | Returned.undefined => Returned.undefined
    else if first = 'T' then
      match parseCards s [] [] with
      | Returned.value cards => Returned.value (Move.throwIn cards)
      | Returned.throws => Returned.throws
      | Returned.undefined => Returned.undefined
    else Returned.throws

end DurakState

/-! ## Calls that can throw

A mutating method either returns, or throws and leaves the object in some state, or has
undefined behaviour. -/

/-- How a call of a mutating method ends, with the state of the object it leaves. -/
inductive CallResult (σ : Type) where
  | ok (s : σ)
  | throws (s : σ)
  | undefined

/-! ## The game `ttt::State` (`tictactoe.h`, `tictactoe.cpp`)

The three masks are `unsigned int`; every value the methods compute on 9-bit masks stays
below `2^32`, and the masks are natural numbers.  A `Move` is its `int`. -/

/-- The data members of `ttt::State` (`tictactoe.h` 13-17, 48); `numberOfPlayers` is the
constant 2. -/
structure ttt.State where
  player : Nat
  opponent : Nat
  occupied : Nat
  terminal : Bool
  score : Int
  playerToMove : Int

namespace ttt.State

/-- The default constructor `State()`: the member initializers. -/
def init : ttt.State :=
  { player := 0, opponent := 0, occupied := 0, terminal := false, score := 0, playerToMove := 1 }

/-- The static method `checkWin(state)` (`tictactoe.cpp` 58-65). -/
def checkWin (state : Nat) : Bool :=
  [0b111000000, 0b000111000, 0b000000111, 0b100100100, 0b010010010, 0b001001001,
    0b100010001, 0b001010100].any (fun mask => (mask &&& state) == mask)

/-- The method `checkTerminal()` (`tictactoe.cpp` 39-56). -/
def checkTerminal (s : ttt.State) : ttt.State :=
  if checkWin s.player then { s with terminal := true, score := 1 }
  else if checkWin s.opponent then { s with terminal := true, score := -1 }
  else if s.occupied = 0b111111111 then { s with terminal := true, score := 0 }
  else { s with terminal := false, score := 0 }

/-- The method `checkMove(move)` (`tictactoe.cpp` 129-131): `!(move > 8 || (occupied & (1u << move)))`.
For a negative `move` the shift count is negative, which is undefined: `none`. -/
def checkMove (s : ttt.State) (move : Int) : Option Bool :=
  if move > 8 then some false
  else if move < 0 then none
  else some ((s.occupied &&& (1 <<< move.toNat)) == 0)

/-- The method `makeMove(move)` (`tictactoe.cpp` 16-29). -/
def makeMove (s : ttt.State) (move : Int) : CallResult ttt.State :=
  match s.checkMove move with
  | none => CallResult.undefined
  | some false => CallResult.throws s
  | some true =>
    let s1 := { s with occupied := s.occupied ||| (1 <<< move.toNat),
                       player := s.player ||| (1 <<< move.toNat) }
    let s2 := s1.checkTerminal
    CallResult.ok { s2 with player := s2.opponent, opponent := s2.player, score := -s2.score,
                            playerToMove := Int.tmod s2.playerToMove 2 + 1 }

/-- The method `isTerminal()` (`tictactoe.cpp` 31-33). -/
def isTerminal (s : ttt.State) : Bool := s.terminal

/-- The method `getMoves()` (`tictactoe.cpp` 84-97). -/
def getMoves (s : ttt.State) : List Int :=
  if s.terminal then []
  else ((List.range 9).filter (fun move => (s.occupied &&& (1 <<< move)) == 0)).map Int.ofNat

/-- The method `getScore(int p)` (`tictactoe.cpp` 142-158); the literals `0.1` and `0.5` are
read as the fractions. -/
def getScore {K : Type} [LinearOrderedField K] (s : ttt.State) (p : Int) : K :=
  if s.playerToMove = p then
    if s.score = 1 then 1 else if s.score = -1 then 0 else 1 / 10
  else
    if s.score = 1 then 0 else if s.score = -1 then 1 else 1 / 2

/-- The marks of player `p`: `player` holds the marks of the player to move, `opponent`
those of the other player. -/
def marks (s : ttt.State) (p : Int) : Nat :=
  if s.playerToMove = p then s.player else s.opponent

/-- The states reached from the empty board by moves out of `getMoves()`. -/
inductive Reached : ttt.State → Prop
  | init : Reached ttt.State.init
  | move (s s' : ttt.State) (m : Int) (hs : Reached s) (hm : m ∈ s.getMoves)
      (hmk : s.makeMove m = CallResult.ok s') : Reached s'

/-- The state after the moves of a list, made one after the other; `none` when one of the
calls does not return. -/
def play : ttt.State → List Int → Option ttt.State
  | s, [] => some s
  | s, m :: ms =>
    match s.makeMove m with
    | CallResult.ok s' => play s' ms
    | _ => none

/-- Whether each move of the list is among `getMoves()` of the state it is made in and its
`makeMove` returns. -/
def legalPlay : ttt.State → List Int → Bool
  | _, [] => true
  | s, m :: ms =>
    decide (m ∈ s.getMoves) &&
      (match s.makeMove m with
       | CallResult.ok s' => legalPlay s' ms
       | _ => false)

end ttt.State

/-! ## `DurakState::makeMove` and `DurakState::getMoves`

The checks under `MOVES_CHECKING` are compiled in (`Durak.h` 11).  A call that throws
leaves the members as they are at the `throw`; `CallResult.throws` carries that state. -/

namespace DurakState

variable {G : Type}

/-- The method `nextTurn()` (`Durak.h` 490-492). -/
def nextTurn (s : DurakState G) : DurakState G :=
  { s with playerToMove := Int.tmod s.playerToMove 2 + 1 }

/-- The conversion of an `int` to `size_t`. -/
def toSizeT (i : Int) : Nat := (i % 2 ^ 64).toNat

/-- The call `hands.at(i)` for an `int` expression `i`: `none` when it throws
`std::out_of_range`. -/
def handAt (hands : List (List Card)) (i : Int) : Option (List Card) := hands[toSizeT i]?

/-- The call `std::find(first, last, card)` on cards, which compares the numbers: the
position found, `none` for `last`. -/
def findCard (l : List Card) (card : Card) : Option Nat := l.findIdx? (fun x => x.n == card.n)

/-- The loop over the cards of an `AttackMove` (`Durak.h` 291-303) on `attack` and `hand`. -/
def attackLoop : List Card → List Card → List Card → CallResult (List Card × List Card)
  | [], attack, hand => CallResult.ok (attack, hand)
  | card :: cards, attack, hand =>
    match findCard hand card with
    | none => CallResult.throws (attack ++ [card], hand)
    | some i => attackLoop cards (attack ++ [card.reveal]) (hand.eraseIdx i)

/-- The loop over the pairs of a `DefendMove` (`Durak.h` 400-425) on `attack`, `hand` and
`defended`; the message printed for a card that does not beat changes nothing. -/
def defendLoop : List (Card × Card) → List Card → List Card → List (Card × Card) →
    CallResult (List Card × List Card × List (Card × Card))
  | [], attack, hand, defended => CallResult.ok (attack, hand, defended)
  | p :: ps, attack, hand, defended =>
    match findCard attack p.1 with
    | none => CallResult.throws (attack, hand, defended)
    | some i =>
      match findCard hand p.2 with
      | none => CallResult.throws (attack, hand, defended)
      | some j =>
        defendLoop ps (attack.eraseIdx i) (hand.eraseIdx j)
          (defended ++ [(p.1.reveal, p.2.reveal)])

/-- The loop over the cards of a `ThrowInMove` (`Durak.h` 444-481) on `attack` and `hand`. -/
def throwInLoop (defended : List (Card × Card)) :
    List Card → List Card → List Card → CallResult (List Card × List Card)
  | [], attack, hand => CallResult.ok (attack, hand)
  | c :: cs, attack, hand =>
    let was := attack.any (fun card => card.rank == c.rank) ||
      defended.any (fun it => it.1.rank == c.rank || it.2.rank == c.rank)
    if !was then CallResult.throws (attack, hand)
    else
      match findCard hand c with
      | none => CallResult.throws (attack ++ [c.reveal], hand)
      | some i => throwInLoop defended cs (attack ++ [c.reveal]) (hand.eraseIdx i)

/-- The loop that deals cards (`Durak.h` 336-353 and 371-388) for the iterations left, on
`player`, `total` and `hands`: it returns the hands and `total`, or throws in `hands.at`. -/
def dealLoop (deck : List Card) :
    Nat → Int → Int → List (List Card) → CallResult (List (List Card) × Int)
  | 0, _, total, hands => CallResult.ok (hands, total)
  | i + 1, player, total, hands =>
    match handAt hands (player - 1) with
    | none => CallResult.throws (hands, total)
    | some pHand =>
      let toGet : Int := 6 - (pHand.length : Int)
      if toGet ≤ 0 then dealLoop deck i (Int.tmod player 2 + 1) total hands
      else if total + toGet ≥ (deck.length : Int) then
        CallResult.ok (hands.set (toSizeT (player - 1))
          (pHand ++ deck.take (deck.length - total.toNat)), (deck.length : Int))
      else
        dealLoop deck i (Int.tmod player 2 + 1) (total + toGet)
          (hands.set (toSizeT (player - 1))
            (pHand ++ (deck.drop (deck.length - total.toNat - toGet.toNat)).take toGet.toNat))

/-- The end of a round (`Durak.h` 334-361 and 369-396): the cards are dealt from the end of
the deck, beginning with the attacking player, the dealt cards leave the deck, and the
turn passes on. -/
def endRound (s : DurakState G) : CallResult (DurakState G) :=
  match dealLoop s.deck 2 s.attackingPlayer 0 s.hands with
  | CallResult.undefined => CallResult.undefined
  | CallResult.throws r => CallResult.throws { s with hands := r.1 }
  | CallResult.ok r =>
    CallResult.ok (nextTurn { s with
      hands := r.1,
      deck := s.deck.take (s.deck.length - r.2.toNat),
      defending := false,
      defendingPlayer := -1,
      attackingPlayer := -1 })

/-- The method `DurakState::makeMove(m)` (`Durak.h` 267-488). -/
def makeMove (s : DurakState G) (m : Move) : CallResult (DurakState G) :=
  match m with
  | Move.attack cards =>
    let differs : Option Bool :=
      match s.attack with
      | [] => some false
      | a :: _ =>
        match cards with
        | [] => none
        | c :: _ => some (c.rank != a.rank)
    match differs with
    | none => CallResult.undefined
    | some true => CallResult.throws s
    | some false =>
      let mixed : Bool :=
        match cards with
        | [] => false
        | c :: cs => cs.any (fun d => c.rank != d.rank)
      if mixed then CallResult.throws s
      else if cards.length + s.attack.length > toSizeT (Int.tmod s.playerToMove 2) then
        CallResult.throws s
      else
        match handAt s.hands (s.playerToMove - 1) with
        | none => CallResult.throws s
        | some hand =>
          let s1 := if s.attack.isEmpty then { s with attackingPlayer := s.playerToMove } else s
          match attackLoop cards s1.attack hand with
          | CallResult.undefined => CallResult.undefined
          | CallResult.throws r =>
            CallResult.throws { s1 with
              attack := r.1, hands := s1.hands.set (toSizeT (s.playerToMove - 1)) r.2 }
          | CallResult.ok r =>
            let s2 := nextTurn { s1 with
              attack := r.1, hands := s1.hands.set (toSizeT (s.playerToMove - 1)) r.2,
              defending := true }
            CallResult.ok { s2 with defendingPlayer := s2.playerToMove }
  | Move.defend cards giveUp =>
    if s.playerToMove ≠ s.defendingPlayer then CallResult.throws s
    else if giveUp then
      match handAt s.hands (s.defendingPlayer - 1) with
      | none => CallResult.throws s
      | some hand =>
        let hand := s.defended.foldl (fun h it => h ++ [it.1, it.2]) (hand ++ s.attack)
        endRound { s with
          hands := s.hands.set (toSizeT (s.defendingPlayer - 1)) hand,
          attack := [], defended := [] }
    else if s.attack.isEmpty then
      endRound { s with
        discard := s.defended.foldl (fun d it => d ++ [it.1, it.2]) s.discard,
        defended := [] }
    else
      match handAt s.hands (s.defendingPlayer - 1) with
      | none => CallResult.throws s
      | some hand =>
        match defendLoop cards s.attack hand s.defended with
        | CallResult.undefined => CallResult.undefined
        | CallResult.throws r =>
          CallResult.throws { s with
            attack := r.1, hands := s.hands.set (toSizeT (s.defendingPlayer - 1)) r.2.1,
            defended := r.2.2 }
        | CallResult.ok r =>
          CallResult.ok (nextTurn { s with
            attack := r.1, hands := s.hands.set (toSizeT (s.defendingPlayer - 1)) r.2.1,
            defended := r.2.2 })
  | Move.throwIn cards =>
    if s.playerToMove = s.defendingPlayer then CallResult.throws s
    else
      match handAt s.hands (s.playerToMove - 1) with
      | none => CallResult.throws s
      | some hand =>
        match throwInLoop s.defended cards s.attack hand with
        | CallResult.undefined => CallResult.undefined
        | CallResult.throws r =>
          CallResult.throws { s with
            attack := r.1, hands := s.hands.set (toSizeT (s.playerToMove - 1)) r.2 }
        | CallResult.ok r =>
          CallResult.ok (nextTurn { s with
            attack := r.1, hands := s.hands.set (toSizeT (s.playerToMove - 1)) r.2 })
  | Move.null => CallResult.ok s

/-- The loops `for (i = 1; i < (1u << cards.size()); ++i)` of `getMoves`: for each `i` the
cards at the positions of the bits set in `i`.  With 32 cards or more the shift is
undefined. -/
def subsetsOf (cards : List Card) : Option (List (List Card)) :=
  if cards.length ≥ 32 then none
  else some ((List.range (2 ^ cards.length)).tail.map (fun i =>
    (cards.enum.filter (fun jc => (i &&& (1 <<< jc.1)) != 0)).map (fun jc => jc.2)))

/-- The filling of `cardsByRanks` (`Durak.h` 688-692): `at` throws for a rank outside 0..8. -/
def byRanks (hand : List Card) : Option (List (List Card)) :=
  hand.foldlM (fun byRank card =>
    if toSizeT card.rank < 9 then some (byRank.modify (fun l => l ++ [card]) (toSizeT card.rank))
    else none) (List.replicate 9 [])

/-- The subsets of each list, one list after the other. -/
def subsetsOfAll : List (List Card) → Option (List (List Card))
  | [] => some []
  | rank :: ranks =>
    match subsetsOf rank, subsetsOfAll ranks with
    | some a, some b => some (a ++ b)
    | _, _ => none

/-- The comparison passed to `std::sort` in `getMoves` (`Durak.h` 609-623). -/
def sortLess (trump : Int) (c1 c2 : Card) : Bool :=
  if c1.suit = trump then
    if c2.suit = trump then decide (c1.rank < c2.rank) else false
  else
    if c2.suit = trump then true
    else if c1.rank = c2.rank then decide (c1.suit < c2.suit)
    else decide (c1.rank < c2.rank)

/-- One insertion into a sorted list, behind the cards that are not greater. -/
def insertSorted (less : Card → Card → Bool) (x : Card) : List Card → List Card
  | [] => [x]
  | y :: ys => if less x y then x :: y :: ys else y :: insertSorted less x ys

/-- The call `std::sort(first, last, less)`, read as the sort by insertion; two cards the
comparison of `getMoves` does not order have the same number. -/
def sortCards (less : Card → Card → Bool) (l : List Card) : List Card :=
  l.foldl (fun sorted x => insertSorted less x sorted) []

/-- The search for the cards to beat with (`Durak.h` 625-636): the sorted hand still to go
through, `beaten`, and the pairs of the move. -/
def defendGreedy (trump : Int) (attack : List Card) :
    List Card → List Bool → List (Card × Card) → List Bool × List (Card × Card)
  | [], beaten, cards => (beaten, cards)
  | card :: hand, beaten, cards =>
    match (attack.zip beaten).findIdx? (fun ab => !ab.2 && card.beat ab.1 trump) with
    | none => defendGreedy trump attack hand beaten cards
    | some i =>
      match attack[i]? with
      | none => defendGreedy trump attack hand beaten cards
      | some a => defendGreedy trump attack hand (beaten.set i true) (cards ++ [(a, card)])

/-- The entries `allowedRanks[rank]` that `getMoves` sets (`Durak.h` 642-649), as the list of
the ranks; `none` when a rank is outside 0..8, where `operator[]` is undefined. -/
def allowedRanks (attack : List Card) (defended : List (Card × Card)) : Option (List Int) :=
  let ranks := (defended.foldl (fun l it => l ++ [it.1.rank, it.2.rank]) []) ++
    attack.map (fun c => c.rank)
  if ranks.all (fun r => decide (0 ≤ r) && decide (r < 9)) then some ranks else none

/-- The method `DurakState::getMoves()` (`Durak.h` 556-714): the moves, and the state as the
call leaves it (it sorts the hand of a defender); `none` when the call throws or its
behaviour is undefined.  For an empty `attack` the range `attack.begin() + 1 .. attack.end()`
of `std::all_of` is read as empty, and `attack.front()` in the loop over the hand is
undefined unless the hand is empty. -/
def getMoves (s : DurakState G) : Option (List Move × DurakState G) :=
  if s.isTerminal then some ([], s)
  else
    match handAt s.hands (s.playerToMove - 1) with
    | none => none
    | some hand =>
      if s.defending then
        if s.playerToMove = s.defendingPlayer then
          let sameRank : Bool :=
            match s.attack with
            | [] => true
            | a :: rest => rest.all (fun c => a.rank == c.rank)
          let remit : Option (List Move) :=
            if sameRank && s.defended.isEmpty then
              match s.attack with
              | [] =>
                if hand.isEmpty then (handAt s.hands (Int.tmod s.playerToMove 2)).map (fun _ => [])
                else none
              | a :: _ =>
                let remitCards := hand.filter (fun card => card.rank == a.rank)
                match handAt s.hands (Int.tmod s.playerToMove 2), subsetsOf remitCards with
                | some other, some subsets =>
                  some ((subsets.filter (fun cards => cards.length ≤ other.length)).map
                    (fun cards => Move.throwIn cards))
                | _, _ => none
            else some []
          match remit with
          | none => none
          | some remitMoves =>
            let sorted := sortCards (sortLess s.trump) hand
            let r := defendGreedy s.trump s.attack sorted (List.replicate s.attack.length false) []
            let moves := remitMoves ++ [Move.defend [] true] ++
              (if r.1.all (fun b => b) then [Move.defend r.2 false] else [])
            some (moves, { s with hands := s.hands.set (toSizeT (s.playerToMove - 1)) sorted })
        else
          match allowedRanks s.attack s.defended with
          | none => none
          | some allowed =>
            if hand.all (fun card => decide (0 ≤ card.rank) && decide (card.rank < 9)) then
              match subsetsOfAll ((List.range 9).map (fun r =>
                  hand.filter (fun card => allowed.contains card.rank && card.rank == (r : Int))))
                with
              | none => none
              | some subsets =>
                some (subsets.map (fun cards => Move.throwIn cards) ++ [Move.throwIn []], s)
            else none
      else
        match byRanks hand with
        | none => none
        | some cardsByRanks =>
          match subsetsOfAll cardsByRanks with
          | none => none
          | some subsets => some (subsets.map (fun cards => Move.attack cards), s)

/-- The state after the moves of a list, each taken from `getMoves()` of the state it is
made in and applied with `makeMove`; `none` when a move is not in the list or a call does
not return. -/
def playLegal : DurakState G → List Move → Option (DurakState G)
  | s, [] => some s
  | s, m :: ms =>
    match s.getMoves with
    | none => none
    | some (moves, s1) =>
      if m ∈ moves then
        match s1.makeMove m with
        | CallResult.ok s2 => playLegal s2 ms
        | _ => none
      else none

end DurakState

/-! ## `DurakState` as the `State` of the engine

`MCTS<DurakState>` is the instance `main.cpp` builds.  The engine catches no exception, so
a call of a method of `DurakState` that throws, or whose behaviour is undefined, ends the
call of the engine that made it. -/

/-- A `DurakState` object in the hands of the engine: its members, and whether a call of
one of its methods has not returned.  After such a call the engine uses the object no
more. -/
structure DurakObject (G : Type) where
  state : DurakState G
  thrown : Bool

/-- The operations of `DurakState` as the engine calls them.

* `sh` stands for `std::mt19937(seed)` and `std::shuffle`, `draw` for the call `rd()` of
  `randomMove`, and `a`, `b` are the parameters of `std::hash<Card>`.  The hash of a move
  without cards does not depend on `a` and `b`.
* `randomizeHiddenState` includes the copy that `MCTS::determinize` makes before the
  call: the copy constructor seeds the generator with 5 (`MCTS.determinizeDurak`).  The
  object returned is the object randomized (`return newState` without a further copy);
  where no `std::shuffle` is called, as in the sample states below, a further copy would
  leave the same generator, seeded with 5.
* A call that does not return sets `thrown`; on an object with `thrown` set no move is
  listed, no move is accepted and the state is not terminal, so that `select` and `rollout`
  do not return either.
* `getMoves()` allocates its moves anew at every call; the `k`-th move of the list is given
  the address `k + 1` and `Move::null()` the address 0.  The engine compares addresses in
  `MCTS::makeMove` only. -/
def durakOps {G : Type} (K : Type) [LinearOrderedField K] (sh : Shuffler G)
    (draw : G → Nat × G) (a b : Nat) : StateOps (DurakObject G) DurakState.Move K where
  getMoves o :=
    if o.thrown then ([], o)
    else
      match o.state.getMoves with
      | none => ([], { o with thrown := true })
      | some (moves, s1) => (moves.enum.map (fun im => ⟨im.1 + 1, im.2⟩), { o with state := s1 })
  makeMove o m :=
    if o.thrown then none
    else
      match o.state.makeMove m.val with
      | CallResult.ok s1 => some { o with state := s1 }
      | _ => none
  isTerminal o := !o.thrown && o.state.isTerminal
  getResult o p := o.state.getResult p
  playerToMove o := o.state.playerToMove
  randomizeHiddenState o rnd :=
    if o.thrown then (o, rnd)
    else
      match (MCTS.determinizeDurak sh o.state).2 with
      | none => ({ o with thrown := true }, rnd)
      | some s1 => ({ o with state := s1 }, rnd)
  randomMove o rnd :=
    if o.thrown || o.state.isTerminal then (⟨0, DurakState.Move.null⟩, o, rnd)
    else
      match o.state.getMoves with
      | none => (⟨0, DurakState.Move.null⟩, { o with thrown := true }, rnd)
      | some (moves, s1) =>
        let r := draw s1.rd
        match moves[r.1 % moves.length]? with
        | none => (⟨0, DurakState.Move.null⟩, { o with thrown := true }, rnd)
        | some m => (⟨r.1 % moves.length + 1, m⟩, { o with state := { s1 with rd := r.2 } }, rnd)
  null := ⟨0, DurakState.Move.null⟩
  moveEq := DurakState.Move.eq
  moveHash := DurakState.Move.hash a b
  moveString := DurakState.Move.toString

/-! ## Predicates and relations used in the statements -/

section Predicates

variable {S Move K : Type} [LinearOrderedField K]

/-- The test `moves.find(n->move) != moves.end()` of `UCBSelectChild`. -/
def MCTS.Node.isLegalChild (ops : StateOps S Move K) (legalMoves : List (MovePtr Move))
    (c : MCTS.Node Move K) : Bool :=
  USet.find ops (USet.ofRange ops legalMoves) c.move

/-- A child is eligible for `legalMoves` when its move is equal, by value, to one of them. -/
def MCTS.Node.eligible (ops : StateOps S Move K) (legalMoves : List (MovePtr Move))
    (c : MCTS.Node Move K) : Bool :=
  legalMoves.any (fun m => SharedEqual ops c.move m)

/-- The effect of `n->avails += 1`. -/
def MCTS.Node.bump (c : MCTS.Node Move K) : MCTS.Node Move K :=
  { c with avails := c.avails + 1 }

/-- The children after the loop `n->avails += 1` of `UCBSelectChild`. -/
def MCTS.Node.bumpLegal (ops : StateOps S Move K) (legalMoves : List (MovePtr Move))
    (cs : List (MCTS.Node Move K)) : List (MCTS.Node Move K) :=
  cs.map (fun c => if c.isLegalChild ops legalMoves then c.bump else c)

/-- The property `P` holds of `n` and of every node below it. -/
inductive MCTS.Node.All (P : MCTS.Node Move K → Prop) : MCTS.Node Move K → Prop
  | mk (n : MCTS.Node Move K) (h : P n) (hc : ∀ c ∈ n.children, MCTS.Node.All P c) :
      MCTS.Node.All P n

/-- The bound of C8 at one node. -/
def MCTS.Node.availsBound (n : MCTS.Node Move K) : Prop := max n.visits 1 ≤ n.avails

/-- The children of a node carry moves that are pairwise different by value. -/
def MCTS.Node.distinctMoves (ops : StateOps S Move K) (n : MCTS.Node Move K) : Prop :=
  n.children.Pairwise (fun a b => SharedEqual ops a.move b.move = false)

/-- The trees one iteration can leave below `n` when its rollout ends in `st`: the
iteration stops at `n`, or expands `n` by a child for an untried move, or descends into
an eligible child after `UCBSelectChild` has counted the eligible children as available;
backpropagation then updates every node passed. -/
inductive MCTS.IterStep (ops : StateOps S Move K) (st : S) :
    MCTS.Node Move K → MCTS.Node Move K → Prop
  | stop (n : MCTS.Node Move K) : MCTS.IterStep ops st n (n.update ops st)
  | expand (n : MCTS.Node Move K) (legalMoves : List (MovePtr Move)) (m : MovePtr Move) (p : Int)
      (hm : m ∈ n.getUntriedMoves ops legalMoves) :
      MCTS.IterStep ops st n
        (MCTS.Node.update ops
          { n with children := n.children ++ [(MCTS.Node.ctor m p).update ops st] } st)
  | descend (n : MCTS.Node Move K) (legalMoves : List (MovePtr Move)) (i : Nat)
      (c r : MCTS.Node Move K) (hc : n.children[i]? = some c)
      (hl : c.isLegalChild ops legalMoves = true)
      (hu : n.getUntriedMoves ops legalMoves = [])
      (hr : MCTS.IterStep ops st c.bump r) :
      MCTS.IterStep ops st n
        (MCTS.Node.update ops
          { n with children := (MCTS.Node.bumpLegal ops legalMoves n.children).set i r } st)

/-- The engines obtained from the freshly constructed one by completed calls of
`iterate`, `loop`, `getMove` and `makeMove`. -/
inductive MCTS.Reachable (ops : StateOps S Move K) (cm : CMath K) (exploration : K) (state : S) :
    MCTS S Move K → Prop
  | ctor : MCTS.Reachable ops cm exploration state (MCTS.ctor ops exploration state)
  | iterate (e e' : MCTS S Move K) (fuel : Nat) (rnd rnd' : RandStream) (st : S)
      (he : MCTS.Reachable ops cm exploration state e)
      (h : MCTS.iterate ops cm fuel e rnd = some (e', st, rnd')) :
      MCTS.Reachable ops cm exploration state e'
  | loop (e e' : MCTS S Move K) (fuel iters : Nat) (rnd rnd' : RandStream)
      (he : MCTS.Reachable ops cm exploration state e)
      (h : MCTS.loop ops cm fuel e iters rnd = some (e', rnd')) :
      MCTS.Reachable ops cm exploration state e'
  | getMove (e e' : MCTS S Move K) (fuel iters : Nat) (rnd rnd' : RandStream) (m : MovePtr Move)
      (he : MCTS.Reachable ops cm exploration state e)
      (h : MCTS.getMove ops cm fuel e iters rnd = some (m, e', rnd')) :
      MCTS.Reachable ops cm exploration state e'
  | makeMove (e e' : MCTS S Move K) (m : MovePtr Move)
      (he : MCTS.Reachable ops cm exploration state e)
      (h : MCTS.makeMove ops e m = some e') :
      MCTS.Reachable ops cm exploration state e'

/-- The node a `NodePtr` points to: the node reached from `n` along the child indices of
the path; `none` when the path leaves the tree. -/
def MCTS.Node.nodeAt : List Nat → MCTS.Node Move K → Option (MCTS.Node Move K)
  | [], n => some n
  | i :: q, n =>
    match n.children[i]? with
    | none => none
    | some c => MCTS.Node.nodeAt q c

/-- One iteration in full.  `IterRun ops st s n path sOut r`: `select` is entered at
node `n` with the sampled state `s`, returns the node at `path` below `n` and leaves the
state `sOut`; after the rollout has ended in `st` and backpropagation has run, the tree
below `n` is `r`.  Each case records the tests `select` made on the way. -/
inductive MCTS.IterRun (ops : StateOps S Move K) (st : S) :
    S → MCTS.Node Move K → List Nat → S → MCTS.Node Move K → Prop
  | stop (s : S) (n : MCTS.Node Move K)
      (ht : ops.isTerminal (ops.getMoves s).2 = true) :
      MCTS.IterRun ops st s n [] (ops.getMoves s).2 (n.update ops st)
  | expand (s : S) (n : MCTS.Node Move K) (m : MovePtr Move) (s2 : S)
      (ht : ops.isTerminal (ops.getMoves s).2 = false)
      (hm : m ∈ n.getUntriedMoves ops (ops.getMoves s).1)
      (hmk : ops.makeMove (ops.getMoves s).2 m = some s2) :
      MCTS.IterRun ops st s n [n.children.length] s2
        (MCTS.Node.update ops
          { n with children := n.children ++
              [(MCTS.Node.ctor m (ops.playerToMove (ops.getMoves s).2)).update ops st] } st)
  | descend (s : S) (n : MCTS.Node Move K) (i : Nat) (c : MCTS.Node Move K) (s2 : S)
      (path : List Nat) (sOut : S) (r : MCTS.Node Move K)
      (ht : ops.isTerminal (ops.getMoves s).2 = false)
      (hu : n.getUntriedMoves ops (ops.getMoves s).1 = [])
      (hc : n.children[i]? = some c)
      (hl : c.isLegalChild ops (ops.getMoves s).1 = true)
      (hmk : ops.makeMove (ops.getMoves s).2 c.move = some s2)
      (hr : MCTS.IterRun ops st s2 c.bump path sOut r) :
      MCTS.IterRun ops st s n (i :: path) sOut
        (MCTS.Node.update ops
          { n with children :=
              (MCTS.Node.bumpLegal ops (ops.getMoves s).1 n.children).set i r } st)

/-- The node `c'` is `c` but for a possibly greater `avails`: what the loop
`n->avails += 1` may do to a node. -/
def MCTS.Node.SameButAvails (c c' : MCTS.Node Move K) : Prop :=
  c'.move = c.move ∧ c'.just_moved = c.just_moved ∧ c'.children = c.children ∧
    c'.wins = c.wins ∧ c'.visits = c.visits ∧ c.avails ≤ c'.avails

/-- How one iteration whose rollout ends in `st` changes a node `n0` of the tree into
`n1`: move and mover stay, `avails` does not decrease, and `visits` and `wins` change as
by one `update(st)` when the node is on the path walked by backpropagation, and not at
all otherwise. -/
def MCTS.Node.StepsTo (ops : StateOps S Move K) (st : S) (onPath : Bool)
    (n0 n1 : MCTS.Node Move K) : Prop :=
  n1.move = n0.move ∧ n1.just_moved = n0.just_moved ∧ n0.avails ≤ n1.avails ∧
    n1.visits = (if onPath then n0.visits + 1 else n0.visits) ∧
    n1.wins = (if onPath then (n0.update ops st).wins else n0.wins)

/-- The movers recorded below a node follow the turn order `nxt`: the node was created
for a move of player `p`, and each of its children for a move of player `nxt p`, and so
on downwards; and each of these moves is one of the moves `listed`. -/
inductive MCTS.Node.Turns (listed : MovePtr Move → Prop) (nxt : Int → Int) :
    Int → MCTS.Node Move K → Prop
  | mk (p : Int) (n : MCTS.Node Move K) (hj : n.just_moved = p) (hm : listed n.move)
      (hc : ∀ c ∈ n.children, MCTS.Node.Turns listed nxt (nxt p) c) :
      MCTS.Node.Turns listed nxt p n

/-- The engines obtained from the freshly constructed one by completed calls of
`iterate`, `loop` and `getMove`, and of `makeMove` with moves of which `listed` holds. -/
inductive MCTS.ReachableBy (ops : StateOps S Move K) (cm : CMath K) (exploration : K) (state : S)
    (listed : MovePtr Move → Prop) : MCTS S Move K → Prop
  | ctor : MCTS.ReachableBy ops cm exploration state listed (MCTS.ctor ops exploration state)
  | iterate (e e' : MCTS S Move K) (fuel : Nat) (rnd rnd' : RandStream) (st : S)
      (he : MCTS.ReachableBy ops cm exploration state listed e)
      (h : MCTS.iterate ops cm fuel e rnd = some (e', st, rnd')) :
      MCTS.ReachableBy ops cm exploration state listed e'
  | loop (e e' : MCTS S Move K) (fuel iters : Nat) (rnd rnd' : RandStream)
      (he : MCTS.ReachableBy ops cm exploration state listed e)
      (h : MCTS.loop ops cm fuel e iters rnd = some (e', rnd')) :
      MCTS.ReachableBy ops cm exploration state listed e'
  | getMove (e e' : MCTS S Move K) (fuel iters : Nat) (rnd rnd' : RandStream) (m : MovePtr Move)
      (he : MCTS.ReachableBy ops cm exploration state listed e)
      (h : MCTS.getMove ops cm fuel e iters rnd = some (m, e', rnd')) :
      MCTS.ReachableBy ops cm exploration state listed e'
  | makeMove (e e' : MCTS S Move K) (m : MovePtr Move)
      (he : MCTS.ReachableBy ops cm exploration state listed e)
      (hm : listed m)
      (h : MCTS.makeMove ops e m = some e') :
      MCTS.ReachableBy ops cm exploration state listed e'

end Predicates

/-! ## Sample inputs -/

/-- A leaf with the given move, mover and statistics. -/
def sampleLeaf {K : Type} (m : MovePtr Int) (p : Int) (wins : K) (visits avails : Nat) :
    MCTS.Node Int K :=
  { move := m, just_moved := p, children := [], wins := wins, visits := visits, avails := avails }

/-- A root whose two children are the given leaves. -/
def sampleRoot {K : Type} [LinearOrderedField K] (a b : MCTS.Node Int K) : MCTS.Node Int K :=
  { move := ⟨0, -1⟩, just_moved := -1, children := [a, b], wins := 0, visits := a.visits + b.visits,
    avails := 1 }

/-- A root after five iterations in which both moves were always legal: the children
are A = (wins 0, visits 1, avails 4) for the move taking one token and
B = (wins 1, visits 4, avails 4) for the move taking two, both made by player `p`. -/
def sampleTree (K : Type) [LinearOrderedField K] (p : Int) : MCTS.Node Int K :=
  sampleRoot (sampleLeaf ⟨1, 1⟩ p 0 1 4) (sampleLeaf ⟨2, 2⟩ p 1 4 4)

/-- The two moves of the token game on a pile of at least two tokens. -/
def sampleLegal : List (MovePtr Int) := [⟨1, 1⟩, ⟨2, 2⟩]

/-- A generator whose shuffle reverses the range. -/
def revShuffler : Shuffler Nat where
  seed n := n
  shuffle l g := (l.reverse, g + 1)

/-- A `DurakState` with three cards in the deck, the first face up, and two hands of two
cards. -/
def sampleDurak : DurakState Nat :=
  { deck := [⟨0, false⟩, ⟨1, true⟩, ⟨2, true⟩],
    hands := [[⟨3, true⟩, ⟨4, true⟩], [⟨5, true⟩, ⟨6, false⟩]],
    attack := [], defended := [], discard := [], trump := 0, defending := false,
    defendingPlayer := -1, attackingPlayer := -1, rd := 0, playerToMove := 1 }

/-- The child of the root for move `j` in the game of one move, after its one visit. -/
def oneShotChild (K : Type) [LinearOrderedField K] (j : Nat) : MCTS.Node Nat K :=
  (MCTS.Node.ctor ⟨j, j⟩ 1).update (oneShotOps K) (some j)

/-- The tree in the game of one move after `k` iterations that each took the first untried
move: the root with the children for the moves `0` to `k - 1`. -/
def oneShotTree (K : Type) [LinearOrderedField K] (k : Nat) : MCTS.Node Nat K :=
  { move := (oneShotOps K).null, just_moved := -1,
    children := (List.range k).map (oneShotChild K), wins := 0, visits := k, avails := 1 }

/-- A `DurakState` at the start of a round, the deck used up: player 1 is to attack and
holds the six of spades, the six of clubs and the nine of hearts; player 2 holds the
seven of spades and the ten of diamonds; hearts are trumps. -/
def sampleAttack : DurakState Nat :=
  { deck := [], hands := [[⟨0, false⟩, ⟨1, false⟩, ⟨14, false⟩], [⟨4, false⟩, ⟨19, false⟩]],
    attack := [], defended := [], discard := [], trump := 2, defending := false,
    defendingPlayer := -1, attackingPlayer := -1, rd := 0, playerToMove := 1 }

/-- The state `sampleAttack` with the six of clubs in the hand of player 2. -/
def sampleRemit : DurakState Nat :=
  { sampleAttack with hands := [[⟨0, false⟩, ⟨14, false⟩], [⟨1, false⟩, ⟨4, false⟩]] }

/-- The state `sampleAttack` after player 1 attacked with the six of spades, player 2 beat
it with the seven of spades and player 1 threw in nothing. -/
def sampleDefended : DurakState Nat :=
  { deck := [], hands := [[⟨1, false⟩, ⟨14, false⟩], [⟨19, false⟩]],
    attack := [], defended := [(⟨0, false⟩, ⟨4, false⟩)], discard := [], trump := 2,
    defending := true, defendingPlayer := 2, attackingPlayer := 1, rd := 0, playerToMove := 2 }

/-! ## Further predicates: calls of `UCBSelectChild`, engines that only searched, size and states along a path -/

section EnginePredicates
variable {S Move K : Type} [LinearOrderedField K]

/-- The calls of `UCBSelectChild` that one call of `select` makes.
`SelectCalls ops cm exploration s n x legalMoves`: the call `select(n, s)` reaches a call
`x->UCBSelectChild(legalMoves, exploration)`, at the node it was entered with or, after
the child chosen there and its move have replaced `node` and `state`, further down. -/
inductive MCTS.SelectCalls (ops : StateOps S Move K) (cm : CMath K) (exploration : K) :
    S → MCTS.Node Move K → MCTS.Node Move K → List (MovePtr Move) → Prop
  | here (s : S) (n : MCTS.Node Move K)
      (ht : ops.isTerminal (ops.getMoves s).2 = false)
      (hu : n.getUntriedMoves ops (ops.getMoves s).1 = []) :
      MCTS.SelectCalls ops cm exploration s n n (ops.getMoves s).1
  | deeper (s : S) (n n1 : MCTS.Node Move K) (i : Nat) (child : MCTS.Node Move K) (s2 : S)
      (x : MCTS.Node Move K) (legalMoves : List (MovePtr Move))
      (ht : ops.isTerminal (ops.getMoves s).2 = false)
      (hu : n.getUntriedMoves ops (ops.getMoves s).1 = [])
      (hsel : n.UCBSelectChild ops cm (ops.getMoves s).1 exploration = (n1, some i))
      (hc : n1.children[i]? = some child)
      (hmk : ops.makeMove (ops.getMoves s).2 child.move = some s2)
      (h : MCTS.SelectCalls ops cm exploration s2 child x legalMoves) :
      MCTS.SelectCalls ops cm exploration s n x legalMoves

/-- The engines obtained from the freshly constructed one by completed calls of
`iterate`, `loop` and `getMove` only: the root is still the node the constructor made. -/
inductive MCTS.Searched (ops : StateOps S Move K) (cm : CMath K) (exploration : K) (state : S) :
    MCTS S Move K → Prop
  | ctor : MCTS.Searched ops cm exploration state (MCTS.ctor ops exploration state)
  | iterate (e e' : MCTS S Move K) (fuel : Nat) (rnd rnd' : RandStream) (st : S)
      (he : MCTS.Searched ops cm exploration state e)
      (h : MCTS.iterate ops cm fuel e rnd = some (e', st, rnd')) :
      MCTS.Searched ops cm exploration state e'
  | loop (e e' : MCTS S Move K) (fuel iters : Nat) (rnd rnd' : RandStream)
      (he : MCTS.Searched ops cm exploration state e)
      (h : MCTS.loop ops cm fuel e iters rnd = some (e', rnd')) :
      MCTS.Searched ops cm exploration state e'
  | getMove (e e' : MCTS S Move K) (fuel iters : Nat) (rnd rnd' : RandStream) (m : MovePtr Move)
      (he : MCTS.Searched ops cm exploration state e)
      (h : MCTS.getMove ops cm fuel e iters rnd = some (m, e', rnd')) :
      MCTS.Searched ops cm exploration state e'

end EnginePredicates


section TreeMeasures
variable {S Move K : Type} [LinearOrderedField K]

mutual
/-- The number of nodes of the tree below a node, the node included. -/
def MCTS.Node.size : MCTS.Node Move K → Nat
  | ⟨_, _, children, _, _, _⟩ => 1 + MCTS.Node.sizeList children
/-- The number of nodes of the trees below the nodes of a list. -/
def MCTS.Node.sizeList : List (MCTS.Node Move K) → Nat
  | [] => 0
  | c :: cs => MCTS.Node.size c + MCTS.Node.sizeList cs
end

end TreeMeasures


/-! ## Tic-tac-toe: the public constructor, the objects of the class, the rollout -/

namespace ttt.State

/-- The constructor `State(uint player, uint opponent)` (`tictactoe.cpp` 3-9); the two
arguments are `unsigned int`, and `~0b111111111u` is `0xFFFFFE00`. -/
def ofMasks (player opponent : Nat) : Returned ttt.State :=
  if (player &&& opponent) ≠ 0 ∨ (player &&& 0xFFFFFE00) ≠ 0 ∨ (opponent &&& 0xFFFFFE00) ≠ 0 then
    Returned.throws
  else
    Returned.value (checkTerminal
      { player := player, opponent := opponent, occupied := player ||| opponent,
        terminal := false, score := 0, playerToMove := 1 })

/-- The objects of the class `ttt::State`: made by one of the two public constructors,
then changed by `makeMove` and by assignments to the public member `playerToMove` (the
constructor that sets every member is private). -/
inductive Built : ttt.State → Prop
  | default : Built ttt.State.init
  | masks (player opponent : Nat) (s : ttt.State) (hp : player < 2 ^ 32) (ho : opponent < 2 ^ 32)
      (h : ofMasks player opponent = Returned.value s) : Built s
  | move (s s' : ttt.State) (m : Int) (hs : Built s) (h : s.makeMove m = CallResult.ok s') :
      Built s'
  | turn (s : ttt.State) (p : Int) (hs : Built s) : Built { s with playerToMove := p }

/-- The method `randomMove()` (`tictactoe.cpp` 160-163): `moves[rand() % moves.size()]`; with
no move the remainder by zero is undefined, `none`. -/
def randomMove (s : ttt.State) (rnd : RandStream) : Option (Int × RandStream) :=
  let moves := s.getMoves
  let (r, rnd) := rand rnd
  if moves.length = 0 then none
  else (moves[r % moves.length]?).map (fun m => (m, rnd))

/-- The method `MCTS::rollout(state, agent)` (`MCTS.cpp` 100-106) on a `ttt::State`, with the
agent that returns `state.randomMove()`; `fuel` bounds the number of tests of the `while`
condition. -/
def rollout : Nat → ttt.State → RandStream → Option (ttt.State × RandStream)
  | 0, _, _ => none
  | fuel + 1, state, rnd =>
    if state.isTerminal then some (state, rnd)
    else
      match state.randomMove rnd with
      | none => none
      | some (move, rnd) =>
        match state.makeMove move with
        | CallResult.ok state => rollout fuel state rnd
        | _ => none

end ttt.State

/-- Following the claim's words: the number of bits set among the nine cells of a mask. -/
def ttt.Spec.popcount (b : Nat) : Nat := ((List.range 9).filter (fun p => b.testBit p)).length


/-- Following the claim's words: the rows, columns and diagonals of the 3x3 grid in which
cell `p` lies in row `p / 3` and column `p % 3`, each as the list of its cells. -/
def ttt.Spec.lines : List (List Nat) :=
  (List.range 3).map (fun r => (List.range 9).filter (fun p => p / 3 == r)) ++
  (List.range 3).map (fun c => (List.range 9).filter (fun p => p % 3 == c)) ++
  [(List.range 9).filter (fun p => p / 3 == p % 3),
   (List.range 9).filter (fun p => p / 3 + p % 3 == 2)]

/-- Following the claim's words: the board `b`, whose bit `p` is cell `p`, contains all
three cells of some row, column or diagonal. -/
def ttt.Spec.hasLine (b : Nat) : Bool :=
  ttt.Spec.lines.any (fun line => line.all (fun p => b.testBit p))

/-! ## `DurakState`: the cards of a state, and the defence the claims speak of -/

namespace DurakState

/-- The cards of the pairs of `defended`, one pair after the other. -/
def pairCards (defended : List (Card × Card)) : List Card :=
  (defended.map (fun p => [p.1, p.2])).flatten

/-- The cards a state holds: those of the deck, of the hands, of `attack`, of `defended`
and of the discard pile. -/
def allCards {G : Type} (s : DurakState G) : List Card :=
  s.deck ++ s.hands.flatten ++ s.attack ++ pairCards s.defended ++ s.discard

/-- The multiset of the numbers of the cards of a list. -/
def numbers (l : List Card) : Multiset Int := ((l.map (fun c => c.n) : List Int) : Multiset Int)

end DurakState


namespace DurakState

/-- Following the claim's words: `assign` gives every attack card, in the order of
`attack`, a card of `hand` that beats it, and no card of the hand is given twice. -/
def Spec.Covers (trump : Int) (attack hand assign : List Card) : Prop :=
  List.Forall₂ (fun a c => c.beat a trump = true) attack assign ∧
    (assign.map (fun c => c.n)).Nodup ∧ ∀ c ∈ assign, c ∈ hand

end DurakState

/-- Player 1 holds the six of spades as the only card, player 2 the seven of spades; the
deck is empty and player 1 is to attack. -/
def sampleOneCard : DurakState Nat :=
  { deck := [], hands := [[⟨0, false⟩], [⟨4, false⟩]], attack := [], defended := [],
    discard := [], trump := 2, defending := false, defendingPlayer := -1,
    attackingPlayer := -1, rd := 0, playerToMove := 1 }

/-- The state `sampleOneCard` after player 1 has attacked with the six of spades. -/
def sampleLastCard : DurakState Nat :=
  { deck := [], hands := [[], [⟨4, false⟩]], attack := [⟨0, false⟩], defended := [],
    discard := [], trump := 2, defending := true, defendingPlayer := 2,
    attackingPlayer := 1, rd := 0, playerToMove := 2 }

/-- Player 2 is to defend against the six of spades, holding the six of clubs and the seven
of spades; player 1 holds the nine of hearts. -/
def sampleDefend : DurakState Nat :=
  { deck := [], hands := [[⟨14, false⟩], [⟨1, false⟩, ⟨4, false⟩]], attack := [⟨0, false⟩],
    defended := [], discard := [], trump := 2, defending := true, defendingPlayer := 2,
    attackingPlayer := 1, rd := 0, playerToMove := 2 }


/-- Player 2 has beaten the six of spades with the seven of spades and is to move; three
cards are left in the deck. -/
def sampleRoundEnd : DurakState Nat :=
  { deck := [⟨30, false⟩, ⟨31, true⟩, ⟨32, true⟩], hands := [[⟨14, false⟩], [⟨19, false⟩]],
    attack := [], defended := [(⟨0, false⟩, ⟨4, false⟩)], discard := [], trump := 2,
    defending := true, defendingPlayer := 2, attackingPlayer := 1, rd := 0, playerToMove := 2 }

/-! ## Sample inputs in `DurakState` for the engine -/

/-- A generator call that returns the state of the generator and steps it by one. -/
def sampleDraw : Nat → Nat × Nat := fun g => (g, g + 1)

/-- The engine's view of `DurakState` with the sample generator and the hash parameters
`a = 1`, `b = 2`. -/
noncomputable def sampleOps : StateOps (DurakObject Nat) DurakState.Move ℝ :=
  durakOps ℝ revShuffler sampleDraw 1 2

/-- The state `sampleRound` after player 1 attacked with the six of spades, player 2 beat
it with the seven of spades and player 1 threw in nothing: player 2 is to take the cards
or to end the round. -/
def sampleBeaten : DurakState Nat :=
  { deck := [], hands := [[⟨1, false⟩], [⟨19, false⟩]],
    attack := [], defended := [(⟨0, false⟩, ⟨4, false⟩)], discard := [], trump := 2,
    defending := true, defendingPlayer := 2, attackingPlayer := 1, rd := 0, playerToMove := 2 }

/-- The state `sampleRound` with the nine of hearts for the six of clubs, after player 1
attacked with the six of spades and player 2 beat it with the seven of spades: player 1
has no card to throw in and can only pass. -/
def samplePass : DurakState Nat :=
  { deck := [], hands := [[⟨14, false⟩], [⟨19, false⟩]],
    attack := [], defended := [(⟨0, false⟩, ⟨4, false⟩)], discard := [], trump := 2,
    defending := true, defendingPlayer := 2, attackingPlayer := 1, rd := 0, playerToMove := 1 }

/-- The move `DefendMove(true)`: the defender takes the cards. -/
def sampleGiveUp : DurakState.Move := DurakState.Move.defend [] true

section SetLemmas

variable {S Move K : Type}

theorem USet.find_iff (ops : StateOps S Move K) (set : List (MovePtr Move)) (m : MovePtr Move) :
    USet.find ops set m = true ↔
      ∃ k ∈ set, ops.moveHash k.val = ops.moveHash m.val ∧ ops.moveEq m.val k.val = true := by
  simp [USet.find, SharedHash, SharedEqual]

theorem USet.find_append (ops : StateOps S Move K) (s t : List (MovePtr Move)) (m : MovePtr Move) :
    USet.find ops (s ++ t) m = (USet.find ops s m || USet.find ops t m) := by
  simp [USet.find]

/-- Looking up `m` in the set built by emplacing the keys `ks` one by one succeeds exactly
when `m` is equal, by value, to one of the keys. -/
theorem USet.find_foldl_emplace (ops : StateOps S Move K) (law : ops.LawfulMove) {α : Type}
    (key : α → MovePtr Move) (ks : List α) (m : MovePtr Move) :
    USet.find ops (ks.foldl (fun t c => USet.emplace ops t (key c)) []) m
      = ks.any (fun c => SharedEqual ops m (key c)) := by
  suffices h : ∀ (ks : List α) (init : List (MovePtr Move)),
      USet.find ops (ks.foldl (fun t c => USet.emplace ops t (key c)) init) m
        = (USet.find ops init m || ks.any (fun c => SharedEqual ops m (key c))) by
    rw [h ks []]
    simp [USet.find]
  intro ks
  induction ks with
  | nil => intro init; simp
  | cons c cs ih =>
    intro init
    rw [List.foldl_cons, ih, List.any_cons, ← Bool.or_assoc]
    congr 1
    unfold USet.emplace
    by_cases hf : USet.find ops init (key c) = true
    · rw [if_pos hf]
      cases hm : SharedEqual ops m (key c)
      · simp
      · rw [Bool.or_true]
        obtain ⟨k, hk, hh, he⟩ := (USet.find_iff ops init (key c)).1 hf
        refine (USet.find_iff ops init m).2 ⟨k, hk, ?_, ?_⟩
        · rw [hh]; exact (law.hash_eq _ _ hm).symm
        · exact law.eq_trans _ _ _ hm he
    · rw [if_neg hf, USet.find_append]
      congr 1
      cases hm : SharedEqual ops m (key c)
      · simp [USet.find, hm]
      · have := law.hash_eq _ _ hm
        simp [USet.find, hm, SharedHash, this]

theorem USet.find_ofRange (ops : StateOps S Move K) (law : ops.LawfulMove)
    (l : List (MovePtr Move)) (m : MovePtr Move) :
    USet.find ops (USet.ofRange ops l) m = l.any (fun k => SharedEqual ops m k) := by
  have := USet.find_foldl_emplace ops law (fun k : MovePtr Move => k) l m
  simpa [USet.ofRange] using this

theorem foldl_push_back_filter {α : Type} (p : α → Bool) (l init : List α) :
    l.foldl (fun acc m => if p m then acc else acc ++ [m]) init
      = init ++ l.filter (fun m => !p m) := by
  induction l generalizing init with
  | nil => simp
  | cons a l ih =>
    rw [List.foldl_cons, ih]
    cases h : p a <;> simp [h, List.filter_cons]

end SetLemmas

/-! ## Lemmas on `UCBSelectChild` -/

section UCBLemmas

variable {S Move K : Type} [LinearOrderedField K]

theorem List.modify_length_append {α : Type} (f : α → α) (pre : List α) (c : α) (cs : List α) :
    (pre ++ c :: cs).modify f pre.length = pre ++ f c :: cs := by
  induction pre with
  | nil => rfl
  | cons a pre ih => simp [List.modify_succ_cons, ih]

/-- The loop `for (n : legalChildren) n->avails += 1` over the pointers collected by the
filter is a map over the children. -/
theorem MCTS.Node.foldl_modify_enum_filter {α : Type} (f : α → α) (q : α → Bool)
    (cs pre : List α) :
    ((List.enumFrom pre.length cs).filter (fun p => q p.2)).foldl
        (fun acc p => acc.modify f p.1) (pre ++ cs)
      = pre ++ cs.map (fun c => if q c then f c else c) := by
  induction cs generalizing pre with
  | nil => simp
  | cons c cs ih =>
    have hlen : (pre ++ [c]).length = pre.length + 1 := by simp
    have hlen' : (pre ++ [f c]).length = pre.length + 1 := by simp
    rw [List.enumFrom_cons, List.filter_cons]
    by_cases hq : q c = true
    · simp only [hq, if_true, List.foldl_cons, List.map_cons]
      rw [List.modify_length_append]
      have := ih (pre ++ [f c])
      rw [hlen'] at this
      simpa using this
    · simp only [hq, List.map_cons]
      have := ih (pre ++ [c])
      rw [hlen] at this
      simpa using this

/-- The call `UCBSelectChild` when no child is collected: `ucbs.at(0)` throws. -/
theorem MCTS.Node.UCBSelectChild_nil (ops : StateOps S Move K) (cm : CMath K)
    (n : MCTS.Node Move K) (legalMoves : List (MovePtr Move)) (exploration : K)
    (h : MCTS.Node.legalChildren ops n legalMoves = []) :
    n.UCBSelectChild ops cm legalMoves exploration = (n, none) := by
  unfold MCTS.Node.UCBSelectChild
  simp [h]

/-- The call `UCBSelectChild` when at least one child is collected. -/
theorem MCTS.Node.UCBSelectChild_cons (ops : StateOps S Move K) (cm : CMath K)
    (n : MCTS.Node Move K) (legalMoves : List (MovePtr Move)) (exploration : K)
    (p : Nat × MCTS.Node Move K) (ps : List (Nat × MCTS.Node Move K))
    (h : MCTS.Node.legalChildren ops n legalMoves = p :: ps) :
    n.UCBSelectChild ops cm legalMoves exploration =
      ({ n with children := ((p :: ps).foldl
          (fun cs p => cs.modify (fun c => { c with avails := c.avails + 1 }) p.1) n.children) },
        ((p :: ps)[MCTS.Node.maxScan (ps.map (fun p => p.2.ucb cm (7 / 10))) 1
            (p.2.ucb cm (7 / 10)) 0]?).map Prod.fst) := by
  unfold MCTS.Node.UCBSelectChild
  simp [h]

end UCBLemmas

/-! ## Statements about `Node` -/

section NodeClaims

variable {S Move K : Type} [LinearOrderedField K]

/-- C7. `update(state)` adds one to `visits`, adds the result of `state` for the mover
`just_moved` to `wins` unless `just_moved` is `-1` (the placeholder root), and leaves
`avails`, `move`, `just_moved` and the children as they were. -/
theorem C7_update (ops : StateOps S Move K) (n : MCTS.Node Move K) (state : S) :
    (n.update ops state).visits = n.visits + 1 ∧
      (n.update ops state).wins
        = (if n.just_moved = -1 then n.wins else n.wins + ops.getResult state n.just_moved) ∧
      (n.update ops state).avails = n.avails ∧
      (n.update ops state).move = n.move ∧
      (n.update ops state).just_moved = n.just_moved ∧
      (n.update ops state).children = n.children := by
  unfold MCTS.Node.update
  by_cases h : n.just_moved = -1
  · simp [h]
  · simp [h]

end NodeClaims

/-! ## The score in real arithmetic -/

section RealClaims

theorem one_lt_log_four : (1 : ℝ) < Real.log 4 := by
  rw [Real.lt_log_iff_exp_lt (by norm_num)]
  exact lt_trans Real.exp_one_lt_d9 (by norm_num)

theorem sqrt_four : Real.sqrt 4 = 2 := by
  rw [show (4 : ℝ) = 2 ^ 2 by norm_num]
  exact Real.sqrt_sq (by norm_num)

/-- C2. On the root with children A = (wins 0, visits 1, avails 4) and
B = (wins 1, visits 4, avails 4), both legal, a caller passing the exploration constant 0
gets A (pointer 0), although with the constant 0 the score of A is 0 and the score of B is
1/4: the scores were computed with 0.7, not with the constant passed. -/
theorem C2_UCBSelectChild_ignores_exploration :
    ((sampleTree ℝ 1).UCBSelectChild (nimOps ℝ) realMath sampleLegal 0).2 = some 0 ∧
      (sampleTree ℝ 1).children[0]? = some (sampleLeaf ⟨1, 1⟩ 1 0 1 4) ∧
      (sampleTree ℝ 1).children[1]? = some (sampleLeaf ⟨2, 2⟩ 1 1 4 4) ∧
      (sampleLeaf ⟨2, 2⟩ 1 (1 : ℝ) 4 4).eligible (nimOps ℝ) sampleLegal = true ∧
      (sampleLeaf ⟨1, 1⟩ 1 (0 : ℝ) 1 4).ucb realMath 0
        < (sampleLeaf ⟨2, 2⟩ 1 (1 : ℝ) 4 4).ucb realMath 0 := by
  refine ⟨?_, rfl, rfl, rfl, ?_⟩
  · have hL : MCTS.Node.legalChildren (nimOps ℝ) (sampleTree ℝ 1) sampleLegal
        = [(0, sampleLeaf ⟨1, 1⟩ 1 0 1 4), (1, sampleLeaf ⟨2, 2⟩ 1 1 4 4)] := rfl
    rw [MCTS.Node.UCBSelectChild_cons (nimOps ℝ) realMath (sampleTree ℝ 1) sampleLegal 0 _ _ hL]
    have hs : (1 : ℝ) < Real.sqrt (Real.log 4) := by
      rw [Real.lt_sqrt (by norm_num)]
      simpa using one_lt_log_four
    have hcmp : ¬ ((sampleLeaf ⟨2, 2⟩ 1 (1 : ℝ) 4 4).ucb realMath (7 / 10)
        > (sampleLeaf ⟨1, 1⟩ 1 (0 : ℝ) 1 4).ucb realMath (7 / 10)) := by
      simp only [MCTS.Node.ucb, sampleLeaf, realMath]
      norm_num
      rw [sqrt_four]
      linarith
    simp only [List.map_cons, List.map_nil, MCTS.Node.maxScan, if_neg hcmp]
    rfl
  · simp only [MCTS.Node.ucb, sampleLeaf, realMath]
    norm_num

end RealClaims

/-! ## One iteration, as a relation on trees -/

section IterationLemmas

variable {S Move K : Type} [LinearOrderedField K]

theorem MCTS.Node.isLegalChild_eq_eligible (ops : StateOps S Move K) (law : ops.LawfulMove)
    (legalMoves : List (MovePtr Move)) (c : MCTS.Node Move K) :
    c.isLegalChild ops legalMoves = c.eligible ops legalMoves := by
  unfold MCTS.Node.isLegalChild MCTS.Node.eligible
  rw [USet.find_ofRange ops law]

/-- What a successful `UCBSelectChild` does to the node, and where its pointer goes. -/
theorem MCTS.Node.UCBSelectChild_eq_some (ops : StateOps S Move K) (cm : CMath K)
    (n n1 : MCTS.Node Move K) (legalMoves : List (MovePtr Move)) (exploration : K) (i : Nat)
    (h : n.UCBSelectChild ops cm legalMoves exploration = (n1, some i)) :
    n1 = { n with children := MCTS.Node.bumpLegal ops legalMoves n.children } ∧
      ∃ c, n.children[i]? = some c ∧ c.isLegalChild ops legalMoves = true := by
  cases hL : MCTS.Node.legalChildren ops n legalMoves with
  | nil =>
    rw [MCTS.Node.UCBSelectChild_nil ops cm n legalMoves exploration hL] at h
    exact Option.noConfusion (congrArg Prod.snd h)
  | cons p ps =>
    rw [MCTS.Node.UCBSelectChild_cons ops cm n legalMoves exploration p ps hL] at h
    have h1 := congrArg Prod.fst h
    have h2 := congrArg Prod.snd h
    simp only [] at h1 h2
    constructor
    · rw [← h1, ← hL]
      have hb := MCTS.Node.foldl_modify_enum_filter
        (fun c : MCTS.Node Move K => { c with avails := c.avails + 1 })
        (fun c => USet.find ops (USet.ofRange ops legalMoves) c.move) n.children []
      simp only [List.length_nil, List.nil_append] at hb
      have hb' : (MCTS.Node.legalChildren ops n legalMoves).foldl
          (fun cs p => cs.modify (fun c => { c with avails := c.avails + 1 }) p.1) n.children
          = MCTS.Node.bumpLegal ops legalMoves n.children := hb
      rw [hb']
    · cases hr : (p :: ps)[MCTS.Node.maxScan (ps.map (fun p => p.2.ucb cm (7 / 10))) 1
          (p.2.ucb cm (7 / 10)) 0]? with
      | none => rw [hr] at h2; exact Option.noConfusion h2
      | some b =>
        rw [hr] at h2
        simp only [Option.map_some', Option.some.injEq] at h2
        obtain ⟨i', c⟩ := b
        simp only at h2
        subst h2
        have hmem : (i', c) ∈ MCTS.Node.legalChildren ops n legalMoves := by
          rw [hL]
          exact List.getElem?_mem hr
        unfold MCTS.Node.legalChildren at hmem
        simp only [List.mem_filter, List.mk_mem_enum_iff_getElem?] at hmem
        exact ⟨c, hmem.1, hmem.2⟩

theorem List.modify_set_same {α : Type} (f : α → α) (l : List α) (i : Nat) (a : α) :
    (l.set i a).modify f i = l.set i (f a) := by
  induction l generalizing i with
  | nil => simp
  | cons x l ih =>
    cases i with
    | zero => simp
    | succ i => simp [List.modify_succ_cons, ih]

/-- What a successful `expand` returns. -/
theorem MCTS.expand_eq_some (ops : StateOps S Move K) (node : MCTS.Node Move K) (state : S)
    (untried : List (MovePtr Move)) (rnd : RandStream)
    (res : MCTS.Node Move K × List Nat × S × RandStream)
    (h : MCTS.expand ops node state untried rnd = some res) :
    ∃ m ∈ untried, res.1 = { node with children := node.children ++
          [MCTS.Node.ctor m (ops.playerToMove state)] } ∧
      res.2.1 = [node.children.length] ∧ ops.makeMove state m = some res.2.2.1 := by
  unfold MCTS.expand at h
  simp only [] at h
  split at h
  · exact Option.noConfusion h
  · split at h
    · exact Option.noConfusion h
    · rename_i move hmove
      split at h
      · exact Option.noConfusion h
      · rename_i state' hstate
        simp only [MCTS.Node.addChild, Option.some.injEq] at h
        subst h
        exact ⟨move, List.getElem?_mem hmove, rfl, rfl, hstate⟩

/-- A completed `select` followed by the backpropagation loop is one `IterStep`. -/
theorem MCTS.select_backpropagate (ops : StateOps S Move K) (cm : CMath K) (exploration : K)
    (st : S) (fuel : Nat) (node : MCTS.Node Move K) (state : S) (rnd : RandStream)
    (res : MCTS.Node Move K × List Nat × S × RandStream)
    (h : MCTS.select ops cm exploration fuel node state rnd = some res) :
    MCTS.IterStep ops st node (MCTS.backpropagate ops st res.2.1 res.1) := by
  induction fuel generalizing node state rnd res with
  | zero => exact Option.noConfusion h
  | succ fuel ih =>
    unfold MCTS.select at h
    simp only [] at h
    split at h
    · simp only [Option.some.injEq] at h
      subst h
      exact MCTS.IterStep.stop node
    · split at h
      · obtain ⟨m, hm, h1, h2, _⟩ := MCTS.expand_eq_some ops node _ _ rnd res h
        rw [h1, h2]
        simp only [MCTS.backpropagate]
        rw [List.modify_length_append]
        exact MCTS.IterStep.expand node _ m _ hm
      · rename_i hunt
        split at h
        · exact Option.noConfusion h
        · rename_i node1 i hucb
          split at h
          · exact Option.noConfusion h
          · rename_i child hchild
            split at h
            · exact Option.noConfusion h
            · rename_i state' hstate
              split at h
              · exact Option.noConfusion h
              · rename_i child' path st' rnd' hsel
                simp only [Option.some.injEq] at h
                subst h
                obtain ⟨hn1, c, hc, hl⟩ :=
                  MCTS.Node.UCBSelectChild_eq_some ops cm node node1 _ exploration i hucb
                have hstep := ih child state' rnd _ hsel
                simp only [] at hstep
                simp only [MCTS.backpropagate]
                rw [List.modify_set_same]
                subst hn1
                simp only [] at hchild ⊢
                have hcb : child = c.bump := by
                  unfold MCTS.Node.bumpLegal at hchild
                  rw [List.getElem?_map, hc] at hchild
                  simp only [Option.map_some', hl, if_true, Option.some.injEq] at hchild
                  exact hchild.symm
                rw [hcb] at hstep
                refine MCTS.IterStep.descend node _ i c _ hc hl ?_ hstep
                simpa using hunt

end IterationLemmas

/-! ## Engines reachable from a fresh one -/

section ReachableLemmas

variable {S Move K : Type} [LinearOrderedField K]

theorem MCTS.Node.All.here {P : MCTS.Node Move K → Prop} {n : MCTS.Node Move K}
    (h : MCTS.Node.All P n) : P n := by
  cases h with
  | mk _ h _ => exact h

theorem MCTS.Node.All.child {P : MCTS.Node Move K → Prop} {n : MCTS.Node Move K}
    (h : MCTS.Node.All P n) : ∀ c ∈ n.children, MCTS.Node.All P c := by
  cases h with
  | mk _ _ hc => exact hc

/-- A completed private `iterate` is one `IterStep` on the tree. -/
theorem MCTS.iterateNode_step (ops : StateOps S Move K) (cm : CMath K) (exploration : K)
    (fuel : Nat) (node : MCTS.Node Move K) (initial : S) (rnd : RandStream)
    (res : MCTS.Node Move K × S × RandStream)
    (h : MCTS.iterateNode ops cm exploration fuel node initial rnd = some res) :
    MCTS.IterStep ops res.2.1 node res.1 := by
  unfold MCTS.iterateNode at h
  simp only [] at h
  split at h
  · exact Option.noConfusion h
  · rename_i tree path state rnd1 hsel
    split at h
    · exact Option.noConfusion h
    · rename_i state2 rnd2 hroll
      simp only [Option.some.injEq] at h
      subst h
      exact MCTS.select_backpropagate ops cm exploration state2 fuel node _ _ _ hsel

/-- An invariant of `IterStep` is an invariant of the `for` loop of `loop`. -/
theorem MCTS.loopFor_inv (ops : StateOps S Move K) (cm : CMath K) (exploration : K)
    (Inv : MCTS.Node Move K → Prop)
    (hstep : ∀ st n r, MCTS.IterStep ops st n r → Inv n → Inv r)
    (fuel : Nat) (state : S) (iters : Nat) (node : MCTS.Node Move K) (rnd : RandStream)
    (res : MCTS.Node Move K × RandStream)
    (h : MCTS.loopFor ops cm exploration fuel state iters node rnd = some res)
    (hn : Inv node) : Inv res.1 := by
  induction iters generalizing node rnd with
  | zero =>
    simp only [MCTS.loopFor, Option.some.injEq] at h
    subst h
    exact hn
  | succ iters ih =>
    unfold MCTS.loopFor at h
    split at h
    · exact Option.noConfusion h
    · rename_i node1 st1 rnd1 hit
      exact ih node1 rnd1 h
        (hstep _ _ _ (MCTS.iterateNode_step ops cm exploration fuel node state rnd _ hit) hn)

/-- An invariant of `IterStep` is an invariant of the public `loop`. -/
theorem MCTS.loop_inv (ops : StateOps S Move K) (cm : CMath K)
    (Inv : MCTS.Node Move K → Prop)
    (hstep : ∀ st n r, MCTS.IterStep ops st n r → Inv n → Inv r)
    (fuel : Nat) (e : MCTS S Move K) (iters : Nat) (rnd : RandStream)
    (res : MCTS S Move K × RandStream)
    (h : MCTS.loop ops cm fuel e iters rnd = some res)
    (hn : Inv e.root) : Inv res.1.root := by
  unfold MCTS.loop MCTS.loopNode at h
  simp only [] at h
  split at h
  · exact Option.noConfusion h
  · rename_i tree rnd1 hl
    simp only [Option.some.injEq] at h
    subst h
    exact MCTS.loopFor_inv ops cm e.exploration Inv hstep fuel _ iters e.root _ _ hl hn

/-- The root after a completed `makeMove`: a child of the old root, or a new node. -/
theorem MCTS.makeMove_root (ops : StateOps S Move K) (e e' : MCTS S Move K) (m : MovePtr Move)
    (h : MCTS.makeMove ops e m = some e') :
    e'.root ∈ e.root.children ∨ e'.root = MCTS.Node.ctor m (ops.playerToMove e.root_state) := by
  unfold MCTS.makeMove at h
  simp only [] at h
  split at h
  · exact Option.noConfusion h
  · rename_i child hchild
    split at h
    · exact Option.noConfusion h
    · rename_i state hstate
      simp only [Option.some.injEq] at h
      subst h
      simp only []
      split at hchild
      · rename_i n hfind
        simp only [Option.some.injEq] at hchild
        subst hchild
        exact Or.inl (List.mem_of_find?_eq_some hfind)
      · right
        simp only [MCTS.Node.addChild] at hchild
        rw [List.getElem?_append_right (le_refl _)] at hchild
        simpa using hchild.symm

/-- Induction over the reachable engines: a property of the root that holds of a new
node, passes to the children, and is kept by every iteration, holds of every reachable
engine. -/
theorem MCTS.Reachable.root_inv (ops : StateOps S Move K) (cm : CMath K) (exploration : K)
    (state : S) (Inv : MCTS.Node Move K → Prop)
    (h0 : ∀ m p, Inv (MCTS.Node.ctor m p))
    (hstep : ∀ st n r, MCTS.IterStep ops st n r → Inv n → Inv r)
    (hchild : ∀ n c, Inv n → c ∈ n.children → Inv c)
    (e : MCTS S Move K) (he : MCTS.Reachable ops cm exploration state e) : Inv e.root := by
  induction he with
  | ctor => exact h0 _ _
  | iterate e e' fuel rnd rnd' st _ h ih =>
    unfold MCTS.iterate at h
    split at h
    · exact Option.noConfusion h
    · rename_i tree st1 rnd1 hit
      simp only [Option.some.injEq, Prod.mk.injEq] at h
      obtain ⟨h, _, _⟩ := h
      subst h
      exact hstep _ _ _ (MCTS.iterateNode_step ops cm e.exploration fuel e.root _ rnd _ hit) ih
  | loop e e' fuel iters rnd rnd' _ h ih =>
    exact MCTS.loop_inv ops cm Inv hstep fuel e iters rnd _ h ih
  | getMove e e' fuel iters rnd rnd' m _ h ih =>
    unfold MCTS.getMove at h
    split at h
    · exact Option.noConfusion h
    · rename_i e1 rnd1 hl
      have h1 := MCTS.loop_inv ops cm Inv hstep fuel e iters rnd _ hl ih
      split at h
      · simp only [Option.some.injEq, Prod.mk.injEq] at h
        obtain ⟨_, h, _⟩ := h
        subst h
        exact h1
      · split at h
        · exact Option.noConfusion h
        · split at h
          · exact Option.noConfusion h
          · simp only [Option.some.injEq, Prod.mk.injEq] at h
            obtain ⟨_, h, _⟩ := h
            subst h
            exact h1
  | makeMove e e' m _ h ih =>
    rcases MCTS.makeMove_root ops e e' m h with hm | hm
    · exact hchild _ _ ih hm
    · rw [hm]
      exact h0 _ _

end ReachableLemmas

/-! ## Invariants of the tree -/

section TreeInvariants

variable {S Move K : Type} [LinearOrderedField K]

theorem MCTS.Node.update_visits (ops : StateOps S Move K) (n : MCTS.Node Move K) (state : S) :
    (n.update ops state).visits = n.visits + 1 := by
  unfold MCTS.Node.update
  by_cases h : n.just_moved = -1 <;> simp [h]

theorem MCTS.Node.update_avails (ops : StateOps S Move K) (n : MCTS.Node Move K) (state : S) :
    (n.update ops state).avails = n.avails := by
  unfold MCTS.Node.update
  by_cases h : n.just_moved = -1 <;> simp [h]

theorem MCTS.Node.update_move (ops : StateOps S Move K) (n : MCTS.Node Move K) (state : S) :
    (n.update ops state).move = n.move := by
  unfold MCTS.Node.update
  by_cases h : n.just_moved = -1 <;> simp [h]

theorem MCTS.Node.update_children (ops : StateOps S Move K) (n : MCTS.Node Move K) (state : S) :
    (n.update ops state).children = n.children := by
  unfold MCTS.Node.update
  by_cases h : n.just_moved = -1 <;> simp [h]

/-- One iteration adds one to `visits` of the node it passes and keeps its `avails` and
its move. -/
theorem MCTS.IterStep.stats (ops : StateOps S Move K) (st : S) (n r : MCTS.Node Move K)
    (h : MCTS.IterStep ops st n r) :
    r.visits = n.visits + 1 ∧ r.avails = n.avails ∧ r.move = n.move := by
  cases h with
  | stop => exact ⟨MCTS.Node.update_visits _ _ _, MCTS.Node.update_avails _ _ _,
      MCTS.Node.update_move _ _ _⟩
  | expand legalMoves m p hm =>
    exact ⟨MCTS.Node.update_visits _ _ _, MCTS.Node.update_avails _ _ _,
      MCTS.Node.update_move _ _ _⟩
  | descend legalMoves i c r' hc hl hu hr =>
    exact ⟨MCTS.Node.update_visits _ _ _, MCTS.Node.update_avails _ _ _,
      MCTS.Node.update_move _ _ _⟩

theorem MCTS.Node.All.bump_availsBound (c : MCTS.Node Move K)
    (h : MCTS.Node.All MCTS.Node.availsBound c) :
    MCTS.Node.All MCTS.Node.availsBound c.bump := by
  refine MCTS.Node.All.mk _ ?_ h.child
  have := h.here
  unfold MCTS.Node.availsBound MCTS.Node.bump at *
  simp only [] at *
  omega

/-- One iteration keeps the bound `avails ≥ max(visits, 1)` on all nodes below the node
it starts at. -/
theorem MCTS.IterStep.availsBound (ops : StateOps S Move K) (st : S) (n r : MCTS.Node Move K)
    (h : MCTS.IterStep ops st n r)
    (hn : ∀ c ∈ n.children, MCTS.Node.All MCTS.Node.availsBound c) :
    ∀ c ∈ r.children, MCTS.Node.All MCTS.Node.availsBound c := by
  induction h with
  | stop n =>
    rw [MCTS.Node.update_children]
    exact hn
  | expand n legalMoves m p hm =>
    rw [MCTS.Node.update_children]
    simp only [List.mem_append, List.mem_singleton]
    rintro c (hc | hc)
    · exact hn c hc
    · subst hc
      refine MCTS.Node.All.mk _ ?_ ?_
      · unfold MCTS.Node.availsBound
        rw [MCTS.Node.update_visits, MCTS.Node.update_avails]
        simp [MCTS.Node.ctor]
      · rw [MCTS.Node.update_children]
        intro c hc
        simp [MCTS.Node.ctor] at hc
  | descend n legalMoves i c r hc hl hu hr ih =>
    rw [MCTS.Node.update_children]
    simp only []
    intro x hx
    have hcn := hn c (List.getElem?_mem hc)
    rcases List.mem_or_eq_of_mem_set hx with hx | hx
    · unfold MCTS.Node.bumpLegal at hx
      obtain ⟨y, hy, rfl⟩ := List.mem_map.1 hx
      split
      · exact MCTS.Node.All.bump_availsBound y (hn y hy)
      · exact hn y hy
    · subst hx
      obtain ⟨hv, ha, _⟩ := MCTS.IterStep.stats ops st _ _ hr
      refine MCTS.Node.All.mk _ ?_ (ih hcn.child)
      have := hcn.here
      unfold MCTS.Node.availsBound MCTS.Node.bump at *
      simp only [] at *
      omega

/-- The moves of the children after a descent are the moves before it. -/
theorem MCTS.Node.map_move_set_bumpLegal (ops : StateOps S Move K)
    (legalMoves : List (MovePtr Move)) (cs : List (MCTS.Node Move K)) (i : Nat)
    (c r : MCTS.Node Move K) (hc : cs[i]? = some c) (hr : r.move = c.move) :
    ((MCTS.Node.bumpLegal ops legalMoves cs).set i r).map (fun x => x.move)
      = cs.map (fun x => x.move) := by
  apply List.ext_getElem?
  intro j
  rw [List.getElem?_map, List.getElem?_map, List.getElem?_set]
  unfold MCTS.Node.bumpLegal
  by_cases hij : i = j
  · subst hij
    have hlt : i < cs.length := (List.getElem?_eq_some.1 hc).1
    simp [hlt, hc, hr]
  · simp only [hij, if_false, List.getElem?_map]
    cases cs[j]? with
    | none => rfl
    | some y =>
      simp only [Option.map_some', Option.some.injEq]
      split <;> rfl

theorem MCTS.Node.distinctMoves_congr (ops : StateOps S Move K) (n n' : MCTS.Node Move K)
    (h : n'.children.map (fun x => x.move) = n.children.map (fun x => x.move))
    (hn : n.distinctMoves ops) : n'.distinctMoves ops := by
  unfold MCTS.Node.distinctMoves at *
  have h1 : (n.children.map (fun x => x.move)).Pairwise
      (fun a b => SharedEqual ops a b = false) := List.pairwise_map.2 hn
  rw [← h] at h1
  exact List.pairwise_map.1 h1

theorem MCTS.Node.All.bump_distinctMoves (ops : StateOps S Move K) (c : MCTS.Node Move K)
    (h : MCTS.Node.All (MCTS.Node.distinctMoves ops) c) :
    MCTS.Node.All (MCTS.Node.distinctMoves ops) c.bump :=
  MCTS.Node.All.mk _ h.here h.child

/-- The helper behind C1: the untried moves are the legal moves equal by value to the
move of no child. -/
theorem MCTS.Node.getUntriedMoves_eq (ops : StateOps S Move K) (law : ops.LawfulMove)
    (n : MCTS.Node Move K) (legalMoves : List (MovePtr Move)) :
    n.getUntriedMoves ops legalMoves
      = legalMoves.filter (fun m => !n.children.any (fun c => SharedEqual ops m c.move)) := by
  unfold MCTS.Node.getUntriedMoves
  simp only []
  rw [foldl_push_back_filter, List.nil_append]
  congr 1
  funext m
  rw [USet.find_foldl_emplace ops law (fun c : MCTS.Node Move K => c.move)]

/-- One iteration keeps the moves of the children of every node pairwise different. -/
theorem MCTS.IterStep.distinctMoves (ops : StateOps S Move K) (law : ops.LawfulMove) (st : S)
    (n r : MCTS.Node Move K) (h : MCTS.IterStep ops st n r)
    (hn : MCTS.Node.All (MCTS.Node.distinctMoves ops) n) :
    MCTS.Node.All (MCTS.Node.distinctMoves ops) r := by
  induction h with
  | stop n =>
    refine MCTS.Node.All.mk _ ?_ ?_
    · exact MCTS.Node.distinctMoves_congr ops n _ (by rw [MCTS.Node.update_children]) hn.here
    · rw [MCTS.Node.update_children]
      exact hn.child
  | expand n legalMoves m p hm =>
    rw [MCTS.Node.getUntriedMoves_eq ops law, List.mem_filter] at hm
    have hne : ∀ c ∈ n.children, SharedEqual ops c.move m = false := by
      intro c hc
      cases hcm : SharedEqual ops c.move m with
      | false => rfl
      | true =>
        have hmc : SharedEqual ops m c.move = true := law.eq_symm _ _ hcm
        have := hm.2
        simp only [Bool.not_eq_true', List.any_eq_false] at this
        exact absurd hmc (this c hc)
    refine MCTS.Node.All.mk _ ?_ ?_
    · unfold MCTS.Node.distinctMoves
      rw [MCTS.Node.update_children]
      simp only []
      rw [List.pairwise_append]
      refine ⟨hn.here, List.pairwise_singleton _ _, ?_⟩
      intro a ha b hb
      rw [List.mem_singleton] at hb
      subst hb
      rw [MCTS.Node.update_move]
      exact hne a ha
    · rw [MCTS.Node.update_children]
      simp only [List.mem_append, List.mem_singleton]
      rintro c (hc | hc)
      · exact hn.child c hc
      · subst hc
        refine MCTS.Node.All.mk _ ?_ ?_
        · unfold MCTS.Node.distinctMoves
          rw [MCTS.Node.update_children]
          exact List.Pairwise.nil
        · rw [MCTS.Node.update_children]
          intro c hc
          simp [MCTS.Node.ctor] at hc
  | descend n legalMoves i c r hc hl hu hr ih =>
    have hcn := hn.child c (List.getElem?_mem hc)
    have hrm : r.move = c.move := (MCTS.IterStep.stats ops st _ _ hr).2.2
    refine MCTS.Node.All.mk _ ?_ ?_
    · refine MCTS.Node.distinctMoves_congr ops n _ ?_ hn.here
      rw [MCTS.Node.update_children]
      exact MCTS.Node.map_move_set_bumpLegal ops legalMoves n.children i c r hc hrm
    · rw [MCTS.Node.update_children]
      simp only []
      intro x hx
      rcases List.mem_or_eq_of_mem_set hx with hx | hx
      · unfold MCTS.Node.bumpLegal at hx
        obtain ⟨y, hy, rfl⟩ := List.mem_map.1 hx
        split
        · exact MCTS.Node.All.bump_distinctMoves ops y (hn.child y hy)
        · exact hn.child y hy
      · subst hx
        exact ih (MCTS.Node.All.bump_distinctMoves ops c hcn)

end TreeInvariants

/-! ## Statements about the engine -/

section EngineClaims

variable {S Move K : Type} [LinearOrderedField K]

/-- Two iterations of the engine on the token game with one token, from the fresh
engine: the root then has `visits = 2` and `avails = 1`. -/
theorem nim_two_iterations :
    (MCTS.loop (nimOps ℝ) realMath 2 (MCTS.ctor (nimOps ℝ) (7 / 10) ⟨1, 1⟩) 2
        (fun _ => 0)).map (fun r => (r.1.root.visits, r.1.root.avails)) = some (2, 1) := by
  rfl

/-- C8 fails at the root: on the token game with one token, after `loop(2)` on the fresh
engine the root has `visits = 2` and `avails = 1`, so a reachable tree has a node with
`avails < max(visits, 1)`. -/
theorem C8_counterexample :
    (MCTS.loop (nimOps ℝ) realMath 2 (MCTS.ctor (nimOps ℝ) (7 / 10) ⟨1, 1⟩) 2
        (fun _ => 0)).map (fun r => (r.1.root.visits, r.1.root.avails)) = some (2, 1) ∧
      ∃ e, MCTS.Reachable (nimOps ℝ) realMath (7 / 10) ⟨1, 1⟩ e ∧
        ¬ MCTS.Node.All MCTS.Node.availsBound e.root := by
  refine ⟨nim_two_iterations, ?_⟩
  have h := nim_two_iterations
  cases hres : MCTS.loop (nimOps ℝ) realMath 2 (MCTS.ctor (nimOps ℝ) (7 / 10) ⟨1, 1⟩) 2
      (fun _ => 0) with
  | none =>
    rw [hres] at h
    exact Option.noConfusion h
  | some r =>
    rw [hres] at h
    simp only [Option.map_some', Option.some.injEq, Prod.mk.injEq] at h
    refine ⟨r.1, MCTS.Reachable.loop _ _ 2 2 (fun _ => 0) r.2 MCTS.Reachable.ctor hres, ?_⟩
    intro hall
    have := hall.here
    unfold MCTS.Node.availsBound at this
    rw [h.1, h.2] at this
    omega

/-- C8, amended: in every reachable tree the root has `avails ≥ 1` and every node other
than the root has `avails ≥ max(visits, 1)`. -/
theorem C8_avails_bound_below_root (ops : StateOps S Move K) (cm : CMath K) (exploration : K)
    (state : S) (e : MCTS S Move K) (he : MCTS.Reachable ops cm exploration state e) :
    1 ≤ e.root.avails ∧ ∀ c ∈ e.root.children, MCTS.Node.All MCTS.Node.availsBound c := by
  refine MCTS.Reachable.root_inv ops cm exploration state
    (fun n => 1 ≤ n.avails ∧ ∀ c ∈ n.children, MCTS.Node.All MCTS.Node.availsBound c)
    ?_ ?_ ?_ e he
  · intro m p
    refine ⟨le_refl _, ?_⟩
    intro c hc
    simp [MCTS.Node.ctor] at hc
  · intro st n r hstep hn
    refine ⟨?_, MCTS.IterStep.availsBound ops st n r hstep hn.2⟩
    rw [(MCTS.IterStep.stats ops st n r hstep).2.1]
    exact hn.1
  · intro n c hn hc
    have hcall := hn.2 c hc
    refine ⟨?_, hcall.child⟩
    have := hcall.here
    unfold MCTS.Node.availsBound at this
    omega

/-- C8, amended, on the token game with one token: `loop(2)` on the fresh engine completes
and the engine it leaves satisfies the two bounds. -/
theorem C8_avails_bound_witness :
    ∃ e rnd, MCTS.loop (nimOps ℝ) realMath 2 (MCTS.ctor (nimOps ℝ) (7 / 10) ⟨1, 1⟩) 2
        (fun _ => 0) = some (e, rnd) ∧
      MCTS.Reachable (nimOps ℝ) realMath (7 / 10) ⟨1, 1⟩ e ∧
      1 ≤ e.root.avails ∧ ∀ c ∈ e.root.children, MCTS.Node.All MCTS.Node.availsBound c := by
  have h := nim_two_iterations
  cases hres : MCTS.loop (nimOps ℝ) realMath 2 (MCTS.ctor (nimOps ℝ) (7 / 10) ⟨1, 1⟩) 2
      (fun _ => 0) with
  | none =>
    rw [hres] at h
    exact Option.noConfusion h
  | some r =>
    have hr : MCTS.Reachable (nimOps ℝ) realMath (7 / 10) ⟨1, 1⟩ r.1 :=
      MCTS.Reachable.loop _ _ 2 2 (fun _ => 0) r.2 MCTS.Reachable.ctor hres
    exact ⟨r.1, r.2, rfl, hr,
      C8_avails_bound_below_root (nimOps ℝ) realMath (7 / 10) ⟨1, 1⟩ r.1 hr⟩

end EngineClaims

/-! ## The statements on the token game -/

section Witnesses

/-- One iteration on the fresh engine of the token game with three tokens completes. -/
theorem nim_first_iteration :
    (MCTS.iterate (nimOps ℝ) realMath 5 (MCTS.ctor (nimOps ℝ) (7 / 10) ⟨3, 1⟩)
        (fun _ => 0)).isSome = true := by
  rfl

end Witnesses

/-! ## One iteration in full: states, path and positions -/

section IterRunLemmas

variable {S Move K : Type} [LinearOrderedField K]

/-- A completed `select` followed by the backpropagation loop is one `IterRun`. -/
theorem MCTS.select_iterRun (ops : StateOps S Move K) (cm : CMath K) (exploration : K)
    (st : S) (fuel : Nat) (node : MCTS.Node Move K) (state : S) (rnd : RandStream)
    (res : MCTS.Node Move K × List Nat × S × RandStream)
    (h : MCTS.select ops cm exploration fuel node state rnd = some res) :
    MCTS.IterRun ops st state node res.2.1 res.2.2.1
      (MCTS.backpropagate ops st res.2.1 res.1) := by
  induction fuel generalizing node state rnd res with
  | zero => exact Option.noConfusion h
  | succ fuel ih =>
    unfold MCTS.select at h
    simp only [] at h
    split at h
    · rename_i ht
      simp only [Option.some.injEq] at h
      subst h
      exact MCTS.IterRun.stop state node ht
    · rename_i ht
      have ht' : ops.isTerminal (ops.getMoves state).2 = false := by
        simpa using ht
      split at h
      · obtain ⟨m, hm, h1, h2, h3⟩ := MCTS.expand_eq_some ops node _ _ rnd res h
        rw [h1, h2]
        simp only [MCTS.backpropagate]
        rw [List.modify_length_append]
        exact MCTS.IterRun.expand state node m _ ht' hm h3
      · rename_i hunt
        split at h
        · exact Option.noConfusion h
        · rename_i node1 i hucb
          split at h
          · exact Option.noConfusion h
          · rename_i child hchild
            split at h
            · exact Option.noConfusion h
            · rename_i state' hstate
              split at h
              · exact Option.noConfusion h
              · rename_i child' path st' rnd' hsel
                simp only [Option.some.injEq] at h
                subst h
                obtain ⟨hn1, c, hc, hl⟩ :=
                  MCTS.Node.UCBSelectChild_eq_some ops cm node node1 _ exploration i hucb
                have hstep := ih child state' rnd _ hsel
                simp only [] at hstep
                simp only [MCTS.backpropagate]
                rw [List.modify_set_same]
                subst hn1
                simp only [] at hchild ⊢
                have hcb : child = c.bump := by
                  unfold MCTS.Node.bumpLegal at hchild
                  rw [List.getElem?_map, hc] at hchild
                  simp only [Option.map_some', hl, if_true, Option.some.injEq] at hchild
                  exact hchild.symm
                rw [hcb] at hstep hstate
                refine MCTS.IterRun.descend state node i c state' path st' _ ht' ?_ hc hl
                  hstate hstep
                simpa using hunt

/-- A completed `rollout` ends in a terminal state, and does nothing on a terminal one. -/
theorem MCTS.rollout_eq_some (ops : StateOps S Move K) (fuel : Nat) (state : S)
    (rnd : RandStream) (res : S × RandStream) (h : MCTS.rollout ops fuel state rnd = some res) :
    ops.isTerminal res.1 = true ∧ (ops.isTerminal state = true → res.1 = state) := by
  induction fuel generalizing state rnd with
  | zero => exact Option.noConfusion h
  | succ fuel ih =>
    unfold MCTS.rollout at h
    split at h
    · rename_i ht
      simp only [Option.some.injEq] at h
      subst h
      exact ⟨ht, fun _ => rfl⟩
    · rename_i ht
      simp only [] at h
      split at h
      · exact Option.noConfusion h
      · exact ⟨(ih _ _ h).1, fun h' => absurd h' ht⟩

/-- A completed private `iterate` is one `IterRun` from the determinized state, followed
by a rollout from the state `select` left. -/
theorem MCTS.iterateNode_iterRun (ops : StateOps S Move K) (cm : CMath K) (exploration : K)
    (fuel : Nat) (node : MCTS.Node Move K) (initial : S) (rnd : RandStream)
    (res : MCTS.Node Move K × S × RandStream)
    (h : MCTS.iterateNode ops cm exploration fuel node initial rnd = some res) :
    ∃ path sOut, MCTS.IterRun ops res.2.1 (ops.randomizeHiddenState initial rnd).1 node path sOut
        res.1 ∧
      ops.isTerminal res.2.1 = true ∧ (ops.isTerminal sOut = true → res.2.1 = sOut) := by
  unfold MCTS.iterateNode MCTS.determinize at h
  simp only [] at h
  split at h
  · exact Option.noConfusion h
  · rename_i tree path state rnd1 hsel
    split at h
    · exact Option.noConfusion h
    · rename_i state2 rnd2 hroll
      simp only [Option.some.injEq] at h
      subst h
      have hr := MCTS.rollout_eq_some ops fuel state rnd1 _ hroll
      exact ⟨path, state, MCTS.select_iterRun ops cm exploration state2 fuel node _ _ _ hsel,
        hr.1, hr.2⟩

end IterRunLemmas

/-! ## Positions in the tree before and after one iteration -/

section PositionLemmas

variable {S Move K : Type} [LinearOrderedField K]

theorem MCTS.Node.update_just_moved (ops : StateOps S Move K) (n : MCTS.Node Move K)
    (state : S) : (n.update ops state).just_moved = n.just_moved := by
  unfold MCTS.Node.update
  by_cases h : n.just_moved = -1 <;> simp [h]

theorem MCTS.Node.update_wins (ops : StateOps S Move K) (n : MCTS.Node Move K) (state : S) :
    (n.update ops state).wins
      = (if n.just_moved = -1 then n.wins else n.wins + ops.getResult state n.just_moved) := by
  unfold MCTS.Node.update
  by_cases h : n.just_moved = -1 <;> simp [h]

theorem MCTS.Node.nodeAt_cons (i : Nat) (q : List Nat) (n : MCTS.Node Move K) :
    n.nodeAt (i :: q) = (n.children[i]?).bind (MCTS.Node.nodeAt q) := by
  rw [MCTS.Node.nodeAt]
  cases n.children[i]? <;> rfl

/-- Below the node itself, `nodeAt` only looks at the children. -/
theorem MCTS.Node.nodeAt_congr (a b : MCTS.Node Move K) (h : a.children = b.children)
    (i : Nat) (q : List Nat) : a.nodeAt (i :: q) = b.nodeAt (i :: q) := by
  rw [MCTS.Node.nodeAt_cons, MCTS.Node.nodeAt_cons, h]

theorem MCTS.Node.SameButAvails.refl (c : MCTS.Node Move K) : MCTS.Node.SameButAvails c c :=
  ⟨rfl, rfl, rfl, rfl, rfl, le_refl _⟩

theorem MCTS.Node.SameButAvails.bump (c : MCTS.Node Move K) :
    MCTS.Node.SameButAvails c c.bump :=
  ⟨rfl, rfl, rfl, rfl, rfl, Nat.le_succ _⟩

/-- A node that differs from `c` in `avails` only has the same nodes below it. -/
theorem MCTS.Node.SameButAvails.nodeAt (c c' : MCTS.Node Move K)
    (h : MCTS.Node.SameButAvails c c') (q : List Nat) (n0 : MCTS.Node Move K)
    (hq : c.nodeAt q = some n0) :
    ∃ n0', c'.nodeAt q = some n0' ∧ MCTS.Node.SameButAvails n0 n0' := by
  cases q with
  | nil =>
    simp only [MCTS.Node.nodeAt, Option.some.injEq] at hq
    subst hq
    exact ⟨c', rfl, h⟩
  | cons i q =>
    rw [MCTS.Node.nodeAt_congr c' c h.2.2.1]
    exact ⟨n0, hq, MCTS.Node.SameButAvails.refl n0⟩

theorem MCTS.Node.StepsTo.of_same (ops : StateOps S Move K) (st : S) (b : Bool)
    (n0 n0' n1 : MCTS.Node Move K) (h : MCTS.Node.SameButAvails n0 n0')
    (h1 : MCTS.Node.StepsTo ops st b n0' n1) : MCTS.Node.StepsTo ops st b n0 n1 := by
  obtain ⟨hm, hj, _, hw, hv, ha⟩ := h
  obtain ⟨gm, gj, ga, gv, gw⟩ := h1
  refine ⟨gm.trans hm, gj.trans hj, le_trans ha ga, ?_, ?_⟩
  · rw [gv, hv]
  · rw [gw, MCTS.Node.update_wins, MCTS.Node.update_wins, hw, hj]

theorem MCTS.Node.StepsTo.of_same_off (ops : StateOps S Move K) (st : S)
    (n0 n0' : MCTS.Node Move K) (h : MCTS.Node.SameButAvails n0 n0') :
    MCTS.Node.StepsTo ops st false n0 n0' := by
  obtain ⟨hm, hj, _, hw, hv, ha⟩ := h
  exact ⟨hm, hj, ha, by simpa using hv, by simpa using hw⟩

theorem MCTS.Node.StepsTo.update (ops : StateOps S Move K) (st : S) (n n' : MCTS.Node Move K)
    (hm : n'.move = n.move) (hj : n'.just_moved = n.just_moved) (hw : n'.wins = n.wins)
    (hv : n'.visits = n.visits) (ha : n'.avails = n.avails) :
    MCTS.Node.StepsTo ops st true n (n'.update ops st) := by
  refine ⟨?_, ?_, ?_, ?_, ?_⟩
  · rw [MCTS.Node.update_move, hm]
  · rw [MCTS.Node.update_just_moved, hj]
  · rw [MCTS.Node.update_avails, ha]
  · rw [MCTS.Node.update_visits, hv]
    rfl
  · rw [MCTS.Node.update_wins, MCTS.Node.update_wins, hw, hj]
    rfl

/-- Every node that was in the tree is still there after one iteration, at the same
position, changed as `StepsTo` says. -/
theorem MCTS.IterRun.nodeAt_old (ops : StateOps S Move K) (st s sOut : S)
    (n r : MCTS.Node Move K) (path : List Nat) (h : MCTS.IterRun ops st s n path sOut r) :
    ∀ (q : List Nat) (n0 : MCTS.Node Move K), n.nodeAt q = some n0 →
      ∃ n1, r.nodeAt q = some n1 ∧ MCTS.Node.StepsTo ops st (decide (q <+: path)) n0 n1 := by
  induction h with
  | stop s n ht =>
    intro q n0 hq
    cases q with
    | nil =>
      simp only [MCTS.Node.nodeAt, Option.some.injEq] at hq
      subst hq
      refine ⟨_, rfl, ?_⟩
      rw [show decide (([] : List Nat) <+: _) = true by simp]
      exact MCTS.Node.StepsTo.update ops st n _ rfl rfl rfl rfl rfl
    | cons i q =>
      rw [MCTS.Node.nodeAt_congr _ n (MCTS.Node.update_children ops n st)]
      refine ⟨n0, hq, ?_⟩
      simpa using MCTS.Node.StepsTo.of_same_off ops st n0 n0 (MCTS.Node.SameButAvails.refl n0)
  | expand s n m s2 ht hm hmk =>
    intro q n0 hq
    cases q with
    | nil =>
      simp only [MCTS.Node.nodeAt, Option.some.injEq] at hq
      subst hq
      refine ⟨_, rfl, ?_⟩
      rw [show decide (([] : List Nat) <+: _) = true by simp]
      exact MCTS.Node.StepsTo.update ops st n _ rfl rfl rfl rfl rfl
    | cons i q =>
      rw [MCTS.Node.nodeAt_cons] at hq ⊢
      rw [MCTS.Node.update_children]
      simp only []
      cases hc : n.children[i]? with
      | none => rw [hc] at hq; exact Option.noConfusion hq
      | some c =>
        have hlt : i < n.children.length := (List.getElem?_eq_some.1 hc).1
        rw [List.getElem?_append_left hlt, hc]
        rw [hc] at hq
        refine ⟨n0, hq, ?_⟩
        have hnp : ¬ (i :: q <+: [n.children.length]) := by
          rw [List.cons_prefix_cons]
          intro h
          omega
        simpa [hnp] using
          MCTS.Node.StepsTo.of_same_off ops st n0 n0 (MCTS.Node.SameButAvails.refl n0)
  | descend s n i c s2 path sOut r ht hu hc hl hmk hr ih =>
    intro q n0 hq
    cases q with
    | nil =>
      simp only [MCTS.Node.nodeAt, Option.some.injEq] at hq
      subst hq
      refine ⟨_, rfl, ?_⟩
      rw [show decide (([] : List Nat) <+: _) = true by simp]
      exact MCTS.Node.StepsTo.update ops st n _ rfl rfl rfl rfl rfl
    | cons j q =>
      rw [MCTS.Node.nodeAt_cons] at hq ⊢
      rw [MCTS.Node.update_children]
      simp only []
      have hlt : i < n.children.length := (List.getElem?_eq_some.1 hc).1
      cases hcj : n.children[j]? with
      | none => rw [hcj] at hq; exact Option.noConfusion hq
      | some cj =>
        rw [hcj] at hq
        simp only [Option.some_bind] at hq
        by_cases hji : i = j
        · subst hji
          rw [hc] at hcj
          cases hcj
          have hlen : i < (MCTS.Node.bumpLegal ops (ops.getMoves s).1 n.children).length := by
            simpa [MCTS.Node.bumpLegal] using hlt
          rw [List.getElem?_set_self hlen]
          simp only [Option.some_bind]
          obtain ⟨n0', hq', hsame⟩ :=
            MCTS.Node.SameButAvails.nodeAt c c.bump (MCTS.Node.SameButAvails.bump c) q n0 hq
          obtain ⟨n1, h1, h2⟩ := ih q n0' hq'
          refine ⟨n1, h1, ?_⟩
          have := MCTS.Node.StepsTo.of_same ops st _ n0 n0' n1 hsame h2
          have hd : decide (i :: q <+: i :: path) = decide (q <+: path) := by
            simp [List.cons_prefix_cons]
          rw [hd]
          exact this
        · rw [List.getElem?_set_ne hji]
          unfold MCTS.Node.bumpLegal
          rw [List.getElem?_map, hcj]
          simp only [Option.map_some', Option.some_bind]
          have hsame : MCTS.Node.SameButAvails cj
              (if cj.isLegalChild ops (ops.getMoves s).1 = true then cj.bump else cj) := by
            split
            · exact MCTS.Node.SameButAvails.bump cj
            · exact MCTS.Node.SameButAvails.refl cj
          obtain ⟨n0', hq', hs'⟩ := MCTS.Node.SameButAvails.nodeAt cj _ hsame q n0 hq
          refine ⟨n0', hq', ?_⟩
          have hnp : ¬ (j :: q <+: i :: path) := by
            rw [List.cons_prefix_cons]
            intro h
            exact hji h.1.symm
          simpa [hnp] using MCTS.Node.StepsTo.of_same_off ops st n0 n0' hs'

/-- A node that is in the tree after one iteration and was not there before is the node
at the end of the path, freshly constructed and updated once. -/
theorem MCTS.IterRun.nodeAt_new (ops : StateOps S Move K) (st s sOut : S)
    (n r : MCTS.Node Move K) (path : List Nat) (h : MCTS.IterRun ops st s n path sOut r) :
    ∀ (q : List Nat) (n1 : MCTS.Node Move K), r.nodeAt q = some n1 → n.nodeAt q = none →
      q = path ∧ ∃ m p, n1 = (MCTS.Node.ctor m p).update ops st := by
  induction h with
  | stop s n ht =>
    intro q n1 hq hn
    cases q with
    | nil => exact Option.noConfusion hn
    | cons i q =>
      rw [MCTS.Node.nodeAt_congr _ n (MCTS.Node.update_children ops n st), hn] at hq
      exact Option.noConfusion hq
  | expand s n m s2 ht hm hmk =>
    intro q n1 hq hn
    cases q with
    | nil => exact Option.noConfusion hn
    | cons i q =>
      rw [MCTS.Node.nodeAt_cons] at hq hn
      rw [MCTS.Node.update_children] at hq
      simp only [] at hq
      rcases Nat.lt_trichotomy i n.children.length with hlt | heq | hgt
      · rw [List.getElem?_append_left hlt, hn] at hq
        exact Option.noConfusion hq
      · subst heq
        rw [List.getElem?_append_right (le_refl _)] at hq
        simp only [Nat.sub_self, List.getElem?_cons_zero, Option.some_bind] at hq
        cases q with
        | nil =>
          simp only [MCTS.Node.nodeAt, Option.some.injEq] at hq
          exact ⟨rfl, m, _, hq.symm⟩
        | cons j q =>
          rw [MCTS.Node.nodeAt_cons, MCTS.Node.update_children] at hq
          simp [MCTS.Node.ctor] at hq
      · rw [List.getElem?_eq_none (by simp; omega)] at hq
        exact Option.noConfusion hq
  | descend s n i c s2 path sOut r ht hu hc hl hmk hr ih =>
    intro q n1 hq hn
    cases q with
    | nil => exact Option.noConfusion hn
    | cons j q =>
      rw [MCTS.Node.nodeAt_cons] at hq hn
      rw [MCTS.Node.update_children] at hq
      simp only [] at hq
      have hlt : i < n.children.length := (List.getElem?_eq_some.1 hc).1
      by_cases hji : i = j
      · subst hji
        have hlen : i < (MCTS.Node.bumpLegal ops (ops.getMoves s).1 n.children).length := by
          simpa [MCTS.Node.bumpLegal] using hlt
        rw [List.getElem?_set_self hlen] at hq
        rw [hc] at hn
        simp only [Option.some_bind] at hq hn
        have hn' : c.bump.nodeAt q = none := by
          cases q with
          | nil => exact Option.noConfusion hn
          | cons k q =>
            rw [MCTS.Node.nodeAt_congr c.bump c rfl]
            exact hn
        obtain ⟨h1, h2⟩ := ih q n1 hq hn'
        exact ⟨by rw [h1], h2⟩
      · rw [List.getElem?_set_ne hji] at hq
        unfold MCTS.Node.bumpLegal at hq
        rw [List.getElem?_map] at hq
        cases hcj : n.children[j]? with
        | none =>
          rw [hcj] at hq
          exact Option.noConfusion hq
        | some cj =>
          rw [hcj] at hq hn
          simp only [Option.map_some', Option.some_bind] at hq hn
          exfalso
          cases q with
          | nil => exact Option.noConfusion hn
          | cons k q =>
            have hch : (if cj.isLegalChild ops (ops.getMoves s).1 = true then cj.bump
                else cj).children = cj.children := by
              split <;> rfl
            rw [MCTS.Node.nodeAt_congr _ cj hch, hn] at hq
            exact Option.noConfusion hq

/-- The path returned by `select` leads to a node of the tree after the iteration. -/
theorem MCTS.IterRun.nodeAt_path (ops : StateOps S Move K) (st s sOut : S)
    (n r : MCTS.Node Move K) (path : List Nat) (h : MCTS.IterRun ops st s n path sOut r) :
    ∃ a, r.nodeAt path = some a := by
  induction h with
  | stop s n ht => exact ⟨_, rfl⟩
  | expand s n m s2 ht hm hmk =>
    refine ⟨(MCTS.Node.ctor m (ops.playerToMove (ops.getMoves s).2)).update ops st, ?_⟩
    rw [MCTS.Node.nodeAt_cons, MCTS.Node.update_children]
    simp only []
    rw [List.getElem?_append_right (le_refl _)]
    simp [MCTS.Node.nodeAt]
  | descend s n i c s2 path sOut r ht hu hc hl hmk hr ih =>
    obtain ⟨a, ha⟩ := ih
    refine ⟨a, ?_⟩
    rw [MCTS.Node.nodeAt_cons, MCTS.Node.update_children]
    simp only []
    have hlt : i < n.children.length := (List.getElem?_eq_some.1 hc).1
    have hlen : i < (MCTS.Node.bumpLegal ops (ops.getMoves s).1 n.children).length := by
      simpa [MCTS.Node.bumpLegal] using hlt
    rw [List.getElem?_set_self hlen]
    exact ha

end PositionLemmas

/-! ## Loops over iterations, with the sampled states -/

section LoopLemmas

variable {S Move K : Type} [LinearOrderedField K]

/-- An invariant of `IterRun` on the states sampled from `state` is an invariant of the
`for` loop of `loop`. -/
theorem MCTS.loopFor_inv_run (ops : StateOps S Move K) (cm : CMath K) (exploration : K)
    (Inv : MCTS.Node Move K → Prop) (state : S)
    (hstep : ∀ st rnd n path sOut r,
      MCTS.IterRun ops st (ops.randomizeHiddenState state rnd).1 n path sOut r →
      ops.isTerminal st = true → (ops.isTerminal sOut = true → st = sOut) → Inv n → Inv r)
    (fuel : Nat) (iters : Nat) (node : MCTS.Node Move K) (rnd : RandStream)
    (res : MCTS.Node Move K × RandStream)
    (h : MCTS.loopFor ops cm exploration fuel state iters node rnd = some res)
    (hn : Inv node) : Inv res.1 := by
  induction iters generalizing node rnd with
  | zero =>
    simp only [MCTS.loopFor, Option.some.injEq] at h
    subst h
    exact hn
  | succ iters ih =>
    unfold MCTS.loopFor at h
    split at h
    · exact Option.noConfusion h
    · rename_i node1 st1 rnd1 hit
      obtain ⟨path, sOut, hrun, ht, hso⟩ :=
        MCTS.iterateNode_iterRun ops cm exploration fuel node state rnd _ hit
      exact ih node1 rnd1 h (hstep _ _ _ _ _ _ hrun ht hso hn)

/-- An invariant of `IterRun` on the states sampled twice from the root state is an
invariant of the public `loop`. -/
theorem MCTS.loop_inv_run (ops : StateOps S Move K) (cm : CMath K)
    (Inv : MCTS.Node Move K → Prop) (e : MCTS S Move K)
    (hstep : ∀ st r1 r2 n path sOut r,
      MCTS.IterRun ops st
        (ops.randomizeHiddenState (ops.randomizeHiddenState e.root_state r1).1 r2).1
        n path sOut r →
      ops.isTerminal st = true → (ops.isTerminal sOut = true → st = sOut) → Inv n → Inv r)
    (fuel : Nat) (iters : Nat) (rnd : RandStream) (res : MCTS S Move K × RandStream)
    (h : MCTS.loop ops cm fuel e iters rnd = some res)
    (hn : Inv e.root) :
    Inv res.1.root ∧ res.1.root_state = e.root_state ∧ res.1.exploration = e.exploration := by
  unfold MCTS.loop MCTS.loopNode MCTS.determinize at h
  simp only [] at h
  split at h
  · exact Option.noConfusion h
  · rename_i tree rnd1 hl
    simp only [Option.some.injEq] at h
    subst h
    exact ⟨MCTS.loopFor_inv_run ops cm e.exploration Inv _ (fun st r2 => hstep st rnd r2)
      fuel iters e.root _ _ hl hn, rfl, rfl⟩

/-- What a completed `getMove` returns: the loop has completed, and the move is `null()`
or the move of the child `std::max_element` finds. -/
theorem MCTS.getMove_eq_some (ops : StateOps S Move K) (cm : CMath K) (fuel : Nat)
    (e : MCTS S Move K) (iters : Nat) (rnd : RandStream)
    (res : MovePtr Move × MCTS S Move K × RandStream)
    (h : MCTS.getMove ops cm fuel e iters rnd = some res) :
    MCTS.loop ops cm fuel e iters rnd = some (res.2.1, res.2.2) ∧
      ((res.2.1.root.children = [] ∧ res.1 = ops.null) ∨
        ∃ best, MCTS.maxElement (fun (a b : MCTS.Node Move K) => decide (a.visits < b.visits))
          res.2.1.root.children = some best ∧ res.1 = best.move) := by
  unfold MCTS.getMove at h
  split at h
  · exact Option.noConfusion h
  · rename_i e1 rnd1 hl
    split at h
    · rename_i hemp
      simp only [Option.some.injEq] at h
      subst h
      exact ⟨hl, Or.inl ⟨by simpa using hemp, rfl⟩⟩
    · split at h
      · exact Option.noConfusion h
      · split at h
        · exact Option.noConfusion h
        · rename_i best hbest
          simp only [Option.some.injEq] at h
          subst h
          exact ⟨hl, Or.inr ⟨best, hbest, rfl⟩⟩

/-- A call of `getMove` returns when its loop completes and every conversion made for the
printing of the children of the root returns. -/
theorem MCTS.getMove_returns (ops : StateOps S Move K) (cm : CMath K) (fuel : Nat)
    (e e' : MCTS S Move K) (iters : Nat) (rnd rnd' : RandStream)
    (hl : MCTS.loop ops cm fuel e iters rnd = some (e', rnd'))
    (hp : MCTS.printsChildren ops e'.root.children = true) :
    ∃ mv, MCTS.getMove ops cm fuel e iters rnd = some (mv, e', rnd') := by
  unfold MCTS.getMove
  rw [hl]
  simp only [hp, Bool.not_true, Bool.false_eq_true, if_false]
  cases hc : e'.root.children with
  | nil => exact ⟨ops.null, by simp⟩
  | cons c cs =>
    exact ⟨(cs.foldl (fun (largest y : MCTS.Node Move K) =>
      if decide (largest.visits < y.visits) then y else largest) c).move,
      by simp [MCTS.maxElement]⟩

/-- The scan of `std::max_element` keeps the first position of the greatest key. -/
theorem MCTS.foldl_largest_spec {α : Type} (f : α → Nat) (rest pre : List α) (best : α)
    (ind : Nat) (hind : pre[ind]? = some best)
    (hpre : ∀ (j : Nat) (d : α), pre[j]? = some d → f d ≤ f best ∧ (j < ind → f d < f best)) :
    ∃ i, (pre ++ rest)[i]?
        = some (rest.foldl (fun (largest y : α) => if decide (f largest < f y) then y else largest)
            best) ∧
      ∀ (j : Nat) (d : α), (pre ++ rest)[j]? = some d →
        f d ≤ f (rest.foldl (fun (largest y : α) => if decide (f largest < f y) then y else largest)
            best) ∧
        (j < i → f d < f (rest.foldl
          (fun (largest y : α) => if decide (f largest < f y) then y else largest) best)) := by
  induction rest generalizing pre best ind with
  | nil =>
    refine ⟨ind, by simpa using hind, ?_⟩
    intro j d hd
    simp only [List.append_nil] at hd
    simpa using hpre j d hd
  | cons u rest ih =>
    have hlt : ind < pre.length := by
      by_contra hge
      rw [List.getElem?_eq_none (Nat.le_of_not_lt hge)] at hind
      exact Option.noConfusion hind
    have happ : pre ++ u :: rest = (pre ++ [u]) ++ rest := by simp
    have hsplit : ∀ j x, (pre ++ [u])[j]? = some x →
        (j < pre.length ∧ pre[j]? = some x) ∨ (j = pre.length ∧ x = u) := by
      intro j x hx
      rcases Nat.lt_trichotomy j pre.length with h | h | h
      · left
        rw [List.getElem?_append_left h] at hx
        exact ⟨h, hx⟩
      · right
        subst h
        simp at hx
        exact ⟨rfl, hx.symm⟩
      · exfalso
        rw [List.getElem?_eq_none (by simp; omega)] at hx
        exact Option.noConfusion hx
    rw [List.foldl_cons, happ]
    by_cases hu : f best < f u
    · simp only [hu, decide_True, if_true]
      apply ih (pre ++ [u]) u pre.length
      · simp
      · intro j x hx
        rcases hsplit j x hx with ⟨hj, hx'⟩ | ⟨hj, hx'⟩
        · have := (hpre j x hx').1
          exact ⟨by omega, fun _ => by omega⟩
        · subst hx'
          exact ⟨le_refl _, fun h => absurd h (by omega)⟩
    · simp only [hu, decide_False]
      apply ih (pre ++ [u]) best ind
      · rw [List.getElem?_append_left hlt]
        exact hind
      · intro j x hx
        rcases hsplit j x hx with ⟨hj, hx'⟩ | ⟨hj, hx'⟩
        · exact hpre j x hx'
        · subst hx'
          exact ⟨by omega, fun h => absurd h (by omega)⟩

/-- The element `std::max_element` finds for the comparison of `visits`: the first child
with the greatest number of visits. -/
theorem MCTS.maxElement_visits (l : List (MCTS.Node Move K)) (best : MCTS.Node Move K)
    (h : MCTS.maxElement (fun (a b : MCTS.Node Move K) => decide (a.visits < b.visits)) l
      = some best) :
    ∃ i, l[i]? = some best ∧
      ∀ (j : Nat) (d : MCTS.Node Move K), l[j]? = some d →
        d.visits ≤ best.visits ∧ (j < i → d.visits < best.visits) := by
  cases l with
  | nil => exact Option.noConfusion h
  | cons x xs =>
    simp only [MCTS.maxElement, Option.some.injEq] at h
    have := MCTS.foldl_largest_spec (fun a : MCTS.Node Move K => a.visits) xs [x] x 0 (by simp)
      (by
        intro j d hd
        cases j with
        | zero =>
          simp at hd
          subst hd
          exact ⟨le_refl _, fun h => absurd h (by omega)⟩
        | succ j => simp at hd)
    simp only [List.singleton_append] at this
    rw [h] at this
    exact this

end LoopLemmas

/-! ## Statements about commit, decision and backpropagation -/

section CommitClaims

variable {S Move K : Type} [LinearOrderedField K]

/-- C11. On the token game with three tokens, after one iteration the root has a child
for the move taking one token, stored at address 1, with `visits = 1` and `wins = 1`.
`makeMove` with a new object of the same value (at address 99) does not make that child
the root: the root then is a new node with `visits = 0`, `wins = 0` and no children. -/
theorem C11_makeMove_compares_pointers :
    ((MCTS.iterate (nimOps ℝ) realMath 5 (MCTS.ctor (nimOps ℝ) (7 / 10) ⟨3, 1⟩)
        (fun _ => 0)).bind (fun r =>
          (MCTS.makeMove (nimOps ℝ) r.1 ⟨99, 1⟩).map (fun e2 =>
            (r.1.root.children.map (fun c => (c.move.addr, c.move.val, c.visits, c.avails)),
              r.1.root.children.map (fun c => SharedEqual (nimOps ℝ) c.move ⟨99, 1⟩),
              e2.root.move.addr, e2.root.visits, e2.root.avails, e2.root.children.length))))
      = some ([(1, 1, 1, 1)], [true], 99, 0, 1, 0) ∧
    ((MCTS.iterate (nimOps ℝ) realMath 5 (MCTS.ctor (nimOps ℝ) (7 / 10) ⟨3, 1⟩)
        (fun _ => 0)).bind (fun r =>
          (MCTS.makeMove (nimOps ℝ) r.1 ⟨99, 1⟩).map (fun e2 =>
            (r.1.root.children.map (fun c => c.wins), e2.root.wins))))
      = some ([0 + 1], 0) :=
  ⟨rfl, rfl⟩

/-- C12. If no child of the root has a move equal to `M` (by value, and hence none is the
object `M` itself) and `M` can be applied to the root state, `makeMove(M)` completes and
the root is a new node with move `M`, mover the player to move, `visits = 0`, `wins = 0`,
`avails = 1` and no children; the only node reachable from it is itself. -/
theorem C12_makeMove_new_root (ops : StateOps S Move K) (e : MCTS S Move K) (M : MovePtr Move)
    (t : S)
    (hval : ∀ c ∈ e.root.children, SharedEqual ops c.move M = false)
    (hptr : ∀ c ∈ e.root.children, c.move.addr = M.addr → SharedEqual ops c.move M = true)
    (hmk : ops.makeMove e.root_state M = some t) :
    ∃ e', MCTS.makeMove ops e M = some e' ∧
      e'.root = MCTS.Node.ctor M (ops.playerToMove e.root_state) ∧
      e'.root.move = M ∧ e'.root.visits = 0 ∧ e'.root.wins = 0 ∧ e'.root.avails = 1 ∧
      e'.root.children = [] ∧
      ∀ (q : List Nat) (n : MCTS.Node Move K), e'.root.nodeAt q = some n → q = [] := by
  have hfind : e.root.children.find? (fun n => n.move.addr == M.addr) = none := by
    rw [List.find?_eq_none]
    intro c hc hcm
    have h1 := hptr c hc (by simpa using hcm)
    rw [hval c hc] at h1
    exact Bool.noConfusion h1
  refine ⟨{ e with root := MCTS.Node.ctor M (ops.playerToMove e.root_state), root_state := t },
    ?_, rfl, rfl, rfl, rfl, rfl, rfl, ?_⟩
  · unfold MCTS.makeMove
    simp only [hfind, MCTS.Node.addChild]
    rw [List.getElem?_append_right (le_refl _)]
    simp [hmk]
  · intro q n hq
    cases q with
    | nil => rfl
    | cons i q =>
      rw [MCTS.Node.nodeAt_cons] at hq
      simp [MCTS.Node.ctor] at hq

/-- C12, on the token game: after one iteration the root has the child for the move
taking one token; committing the move taking two tokens makes a new node the root. -/
theorem C12_makeMove_new_root_witness :
    ∃ e1 st rnd, MCTS.iterate (nimOps ℝ) realMath 5 (MCTS.ctor (nimOps ℝ) (7 / 10) ⟨3, 1⟩)
        (fun _ => 0) = some (e1, st, rnd) ∧
      e1.root.children.map (fun c => c.move.val) = [1] ∧
      ∃ e2, MCTS.makeMove (nimOps ℝ) e1 ⟨2, 2⟩ = some e2 ∧
        e2.root = MCTS.Node.ctor ⟨2, 2⟩ ((nimOps ℝ).playerToMove e1.root_state) := by
  have h : (MCTS.iterate (nimOps ℝ) realMath 5 (MCTS.ctor (nimOps ℝ) (7 / 10) ⟨3, 1⟩)
      (fun _ => 0)).map (fun r => (r.1.root.children.map (fun c => (c.move.addr, c.move.val)),
        r.1.root_state.tokens)) = some ([(1, 1)], 3) := rfl
  cases h1 : MCTS.iterate (nimOps ℝ) realMath 5 (MCTS.ctor (nimOps ℝ) (7 / 10) ⟨3, 1⟩)
      (fun _ => 0) with
  | none =>
    rw [h1] at h
    exact Option.noConfusion h
  | some r =>
    rw [h1] at h
    simp only [Option.map_some', Option.some.injEq, Prod.mk.injEq] at h
    obtain ⟨hch, htok⟩ := h
    have hmem : ∀ c ∈ r.1.root.children, c.move.addr = 1 ∧ c.move.val = 1 := by
      intro c hc
      have : (c.move.addr, c.move.val) ∈ r.1.root.children.map
          (fun c => (c.move.addr, c.move.val)) := List.mem_map_of_mem _ hc
      rw [hch] at this
      simpa using this
    obtain ⟨e2, h2, h3, _⟩ := C12_makeMove_new_root (nimOps ℝ) r.1 ⟨2, 2⟩
      ⟨r.1.root_state.tokens - 2, r.1.root_state.playerToMove % 2 + 1⟩
      (by
        intro c hc
        simp [SharedEqual, nimOps, (hmem c hc).2])
      (by
        intro c hc hcm
        rw [(hmem c hc).1] at hcm
        exact absurd hcm (by decide))
      (by simp [nimOps, htok])
    refine ⟨r.1, r.2.1, r.2.2, rfl, ?_, e2, h2, h3⟩
    have := congrArg (List.map Prod.snd) hch
    simpa [List.map_map] using this

end CommitClaims

/-! ## Statements about what an iteration and a decision change -/

section FrameClaims

variable {S Move K : Type} [LinearOrderedField K]

/-- C15. A completed `getMove(n)` leaves `root_state` (and the exploration constant) as
they were, and every node of the tree before the call is at the same position of the tree
after it, the root included, with the same move and mover and with `visits` and `avails`
not smaller than before. -/
theorem C15_getMove_tree_grows (ops : StateOps S Move K) (cm : CMath K) (fuel : Nat)
    (e e' : MCTS S Move K) (iters : Nat) (rnd rnd' : RandStream) (mv : MovePtr Move)
    (h : MCTS.getMove ops cm fuel e iters rnd = some (mv, e', rnd')) :
    e'.root_state = e.root_state ∧ e'.exploration = e.exploration ∧
      ∀ (q : List Nat) (n0 : MCTS.Node Move K), e.root.nodeAt q = some n0 →
        ∃ n1, e'.root.nodeAt q = some n1 ∧ n1.move = n0.move ∧
          n1.just_moved = n0.just_moved ∧ n0.visits ≤ n1.visits ∧ n0.avails ≤ n1.avails := by
  obtain ⟨hl, _⟩ := MCTS.getMove_eq_some ops cm fuel e iters rnd _ h
  have := MCTS.loop_inv_run ops cm
    (fun r => ∀ (q : List Nat) (n0 : MCTS.Node Move K), e.root.nodeAt q = some n0 →
      ∃ n1, r.nodeAt q = some n1 ∧ n1.move = n0.move ∧
        n1.just_moved = n0.just_moved ∧ n0.visits ≤ n1.visits ∧ n0.avails ≤ n1.avails)
    e ?_ fuel iters rnd _ hl ?_
  · exact ⟨this.2.1, this.2.2, this.1⟩
  · intro st r1 r2 n path sOut r hrun _ _ hn q n0 hq
    obtain ⟨n1, h1, hm, hj, hv, ha⟩ := hn q n0 hq
    obtain ⟨n2, h2, gm, gj, ga, gv, _⟩ :=
      MCTS.IterRun.nodeAt_old ops st _ sOut n r path hrun q n1 h1
    refine ⟨n2, h2, gm.trans hm, gj.trans hj, ?_, le_trans ha ga⟩
    rw [gv]
    split <;> omega
  · intro q n0 hq
    exact ⟨n0, hq, rfl, rfl, le_refl _, le_refl _⟩

/-- C15, on the token game with three tokens: `getMove(2)` on the fresh engine completes,
and the root is still the placeholder root on the same state. -/
theorem C15_getMove_tree_grows_witness :
    ∃ mv e' rnd', MCTS.getMove (nimOps ℝ) realMath 5 (MCTS.ctor (nimOps ℝ) (7 / 10) ⟨3, 1⟩) 2
        (fun _ => 0) = some (mv, e', rnd') ∧
      e'.root_state = (MCTS.ctor (nimOps ℝ) (7 / 10 : ℝ) ⟨3, 1⟩).root_state ∧
      ∃ n1, e'.root.nodeAt [] = some n1 ∧ n1.move = (nimOps ℝ).null := by
  have h : (MCTS.getMove (nimOps ℝ) realMath 5 (MCTS.ctor (nimOps ℝ) (7 / 10) ⟨3, 1⟩) 2
      (fun _ => 0)).isSome = true := rfl
  cases h1 : MCTS.getMove (nimOps ℝ) realMath 5 (MCTS.ctor (nimOps ℝ) (7 / 10) ⟨3, 1⟩) 2
      (fun _ => 0) with
  | none =>
    rw [h1] at h
    exact Bool.noConfusion h
  | some r =>
    have hc := C15_getMove_tree_grows (nimOps ℝ) realMath 5 _ r.2.1 2 (fun _ => 0) r.2.2 r.1 h1
    obtain ⟨n1, hn1, hm, _⟩ := hc.2.2 [] _ rfl
    exact ⟨r.1, r.2.1, r.2.2, rfl, hc.1, n1, hn1, hm⟩

/-- C18. In one completed `iterate()` the state `st` the rollout ended in is terminal, and
there is a path from the root to a node of the new tree (the active node) such that every
node that was in the tree is still at its position, with `visits` greater by exactly one
and `wins` as after one `update(st)` if its position is on the path (the root and the
ancestors of the active node included), and with `visits` and `wins` as before otherwise;
the only node that can be new is the active node, constructed and updated once. -/
theorem C18_backpropagation_path (ops : StateOps S Move K) (cm : CMath K) (fuel : Nat)
    (e e' : MCTS S Move K) (rnd rnd' : RandStream) (st : S)
    (h : MCTS.iterate ops cm fuel e rnd = some (e', st, rnd')) :
    ops.isTerminal st = true ∧ ∃ path : List Nat,
      (∃ a, e'.root.nodeAt path = some a) ∧
      (∀ (q : List Nat) (n0 : MCTS.Node Move K), e.root.nodeAt q = some n0 →
        ∃ n1, e'.root.nodeAt q = some n1 ∧
          n1.visits = (if q <+: path then n0.visits + 1 else n0.visits) ∧
          n1.wins = (if q <+: path then (n0.update ops st).wins else n0.wins)) ∧
      (∀ (q : List Nat) (n1 : MCTS.Node Move K), e'.root.nodeAt q = some n1 →
        e.root.nodeAt q = none →
        q = path ∧ ∃ m p, n1 = (MCTS.Node.ctor m p).update ops st) := by
  unfold MCTS.iterate at h
  split at h
  · exact Option.noConfusion h
  · rename_i tree st1 rnd1 hit
    simp only [Option.some.injEq, Prod.mk.injEq] at h
    obtain ⟨h, hst, _⟩ := h
    subst h
    subst hst
    obtain ⟨path, sOut, hrun, ht, _⟩ :=
      MCTS.iterateNode_iterRun ops cm e.exploration fuel e.root e.root_state rnd _ hit
    simp only [] at hrun ht
    refine ⟨ht, path, MCTS.IterRun.nodeAt_path ops _ _ _ _ _ _ hrun, ?_,
      MCTS.IterRun.nodeAt_new ops _ _ _ _ _ _ hrun⟩
    intro q n0 hq
    obtain ⟨n1, h1, _, _, _, hv, hw⟩ := MCTS.IterRun.nodeAt_old ops _ _ _ _ _ _ hrun q n0 hq
    refine ⟨n1, h1, ?_, ?_⟩
    · rw [hv]
      by_cases hp : q <+: path <;> simp [hp]
    · rw [hw]
      by_cases hp : q <+: path <;> simp [hp]

/-- C18, on the token game with three tokens: the first iteration completes in a terminal
state. -/
theorem C18_backpropagation_path_witness :
    ∃ e' st rnd', MCTS.iterate (nimOps ℝ) realMath 5 (MCTS.ctor (nimOps ℝ) (7 / 10) ⟨3, 1⟩)
        (fun _ => 0) = some (e', st, rnd') ∧ (nimOps ℝ).isTerminal st = true := by
  have h := nim_first_iteration
  cases h1 : MCTS.iterate (nimOps ℝ) realMath 5 (MCTS.ctor (nimOps ℝ) (7 / 10) ⟨3, 1⟩)
      (fun _ => 0) with
  | none =>
    rw [h1] at h
    exact Bool.noConfusion h
  | some r =>
    exact ⟨r.1, r.2.1, r.2.2, rfl,
      (C18_backpropagation_path (nimOps ℝ) realMath 5 _ r.1 (fun _ => 0) r.2.2 r.2.1 h1).1⟩

end FrameClaims

/-! ## The tree and the root state after commits -/

section TurnLemmas

variable {S Move K : Type} [LinearOrderedField K]

/-- An untried move is one of the legal moves. -/
theorem MCTS.Node.getUntriedMoves_subset (ops : StateOps S Move K) (n : MCTS.Node Move K)
    (legalMoves : List (MovePtr Move)) (m : MovePtr Move)
    (h : m ∈ n.getUntriedMoves ops legalMoves) : m ∈ legalMoves := by
  unfold MCTS.Node.getUntriedMoves at h
  simp only [] at h
  rw [foldl_push_back_filter, List.nil_append] at h
  exact List.mem_of_mem_filter h

theorem MCTS.Node.Turns.just_moved {listed : MovePtr Move → Prop} {nxt : Int → Int} {p : Int}
    {n : MCTS.Node Move K} (h : MCTS.Node.Turns listed nxt p n) : n.just_moved = p := by
  cases h with
  | mk _ _ hj _ _ => exact hj

theorem MCTS.Node.Turns.listed_move {listed : MovePtr Move → Prop} {nxt : Int → Int} {p : Int}
    {n : MCTS.Node Move K} (h : MCTS.Node.Turns listed nxt p n) : listed n.move := by
  cases h with
  | mk _ _ _ hm _ => exact hm

theorem MCTS.Node.Turns.children {listed : MovePtr Move → Prop} {nxt : Int → Int} {p : Int}
    {n : MCTS.Node Move K} (h : MCTS.Node.Turns listed nxt p n) :
    ∀ c ∈ n.children, MCTS.Node.Turns listed nxt (nxt p) c := by
  cases h with
  | mk _ _ _ _ hc => exact hc

/-- One iteration keeps the movers below a node in turn order, when applying a listed
move passes the turn by `nxt` and `getMoves` leaves the player to move as it is. -/
theorem MCTS.IterRun.turns (ops : StateOps S Move K) (listed : MovePtr Move → Prop)
    (nxt : Int → Int)
    (hget : ∀ s, ops.playerToMove (ops.getMoves s).2 = ops.playerToMove s)
    (hlist : ∀ s, ∀ m ∈ (ops.getMoves s).1, listed m)
    (hturn : ∀ s m t, listed m → ops.makeMove s m = some t →
      ops.playerToMove t = nxt (ops.playerToMove s))
    (st s sOut : S) (n r : MCTS.Node Move K) (path : List Nat)
    (h : MCTS.IterRun ops st s n path sOut r)
    (hn : ∀ c ∈ n.children, MCTS.Node.Turns listed nxt (ops.playerToMove s) c) :
    (∀ c ∈ r.children, MCTS.Node.Turns listed nxt (ops.playerToMove s) c) ∧
      r.just_moved = n.just_moved ∧ r.move = n.move := by
  induction h with
  | stop s n ht =>
    refine ⟨?_, MCTS.Node.update_just_moved ops _ _, MCTS.Node.update_move ops _ _⟩
    rw [MCTS.Node.update_children]
    exact hn
  | expand s n m s2 ht hm hmk =>
    refine ⟨?_, MCTS.Node.update_just_moved ops _ _, MCTS.Node.update_move ops _ _⟩
    intro c hc
    simp only [MCTS.Node.update_children, List.mem_append, List.mem_singleton] at hc
    rcases hc with hc | hc
    · exact hn c hc
    · subst hc
      refine MCTS.Node.Turns.mk _ _ ?_ ?_ ?_
      · rw [MCTS.Node.update_just_moved]
        exact hget s
      · rw [MCTS.Node.update_move]
        exact hlist s m (MCTS.Node.getUntriedMoves_subset ops n _ m hm)
      · intro d hd
        rw [MCTS.Node.update_children] at hd
        exact absurd hd (List.not_mem_nil d)
  | descend s n i c s2 path sOut r ht hu hc hl hmk hr ih =>
    refine ⟨?_, MCTS.Node.update_just_moved ops _ _, MCTS.Node.update_move ops _ _⟩
    have hcm : c ∈ n.children := List.getElem?_mem hc
    have hp2 : ops.playerToMove s2 = nxt (ops.playerToMove s) := by
      rw [hturn _ _ _ (hn c hcm).listed_move hmk, hget]
    have hr2 := ih (by
      intro d hd
      rw [hp2]
      exact (hn c hcm).children d hd)
    intro x hx
    simp only [MCTS.Node.update_children] at hx
    rcases List.mem_or_eq_of_mem_set hx with hx | hx
    · simp only [MCTS.Node.bumpLegal, List.mem_map] at hx
      obtain ⟨y, hy, rfl⟩ := hx
      have hty := hn y hy
      split
      · exact MCTS.Node.Turns.mk _ _ hty.just_moved hty.listed_move hty.children
      · exact hty
    · subst hx
      refine MCTS.Node.Turns.mk _ _ ?_ ?_ ?_
      · rw [hr2.2.1]
        exact (hn c hcm).just_moved
      · rw [hr2.2.2]
        exact (hn c hcm).listed_move
      · rw [← hp2]
        exact hr2.1

/-- The engine after `makeMove(move)`, in one expression: the move is applied to the root
state, and the root is the first child holding the pointer `move`, or a new node. -/
theorem MCTS.makeMove_eq (ops : StateOps S Move K) (e : MCTS S Move K) (move : MovePtr Move) :
    MCTS.makeMove ops e move = (ops.makeMove e.root_state move).map (fun t =>
      { e with
        root := (e.root.children.find? (fun n => n.move.addr == move.addr)).getD
          (MCTS.Node.ctor move (ops.playerToMove e.root_state)),
        root_state := t }) := by
  unfold MCTS.makeMove
  cases hf : e.root.children.find? (fun n => n.move.addr == move.addr) with
  | some c =>
    cases hm : ops.makeMove e.root_state move <;> simp
  | none =>
    simp only [MCTS.Node.addChild]
    rw [List.getElem?_append_right (le_refl _)]
    cases hm : ops.makeMove e.root_state move <;> simp

/-- In every engine reached with commits of listed moves, the movers recorded below the
root follow the turn order, starting with the player to move in the root state: the tree
and the root state are in step. -/
theorem MCTS.ReachableBy.in_step (ops : StateOps S Move K) (cm : CMath K) (exploration : K)
    (state : S) (listed : MovePtr Move → Prop) (nxt : Int → Int)
    (hdet : ∀ s rnd, ops.playerToMove (ops.randomizeHiddenState s rnd).1 = ops.playerToMove s)
    (hget : ∀ s, ops.playerToMove (ops.getMoves s).2 = ops.playerToMove s)
    (hlist : ∀ s, ∀ m ∈ (ops.getMoves s).1, listed m)
    (hturn : ∀ s m t, listed m → ops.makeMove s m = some t →
      ops.playerToMove t = nxt (ops.playerToMove s))
    (e : MCTS S Move K) (he : MCTS.ReachableBy ops cm exploration state listed e) :
    ∀ c ∈ e.root.children, MCTS.Node.Turns listed nxt (ops.playerToMove e.root_state) c := by
  have hloop : ∀ (e e' : MCTS S Move K) (fuel iters : Nat) (rnd rnd' : RandStream),
      MCTS.loop ops cm fuel e iters rnd = some (e', rnd') →
      (∀ c ∈ e.root.children, MCTS.Node.Turns listed nxt (ops.playerToMove e.root_state) c) →
      ∀ c ∈ e'.root.children,
        MCTS.Node.Turns listed nxt (ops.playerToMove e'.root_state) c := by
    intro e e' fuel iters rnd rnd' h ih
    have := MCTS.loop_inv_run ops cm
      (fun r => ∀ c ∈ r.children,
        MCTS.Node.Turns listed nxt (ops.playerToMove e.root_state) c)
      e ?_ fuel iters rnd _ h ih
    · simp only [] at this
      rw [this.2.1]
      exact this.1
    · intro st r1 r2 n path sOut r hrun _ _ hn
      have hp : ops.playerToMove
          (ops.randomizeHiddenState (ops.randomizeHiddenState e.root_state r1).1 r2).1
          = ops.playerToMove e.root_state := by rw [hdet, hdet]
      have := (MCTS.IterRun.turns ops listed nxt hget hlist hturn st _ sOut n r path hrun
        (by rw [hp]; exact hn)).1
      rw [hp] at this
      exact this
  induction he with
  | ctor =>
    intro c hc
    exact absurd hc (List.not_mem_nil c)
  | iterate e e' fuel rnd rnd' st _ h ih =>
    unfold MCTS.iterate at h
    split at h
    · exact Option.noConfusion h
    · rename_i tree st1 rnd1 hit
      simp only [Option.some.injEq, Prod.mk.injEq] at h
      obtain ⟨h, _, _⟩ := h
      subst h
      obtain ⟨path, sOut, hrun, _, _⟩ :=
        MCTS.iterateNode_iterRun ops cm e.exploration fuel e.root e.root_state rnd _ hit
      simp only [] at hrun
      have := (MCTS.IterRun.turns ops listed nxt hget hlist hturn _ _ sOut e.root tree path hrun
        (by rw [hdet]; exact ih)).1
      rw [hdet] at this
      exact this
  | loop e e' fuel iters rnd rnd' _ h ih => exact hloop e e' fuel iters rnd rnd' h ih
  | getMove e e' fuel iters rnd rnd' m _ h ih =>
    exact hloop e e' fuel iters rnd rnd' (MCTS.getMove_eq_some ops cm fuel e iters rnd _ h).1 ih
  | makeMove e e' m _ hm h ih =>
    rw [MCTS.makeMove_eq] at h
    cases hmk : ops.makeMove e.root_state m with
    | none =>
      rw [hmk] at h
      exact Option.noConfusion h
    | some t =>
      rw [hmk] at h
      simp only [Option.map_some', Option.some.injEq] at h
      subst h
      simp only []
      rw [hturn _ _ _ hm hmk]
      cases hf : e.root.children.find? (fun n => n.move.addr == m.addr) with
      | none =>
        intro c hc
        simp [MCTS.Node.ctor] at hc
      | some c0 =>
        simp only [Option.getD_some]
        exact (ih c0 (List.mem_of_find?_eq_some hf)).children

/-- An engine reached with commits of listed moves is a reachable engine. -/
theorem MCTS.ReachableBy.reachable (ops : StateOps S Move K) (cm : CMath K) (exploration : K)
    (state : S) (listed : MovePtr Move → Prop) (e : MCTS S Move K)
    (he : MCTS.ReachableBy ops cm exploration state listed e) :
    MCTS.Reachable ops cm exploration state e := by
  induction he with
  | ctor => exact MCTS.Reachable.ctor
  | iterate e e' fuel rnd rnd' st _ h ih => exact MCTS.Reachable.iterate e e' fuel rnd rnd' st ih h
  | loop e e' fuel iters rnd rnd' _ h ih => exact MCTS.Reachable.loop e e' fuel iters rnd rnd' ih h
  | getMove e e' fuel iters rnd rnd' m _ h ih =>
    exact MCTS.Reachable.getMove e e' fuel iters rnd rnd' m ih h
  | makeMove e e' m _ _ h ih => exact MCTS.Reachable.makeMove e e' m ih h

end TurnLemmas

/-! ## Statements about the tree and the root state after a commit -/

section StepClaims

variable {S Move K : Type} [LinearOrderedField K]

/-- C13. Let `listed` hold of the moves `getMoves()` lists (for `DurakState`: of every move
but the null move), and let the player to move be left as it is by
`randomizeHiddenState` and `getMoves` and pass on by a fixed turn order `nxt` with every
listed move that is applied, as in `DurakState`.  In every engine obtained from a fresh
one by completed calls of `iterate`, `loop`, `getMove` and commits of listed moves, if the
listed move `M` can be applied to the root state then `makeMove(M)` completes, the new
root holds the pointer `M` (and the value of `M`, when an address holds one value), its
`just_moved` is the player that was to move in the old root state, the new root state is
the old one with `M` applied, and the children of the new root are recorded for the
player to move in the new root state. -/
theorem C13_makeMove_in_step (ops : StateOps S Move K) (cm : CMath K) (exploration : K)
    (state : S) (listed : MovePtr Move → Prop) (nxt : Int → Int)
    (hdet : ∀ s rnd, ops.playerToMove (ops.randomizeHiddenState s rnd).1 = ops.playerToMove s)
    (hget : ∀ s, ops.playerToMove (ops.getMoves s).2 = ops.playerToMove s)
    (hlist : ∀ s, ∀ m ∈ (ops.getMoves s).1, listed m)
    (hturn : ∀ s m t, listed m → ops.makeMove s m = some t →
      ops.playerToMove t = nxt (ops.playerToMove s))
    (e : MCTS S Move K) (he : MCTS.ReachableBy ops cm exploration state listed e)
    (M : MovePtr Move) (t : S) (hM : listed M) (hmk : ops.makeMove e.root_state M = some t) :
    ∃ e', MCTS.makeMove ops e M = some e' ∧ e'.root.move.addr = M.addr ∧
      ((∀ c ∈ e.root.children, c.move.addr = M.addr → c.move = M) → e'.root.move = M) ∧
      e'.root.just_moved = ops.playerToMove e.root_state ∧ e'.root_state = t ∧
      ∀ c ∈ e'.root.children, c.just_moved = ops.playerToMove e'.root_state := by
  have hmm := MCTS.makeMove_eq ops e M
  rw [hmk, Option.map_some'] at hmm
  refine ⟨_, hmm, ?_, ?_, ?_, rfl, ?_⟩
  · cases hf : e.root.children.find? (fun n => n.move.addr == M.addr) with
    | none => rfl
    | some c0 => simpa using List.find?_some hf
  · intro hwf
    cases hf : e.root.children.find? (fun n => n.move.addr == M.addr) with
    | none => rfl
    | some c0 =>
      exact hwf c0 (List.mem_of_find?_eq_some hf) (by simpa using List.find?_some hf)
  · cases hf : e.root.children.find? (fun n => n.move.addr == M.addr) with
    | none => rfl
    | some c0 =>
      exact (MCTS.ReachableBy.in_step ops cm exploration state listed nxt hdet hget hlist hturn
        e he c0 (List.mem_of_find?_eq_some hf)).just_moved
  · intro c hc
    exact (MCTS.ReachableBy.in_step ops cm exploration state listed nxt hdet hget hlist hturn _
      (MCTS.ReachableBy.makeMove e _ M he hM hmm) c hc).just_moved

end StepClaims

/-! ## The children of the root after an iteration -/

section RootChildrenLemmas

variable {S Move K : Type} [LinearOrderedField K]

/-- One iteration leaves the move of the node it was started at as it is. -/
theorem MCTS.IterRun.move_eq (ops : StateOps S Move K) (st s sOut : S)
    (n r : MCTS.Node Move K) (path : List Nat) (h : MCTS.IterRun ops st s n path sOut r) :
    r.move = n.move := by
  cases h with
  | stop => exact MCTS.Node.update_move ops _ _
  | expand => exact MCTS.Node.update_move ops _ _
  | descend => exact MCTS.Node.update_move ops _ _

/-- The children of the node after one iteration: the children before, with their moves,
and possibly one more for a legal move of the sampled state. -/
theorem MCTS.IterRun.children_moves (ops : StateOps S Move K) (P : MovePtr Move → Prop)
    (st s sOut : S) (n r : MCTS.Node Move K) (path : List Nat)
    (h : MCTS.IterRun ops st s n path sOut r)
    (hn : ∀ c ∈ n.children, P c.move) (hl : ∀ m ∈ (ops.getMoves s).1, P m) :
    ∀ c ∈ r.children, P c.move := by
  cases h with
  | stop _ _ ht =>
    rw [MCTS.Node.update_children]
    exact hn
  | expand _ _ m s2 ht hm hmk =>
    intro c hc
    simp only [MCTS.Node.update_children, List.mem_append, List.mem_singleton] at hc
    rcases hc with hc | hc
    · exact hn c hc
    · subst hc
      rw [MCTS.Node.update_move]
      exact hl m (MCTS.Node.getUntriedMoves_subset ops n _ m hm)
  | descend _ _ i c s2 path sOut r ht hu hc hlc hmk hr =>
    intro x hx
    simp only [MCTS.Node.update_children] at hx
    rcases List.mem_or_eq_of_mem_set hx with hx | hx
    · simp only [MCTS.Node.bumpLegal, List.mem_map] at hx
      obtain ⟨y, hy, rfl⟩ := hx
      split
      · exact hn y hy
      · exact hn y hy
    · subst hx
      rw [MCTS.IterRun.move_eq ops st s2 sOut _ _ path hr]
      exact hn c (List.getElem?_mem hc)

/-- After one iteration a node has a child, if it had one or the sampled state was not
terminal. -/
theorem MCTS.IterRun.children_ne_nil (ops : StateOps S Move K)
    (st s sOut : S) (n r : MCTS.Node Move K) (path : List Nat)
    (h : MCTS.IterRun ops st s n path sOut r)
    (hn : ops.isTerminal (ops.getMoves s).2 = false ∨ n.children ≠ []) :
    r.children ≠ [] := by
  cases h with
  | stop _ _ ht =>
    rw [MCTS.Node.update_children]
    rcases hn with hn | hn
    · rw [ht] at hn
      exact Bool.noConfusion hn
    · exact hn
  | expand _ _ m s2 ht hm hmk =>
    rw [MCTS.Node.update_children]
    simp
  | descend _ _ i c s2 path sOut r ht hu hc hlc hmk hr =>
    rw [MCTS.Node.update_children]
    intro hnil
    have hlen := congrArg List.length hnil
    simp only [List.length_set, MCTS.Node.bumpLegal, List.length_map, List.length_nil] at hlen
    have hlt : i < n.children.length := (List.getElem?_eq_some_iff.mp hc).1
    omega

/-- A property the first iteration establishes and every later one keeps holds after the
`for` loop of `loop` with at least one iteration. -/
theorem MCTS.loopFor_inv_run_first (ops : StateOps S Move K) (cm : CMath K) (exploration : K)
    (Inv0 Inv : MCTS.Node Move K → Prop) (state : S)
    (hfirst : ∀ st rnd n path sOut r,
      MCTS.IterRun ops st (ops.randomizeHiddenState state rnd).1 n path sOut r →
      ops.isTerminal st = true → (ops.isTerminal sOut = true → st = sOut) → Inv0 n → Inv r)
    (hstep : ∀ st rnd n path sOut r,
      MCTS.IterRun ops st (ops.randomizeHiddenState state rnd).1 n path sOut r →
      ops.isTerminal st = true → (ops.isTerminal sOut = true → st = sOut) → Inv n → Inv r)
    (fuel : Nat) (iters : Nat) (node : MCTS.Node Move K) (rnd : RandStream)
    (res : MCTS.Node Move K × RandStream)
    (h : MCTS.loopFor ops cm exploration fuel state (iters + 1) node rnd = some res)
    (hn : Inv0 node) : Inv res.1 := by
  unfold MCTS.loopFor at h
  split at h
  · exact Option.noConfusion h
  · rename_i node1 st1 rnd1 hit
    obtain ⟨path, sOut, hrun, ht, hso⟩ :=
      MCTS.iterateNode_iterRun ops cm exploration fuel node state rnd _ hit
    exact MCTS.loopFor_inv_run ops cm exploration Inv state hstep fuel iters node1 rnd1 res h
      (hfirst _ _ _ _ _ _ hrun ht hso hn)

/-- A property the first iteration establishes and every later one keeps holds after the
public `loop` with at least one iteration. -/
theorem MCTS.loop_inv_run_first (ops : StateOps S Move K) (cm : CMath K)
    (Inv0 Inv : MCTS.Node Move K → Prop) (e : MCTS S Move K)
    (hfirst : ∀ st r1 r2 n path sOut r,
      MCTS.IterRun ops st
        (ops.randomizeHiddenState (ops.randomizeHiddenState e.root_state r1).1 r2).1
        n path sOut r →
      ops.isTerminal st = true → (ops.isTerminal sOut = true → st = sOut) → Inv0 n → Inv r)
    (hstep : ∀ st r1 r2 n path sOut r,
      MCTS.IterRun ops st
        (ops.randomizeHiddenState (ops.randomizeHiddenState e.root_state r1).1 r2).1
        n path sOut r →
      ops.isTerminal st = true → (ops.isTerminal sOut = true → st = sOut) → Inv n → Inv r)
    (fuel : Nat) (iters : Nat) (rnd : RandStream) (res : MCTS S Move K × RandStream)
    (h : MCTS.loop ops cm fuel e (iters + 1) rnd = some res)
    (hn : Inv0 e.root) : Inv res.1.root := by
  unfold MCTS.loop MCTS.loopNode MCTS.determinize at h
  simp only [] at h
  split at h
  · exact Option.noConfusion h
  · rename_i tree rnd1 hl
    simp only [Option.some.injEq] at h
    subst h
    exact MCTS.loopFor_inv_run_first ops cm e.exploration Inv0 Inv _
      (fun st r2 => hfirst st rnd r2) (fun st r2 => hstep st rnd r2) fuel iters e.root _ _ hl hn

/-- One iteration keeps the children of the root for a move that ends the game with a
win of player `p0`, the player to move, at `wins = visits`. -/
theorem MCTS.IterRun.winning_children (ops : StateOps S Move K) (W : MovePtr Move) (p0 : Int)
    (hp0 : p0 ≠ -1) (st s sOut : S) (n r : MCTS.Node Move K) (path : List Nat)
    (h : MCTS.IterRun ops st s n path sOut r)
    (hso : ops.isTerminal sOut = true → st = sOut)
    (hp : ops.playerToMove (ops.getMoves s).2 = p0)
    (hW : ∀ m' s2, SharedEqual ops m' W = true → ops.makeMove (ops.getMoves s).2 m' = some s2 →
      ops.isTerminal s2 = true ∧ ops.getResult s2 p0 = 1 ∧
      ops.isTerminal (ops.getMoves s2).2 = true ∧ ops.getResult (ops.getMoves s2).2 p0 = 1)
    (hn : ∀ c ∈ n.children, SharedEqual ops c.move W = true →
      c.just_moved = p0 ∧ 1 ≤ c.visits ∧ c.wins = c.visits) :
    ∀ c ∈ r.children, SharedEqual ops c.move W = true →
      c.just_moved = p0 ∧ 1 ≤ c.visits ∧ c.wins = c.visits := by
  cases h with
  | stop _ _ ht =>
    rw [MCTS.Node.update_children]
    exact hn
  | expand _ _ m s2 ht hm hmk =>
    intro c hc hcw
    simp only [MCTS.Node.update_children, List.mem_append, List.mem_singleton] at hc
    rcases hc with hc | hc
    · exact hn c hc hcw
    · subst hc
      rw [MCTS.Node.update_move] at hcw
      obtain ⟨ht2, hres, _, _⟩ := hW m sOut hcw hmk
      have hst := hso ht2
      subst hst
      refine ⟨?_, ?_, ?_⟩
      · rw [MCTS.Node.update_just_moved]
        exact hp
      · rw [MCTS.Node.update_visits]
        exact Nat.le_add_left 1 _
      · rw [MCTS.Node.update_wins, MCTS.Node.update_visits]
        simp only [MCTS.Node.ctor, hp, if_neg hp0, hres]
        norm_num
  | descend _ _ i c s2 path sOut r ht hu hc hlc hmk hr =>
    intro x hx hxw
    simp only [MCTS.Node.update_children] at hx
    rcases List.mem_or_eq_of_mem_set hx with hx | hx
    · simp only [MCTS.Node.bumpLegal, List.mem_map] at hx
      obtain ⟨y, hy, rfl⟩ := hx
      split at hxw
      · rw [if_pos (by assumption)]
        exact hn y hy hxw
      · rw [if_neg (by assumption)]
        exact hn y hy hxw
    · subst hx
      have hcm : c ∈ n.children := List.getElem?_mem hc
      have hmv := MCTS.IterRun.move_eq ops st s2 sOut _ _ path hr
      rw [hmv] at hxw
      obtain ⟨hj, hv, hw⟩ := hn c hcm hxw
      obtain ⟨_, _, ht2, hres⟩ := hW c.move s2 hxw hmk
      cases hr with
      | stop _ _ ht3 =>
        have hst := hso ht2
        subst hst
        refine ⟨?_, ?_, ?_⟩
        · rw [MCTS.Node.update_just_moved]
          exact hj
        · rw [MCTS.Node.update_visits]
          exact Nat.le_add_left 1 _
        · rw [MCTS.Node.update_wins, MCTS.Node.update_visits]
          simp only [MCTS.Node.bump, hj, if_neg hp0, hres, hw]
          push_cast
          rfl
      | expand _ _ m s3 ht3 hm3 hmk3 =>
        rw [ht2] at ht3
        exact Bool.noConfusion ht3
      | descend _ _ j d s3 path3 sOut3 r3 ht3 hu3 hc3 hl3 hmk3 hr3 =>
        rw [ht2] at ht3
        exact Bool.noConfusion ht3

end RootChildrenLemmas

/-! ## The game of one move: a search that only expands -/

section OneShot

variable {K : Type} [LinearOrderedField K]

/-- The moves of the game of one move meet the requirements of `std::unordered_set`. -/
theorem oneShotOps_lawful (K : Type) [LinearOrderedField K] : (oneShotOps K).LawfulMove where
  eq_symm := by
    intro a b h
    simp only [oneShotOps, beq_iff_eq] at h ⊢
    exact h.symm
  eq_trans := by
    intro a b c h1 h2
    simp only [oneShotOps, beq_iff_eq] at h1 h2 ⊢
    exact h1.trans h2
  hash_eq := by
    intro a b h
    simp only [oneShotOps, beq_iff_eq] at h ⊢
    rw [h]

theorem List.filter_range_not_lt (n k : Nat) :
    (List.range n).filter (fun i => !decide (i < k)) = List.range' k (n - k) := by
  induction n with
  | zero => simp
  | succ n ih =>
    rw [List.range_succ, List.filter_append, ih]
    by_cases h : n < k
    · have h1 : n - k = 0 := by omega
      have h2 : n + 1 - k = 0 := by omega
      simp [h, h1, h2]
    · have h2 : n + 1 - k = (n - k) + 1 := by omega
      rw [h2, List.range'_concat]
      simp [h]
      omega

theorem oneShotChild_move (j : Nat) : (oneShotChild K j).move = ⟨j, j⟩ :=
  MCTS.Node.update_move _ _ _

theorem oneShotChild_visits (j : Nat) : (oneShotChild K j).visits = 1 :=
  MCTS.Node.update_visits _ _ _

/-- With the children for the moves below `k`, the untried moves are `k` to `100`. -/
theorem oneShot_untried (k : Nat) (hk : k ≤ 100) :
    (oneShotTree K k).getUntriedMoves (oneShotOps K)
        ((List.range 101).map (fun j => (⟨j, j⟩ : MovePtr Nat)))
      = ⟨k, k⟩ :: (List.range' (k + 1) (100 - k)).map (fun j => (⟨j, j⟩ : MovePtr Nat)) := by
  rw [MCTS.Node.getUntriedMoves_eq _ (oneShotOps_lawful K), List.filter_map]
  have hp : ((fun (m : MovePtr Nat) => !(oneShotTree K k).children.any
      (fun c => SharedEqual (oneShotOps K) m c.move)) ∘ (fun j => (⟨j, j⟩ : MovePtr Nat)))
      = (fun i => !decide (i < k)) := by
    funext i
    simp only [Function.comp, oneShotTree, List.any_map, SharedEqual, oneShotOps, oneShotChild,
      MCTS.Node.update_move, MCTS.Node.ctor]
    congr 1
    rw [Bool.eq_iff_iff]
    simp only [List.any_eq_true, List.mem_map, List.mem_range, beq_iff_eq,
      decide_eq_true_eq]
    constructor
    · rintro ⟨c, ⟨a, ha, rfl⟩, hc⟩
      rw [oneShotChild_move] at hc
      rw [hc]
      exact ha
    · intro hi
      exact ⟨oneShotChild K i, ⟨i, hi, rfl⟩, by rw [oneShotChild_move]⟩
  rw [hp, List.filter_range_not_lt]
  have : 101 - k = (100 - k) + 1 := by omega
  rw [this, List.range'_succ]
  rfl

theorem oneShot_select (cm : CMath K) (exploration : K) (fuel k : Nat) (hk : k ≤ 100) :
    MCTS.select (oneShotOps K) cm exploration (fuel + 1) (oneShotTree K k) none (fun _ => 0)
      = some ({ oneShotTree K k with
                children := (oneShotTree K k).children ++ [MCTS.Node.ctor ⟨k, k⟩ 1] },
          [k], some k, fun _ => 0) := by
  have hgm : (oneShotOps K).getMoves none
      = ((List.range 101).map (fun j => (⟨j, j⟩ : MovePtr Nat)), none) := rfl
  have hterm : (oneShotOps K).isTerminal none = false := rfl
  have hpl : (oneShotOps K).playerToMove none = 1 := rfl
  have hmk : (oneShotOps K).makeMove none ⟨k, k⟩ = some (some k) := by
    simp [oneShotOps, hk]
  have hlen : (oneShotTree K k).children.length = k := by
    simp [oneShotTree]
  unfold MCTS.select
  simp only [hgm, oneShot_untried k hk, hterm]
  simp [MCTS.expand, rand, hmk, hpl, MCTS.Node.addChild, hlen]

/-- One iteration with random number 0 expands the first untried move. -/
theorem oneShot_iterateNode (cm : CMath K) (exploration : K) (fuel k : Nat) (hk : k ≤ 100) :
    MCTS.iterateNode (oneShotOps K) cm exploration (fuel + 1) (oneShotTree K k) none
        (fun _ => 0)
      = some (oneShotTree K (k + 1), some k, fun _ => 0) := by
  have hrh : (oneShotOps K).randomizeHiddenState none (fun _ => 0) = (none, fun _ => 0) := rfl
  have hlen : (oneShotTree K k).children.length = k := by
    simp [oneShotTree]
  unfold MCTS.iterateNode MCTS.determinize
  simp only [hrh, oneShot_select cm exploration fuel k hk]
  have hroll : MCTS.rollout (oneShotOps K) (fuel + 1) (some k) (fun _ => 0)
      = some (some k, fun _ => 0) := rfl
  simp only [hroll, MCTS.backpropagate]
  congr 2
  have hmod : ((oneShotTree K k).children ++ [MCTS.Node.ctor ⟨k, k⟩ 1]).modify
      (fun x => MCTS.Node.update (oneShotOps K) x (some k)) k
      = (List.range (k + 1)).map (oneShotChild K) := by
    have := List.modify_length_append (fun x => MCTS.Node.update (oneShotOps K) x (some k))
      (oneShotTree K k).children (MCTS.Node.ctor ⟨k, k⟩ 1) []
    rw [hlen] at this
    rw [this, List.range_succ, List.map_append]
    rfl
  simp only [hmod]
  simp [MCTS.Node.update, oneShotTree]

theorem oneShot_loopFor (cm : CMath K) (exploration : K) (fuel : Nat) (n : Nat) :
    ∀ k, k + n ≤ 101 →
      MCTS.loopFor (oneShotOps K) cm exploration (fuel + 1) none n (oneShotTree K k)
          (fun _ => 0)
        = some (oneShotTree K (k + n), fun _ => 0) := by
  induction n with
  | zero =>
    intro k _
    rfl
  | succ n ih =>
    intro k hk
    unfold MCTS.loopFor
    simp only [oneShot_iterateNode cm exploration fuel k (by omega)]
    rw [ih (k + 1) (by omega)]
    congr 3
    omega

theorem MCTS.foldl_largest_first (l : List (MCTS.Node Nat K)) (x : MCTS.Node Nat K)
    (h : ∀ y ∈ l, y.visits ≤ x.visits) :
    l.foldl (fun largest y => if decide (largest.visits < y.visits) = true then y else largest) x
      = x := by
  induction l with
  | nil => rfl
  | cons y l ih =>
    have hy : ¬ x.visits < y.visits := Nat.not_lt.mpr (h y (List.mem_cons_self y l))
    simp only [List.foldl_cons, decide_eq_true_eq, hy, if_false]
    simpa using ih (fun z hz => h z (List.mem_cons_of_mem y hz))

theorem oneShot_loop (cm : CMath K) (exploration : K) (fuel n : Nat) (hn : n ≤ 101) :
    MCTS.loop (oneShotOps K) cm (fuel + 1) (MCTS.ctor (oneShotOps K) exploration none)
        n (fun _ => 0)
      = some ({ root := oneShotTree K n, root_state := none, exploration := exploration },
          fun _ => 0) := by
  have h := oneShot_loopFor cm exploration fuel n 0 (by omega)
  rw [Nat.zero_add] at h
  have h2 : MCTS.loopNode (oneShotOps K) cm
      (MCTS.ctor (oneShotOps K) exploration none).exploration (fuel + 1)
      (MCTS.ctor (oneShotOps K) exploration none).root
      (MCTS.ctor (oneShotOps K) exploration none).root_state n
      (fun _ => 0) = some (oneShotTree K n, fun _ => 0) := h
  unfold MCTS.loop
  rw [h2]
  rfl

/-- The decision after `n + 1` iterations with random number 0: all children have one
visit, and `std::max_element` keeps the first. -/
theorem oneShot_getMove (cm : CMath K) (exploration : K) (fuel n : Nat) (hn : n ≤ 100) :
    MCTS.getMove (oneShotOps K) cm (fuel + 1) (MCTS.ctor (oneShotOps K) exploration none)
        (n + 1) (fun _ => 0)
      = some (⟨0, 0⟩,
          { root := oneShotTree K (n + 1), root_state := none, exploration := exploration },
          fun _ => 0) := by
  have hch : (oneShotTree K (n + 1)).children
      = oneShotChild K 0 :: ((List.range n).map Nat.succ).map (oneShotChild K) := by
    simp only [oneShotTree]
    rw [List.range_succ_eq_map, List.map_cons]
  unfold MCTS.getMove
  rw [oneShot_loop cm exploration fuel (n + 1) (by omega)]
  have hpr : MCTS.printsChildren (oneShotOps K)
      (oneShotChild K 0 :: ((List.range n).map Nat.succ).map (oneShotChild K)) = true := by
    unfold MCTS.printsChildren
    rw [List.all_eq_true]
    intro c _
    rfl
  simp only [hch, MCTS.maxElement, List.isEmpty_cons, hpr]
  rw [MCTS.foldl_largest_first]
  · simp [oneShotChild_move]
  · intro y hy
    simp only [List.mem_map] at hy
    obtain ⟨j, _, rfl⟩ := hy
    rw [oneShotChild_visits, oneShotChild_visits]

end OneShot

/-! ## Statements about the decision in two scenarios -/

section ScenarioClaims

variable {S Move K : Type} [LinearOrderedField K]

/-- C16, amended.  If every child the root already has carries a move equal to `m` (a
fresh engine has none), every state the iterations sample from the root state is not
terminal and has no legal move other than `m`, and the conversion to `std::string` returns
for every move equal to `m`, then `getMove(n)` with `n >= 1`, once its iterations have
completed, returns, and the move it returns is equal to `m`. -/
theorem C16_single_legal_move (ops : StateOps S Move K) (cm : CMath K) (fuel : Nat)
    (e e' : MCTS S Move K) (iters : Nat) (rnd rnd' : RandStream) (m : MovePtr Move)
    (hch : ∀ c ∈ e.root.children, SharedEqual ops c.move m = true)
    (hone : ∀ r1 r2,
      ops.isTerminal (ops.getMoves (ops.randomizeHiddenState
        (ops.randomizeHiddenState e.root_state r1).1 r2).1).2 = false ∧
      ∀ m' ∈ (ops.getMoves (ops.randomizeHiddenState
        (ops.randomizeHiddenState e.root_state r1).1 r2).1).1, SharedEqual ops m' m = true)
    (hstr : ∀ m' : MovePtr Move, SharedEqual ops m' m = true → ops.moveString m'.val ≠ none)
    (hn : 1 ≤ iters)
    (hl : MCTS.loop ops cm fuel e iters rnd = some (e', rnd')) :
    ∃ mv, MCTS.getMove ops cm fuel e iters rnd = some (mv, e', rnd') ∧
      SharedEqual ops mv m = true := by
  obtain ⟨k, rfl⟩ : ∃ k, iters = k + 1 := ⟨iters - 1, by omega⟩
  have hinv := MCTS.loop_inv_run_first ops cm
    (fun r => ∀ c ∈ r.children, SharedEqual ops c.move m = true)
    (fun r => (∀ c ∈ r.children, SharedEqual ops c.move m = true) ∧ r.children ≠ [])
    e ?_ ?_ fuel k rnd _ hl hch
  · simp only [] at hinv
    have hp : MCTS.printsChildren ops e'.root.children = true := by
      unfold MCTS.printsChildren
      rw [List.all_eq_true]
      intro c hc
      exact Option.isSome_iff_ne_none.2 (hstr c.move (hinv.1 c hc))
    obtain ⟨mv, h⟩ := MCTS.getMove_returns ops cm fuel e e' (k + 1) rnd rnd' hl hp
    obtain ⟨_, hmv⟩ := MCTS.getMove_eq_some ops cm fuel e (k + 1) rnd _ h
    refine ⟨mv, h, ?_⟩
    simp only [] at hmv
    rcases hmv with ⟨hemp, _⟩ | ⟨best, hbest, hm⟩
    · exact absurd hemp hinv.2
    · obtain ⟨i, hi, _⟩ := MCTS.maxElement_visits _ best hbest
      rw [hm]
      exact hinv.1 best (List.getElem?_mem hi)
  · intro st r1 r2 n path sOut r hrun _ _ hin
    exact ⟨MCTS.IterRun.children_moves ops (fun c => SharedEqual ops c m = true) st _ sOut n r
        path hrun hin (hone r1 r2).2,
      MCTS.IterRun.children_ne_nil ops st _ sOut n r path hrun (Or.inl (hone r1 r2).1)⟩
  · intro st r1 r2 n path sOut r hrun _ _ hin
    exact ⟨MCTS.IterRun.children_moves ops (fun c => SharedEqual ops c m = true) st _ sOut n r
        path hrun hin.1 (hone r1 r2).2,
      MCTS.IterRun.children_ne_nil ops st _ sOut n r path hrun (Or.inl (hone r1 r2).1)⟩

/-- C16, on the token game with one token: on the fresh engine the iteration of
`getMove(1)` completes, the call returns, and the move it returns is equal to the one
legal move, taking the token. -/
theorem C16_single_legal_move_witness :
    ∃ e' rnd', MCTS.loop (nimOps ℝ) realMath 5 (MCTS.ctor (nimOps ℝ) (7 / 10) ⟨1, 1⟩) 1
        (fun _ => 0) = some (e', rnd') ∧
      ∃ mv, MCTS.getMove (nimOps ℝ) realMath 5 (MCTS.ctor (nimOps ℝ) (7 / 10) ⟨1, 1⟩) 1
          (fun _ => 0) = some (mv, e', rnd') ∧ SharedEqual (nimOps ℝ) mv ⟨1, 1⟩ = true := by
  have h : (MCTS.loop (nimOps ℝ) realMath 5 (MCTS.ctor (nimOps ℝ) (7 / 10) ⟨1, 1⟩) 1
      (fun _ => 0)).isSome = true := rfl
  cases h1 : MCTS.loop (nimOps ℝ) realMath 5 (MCTS.ctor (nimOps ℝ) (7 / 10) ⟨1, 1⟩) 1
      (fun _ => 0) with
  | none =>
    rw [h1] at h
    exact Bool.noConfusion h
  | some r =>
    refine ⟨r.1, r.2, rfl, ?_⟩
    exact C16_single_legal_move (nimOps ℝ) realMath 5 (MCTS.ctor (nimOps ℝ) (7 / 10) ⟨1, 1⟩)
      r.1 1 (fun _ => 0) r.2 ⟨1, 1⟩
      (fun c hc => absurd hc (List.not_mem_nil c))
      (fun r1 r2 => ⟨rfl, fun m' hm' => by
        have : m' = ⟨1, 1⟩ := by simpa [nimOps, MCTS.ctor] using hm'
        rw [this]
        rfl⟩)
      (fun m' _ => Option.some_ne_none _)
      (le_refl 1) h1

/-- C17, as stated, fails on the game of one move.  Player 1 is to move and the move `100`
leads directly to a terminal state with result 1 for player 1.  On the fresh engine, with
every random number 0, `getMove(100)` completes and returns the move `0`: the root has
100 children, each visited once, and none of them is labelled `100`. -/
theorem C17_counterexample :
    (oneShotOps ℝ).playerToMove none = 1 ∧
    ((oneShotOps ℝ).makeMove none ⟨100, 100⟩).map (fun t =>
      ((oneShotOps ℝ).isTerminal t, (oneShotOps ℝ).getResult t 1)) = some (true, 1) ∧
    ∃ e' rnd', MCTS.getMove (oneShotOps ℝ) realMath 2 (MCTS.ctor (oneShotOps ℝ) (7 / 10) none)
        100 (fun _ => 0) = some (⟨0, 0⟩, e', rnd') ∧
      e'.root.children.length = 100 ∧
      ∀ c ∈ e'.root.children,
        c.visits = 1 ∧ SharedEqual (oneShotOps ℝ) c.move ⟨100, 100⟩ = false := by
  have h := oneShot_getMove realMath (7 / 10 : ℝ) 1 99 (by omega)
  refine ⟨rfl, rfl, _, _, h, ?_, ?_⟩
  · simp only [oneShotTree, List.length_map, List.length_range]
  · intro c hc
    simp only [oneShotTree, List.mem_map, List.mem_range] at hc
    obtain ⟨j, hj, rfl⟩ := hc
    refine ⟨oneShotChild_visits j, ?_⟩
    rw [oneShotChild_move]
    simp only [SharedEqual, oneShotOps, beq_eq_false_iff_ne, ne_eq]
    omega

/-- C17, amended.  Let the root have no children (a fresh engine), let the player `P` to
move in the root state not be numbered `-1` and be the player to move in every state the
iterations sample, and let every move equal to `W` lead from every such state directly to
a terminal state with `getResult(P) = 1`.  After a completed `getMove(n)`, for any `n`
and any random choices, every child of the root labelled `W` has `visits >= 1` and
`wins = visits`, so that `wins / visits > 0.9`. -/
theorem C17_winning_child_mean (ops : StateOps S Move K) (cm : CMath K) (fuel : Nat)
    (e e' : MCTS S Move K) (iters : Nat) (rnd rnd' : RandStream) (mv W : MovePtr Move)
    (hroot : e.root.children = [])
    (hp0 : ops.playerToMove e.root_state ≠ -1)
    (hp : ∀ r1 r2, ops.playerToMove (ops.getMoves (ops.randomizeHiddenState
      (ops.randomizeHiddenState e.root_state r1).1 r2).1).2 = ops.playerToMove e.root_state)
    (hW : ∀ r1 r2 m' s2, SharedEqual ops m' W = true →
      ops.makeMove (ops.getMoves (ops.randomizeHiddenState
        (ops.randomizeHiddenState e.root_state r1).1 r2).1).2 m' = some s2 →
      ops.isTerminal s2 = true ∧ ops.getResult s2 (ops.playerToMove e.root_state) = 1 ∧
      ops.isTerminal (ops.getMoves s2).2 = true ∧
      ops.getResult (ops.getMoves s2).2 (ops.playerToMove e.root_state) = 1)
    (h : MCTS.getMove ops cm fuel e iters rnd = some (mv, e', rnd')) :
    ∀ c ∈ e'.root.children, SharedEqual ops c.move W = true →
      1 ≤ c.visits ∧ c.wins = c.visits ∧ 9 / 10 < c.wins / c.visits := by
  obtain ⟨hl, _⟩ := MCTS.getMove_eq_some ops cm fuel e iters rnd _ h
  have hinv := MCTS.loop_inv_run ops cm
    (fun r => ∀ c ∈ r.children, SharedEqual ops c.move W = true →
      c.just_moved = ops.playerToMove e.root_state ∧ 1 ≤ c.visits ∧ c.wins = c.visits)
    e ?_ fuel iters rnd _ hl ?_
  · intro c hc hcw
    obtain ⟨_, hv, hw⟩ := hinv.1 c hc hcw
    refine ⟨hv, hw, ?_⟩
    have hpos : (0 : K) < (c.visits : K) := by
      exact_mod_cast hv
    rw [hw, div_self (ne_of_gt hpos)]
    norm_num
  · intro st r1 r2 n path sOut r hrun _ hso hin
    exact MCTS.IterRun.winning_children ops W _ hp0 st _ sOut n r path hrun hso (hp r1 r2)
      (hW r1 r2) hin
  · intro c hc
    rw [hroot] at hc
    exact absurd hc (List.not_mem_nil c)

/-- C17, on the token game with two tokens and player 1 to move, where taking both tokens
wins: `getMove(2)` on the fresh engine completes, the root has the children for taking one
token and for taking two, and the child for taking two has `wins / visits > 0.9`. -/
theorem C17_winning_child_mean_witness :
    ∃ mv e' rnd', MCTS.getMove (nimOps ℝ) realMath 5 (MCTS.ctor (nimOps ℝ) (7 / 10) ⟨2, 1⟩) 2
        (fun _ => 0) = some (mv, e', rnd') ∧
      e'.root.children.map (fun c => c.move.val) = [1, 2] ∧
      ∀ c ∈ e'.root.children, SharedEqual (nimOps ℝ) c.move ⟨2, 2⟩ = true →
        1 ≤ c.visits ∧ c.wins = c.visits ∧ 9 / 10 < c.wins / c.visits := by
  have h : (MCTS.getMove (nimOps ℝ) realMath 5 (MCTS.ctor (nimOps ℝ) (7 / 10) ⟨2, 1⟩) 2
      (fun _ => 0)).map (fun r => r.2.1.root.children.map (fun c => c.move.val))
      = some [1, 2] := rfl
  cases h1 : MCTS.getMove (nimOps ℝ) realMath 5 (MCTS.ctor (nimOps ℝ) (7 / 10) ⟨2, 1⟩) 2
      (fun _ => 0) with
  | none =>
    rw [h1] at h
    exact Option.noConfusion h
  | some r =>
    rw [h1] at h
    simp only [Option.map_some', Option.some.injEq] at h
    refine ⟨r.1, r.2.1, r.2.2, rfl, h, ?_⟩
    exact C17_winning_child_mean (nimOps ℝ) realMath 5 (MCTS.ctor (nimOps ℝ) (7 / 10) ⟨2, 1⟩)
      r.2.1 2 (fun _ => 0) r.2.2 r.1 ⟨2, 2⟩ rfl (by decide) (fun r1 r2 => rfl)
      (by
        intro r1 r2 m' s2 hm' hmk
        have hv : m'.val = 2 := by simpa [SharedEqual, nimOps] using hm'
        have hs : s2 = ⟨0, 2⟩ := by
          have : (nimOps ℝ).makeMove ⟨2, 1⟩ m' = some s2 := hmk
          simp only [nimOps, hv] at this
          simpa using this.symm
        subst hs
        exact ⟨rfl, by simp [nimOps, MCTS.ctor], rfl, by simp [nimOps, MCTS.ctor]⟩)
      h1

end ScenarioClaims

/-! ## `DurakState::randomizeHiddenState` -/

section DurakLemmas

namespace DurakState

variable {G : Type}

/-- The first loop over one hand: the cards that satisfy the test go to the deck, in
order, the others to the new hand of the player. -/
theorem foldlM_hand (p : Card → Bool) (i : Nat) (hand : List Card) :
    ∀ (deck : List Card) (nh : List (List Card)) (h : List Card), nh[i]? = some h →
    hand.foldlM (fun (acc : List Card × List (List Card)) card =>
      if p card then some (acc.1 ++ [card], acc.2)
      else
        match acc.2[i]? with
        | none => none
        | some h => some (acc.1, acc.2.set i (h ++ [card]))) (deck, nh)
      = some (deck ++ hand.filter p, nh.set i (h ++ hand.filter (fun c => !p c))) := by
  induction hand with
  | nil =>
    intro deck nh h hnh
    simp only [List.foldlM_nil, List.filter_nil, List.append_nil]
    have hi : i < nh.length := (List.getElem?_eq_some_iff.mp hnh).1
    have : nh.set i h = nh := by
      apply List.ext_getElem?
      intro j
      by_cases hj : i = j
      · subst hj
        rw [List.getElem?_set_self hi, hnh]
      · rw [List.getElem?_set_ne hj]
    rw [this]
    rfl
  | cons card hand ih =>
    intro deck nh h hnh
    have hi : i < nh.length := (List.getElem?_eq_some_iff.mp hnh).1
    rw [List.foldlM_cons]
    by_cases hp : p card = true
    · simp only [hp, if_true]
      show (hand.foldlM _ (deck ++ [card], nh)) = _
      rw [ih (deck ++ [card]) nh h hnh]
      simp [List.filter_cons, hp]
    · simp only [hp, hnh]
      show (hand.foldlM _ (deck, nh.set i (h ++ [card]))) = _
      rw [ih deck (nh.set i (h ++ [card])) (h ++ [card]) (List.getElem?_set_self hi)]
      simp [List.filter_cons, hp]

/-- The first loop for player `i`, when the player has a hand and a new hand. -/
theorem foldHand_eq (hands : List (List Card)) (observer : Int) (i : Nat)
    (deck : List Card) (nh : List (List Card)) (hand h : List Card)
    (hh : hands[i]? = some hand) (hnh : nh[i]? = some h) :
    foldHand hands observer (deck, nh) i
      = some (deck ++ hand.filter (fun c => c.hidden && decide (observer ≠ (i : Int) + 1)),
          nh.set i (h ++ hand.filter
            (fun c => !(c.hidden && decide (observer ≠ (i : Int) + 1))))) := by
  unfold foldHand
  rw [hh]
  exact foldlM_hand (fun c => c.hidden && decide (observer ≠ (i : Int) + 1)) i hand deck nh h hnh

/-- The parts of a hand that go to the deck and that stay make up the hand. -/
theorem length_filter_parts (p : Card → Bool) (hand : List Card) :
    (hand.filter p).length + (hand.filter (fun c => !p c)).length = hand.length := by
  induction hand with
  | nil => rfl
  | cons c hand ih =>
    by_cases hp : p c = true
    · simp [List.filter_cons, hp]
      omega
    · simp [List.filter_cons, hp]
      omega

/-- The shuffle keeps the number of cards of the deck. -/
theorem shuffleDeck_length (sh : Shuffler G) (hsh : ∀ l g, (sh.shuffle l g).1.Perm l)
    (hasTrump : Bool) (deck : List Card) (rd : G) :
    (shuffleDeck sh hasTrump deck rd).1.length = deck.length := by
  unfold shuffleDeck
  split
  · split
    · simp only [List.length_append, List.length_take, (hsh _ _).length_eq, List.length_drop]
      omega
    · rfl
  · split
    · exact (hsh _ _).length_eq
    · rfl

/-- The dealing loop for one player whose new hand is not longer than the hand, when
the deck still has the cards to deal. -/
theorem dealHand_eq (hands : List (List Card)) (deck : List Card) (nh : List (List Card))
    (total : Nat) (player : Nat) (hand full : List Card)
    (hnh : nh[player]? = some hand) (hh : hands[player]? = some full)
    (hk : hand.length ≤ full.length)
    (hfit : total + (full.length - hand.length) ≤ deck.length) :
    ∃ x, dealHand hands deck (nh, (total : Int)) player
        = some (nh.set player (hand ++ x), ((total + (full.length - hand.length) : Nat) : Int)) ∧
      hand.length + x.length = full.length := by
  unfold dealHand
  simp only [hnh, hh]
  have h1 : (0 : Int) ≤ (deck.length : Int) - (total : Int)
      - ((full.length : Int) - (hand.length : Int)) := by omega
  have h2 : (deck.length : Int) - (total : Int) - ((full.length : Int) - (hand.length : Int))
      ≤ (deck.length : Int) - (total : Int) := by omega
  have h3 : (deck.length : Int) - (total : Int) ≤ (deck.length : Int) := by omega
  rw [if_pos ⟨h1, h2, h3⟩]
  refine ⟨List.take ((deck.length : Int) - (total : Int) - ((deck.length : Int) - (total : Int)
      - ((full.length : Int) - (hand.length : Int)))).toNat
    (List.drop ((deck.length : Int) - (total : Int)
      - ((full.length : Int) - (hand.length : Int))).toNat deck), ?_, ?_⟩
  · congr 2
    omega
  · simp only [List.length_take, List.length_drop]
    omega

/-- A hand the observer sees, or without a card face down, stays in the new hand as it
is. -/
theorem filter_seen (p : Card → Bool) (hand : List Card) (hp : ∀ c ∈ hand, p c = false) :
    hand.filter (fun c => !p c) = hand := by
  rw [List.filter_eq_self]
  intro c hc
  rw [hp c hc]
  rfl

/-- The call `randomizeHiddenState(observer)` on a state with the hands of two players (and
possibly more vectors behind them): it completes; the two hands and the deck keep their
sizes, the hand of the observer stays as it is, the vectors behind the two hands are
left empty, and the generator is the only other member that changes. -/
theorem randomizeHiddenState_spec (sh : Shuffler G)
    (hsh : ∀ l g, (sh.shuffle l g).1.Perm l) (s : DurakState G) (observer : Int)
    (h0 h1 : List Card) (rest : List (List Card)) (hh : s.hands = h0 :: h1 :: rest) :
    ∃ deck y0 y1 rd, s.randomizeHiddenState sh observer
        = some { s with deck := deck, hands := y0 :: y1 :: List.replicate rest.length [],
                        rd := rd } ∧
      deck.length = s.deck.length ∧ y0.length = h0.length ∧ y1.length = h1.length ∧
      (observer = 1 → y0 = h0) ∧ (observer = 2 → y1 = h1) := by
  have hr : List.range numberOfPlayers = [0, 1] := rfl
  have hnh : List.replicate s.hands.length ([] : List Card)
      = [] :: [] :: List.replicate rest.length [] := by
    rw [hh]
    rfl
  have hs0 : s.hands[0]? = some h0 := by simp [hh]
  have hs1 : s.hands[1]? = some h1 := by simp [hh]
  have hp0 := length_filter_parts
    (fun c => c.hidden && decide (observer ≠ ((0 : Nat) : Int) + 1)) h0
  have hp1 := length_filter_parts
    (fun c => c.hidden && decide (observer ≠ ((1 : Nat) : Int) + 1)) h1
  have hf0 := foldHand_eq s.hands observer 0 s.deck ([] :: [] :: List.replicate rest.length [])
    h0 [] hs0 (by simp)
  simp only [List.set_cons_zero, List.nil_append] at hf0
  generalize hm0 : h0.filter (fun c => c.hidden && decide (observer ≠ ((0 : Nat) : Int) + 1))
    = m0 at hf0 hp0
  generalize hk0 : h0.filter (fun c => !(c.hidden && decide (observer ≠ ((0 : Nat) : Int) + 1)))
    = k0 at hf0 hp0
  have hf1 := foldHand_eq s.hands observer 1 (s.deck ++ m0)
    (k0 :: [] :: List.replicate rest.length []) h1 [] hs1 (by simp)
  simp only [List.set_cons_succ, List.set_cons_zero, List.nil_append] at hf1
  generalize hm1 : h1.filter (fun c => c.hidden && decide (observer ≠ ((1 : Nat) : Int) + 1))
    = m1 at hf1 hp1
  generalize hk1 : h1.filter (fun c => !(c.hidden && decide (observer ≠ ((1 : Nat) : Int) + 1)))
    = k1 at hf1 hp1
  have hfold : (List.range numberOfPlayers).foldlM (foldHand s.hands observer)
      (s.deck, List.replicate s.hands.length [])
      = some (s.deck ++ m0 ++ m1, k0 :: k1 :: List.replicate rest.length []) := by
    rw [hr, hnh, List.foldlM_cons, hf0]
    show List.foldlM (foldHand s.hands observer)
      (s.deck ++ m0, k0 :: [] :: List.replicate rest.length []) [1] = _
    rw [List.foldlM_cons, hf1]
    rfl
  have hlen := shuffleDeck_length sh hsh (!s.deck.isEmpty) (s.deck ++ m0 ++ m1) s.rd
  simp only [List.length_append] at hlen
  generalize hD : shuffleDeck sh (!s.deck.isEmpty) (s.deck ++ m0 ++ m1) s.rd = D at hlen
  obtain ⟨x0, hd0, hx0⟩ := dealHand_eq s.hands D.1 (k0 :: k1 :: List.replicate rest.length [])
    0 0 k0 h0 (by simp) hs0 (by omega) (by omega)
  simp only [List.set_cons_zero] at hd0
  obtain ⟨x1, hd1, hx1⟩ := dealHand_eq s.hands D.1
    ((k0 ++ x0) :: k1 :: List.replicate rest.length [])
    (0 + (h0.length - k0.length)) 1 k1 h1 (by simp) hs1 (by omega) (by omega)
  simp only [List.set_cons_succ, List.set_cons_zero] at hd1
  have hdeal : (List.range numberOfPlayers).foldlM (dealHand s.hands D.1)
      (k0 :: k1 :: List.replicate rest.length [], 0)
      = some ((k0 ++ x0) :: (k1 ++ x1) :: List.replicate rest.length [],
          ((0 + (h0.length - k0.length) + (h1.length - k1.length) : Nat) : Int)) := by
    have hd0' : dealHand s.hands D.1 (k0 :: k1 :: List.replicate rest.length [], 0) 0
        = some ((k0 ++ x0) :: k1 :: List.replicate rest.length [],
            ((0 + (h0.length - k0.length) : Nat) : Int)) := hd0
    rw [hr, List.foldlM_cons, hd0']
    show List.foldlM (dealHand s.hands D.1)
      ((k0 ++ x0) :: k1 :: List.replicate rest.length [],
        ((0 + (h0.length - k0.length) : Nat) : Int)) [1] = _
    rw [List.foldlM_cons, hd1]
    rfl
  refine ⟨D.1.take (D.1.length - (0 + (h0.length - k0.length) + (h1.length - k1.length))),
    k0 ++ x0, k1 ++ x1, D.2, ?_, ?_, ?_, ?_, ?_, ?_⟩
  · unfold randomizeHiddenState
    simp only [hfold, hD, hdeal]
    rw [if_pos ⟨by omega, by omega⟩]
    simp only [Int.toNat_ofNat]
  · rw [List.length_take]
    omega
  · rw [List.length_append]
    omega
  · rw [List.length_append]
    omega
  · intro ho
    have hk : k0 = h0 := by
      rw [← hk0]
      exact filter_seen _ h0 (fun c _ => by simp [ho])
    have hx : x0 = [] := List.length_eq_zero.mp (by rw [hk] at hx0; omega)
    rw [hk, hx, List.append_nil]
  · intro ho
    have hk : k1 = h1 := by
      rw [← hk1]
      exact filter_seen _ h1 (fun c _ => by simp [ho])
    have hx : x1 = [] := List.length_eq_zero.mp (by rw [hk] at hx1; omega)
    rw [hk, hx, List.append_nil]

/-- With fewer than two hands the call throws: `hands.at(i)` is out of range. -/
theorem randomizeHiddenState_none (sh : Shuffler G) (s : DurakState G) (observer : Int)
    (hh : s.hands.length < 2) : s.randomizeHiddenState sh observer = none := by
  have hr : List.range numberOfPlayers = [0, 1] := rfl
  unfold randomizeHiddenState
  cases hs : s.hands with
  | nil =>
    simp only [hr, List.foldlM_cons, foldHand]
    rfl
  | cons h0 tl =>
    cases tl with
    | nil =>
      have hf0 := foldHand_eq s.hands observer 0 s.deck [[]] h0 [] (by rw [hs]; rfl) rfl
      rw [hs] at hf0
      simp only [hr, List.length_singleton, List.replicate, List.foldlM_cons, hf0]
      simp [foldHand]
    | cons h1 rest =>
      rw [hs] at hh
      simp only [List.length_cons] at hh
      omega

end DurakState

end DurakLemmas

/-! ## Statements about determinization in `DurakState` -/

section DurakClaims

variable {G : Type}

/-- What a completed `randomizeHiddenState(observer)` keeps, for any list of hands. -/
theorem DurakState.randomizeHiddenState_keeps (sh : Shuffler G)
    (hsh : ∀ l g, (sh.shuffle l g).1.Perm l) (s s' : DurakState G) (observer : Int)
    (h : s.randomizeHiddenState sh observer = some s') :
    2 ≤ s.hands.length ∧ s'.hands.length = s.hands.length ∧
      (∀ i, i < DurakState.numberOfPlayers →
        (s'.hands[i]?).map List.length = (s.hands[i]?).map List.length) ∧
      (∀ i, i < DurakState.numberOfPlayers → observer = (i : Int) + 1 →
        s'.hands[i]? = s.hands[i]?) ∧
      s'.deck.length = s.deck.length ∧ s'.attack = s.attack ∧ s'.defended = s.defended ∧
      s'.discard = s.discard ∧ s'.trump = s.trump ∧ s'.defending = s.defending ∧
      s'.defendingPlayer = s.defendingPlayer ∧ s'.attackingPlayer = s.attackingPlayer ∧
      s'.playerToMove = s.playerToMove := by
  by_cases hlen : s.hands.length < 2
  · rw [DurakState.randomizeHiddenState_none sh s observer hlen] at h
    exact Option.noConfusion h
  · cases hs : s.hands with
    | nil =>
      rw [hs] at hlen
      exact absurd (by decide) hlen
    | cons h0 tl =>
      cases tl with
      | nil =>
        rw [hs] at hlen
        exact absurd (by simp) hlen
      | cons h1 rest =>
        obtain ⟨deck, y0, y1, rd, hres, hd, hy0, hy1, ho0, ho1⟩ :=
          DurakState.randomizeHiddenState_spec sh hsh s observer h0 h1 rest hs
        rw [hres] at h
        simp only [Option.some.injEq] at h
        subst h
        refine ⟨by simp, by simp, ?_, ?_, hd, rfl, rfl, rfl, rfl, rfl, rfl, rfl, rfl⟩
        · intro i hi
          have : i = 0 ∨ i = 1 := by
            unfold DurakState.numberOfPlayers at hi
            omega
          rcases this with rfl | rfl
          · simp [hy0]
          · simp [hy1]
        · intro i hi ho
          have : i = 0 ∨ i = 1 := by
            unfold DurakState.numberOfPlayers at hi
            omega
          rcases this with rfl | rfl
          · simp [ho0 (by simpa using ho)]
          · simp [ho1 (by simpa using ho)]

/-- C20. For every `DurakState` and every observer, `randomizeHiddenState(observer)`
completes if the state has the hands of the two players (without them `hands.at`
throws), and whenever it completes the state after the call has as many cards as before
in the hand of each of the two players and in the deck, and the same `attack`,
`defended`, `discard`, `trump` and `playerToMove`; `std::shuffle` is taken to reorder
its range. -/
theorem C20_randomizeHiddenState_sizes (sh : Shuffler G)
    (hsh : ∀ l g, (sh.shuffle l g).1.Perm l) (s : DurakState G) (observer : Int) :
    (2 ≤ s.hands.length → ∃ s', s.randomizeHiddenState sh observer = some s') ∧
    ∀ s', s.randomizeHiddenState sh observer = some s' →
      (∀ i, i < DurakState.numberOfPlayers →
        (s'.hands[i]?).map List.length = (s.hands[i]?).map List.length) ∧
      s'.hands.length = s.hands.length ∧ s'.deck.length = s.deck.length ∧
      s'.attack = s.attack ∧ s'.defended = s.defended ∧ s'.discard = s.discard ∧
      s'.trump = s.trump ∧ s'.playerToMove = s.playerToMove := by
  constructor
  · intro hlen
    cases hs : s.hands with
    | nil =>
      rw [hs] at hlen
      exact absurd hlen (by decide)
    | cons h0 tl =>
      cases tl with
      | nil =>
        rw [hs] at hlen
        exact absurd hlen (by simp)
      | cons h1 rest =>
        obtain ⟨deck, y0, y1, rd, hres, _⟩ :=
          DurakState.randomizeHiddenState_spec sh hsh s observer h0 h1 rest hs
        exact ⟨_, hres⟩
  · intro s' h
    obtain ⟨_, hl, hsz, _, hd, ha, hdf, hdc, ht, _, _, _, hp⟩ :=
      DurakState.randomizeHiddenState_keeps sh hsh s s' observer h
    exact ⟨hsz, hl, hd, ha, hdf, hdc, ht, hp⟩

/-- C20, on a state with three cards in the deck and two in each hand, for observer 2
and the shuffle that reverses its range: the call completes and keeps the sizes. -/
theorem C20_randomizeHiddenState_sizes_witness :
    (∃ s', sampleDurak.randomizeHiddenState revShuffler 2 = some s') ∧
    ∀ s', sampleDurak.randomizeHiddenState revShuffler 2 = some s' →
      (∀ i, i < DurakState.numberOfPlayers →
        (s'.hands[i]?).map List.length = (sampleDurak.hands[i]?).map List.length) ∧
      s'.hands.length = sampleDurak.hands.length ∧ s'.deck.length = sampleDurak.deck.length ∧
      s'.attack = sampleDurak.attack ∧ s'.defended = sampleDurak.defended ∧
      s'.discard = sampleDurak.discard ∧
      s'.trump = sampleDurak.trump ∧ s'.playerToMove = sampleDurak.playerToMove :=
  ⟨(C20_randomizeHiddenState_sizes revShuffler (fun l _ => List.reverse_perm l) sampleDurak 2).1
      (by decide),
    (C20_randomizeHiddenState_sizes revShuffler (fun l _ => List.reverse_perm l) sampleDurak 2).2⟩

/-- C19. A call `determinize(state)` on a `DurakState` leaves `state` as it was (it only
copies it), so after any number of calls every member of `state` is what it was before.
The call completes if the state has the hands of the two players, and the state it
returns has the same `attack`, `defended`, `discard`, `trump`, `defending`,
`defendingPlayer`, `attackingPlayer` and `playerToMove` as `state`, as many cards in the
deck and in each of the two hands, and the same hand for the player to move. -/
theorem C19_determinize_frame (sh : Shuffler G) (hsh : ∀ l g, (sh.shuffle l g).1.Perm l)
    (s : DurakState G) :
    (∀ n : Nat, (fun a => (MCTS.determinizeDurak sh a).1)^[n] s = s) ∧
    (2 ≤ s.hands.length → ∃ r, (MCTS.determinizeDurak sh s).2 = some r) ∧
    ∀ r, (MCTS.determinizeDurak sh s).2 = some r →
      r.attack = s.attack ∧ r.defended = s.defended ∧ r.discard = s.discard ∧
      r.trump = s.trump ∧ r.defending = s.defending ∧
      r.defendingPlayer = s.defendingPlayer ∧ r.attackingPlayer = s.attackingPlayer ∧
      r.playerToMove = s.playerToMove ∧ r.deck.length = s.deck.length ∧
      r.hands.length = s.hands.length ∧
      (∀ i, i < DurakState.numberOfPlayers →
        (r.hands[i]?).map List.length = (s.hands[i]?).map List.length) ∧
      (∀ i, i < DurakState.numberOfPlayers → s.playerToMove = (i : Int) + 1 →
        r.hands[i]? = s.hands[i]?) := by
  refine ⟨fun n => Function.iterate_fixed rfl n, ?_, ?_⟩
  · intro hlen
    cases hs : s.hands with
    | nil =>
      rw [hs] at hlen
      exact absurd hlen (by decide)
    | cons h0 tl =>
      cases tl with
      | nil =>
        rw [hs] at hlen
        exact absurd hlen (by simp)
      | cons h1 rest =>
        obtain ⟨deck, y0, y1, rd, hres, _⟩ :=
          DurakState.randomizeHiddenState_spec sh hsh (DurakState.copy sh s)
            s.playerToMove h0 h1 rest hs
        exact ⟨_, hres⟩
  · intro r h
    obtain ⟨_, hl, hsz, hown, hd, ha, hdf, hdc, ht, h1, h2, h3, hp⟩ :=
      DurakState.randomizeHiddenState_keeps sh hsh (DurakState.copy sh s) r
        s.playerToMove h
    exact ⟨ha, hdf, hdc, ht, h1, h2, h3, hp, hd, hl, hsz, hown⟩

/-- C19, on a state with three cards in the deck and two in each hand, player 1 to move,
and the shuffle that reverses its range: `determinize` completes, and the returned state
has the hand of player 1 as it was. -/
theorem C19_determinize_frame_witness :
    (MCTS.determinizeDurak revShuffler sampleDurak).1 = sampleDurak ∧
    ∃ r, (MCTS.determinizeDurak revShuffler sampleDurak).2 = some r ∧
      r.hands[0]? = sampleDurak.hands[0]? ∧ r.playerToMove = 1 := by
  have hc := C19_determinize_frame revShuffler (fun l _ => List.reverse_perm l) sampleDurak
  obtain ⟨r, hr⟩ := hc.2.1 (by decide)
  obtain ⟨_, _, _, _, _, _, _, hp, _, _, _, hown⟩ := hc.2.2 r hr
  exact ⟨hc.1 1, r, hr, hown 0 (by decide) rfl, hp⟩

end DurakClaims

/-! ## Tic-tac-toe: legal moves and `makeMove` -/

section TicTacToeLemmas

/-- What `checkMove` tests for a move that is not negative. -/
theorem ttt.State.checkMove_eq (s : ttt.State) (m : Int) (hm : 0 ≤ m) :
    s.checkMove m = some (decide (m ≤ 8) && ((s.occupied &&& (1 <<< m.toNat)) == 0)) := by
  unfold ttt.State.checkMove
  by_cases h8 : m > 8
  · have : ¬ m ≤ 8 := by omega
    simp [h8, this]
  · have : m ≤ 8 := by omega
    have h0 : ¬ m < 0 := by omega
    simp [h8, this, h0]

/-- The moves `getMoves()` returns in a state that is not terminal. -/
theorem ttt.State.mem_getMoves (s : ttt.State) (m : Int) (ht : s.terminal = false) :
    m ∈ s.getMoves ↔ 0 ≤ m ∧ m ≤ 8 ∧ (s.occupied &&& (1 <<< m.toNat)) = 0 := by
  unfold ttt.State.getMoves
  simp only [ht, Bool.false_eq_true, if_false, List.mem_map, List.mem_filter, List.mem_range,
    beq_iff_eq]
  constructor
  · rintro ⟨k, ⟨hk, hb⟩, rfl⟩
    refine ⟨Int.ofNat_nonneg k, ?_, ?_⟩
    · show (k : Int) ≤ 8
      omega
    · exact hb
  · rintro ⟨h0, h8, hb⟩
    refine ⟨m.toNat, ⟨by omega, hb⟩, ?_⟩
    show ((m.toNat : Nat) : Int) = m
    omega

/-- In a state that is not terminal, for a move that is not negative: `makeMove` has
defined behaviour, throws exactly for the moves outside `getMoves()`, and then leaves the
state as it was. -/
theorem ttt.State.makeMove_throws_iff (s : ttt.State) (m : Int) (ht : s.terminal = false)
    (hm : 0 ≤ m) :
    s.makeMove m ≠ CallResult.undefined ∧
      ((∃ s', s.makeMove m = CallResult.throws s') ↔ m ∉ s.getMoves) ∧
      ∀ s', s.makeMove m = CallResult.throws s' → s' = s := by
  have hc := ttt.State.checkMove_eq s m hm
  have hg := ttt.State.mem_getMoves s m ht
  unfold ttt.State.makeMove
  rw [hc]
  by_cases h8 : m ≤ 8
  · by_cases hb : (s.occupied &&& (1 <<< m.toNat)) = 0
    · have hin : m ∈ s.getMoves := hg.mpr ⟨hm, h8, hb⟩
      have hb' : ((s.occupied &&& (1 <<< m.toNat)) == 0) = true := by simpa using hb
      simp only [h8, decide_True, Bool.true_and, hb']
      simp [hin]
    · have hin : m ∉ s.getMoves := fun h => hb (hg.mp h).2.2
      have hb' : ((s.occupied &&& (1 <<< m.toNat)) == 0) = false := by simpa using hb
      simp only [h8, decide_True, Bool.true_and, hb']
      simp [hin]
  · have hin : m ∉ s.getMoves := fun h => h8 (hg.mp h).2.1
    simp only [h8, decide_False, Bool.false_and]
    simp [hin]

end TicTacToeLemmas

/-! ## Tic-tac-toe: the score of a finished game -/

section TicTacToeScore

/-- What holds of every state reached by legal moves: the player to move is 1 or 2 and has
no complete line; the score is -1 if the other player has one and 0 if not; the state is
terminal exactly if the other player has a line or the board is full. -/
theorem ttt.State.Reached.inv (s : ttt.State) (hs : ttt.State.Reached s) :
    (s.playerToMove = 1 ∨ s.playerToMove = 2) ∧ ttt.State.checkWin s.player = false ∧
      s.score = (if ttt.State.checkWin s.opponent then -1 else 0) ∧
      s.terminal = (ttt.State.checkWin s.opponent || decide (s.occupied = 0b111111111)) := by
  induction hs with
  | init => exact ⟨Or.inl rfl, by decide, by decide, by decide⟩
  | move s s' m hs hm hmk ih =>
    obtain ⟨hp, hw, hsc, hterm⟩ := ih
    have ht : s.terminal = false := by
      cases h : s.terminal with
      | false => rfl
      | true =>
        unfold ttt.State.getMoves at hm
        rw [h] at hm
        simp at hm
    rw [ht] at hterm
    have hwo : ttt.State.checkWin s.opponent = false := by
      cases h : ttt.State.checkWin s.opponent with
      | false => rfl
      | true =>
        rw [h] at hterm
        simp at hterm
    have hmem := (ttt.State.mem_getMoves s m ht).mp hm
    have hc := ttt.State.checkMove_eq s m hmem.1
    unfold ttt.State.makeMove at hmk
    rw [hc] at hmk
    have hb' : ((s.occupied &&& (1 <<< m.toNat)) == 0) = true := by simpa using hmem.2.2
    simp only [hmem.2.1, decide_True, Bool.true_and, hb', CallResult.ok.injEq] at hmk
    subst hmk
    have hptm : (Int.tmod s.playerToMove 2 = 0 ∨ Int.tmod s.playerToMove 2 + 1 = 2) := by
      rcases hp with h | h <;> rw [h] <;> decide
    unfold ttt.State.checkTerminal
    simp only [hwo]
    by_cases h1 : ttt.State.checkWin (s.player ||| 1 <<< m.toNat) = true
    · simp [h1, hwo, hptm]
    · have h1' : ttt.State.checkWin (s.player ||| 1 <<< m.toNat) = false := by simpa using h1
      by_cases h2 : s.occupied ||| 1 <<< m.toNat = 0b111111111
      · simp [h1', hwo, hptm, h2]
      · simp [h1', hwo, hptm, h2]

/-- A list of legal moves played from a reached state leads to a reached state. -/
theorem ttt.State.Reached.of_legalPlay (ms : List Int) :
    ∀ s, ttt.State.Reached s → ttt.State.legalPlay s ms = true →
      ∃ s', ttt.State.play s ms = some s' ∧ ttt.State.Reached s' := by
  induction ms with
  | nil =>
    intro s hs _
    exact ⟨s, rfl, hs⟩
  | cons m ms ih =>
    intro s hs hl
    unfold ttt.State.legalPlay at hl
    simp only [Bool.and_eq_true, decide_eq_true_eq] at hl
    obtain ⟨hm, hrest⟩ := hl
    cases hmk : s.makeMove m with
    | ok s' =>
      rw [hmk] at hrest
      obtain ⟨s'', hp, hr⟩ := ih s' (ttt.State.Reached.move s s' m hs hm hmk) hrest
      refine ⟨s'', ?_, hr⟩
      unfold ttt.State.play
      rw [hmk]
      exact hp
    | throws s' =>
      rw [hmk] at hrest
      exact Bool.noConfusion hrest
    | undefined =>
      rw [hmk] at hrest
      exact Bool.noConfusion hrest

end TicTacToeScore

section TicTacToeClaims

/-- C24. From the empty board the moves 0, 3, 1, 4, 2 are legal one after the other and
lead to a state that is terminal (the top row is complete), whose occupied mask is the
union of the two 9-bit masks, and for which `getMoves()` is empty; `makeMove(5)` on it
does not throw: it returns and sets one more mark. -/
theorem C24_makeMove_on_terminal_state :
    ttt.State.legalPlay ttt.State.init [0, 3, 1, 4, 2] = true ∧
    ∃ s, ttt.State.play ttt.State.init [0, 3, 1, 4, 2] = some s ∧
      s.isTerminal = true ∧ s.occupied = s.player ||| s.opponent ∧ s.occupied < 512 ∧
      s.getMoves = [] ∧
      ∃ s', s.makeMove 5 = CallResult.ok s' ∧ s'.occupied = s.occupied ||| 1 <<< 5 ∧
        s'.occupied ≠ s.occupied :=
  ⟨by decide, _, rfl, rfl, by decide, by decide, rfl, _, rfl, rfl, by decide⟩

/-- C26. In every terminal state reached by legal moves from the empty board and for each
player `p` in 1, 2: `getScore(p)` lies between 0 and 1; it is 1 exactly when the marks of
`p` contain a complete line, 0 exactly when the marks of the other player do, and
strictly between 0 and 1 when neither does. -/
theorem C26_getScore_of_finished_game (K : Type) [LinearOrderedField K] (s : ttt.State)
    (hs : ttt.State.Reached s) (ht : s.isTerminal = true) (p : Int) (hp : p = 1 ∨ p = 2) :
    (0 : K) ≤ s.getScore p ∧ s.getScore p ≤ (1 : K) ∧
      ((s.getScore p : K) = 1 ↔ ttt.State.checkWin (s.marks p) = true) ∧
      ((s.getScore p : K) = 0 ↔ ttt.State.checkWin (s.marks (3 - p)) = true) ∧
      (ttt.State.checkWin s.player = false → ttt.State.checkWin s.opponent = false →
        (0 : K) < s.getScore p ∧ s.getScore p < (1 : K)) := by
  obtain ⟨hptm, hw, hsc, _⟩ := ttt.State.Reached.inv s hs
  have h10 : (1 / 10 : K) ≠ 1 := by norm_num
  have h10' : (1 / 10 : K) ≠ 0 := by norm_num
  have h2 : (1 / 2 : K) ≠ 1 := by norm_num
  have h2' : (1 / 2 : K) ≠ 0 := by norm_num
  unfold ttt.State.getScore ttt.State.marks
  cases hwo : ttt.State.checkWin s.opponent with
  | true =>
    rw [hwo] at hsc
    simp only [if_true] at hsc
    rcases hptm with h | h <;> rcases hp with rfl | rfl <;>
      simp [h, hsc, hw, hwo]
  | false =>
    rw [hwo] at hsc
    simp only [Bool.false_eq_true, if_false] at hsc
    rcases hptm with h | h <;> rcases hp with rfl | rfl <;>
      simp [h, hsc, hw, hwo, h10, h10', h2, h2'] <;> norm_num

/-- C26, after the moves 0, 3, 1, 4, 2 from the empty board: player 1 has the top row and
player 2 is to move; `getScore(1)` is between 0 and 1 and is 1, as player 1 has a line. -/
theorem C26_getScore_of_finished_game_witness :
    ∃ s, ttt.State.play ttt.State.init [0, 3, 1, 4, 2] = some s ∧ s.playerToMove = 2 ∧
      ttt.State.checkWin (s.marks 1) = true ∧
      (0 : ℝ) ≤ s.getScore 1 ∧ s.getScore 1 ≤ (1 : ℝ) ∧
      ((s.getScore 1 : ℝ) = 1 ↔ ttt.State.checkWin (s.marks 1) = true) := by
  obtain ⟨s, hplay, hr⟩ := ttt.State.Reached.of_legalPlay [0, 3, 1, 4, 2] ttt.State.init
    ttt.State.Reached.init (by decide)
  have hs : s = ⟨0b11000, 0b111, 0b11111, true, -1, 2⟩ := by
    have h2 : ttt.State.play ttt.State.init [0, 3, 1, 4, 2]
        = some ⟨0b11000, 0b111, 0b11111, true, -1, 2⟩ := rfl
    rw [hplay] at h2
    exact Option.some.inj h2
  subst hs
  have h := C26_getScore_of_finished_game ℝ _ hr rfl 1 (Or.inl rfl)
  exact ⟨_, rfl, rfl, by decide, h.1, h.2.1, h.2.2.1⟩

end TicTacToeClaims

/-! ## `DurakState::randomizeHiddenState`: which cards go where -/

section DurakCards

namespace DurakState

variable {G : Type}

/-- The dealing loop for one player, with the cards it deals: the `toGet` cards of the
deck that end `total` cards before its end. -/
theorem dealHand_slice (hands : List (List Card)) (deck : List Card) (nh : List (List Card))
    (total : Nat) (player : Nat) (hand full : List Card)
    (hnh : nh[player]? = some hand) (hh : hands[player]? = some full)
    (hk : hand.length ≤ full.length)
    (hfit : total + (full.length - hand.length) ≤ deck.length) :
    dealHand hands deck (nh, (total : Int)) player
      = some (nh.set player (hand ++
          (deck.drop (deck.length - total - (full.length - hand.length))).take
            (full.length - hand.length)),
        ((total + (full.length - hand.length) : Nat) : Int)) := by
  unfold dealHand
  simp only [hnh, hh]
  have h1 : (0 : Int) ≤ (deck.length : Int) - (total : Int)
      - ((full.length : Int) - (hand.length : Int)) := by omega
  have h2 : (deck.length : Int) - (total : Int) - ((full.length : Int) - (hand.length : Int))
      ≤ (deck.length : Int) - (total : Int) := by omega
  have h3 : (deck.length : Int) - (total : Int) ≤ (deck.length : Int) := by omega
  rw [if_pos ⟨h1, h2, h3⟩]
  have e1 : ((deck.length : Int) - (total : Int) - ((full.length : Int) - (hand.length : Int))).toNat
      = deck.length - total - (full.length - hand.length) := by omega
  have e2 : ((deck.length : Int) - (total : Int) - ((deck.length : Int) - (total : Int)
      - ((full.length : Int) - (hand.length : Int)))).toNat = full.length - hand.length := by
    omega
  rw [e1, e2]
  congr 2
  omega

/-- The deck is what stays after the two deals, followed by the cards dealt second and the
cards dealt first. -/
theorem take_append_slices (D : List Card) (t0 t1 : Nat) (h : t0 + t1 ≤ D.length) :
    D.take (D.length - (t0 + t1)) ++ (D.drop (D.length - t0 - t1)).take t1
      ++ (D.drop (D.length - t0)).take t0 = D := by
  have e1 : D.length - t0 - t1 = D.length - (t0 + t1) := by omega
  have e3 : (D.drop (D.length - t0)).take t0 = D.drop (D.length - t0) := by
    apply List.take_of_length_le
    rw [List.length_drop]
    omega
  have e4 : D.drop (D.length - t0) = (D.drop (D.length - (t0 + t1))).drop t1 := by
    rw [List.drop_drop]
    congr 1
    omega
  rw [e1, e3, e4, List.append_assoc, List.take_append_drop, List.take_append_drop]

/-- The shuffle of the deck reorders it, and keeps the first card of a deck with a trump
card. -/
theorem shuffleDeck_perm (sh : Shuffler G) (hsh : ∀ l g, (sh.shuffle l g).1.Perm l)
    (hasTrump : Bool) (deck : List Card) (rd : G) :
    (shuffleDeck sh hasTrump deck rd).1.Perm deck ∧
      (hasTrump = true → (shuffleDeck sh hasTrump deck rd).1.head? = deck.head?) := by
  unfold shuffleDeck
  split
  · split
    · rename_i hlen
      constructor
      · have := (hsh (deck.drop 1) rd).append_left (deck.take 1)
        rw [List.take_append_drop] at this
        exact this
      · intro _
        cases deck with
        | nil => simp at hlen
        | cons c cs => simp
    · exact ⟨List.Perm.refl _, fun _ => rfl⟩
  · rename_i hnt
    split
    · exact ⟨hsh _ _, fun h => absurd h hnt⟩
    · exact ⟨List.Perm.refl _, fun _ => rfl⟩

/-- The call `randomizeHiddenState(observer)` on a state with the hands of two players, with
the cards: each new hand is the part of the hand the observer sees or that is face up,
followed by cards dealt back; the deck after the call followed by the cards dealt back is
a reordering of the deck followed by the cards taken out of the hands; the first card of
a deck that is not empty stays. -/
theorem randomizeHiddenState_cards (sh : Shuffler G)
    (hsh : ∀ l g, (sh.shuffle l g).1.Perm l) (s : DurakState G) (observer : Int)
    (h0 h1 : List Card) (rest : List (List Card)) (hh : s.hands = h0 :: h1 :: rest) :
    ∃ deck x0 x1 rd, s.randomizeHiddenState sh observer
        = some { s with
            deck := deck,
            hands :=
              (h0.filter (fun c => !(c.hidden && decide (observer ≠ ((0 : Nat) : Int) + 1)))
                  ++ x0) ::
                (h1.filter (fun c => !(c.hidden && decide (observer ≠ ((1 : Nat) : Int) + 1)))
                  ++ x1) ::
                List.replicate rest.length [],
            rd := rd } ∧
      (deck ++ x1 ++ x0).Perm
        (s.deck ++ h0.filter (fun c => c.hidden && decide (observer ≠ ((0 : Nat) : Int) + 1))
          ++ h1.filter (fun c => c.hidden && decide (observer ≠ ((1 : Nat) : Int) + 1))) ∧
      (s.deck ≠ [] → deck.head? = s.deck.head?) ∧
      x0.length
        = (h0.filter (fun c => c.hidden && decide (observer ≠ ((0 : Nat) : Int) + 1))).length ∧
      x1.length
        = (h1.filter (fun c => c.hidden && decide (observer ≠ ((1 : Nat) : Int) + 1))).length := by
  have hr : List.range numberOfPlayers = [0, 1] := rfl
  have hnh : List.replicate s.hands.length ([] : List Card)
      = [] :: [] :: List.replicate rest.length [] := by
    rw [hh]
    rfl
  have hs0 : s.hands[0]? = some h0 := by simp [hh]
  have hs1 : s.hands[1]? = some h1 := by simp [hh]
  have hp0 := length_filter_parts
    (fun c => c.hidden && decide (observer ≠ ((0 : Nat) : Int) + 1)) h0
  have hp1 := length_filter_parts
    (fun c => c.hidden && decide (observer ≠ ((1 : Nat) : Int) + 1)) h1
  have hf0 := foldHand_eq s.hands observer 0 s.deck ([] :: [] :: List.replicate rest.length [])
    h0 [] hs0 (by simp)
  simp only [List.set_cons_zero, List.nil_append] at hf0
  generalize hm0 : h0.filter (fun c => c.hidden && decide (observer ≠ ((0 : Nat) : Int) + 1))
    = m0 at hf0 hp0 ⊢
  generalize hk0 : h0.filter (fun c => !(c.hidden && decide (observer ≠ ((0 : Nat) : Int) + 1)))
    = k0 at hf0 hp0 ⊢
  have hf1 := foldHand_eq s.hands observer 1 (s.deck ++ m0)
    (k0 :: [] :: List.replicate rest.length []) h1 [] hs1 (by simp)
  simp only [List.set_cons_succ, List.set_cons_zero, List.nil_append] at hf1
  generalize hm1 : h1.filter (fun c => c.hidden && decide (observer ≠ ((1 : Nat) : Int) + 1))
    = m1 at hf1 hp1 ⊢
  generalize hk1 : h1.filter (fun c => !(c.hidden && decide (observer ≠ ((1 : Nat) : Int) + 1)))
    = k1 at hf1 hp1 ⊢
  have hfold : (List.range numberOfPlayers).foldlM (foldHand s.hands observer)
      (s.deck, List.replicate s.hands.length [])
      = some (s.deck ++ m0 ++ m1, k0 :: k1 :: List.replicate rest.length []) := by
    rw [hr, hnh, List.foldlM_cons, hf0]
    show List.foldlM (foldHand s.hands observer)
      (s.deck ++ m0, k0 :: [] :: List.replicate rest.length []) [1] = _
    rw [List.foldlM_cons, hf1]
    rfl
  have hlen := shuffleDeck_length sh hsh (!s.deck.isEmpty) (s.deck ++ m0 ++ m1) s.rd
  have hperm := shuffleDeck_perm sh hsh (!s.deck.isEmpty) (s.deck ++ m0 ++ m1) s.rd
  simp only [List.length_append] at hlen
  generalize hD : shuffleDeck sh (!s.deck.isEmpty) (s.deck ++ m0 ++ m1) s.rd = D at hlen hperm
  have hd0 := dealHand_slice s.hands D.1 (k0 :: k1 :: List.replicate rest.length [])
    0 0 k0 h0 (by simp) hs0 (by omega) (by omega)
  simp only [List.set_cons_zero] at hd0
  generalize hx0 : (D.1.drop (D.1.length - 0 - (h0.length - k0.length))).take
    (h0.length - k0.length) = x0 at hd0
  have hd1 := dealHand_slice s.hands D.1
    ((k0 ++ x0) :: k1 :: List.replicate rest.length [])
    (0 + (h0.length - k0.length)) 1 k1 h1 (by simp) hs1 (by omega) (by omega)
  simp only [List.set_cons_succ, List.set_cons_zero] at hd1
  generalize hx1 : (D.1.drop (D.1.length - (0 + (h0.length - k0.length))
    - (h1.length - k1.length))).take (h1.length - k1.length) = x1 at hd1
  have hdeal : (List.range numberOfPlayers).foldlM (dealHand s.hands D.1)
      (k0 :: k1 :: List.replicate rest.length [], 0)
      = some ((k0 ++ x0) :: (k1 ++ x1) :: List.replicate rest.length [],
          ((0 + (h0.length - k0.length) + (h1.length - k1.length) : Nat) : Int)) := by
    have hd0' : dealHand s.hands D.1 (k0 :: k1 :: List.replicate rest.length [], 0) 0
        = some ((k0 ++ x0) :: k1 :: List.replicate rest.length [],
            ((0 + (h0.length - k0.length) : Nat) : Int)) := hd0
    rw [hr, List.foldlM_cons, hd0']
    show List.foldlM (dealHand s.hands D.1)
      ((k0 ++ x0) :: k1 :: List.replicate rest.length [],
        ((0 + (h0.length - k0.length) : Nat) : Int)) [1] = _
    rw [List.foldlM_cons, hd1]
    rfl
  have hsl := take_append_slices D.1 (h0.length - k0.length) (h1.length - k1.length)
    (by omega)
  refine ⟨D.1.take (D.1.length - (0 + (h0.length - k0.length) + (h1.length - k1.length))),
    x0, x1, D.2, ?_, ?_, ?_, ?_, ?_⟩
  · unfold randomizeHiddenState
    simp only [hfold, hD, hdeal]
    rw [if_pos ⟨by omega, by omega⟩]
    simp only [Int.toNat_ofNat]
  · rw [← hx0, ← hx1]
    simp only [Nat.zero_add, Nat.sub_zero]
    rw [hsl]
    exact hperm.1
  · intro hne
    have hhead : D.1.head? = s.deck.head? := by
      rw [hperm.2 (by simpa using hne)]
      cases hd : s.deck with
      | nil => exact absurd hd hne
      | cons c cs => rfl
    rw [← hhead]
    have hpos : 0 < D.1.length - (0 + (h0.length - k0.length) + (h1.length - k1.length)) := by
      have : 0 < s.deck.length := List.length_pos.mpr hne
      omega
    cases hD1 : D.1 with
    | nil => simp
    | cons c cs =>
      rw [hD1] at hpos
      obtain ⟨n, hn⟩ : ∃ n, (c :: cs).length
          - (0 + (h0.length - k0.length) + (h1.length - k1.length)) = n + 1 :=
        ⟨_, (Nat.succ_pred_eq_of_pos hpos).symm⟩
      rw [hn]
      rfl
  · rw [← hx0, List.length_take, List.length_drop]
    omega
  · rw [← hx1, List.length_take, List.length_drop]
    omega

end DurakState

end DurakCards

/-! ## Statements about `DurakState`: determinization and result -/

section DurakStateClaims

variable {G : Type}

/-- C21. Whenever `randomizeHiddenState(observer)` completes (it does with the hands of
the two players): the hand of the observer is as it was; the cards that are face up in the
hand of a player are still in that hand, in the same order; the first card of a deck that
is not empty is as it was; the cards of the deck and of the two players' hands together
are the same, counted with multiplicity, and so are those of the deck and all hands when
there are exactly two hands.  Without an argument the observer is the player to move.
`std::shuffle` is taken to reorder its range. -/
theorem C21_randomizeHiddenState_cards (sh : Shuffler G)
    (hsh : ∀ l g, (sh.shuffle l g).1.Perm l) (s : DurakState G) (observer : Int) :
    (2 ≤ s.hands.length → ∃ s', s.randomizeHiddenState sh observer = some s') ∧
    (∀ s', s.randomizeHiddenState sh observer = some s' →
      ∃ h0 h1 h0' h1', s.hands[0]? = some h0 ∧ s.hands[1]? = some h1 ∧
        s'.hands[0]? = some h0' ∧ s'.hands[1]? = some h1' ∧
        (observer = 1 → h0' = h0) ∧ (observer = 2 → h1' = h1) ∧
        (h0.filter (fun c => !c.hidden)).Sublist h0' ∧
        (h1.filter (fun c => !c.hidden)).Sublist h1' ∧
        (s.deck ≠ [] → s'.deck.head? = s.deck.head?) ∧
        (s'.deck ++ h0' ++ h1').Perm (s.deck ++ h0 ++ h1) ∧
        (s.hands.length = 2 → (s'.deck ++ s'.hands.flatten).Perm (s.deck ++ s.hands.flatten))) ∧
    s.randomizeHiddenStateDefault sh = s.randomizeHiddenState sh s.playerToMove := by
  have key : ∀ (h0 h1 : List DurakState.Card) (rest : List (List DurakState.Card)),
      s.hands = h0 :: h1 :: rest →
      ∃ s' h0' h1', s.randomizeHiddenState sh observer = some s' ∧
        s'.hands = h0' :: h1' :: List.replicate rest.length [] ∧
        (observer = 1 → h0' = h0) ∧ (observer = 2 → h1' = h1) ∧
        (h0.filter (fun c => !c.hidden)).Sublist h0' ∧
        (h1.filter (fun c => !c.hidden)).Sublist h1' ∧
        (s.deck ≠ [] → s'.deck.head? = s.deck.head?) ∧
        (s'.deck ++ h0' ++ h1').Perm (s.deck ++ h0 ++ h1) := by
    intro h0 h1 rest hh
    obtain ⟨deck, x0, x1, rd, hres, hperm, hhead, hl0, hl1⟩ :=
      DurakState.randomizeHiddenState_cards sh hsh s observer h0 h1 rest hh
    have e0 := List.filter_append_perm
      (fun c : DurakState.Card => c.hidden && decide (observer ≠ ((0 : Nat) : Int) + 1)) h0
    have e1 := List.filter_append_perm
      (fun c : DurakState.Card => c.hidden && decide (observer ≠ ((1 : Nat) : Int) + 1)) h1
    have hsub : ∀ (p : DurakState.Card → Bool) (h : List DurakState.Card),
        (∀ c, c.hidden = false → p c = false) →
        (h.filter (fun c => !c.hidden)).Sublist (h.filter (fun c => !p c)) := by
      intro p h hp
      have : h.filter (fun c => !c.hidden)
          = (h.filter (fun c => !p c)).filter (fun c => !c.hidden) := by
        rw [List.filter_filter]
        apply List.filter_congr
        intro c _
        cases hc : c.hidden with
        | true => rfl
        | false => simp [hp c hc]
      rw [this]
      exact List.filter_sublist _
    refine ⟨_, _, _, hres, rfl, ?_, ?_, ?_, ?_, hhead, ?_⟩
    · intro ho
      have hk := DurakState.filter_seen
        (fun c : DurakState.Card => c.hidden && decide (observer ≠ ((0 : Nat) : Int) + 1)) h0
        (fun c _ => by simp [ho])
      have hm : h0.filter (fun c => c.hidden && decide (observer ≠ ((0 : Nat) : Int) + 1))
          = [] := by
        rw [List.filter_eq_nil_iff]
        intro c _
        simp [ho]
      rw [hm] at hl0
      rw [hk, List.length_eq_zero.mp hl0, List.append_nil]
    · intro ho
      have hk := DurakState.filter_seen
        (fun c : DurakState.Card => c.hidden && decide (observer ≠ ((1 : Nat) : Int) + 1)) h1
        (fun c _ => by simp [ho])
      have hm : h1.filter (fun c => c.hidden && decide (observer ≠ ((1 : Nat) : Int) + 1))
          = [] := by
        rw [List.filter_eq_nil_iff]
        intro c _
        simp [ho]
      rw [hm] at hl1
      rw [hk, List.length_eq_zero.mp hl1, List.append_nil]
    · exact List.Sublist.trans (hsub _ h0 (fun c hc => by simp [hc]))
        (List.sublist_append_left _ _)
    · exact List.Sublist.trans (hsub _ h1 (fun c hc => by simp [hc]))
        (List.sublist_append_left _ _)
    · simp only []
      generalize h0.filter (fun c => c.hidden && decide (observer ≠ ((0 : Nat) : Int) + 1))
        = m0 at hperm e0
      generalize h0.filter (fun c => !(c.hidden && decide (observer ≠ ((0 : Nat) : Int) + 1)))
        = k0 at e0
      generalize h1.filter (fun c => c.hidden && decide (observer ≠ ((1 : Nat) : Int) + 1))
        = m1 at hperm e1
      generalize h1.filter (fun c => !(c.hidden && decide (observer ≠ ((1 : Nat) : Int) + 1)))
        = k1 at e1
      have a1 : (deck ++ (k0 ++ x0) ++ (k1 ++ x1)).Perm ((deck ++ x1 ++ x0) ++ (k0 ++ k1)) := by
        rw [← Multiset.coe_eq_coe]
        simp only [← Multiset.coe_add]
        abel
      have a2 : ((s.deck ++ m0 ++ m1) ++ (k0 ++ k1)).Perm (s.deck ++ (m0 ++ k0) ++ (m1 ++ k1)) := by
        rw [← Multiset.coe_eq_coe]
        simp only [← Multiset.coe_add]
        abel
      exact a1.trans ((hperm.append_right _).trans
        (a2.trans ((e0.append_left s.deck).append e1)))
  refine ⟨?_, ?_, rfl⟩
  · intro hlen
    cases hs : s.hands with
    | nil =>
      rw [hs] at hlen
      exact absurd hlen (by simp)
    | cons h0 tl =>
      cases tl with
      | nil =>
        rw [hs] at hlen
        exact absurd hlen (by simp)
      | cons h1 rest =>
        obtain ⟨s', _, _, hres, _⟩ := key h0 h1 rest hs
        exact ⟨s', hres⟩
  · intro s' h
    obtain ⟨hlen, _⟩ := DurakState.randomizeHiddenState_keeps sh hsh s s' observer h
    cases hs : s.hands with
    | nil =>
      rw [hs] at hlen
      exact absurd hlen (by simp)
    | cons h0 tl =>
      cases tl with
      | nil =>
        rw [hs] at hlen
        exact absurd hlen (by simp)
      | cons h1 rest =>
        obtain ⟨s2, h0', h1', hres, hhands, ho0, ho1, hs0, hs1, hhead, hperm⟩ :=
          key h0 h1 rest hs
        rw [h] at hres
        have := Option.some.inj hres
        subst this
        refine ⟨h0, h1, h0', h1', by simp, by simp, by simp [hhands], by simp [hhands],
          ho0, ho1, hs0, hs1, hhead, hperm, ?_⟩
        intro h2
        have hrest : rest = [] := by
          simp only [List.length_cons] at h2
          exact List.length_eq_zero.mp (by omega)
        subst hrest
        rw [hhands]
        simpa [List.append_assoc] using hperm

/-- C21, on a state with three cards in the deck and two in each hand, for observer 2 and
the shuffle that reverses its range: the call completes, and the state after it is
related to the state before as stated. -/
theorem C21_randomizeHiddenState_cards_witness :
    ∃ s', sampleDurak.randomizeHiddenState revShuffler 2 = some s' ∧
      ∃ h0 h1 h0' h1', sampleDurak.hands[0]? = some h0 ∧ sampleDurak.hands[1]? = some h1 ∧
        s'.hands[0]? = some h0' ∧ s'.hands[1]? = some h1' ∧
        ((2 : Int) = 1 → h0' = h0) ∧ ((2 : Int) = 2 → h1' = h1) ∧
        (h0.filter (fun c => !c.hidden)).Sublist h0' ∧
        (h1.filter (fun c => !c.hidden)).Sublist h1' ∧
        (sampleDurak.deck ≠ [] → s'.deck.head? = sampleDurak.deck.head?) ∧
        (s'.deck ++ h0' ++ h1').Perm (sampleDurak.deck ++ h0 ++ h1) ∧
        (sampleDurak.hands.length = 2 →
          (s'.deck ++ s'.hands.flatten).Perm (sampleDurak.deck ++ sampleDurak.hands.flatten)) := by
  have hc := C21_randomizeHiddenState_cards revShuffler (fun l _ => List.reverse_perm l)
    sampleDurak 2
  obtain ⟨s', hs'⟩ := hc.1 (by decide)
  exact ⟨s', hs', hc.2.1 s' hs'⟩

/-- C25. In a terminal state with the hands of two players, `getResult(p)` is 0 or 1 for
every `p`, `getResult(1) = 1 - getResult(2)`, and when both hands are empty player 1 is
the one credited. -/
theorem C25_getResult_zero_sum (K : Type) [LinearOrderedField K] (s : DurakState G)
    (hh : s.hands.length = 2) (ht : s.isTerminal = true) :
    (∀ p : Int, (s.getResult p : K) = 0 ∨ (s.getResult p : K) = 1) ∧
      (s.getResult 1 : K) = 1 - s.getResult 2 ∧
      ((∀ hand ∈ s.hands, hand = []) → (s.getResult 1 : K) = 1 ∧ (s.getResult 2 : K) = 0) := by
  refine ⟨?_, ?_, ?_⟩
  · intro p
    unfold DurakState.getResult
    split
    · exact Or.inr rfl
    · exact Or.inl rfl
  · unfold DurakState.getResult DurakState.isTerminal at *
    match hs : s.hands, hh with
    | [a, b], _ =>
      rw [hs] at ht
      cases a with
      | nil => simp [DurakState.firstEmpty]
      | cons c a =>
        cases b with
        | nil => simp [DurakState.firstEmpty]
        | cons d b => simp at ht
  · intro hall
    unfold DurakState.getResult
    match hs : s.hands, hh with
    | [a, b], _ =>
      have ha : a = [] := hall a (by rw [hs]; simp)
      subst ha
      simp [DurakState.firstEmpty]

/-- C25, on a state in which player 2 has no cards left: player 2 is credited. -/
theorem C25_getResult_zero_sum_witness :
    ((({ sampleDurak with hands := [[⟨3, true⟩], []] } : DurakState Nat).getResult 1 : ℝ)
        = 1 - ({ sampleDurak with hands := [[⟨3, true⟩], []] } : DurakState Nat).getResult 2) ∧
      (({ sampleDurak with hands := [[⟨3, true⟩], []] } : DurakState Nat).getResult 2 : ℝ) = 1 :=
  ⟨(C25_getResult_zero_sum ℝ ({ sampleDurak with hands := [[⟨3, true⟩], []] } : DurakState Nat)
      rfl rfl).2.1,
    by simp [DurakState.getResult, DurakState.firstEmpty]⟩

end DurakStateClaims

/-! ## `DurakState`: text, equality and hashing of cards and moves -/

section DurakMoveClaims

open DurakState

/-- C29. For every card with number `n` from 0 to 35 the conversion to a string is
defined, and the constructor from that string returns the card with the same `n`, hence
the same suit and rank. -/
theorem C29_card_text_round_trip (n : Int) (h0 : 0 ≤ n) (h36 : n < 36) (hidden hidden' : Bool) :
    ∃ str c, Card.toString ⟨n, hidden⟩ = some str ∧
      Card.ofString str hidden' = Returned.value c ∧ c.n = n ∧ c.hidden = hidden' ∧
      c.suit = Card.suit ⟨n, hidden⟩ ∧ c.rank = Card.rank ⟨n, hidden⟩ := by
  interval_cases n <;> exact ⟨_, _, rfl, rfl, rfl, rfl, rfl, rfl⟩

/-- C29, on the ten of diamonds, the card with number 19. -/
theorem C29_card_text_round_trip_witness :
    ∃ str c, Card.toString ⟨19, false⟩ = some str ∧
      Card.ofString str true = Returned.value c ∧ c.n = 19 ∧ c.hidden = true ∧
      c.suit = Card.suit ⟨19, false⟩ ∧ c.rank = Card.rank ⟨19, false⟩ :=
  C29_card_text_round_trip 19 (by decide) (by decide) false true

/-- The text of a throw-in move starts with the text put first. -/
theorem DurakState.foldl_throwIn_text (rest : List Card) (acc : List Char) :
    ∃ t, rest.foldl (fun s d => s ++ ", ".toList ++ [d.toChar]) acc = acc ++ t := by
  induction rest generalizing acc with
  | nil => exact ⟨[], (List.append_nil acc).symm⟩
  | cons d rest ih =>
    obtain ⟨t, ht⟩ := ih (acc ++ ", ".toList ++ [d.toChar])
    refine ⟨", ".toList ++ [d.toChar] ++ t, ?_⟩
    rw [List.foldl_cons, ht]
    simp only [List.append_assoc]

/-- C30, amended. Whatever the move, where its conversion to a string is defined,
`stringToMove` throws on that string: the text written by the conversions
(`Attack move: 6S, 7C`) is not the text `stringToMove` reads (`A 6S 7C`). -/
theorem C30_stringToMove_rejects_move_text (m : Move) (str : List Char)
    (h : m.toString = some str) : stringToMove str = Returned.throws := by
  cases m with
  | null =>
    simp only [Move.toString, Option.some.injEq] at h
    subst h
    rfl
  | attack cards =>
    simp only [Move.toString] at h
    split at h
    · rename_i t _
      simp only [Option.some.injEq] at h
      subst h
      rfl
    · exact Option.noConfusion h
  | defend cards giveUp =>
    simp only [Move.toString] at h
    split at h
    · simp only [Option.some.injEq] at h
      subst h
      rfl
    · split at h
      · exact Option.noConfusion h
      · split at h
        · simp only [Option.some.injEq] at h
          subst h
          rfl
        · exact Option.noConfusion h
  | throwIn cards =>
    simp only [Move.toString] at h
    split at h
    · exact Option.noConfusion h
    · rename_i c rest
      simp only [Option.some.injEq] at h
      obtain ⟨t, ht⟩ := DurakState.foldl_throwIn_text rest ("Throw-in move: ".toList ++ [c.toChar])
      rw [ht] at h
      subst h
      rfl

/-- C30, on the attack with the six of spades: its text is `Attack move: 6S`, and
`stringToMove` throws on it, while it reads `A 6S` as that attack. -/
theorem C30_stringToMove_rejects_move_text_witness :
    (Move.attack [⟨0, true⟩]).toString = some "Attack move: 6S".toList ∧
      stringToMove "Attack move: 6S".toList = Returned.throws ∧
      stringToMove "A 6S".toList = Returned.value (Move.attack [⟨0, true⟩]) :=
  ⟨rfl, C30_stringToMove_rejects_move_text (Move.attack [⟨0, true⟩]) _ rfl, rfl⟩

/-- C28. Two defend moves without cards, one giving up and one not, are equal under
`operator==`, and their hash values are 257 and 0 whatever the parameters `a` and `b`; the
attack moves with the card 3 twice and once are equal, and their hash values for
`a = b = 1` are 0 and 4. -/
theorem C28_hash_differs_on_equal_moves :
    Move.eq (Move.defend [] true) (Move.defend [] false) = true ∧
    (∀ a b, Move.hash a b (Move.defend [] true) = 257 ∧
      Move.hash a b (Move.defend [] false) = 0) ∧
    Move.eq (Move.attack [⟨3, true⟩, ⟨3, true⟩]) (Move.attack [⟨3, true⟩]) = true ∧
    Move.hash 1 1 (Move.attack [⟨3, true⟩, ⟨3, true⟩]) = 0 ∧
    Move.hash 1 1 (Move.attack [⟨3, true⟩]) = 4 :=
  ⟨rfl, fun _ _ => ⟨by simp [Move.hash, logicalOr], by simp [Move.hash, logicalOr]⟩,
    rfl, by decide, by decide⟩

end DurakMoveClaims

/-! ## `DurakState`: the moves listed and the moves accepted -/

section DurakPlayClaims

open DurakState

/-- C22. Three states that are not terminal with a move that `getMoves()` lists and
`makeMove` rejects.  Player 1 to attack with two sixes: the attack with both is listed,
and `makeMove` throws (its test compares the number of cards with
`playerToMove % numberOfPlayers`, which is 1).  Player 2 to attack: the attack with one
card is listed and `makeMove` throws (the bound is 0).  Player 2 to defend against a six
with a six in hand: the move passing the attack on is listed as a `ThrowInMove`, and
`makeMove` throws because the defending player cannot throw in. -/
theorem C22_makeMove_rejects_listed_moves :
    (sampleAttack.isTerminal = false ∧
      sampleAttack.getMoves = some ([Move.attack [⟨0, false⟩], Move.attack [⟨1, false⟩],
        Move.attack [⟨0, false⟩, ⟨1, false⟩], Move.attack [⟨14, false⟩]], sampleAttack) ∧
      sampleAttack.makeMove (Move.attack [⟨0, false⟩, ⟨1, false⟩])
        = CallResult.throws sampleAttack) ∧
    (({ sampleAttack with playerToMove := 2 } : DurakState Nat).getMoves
        = some ([Move.attack [⟨4, false⟩], Move.attack [⟨19, false⟩]],
            { sampleAttack with playerToMove := 2 }) ∧
      ({ sampleAttack with playerToMove := 2 } : DurakState Nat).makeMove
          (Move.attack [⟨4, false⟩])
        = CallResult.throws { sampleAttack with playerToMove := 2 }) ∧
    ∃ s1 s2 moves, sampleRemit.playLegal [Move.attack [⟨0, false⟩]] = some s1 ∧
      s1.isTerminal = false ∧ s1.playerToMove = 2 ∧ s1.defendingPlayer = 2 ∧
      s1.getMoves = some (moves, s2) ∧ Move.throwIn [⟨1, false⟩] ∈ moves ∧
      s2.makeMove (Move.throwIn [⟨1, false⟩]) = CallResult.throws s2 :=
  ⟨⟨rfl, rfl, rfl⟩, ⟨rfl, rfl⟩, _, _, _, rfl, rfl, rfl, rfl, rfl, by decide, rfl⟩

/-- C23. Player 1, to attack, does not hold the ace of diamonds; `makeMove` with the attack
by that card throws, and leaves the card in `attack` and `attackingPlayer` set to 1, where
before the call `attack` was empty and `attackingPlayer` was -1. -/
theorem C23_makeMove_throws_after_changes :
    ∃ s', sampleAttack.makeMove (Move.attack [⟨35, false⟩]) = CallResult.throws s' ∧
      s'.attack = [⟨35, false⟩] ∧ s'.attackingPlayer = 1 ∧
      sampleAttack.attack = [] ∧ sampleAttack.attackingPlayer = -1 ∧
      s'.hands = sampleAttack.hands ∧ s'.playerToMove = sampleAttack.playerToMove :=
  ⟨_, rfl, rfl, rfl, rfl, rfl, rfl, rfl⟩

/-- The search for the cards to beat with, on an empty `attack`: nothing is paired. -/
theorem DurakState.defendGreedy_nil (trump : Int) (hand : List Card) (beaten : List Bool)
    (cards : List (Card × Card)) :
    defendGreedy trump [] hand beaten cards = (beaten, cards) := by
  induction hand with
  | nil => rfl
  | cons card hand ih =>
    unfold defendGreedy
    simpa using ih

/-- C27. In every state that is not terminal where the defender is to move, `attack` is
empty and `defended` is not (all attack cards have been beaten and the attacker threw in
nothing), `getMoves()` returns the move giving up and the defend move without cards, in
this order, and `operator==` holds of the two. -/
theorem C27_getMoves_lists_equal_moves {G : Type} (s : DurakState G) (hand : List Card)
    (ht : s.isTerminal = false) (hd : s.defending = true)
    (hp : s.playerToMove = s.defendingPlayer) (ha : s.attack = []) (hdf : s.defended ≠ [])
    (hh : handAt s.hands (s.playerToMove - 1) = some hand) :
    s.getMoves = some ([Move.defend [] true, Move.defend [] false],
        { s with hands := s.hands.set (toSizeT (s.playerToMove - 1))
                   (sortCards (sortLess s.trump) hand) }) ∧
      Move.eq (Move.defend [] true) (Move.defend [] false) = true := by
  refine ⟨?_, rfl⟩
  have hne : s.defended.isEmpty = false := by
    cases hs : s.defended with
    | nil => exact absurd hs hdf
    | cons _ _ => rfl
  unfold getMoves
  simp [ht, hd, hp, ha, hne, hh, hp ▸ hh, DurakState.defendGreedy_nil]

/-- C27, by moves out of `getMoves()`: player 1 attacks with the six of spades, player 2
beats it with the seven of spades, player 1 throws in nothing.  Player 2, the defender, is
to move with `attack` empty, the state is not terminal, and `getMoves()` returns the two
moves. -/
theorem C27_getMoves_lists_equal_moves_witness :
    sampleAttack.playLegal [Move.attack [⟨0, false⟩],
        Move.defend [(⟨0, false⟩, ⟨4, false⟩)] false, Move.throwIn []] = some sampleDefended ∧
      sampleDefended.isTerminal = false ∧ sampleDefended.defending = true ∧
      sampleDefended.playerToMove = sampleDefended.defendingPlayer ∧
      sampleDefended.attack = [] ∧ sampleDefended.defended ≠ [] ∧
      handAt sampleDefended.hands (sampleDefended.playerToMove - 1) = some [⟨19, false⟩] ∧
      (sampleDefended.getMoves = some ([Move.defend [] true, Move.defend [] false],
          { sampleDefended with
            hands := sampleDefended.hands.set (toSizeT (sampleDefended.playerToMove - 1))
              (sortCards (sortLess sampleDefended.trump) [⟨19, false⟩]) }) ∧
        Move.eq (Move.defend [] true) (Move.defend [] false) = true) :=
  ⟨rfl, rfl, rfl, rfl, rfl, by simp [sampleDefended], rfl,
    C27_getMoves_lists_equal_moves sampleDefended [⟨19, false⟩] rfl rfl rfl rfl
      (by simp [sampleDefended]) rfl⟩

end DurakPlayClaims

/-! ## Tic-tac-toe: the lines of the board -/

section TicTacToeLines

theorem ttt.Spec.lines_eq : ttt.Spec.lines =
    [[0, 1, 2], [3, 4, 5], [6, 7, 8], [0, 3, 6], [1, 4, 7], [2, 5, 8], [0, 4, 8], [2, 4, 6]] := by
  decide

set_option maxRecDepth 100000 in
theorem ttt.State.checkWin_eq_hasLine : ∀ b, b < 512 → ttt.State.checkWin b = ttt.Spec.hasLine b := by
  decide

/-- C39. For every 9-bit board `b`, `checkWin b` holds exactly if `b` contains the three cells
of one of the lines of the grid: the rows, the columns and the two diagonals, where cell `p`
lies in row `p / 3` and column `p % 3`. -/
theorem C39_checkWin_lines (b : Nat) (hb : b < 512) :
    ttt.State.checkWin b = true ↔
      ∃ line ∈ ttt.Spec.lines, line.length = 3 ∧ ∀ p ∈ line, b.testBit p = true := by
  rw [ttt.State.checkWin_eq_hasLine b hb]
  unfold ttt.Spec.hasLine
  rw [List.any_eq_true]
  constructor
  · rintro ⟨line, hl, h⟩
    refine ⟨line, hl, ?_, by simpa using h⟩
    rw [ttt.Spec.lines_eq] at hl
    simp only [List.mem_cons, List.mem_singleton, List.not_mem_nil, or_false] at hl
    rcases hl with h | h | h | h | h | h | h | h <;> rw [h] <;> rfl
  · rintro ⟨line, hl, _, h⟩
    exact ⟨line, hl, by simpa using h⟩


end TicTacToeLines

/-! ## `DurakState::Card` from text -/

section CardTextClaims

open DurakState

theorem DurakState.indexIn_of_not_mem (arr : List (List Char)) (x : List Char) (h : x ∉ arr) :
    indexIn arr x = -1 := by
  unfold indexIn
  have : arr.indexOf? x = none := by
    unfold List.indexOf?
    rw [List.findIdx?_eq_none_iff]
    intro y hy
    simp only [beq_eq_false_iff_ne, ne_eq]
    intro hxy
    exact h (by simpa [hxy] using hy)
  rw [this]

/-- C31, the failing inputs. A text whose last character is a suit letter and whose preceding
characters are none of the rank names is not rejected by `Card(string)`: the second test of
the constructor repeats `suit == -1` where the rank is meant, so the constructor returns a
card, and its number `-4 + suit` lies in `-4..-1`, outside `0..35`. -/
theorem C31_card_text_bad_rank_accepted (s : List Char) (last : Char) (hidden : Bool)
    (hl : s.getLast? = some last) (hs : [last] ∈ suits) (hr : s.dropLast ∉ ranks) :
    ∃ c, Card.ofString s hidden = Returned.value c ∧ -4 ≤ c.n ∧ c.n < 0 := by
  unfold Card.ofString
  rw [hl]
  simp only []
  rw [DurakState.indexIn_of_not_mem ranks _ hr]
  simp only [suits, List.mem_cons, List.mem_singleton, List.not_mem_nil, or_false] at hs
  rcases hs with h | h | h | h <;> rw [h] <;> refine ⟨_, rfl, ?_, ?_⟩ <;> dsimp only <;> decide

/-- C31, on the text `XS`: the constructor returns a card with a number in `-4..-1`, and
`stringToMove` reads `A XS` as an attack with the card of number `-4`. -/
theorem C31_card_text_bad_rank_accepted_witness :
    (∃ c, Card.ofString "XS".toList false = Returned.value c ∧ -4 ≤ c.n ∧ c.n < 0) ∧
      stringToMove "A XS".toList = Returned.value (Move.attack [⟨-4, true⟩]) :=
  ⟨C31_card_text_bad_rank_accepted "XS".toList 'S' false rfl (by decide) (by decide), rfl⟩


end CardTextClaims

/-! ## Visits and wins in reachable trees -/

section VisitLemmas
variable {S Move K : Type} [LinearOrderedField K]

/-- A property of a node that does not read `avails` is kept by `n->avails += 1`. -/
theorem MCTS.Node.All.bump_of {P : MCTS.Node Move K → Prop}
    (hP : ∀ a b : MCTS.Node Move K, a.children = b.children → a.visits = b.visits →
      a.wins = b.wins → a.just_moved = b.just_moved → P a → P b)
    (c : MCTS.Node Move K) (h : MCTS.Node.All P c) : MCTS.Node.All P c.bump :=
  MCTS.Node.All.mk _ (hP c c.bump rfl rfl rfl rfl h.here) h.child

/-- The nodes of a tree are the nodes at its positions. -/
theorem MCTS.Node.All.at_position {P : MCTS.Node Move K → Prop} (n : MCTS.Node Move K)
    (h : MCTS.Node.All P n) : ∀ (q : List Nat) (x : MCTS.Node Move K), n.nodeAt q = some x → P x := by
  induction h with
  | mk n hn hc ih =>
    intro q x hq
    cases q with
    | nil =>
      simp only [MCTS.Node.nodeAt, Option.some.injEq] at hq
      subst hq
      exact hn
    | cons i q =>
      rw [MCTS.Node.nodeAt_cons] at hq
      cases hci : n.children[i]? with
      | none =>
        rw [hci] at hq
        exact Option.noConfusion hq
      | some c =>
        rw [hci] at hq
        exact ih c (List.getElem?_mem hci) q x hq

/-- What one iteration does to the statistics of the node it starts at. -/
theorem MCTS.IterStep.root_stats (ops : StateOps S Move K) (st : S) (n r : MCTS.Node Move K)
    (h : MCTS.IterStep ops st n r) :
    r.visits = n.visits + 1 ∧ r.wins = (n.update ops st).wins ∧ r.just_moved = n.just_moved := by
  cases h with
  | stop =>
    exact ⟨MCTS.Node.update_visits _ _ _, rfl, MCTS.Node.update_just_moved _ _ _⟩
  | expand legalMoves m p hm =>
    exact ⟨MCTS.Node.update_visits _ _ _,
      by rw [MCTS.Node.update_wins, MCTS.Node.update_wins],
      MCTS.Node.update_just_moved _ _ _⟩
  | descend legalMoves i c r' hc hl hu hr =>
    exact ⟨MCTS.Node.update_visits _ _ _,
      by rw [MCTS.Node.update_wins, MCTS.Node.update_wins],
      MCTS.Node.update_just_moved _ _ _⟩

/-- One iteration keeps, below the node it starts at, a property `P` of nodes that holds
of a node constructed and updated once, is kept by `update`, and does not read `avails`. -/
theorem MCTS.IterStep.below_inv (ops : StateOps S Move K) (P : MCTS.Node Move K → Prop)
    (hnew : ∀ m p st, P ((MCTS.Node.ctor m p).update ops st))
    (hupd : ∀ (n r : MCTS.Node Move K) st, P n → r.visits = n.visits + 1 →
      r.wins = (n.update ops st).wins → r.just_moved = n.just_moved → P r)
    (hP : ∀ a b : MCTS.Node Move K, a.visits = b.visits →
      a.wins = b.wins → a.just_moved = b.just_moved → P a → P b)
    (st : S) (n r : MCTS.Node Move K) (h : MCTS.IterStep ops st n r)
    (hn : ∀ c ∈ n.children, MCTS.Node.All P c) :
    ∀ c ∈ r.children, MCTS.Node.All P c := by
  induction h with
  | stop n =>
    rw [MCTS.Node.update_children]
    exact hn
  | expand n legalMoves m p hm =>
    rw [MCTS.Node.update_children]
    simp only [List.mem_append, List.mem_singleton]
    rintro c (hc | hc)
    · exact hn c hc
    · subst hc
      refine MCTS.Node.All.mk _ (hnew m p st) ?_
      rw [MCTS.Node.update_children]
      intro c hc
      simp [MCTS.Node.ctor] at hc
  | descend n legalMoves i c r hc hl hu hr ih =>
    rw [MCTS.Node.update_children]
    simp only []
    intro x hx
    have hcn := hn c (List.getElem?_mem hc)
    rcases List.mem_or_eq_of_mem_set hx with hx | hx
    · unfold MCTS.Node.bumpLegal at hx
      obtain ⟨y, hy, rfl⟩ := List.mem_map.1 hx
      split
      · exact MCTS.Node.All.mk _ (hP y y.bump rfl rfl rfl (hn y hy).here) (hn y hy).child
      · exact hn y hy
    · subst hx
      refine MCTS.Node.All.mk _ ?_ (ih hcn.child)
      obtain ⟨hv, hw, hj⟩ := MCTS.IterStep.root_stats ops st _ _ hr
      refine hupd c _ st hcn.here hv ?_ hj
      rw [hw, MCTS.Node.update_wins, MCTS.Node.update_wins]
      rfl

/-- One iteration keeps such a property on the node it starts at and below it. -/
theorem MCTS.IterStep.all_inv (ops : StateOps S Move K) (P : MCTS.Node Move K → Prop)
    (hnew : ∀ m p st, P ((MCTS.Node.ctor m p).update ops st))
    (hupd : ∀ (n r : MCTS.Node Move K) st, P n → r.visits = n.visits + 1 →
      r.wins = (n.update ops st).wins → r.just_moved = n.just_moved → P r)
    (hP : ∀ a b : MCTS.Node Move K, a.visits = b.visits →
      a.wins = b.wins → a.just_moved = b.just_moved → P a → P b)
    (st : S) (n r : MCTS.Node Move K) (h : MCTS.IterStep ops st n r)
    (hn : MCTS.Node.All P n) : MCTS.Node.All P r := by
  obtain ⟨hv, hw, hj⟩ := MCTS.IterStep.root_stats ops st _ _ h
  exact MCTS.Node.All.mk _ (hupd n r st hn.here hv hw hj)
    (MCTS.IterStep.below_inv ops P hnew hupd hP st n r h hn.child)

/-- The nodes below the node at which `select` calls `UCBSelectChild` are nodes of the
tree `select` was entered with, some with `avails` incremented. -/
theorem MCTS.SelectCalls.below_called (ops : StateOps S Move K) (cm : CMath K) (exploration : K)
    (P : MCTS.Node Move K → Prop)
    (hP : ∀ a b : MCTS.Node Move K, a.visits = b.visits →
      a.wins = b.wins → a.just_moved = b.just_moved → P a → P b)
    (s : S) (n x : MCTS.Node Move K) (legalMoves : List (MovePtr Move))
    (h : MCTS.SelectCalls ops cm exploration s n x legalMoves)
    (hn : ∀ c ∈ n.children, MCTS.Node.All P c) :
    ∀ c ∈ x.children, MCTS.Node.All P c := by
  induction h with
  | here s n ht hu => exact hn
  | deeper s n n1 i child s2 x legalMoves ht hu hsel hc hmk h ih =>
    apply ih
    obtain ⟨hn1, _⟩ := MCTS.Node.UCBSelectChild_eq_some ops cm n n1 _ exploration i hsel
    subst hn1
    simp only [] at hc
    have hmem := List.getElem?_mem hc
    unfold MCTS.Node.bumpLegal at hmem
    obtain ⟨y, hy, hyc⟩ := List.mem_map.1 hmem
    have hch : child.children = y.children := by
      rw [← hyc]
      split <;> rfl
    rw [hch]
    exact (hn y hy).child

/-- The sum of a list of numbers after one entry has grown by one. -/
theorem List.sum_set_succ (l : List Nat) (i a : Nat) (h : l[i]? = some a) :
    (l.set i (a + 1)).sum = l.sum + 1 := by
  induction l generalizing i with
  | nil => simp at h
  | cons x l ih =>
    cases i with
    | zero =>
      simp only [List.getElem?_cons_zero, Option.some.injEq] at h
      subst h
      simp only [List.set_cons_zero, List.sum_cons]
      omega
    | succ i =>
      simp only [List.getElem?_cons_succ] at h
      simp only [List.set_cons_succ, List.sum_cons, ih i h]
      omega

/-- One iteration keeps `visits` at least the sum of the `visits` of the children, at the
node it starts at and below it. -/
theorem MCTS.IterStep.visits_sum (ops : StateOps S Move K) (st : S) (n r : MCTS.Node Move K)
    (h : MCTS.IterStep ops st n r)
    (hn : MCTS.Node.All (fun x => (x.children.map (fun c => c.visits)).sum ≤ x.visits) n) :
    MCTS.Node.All (fun x => (x.children.map (fun c => c.visits)).sum ≤ x.visits) r := by
  induction h with
  | stop n =>
    refine MCTS.Node.All.mk _ ?_ ?_
    · have := hn.here
      simp only [MCTS.Node.update_children, MCTS.Node.update_visits] at this ⊢
      omega
    · rw [MCTS.Node.update_children]
      exact hn.child
  | expand n legalMoves m p hm =>
    refine MCTS.Node.All.mk _ ?_ ?_
    · have := hn.here
      simp only [MCTS.Node.update_children, MCTS.Node.update_visits, List.map_append,
        List.sum_append, List.map_cons, List.map_nil, List.sum_cons, List.sum_nil] at this ⊢
      simp only [MCTS.Node.ctor]
      omega
    · rw [MCTS.Node.update_children]
      simp only [List.mem_append, List.mem_singleton]
      rintro c (hc | hc)
      · exact hn.child c hc
      · subst hc
        refine MCTS.Node.All.mk _ ?_ ?_
        · simp [MCTS.Node.update_children, MCTS.Node.ctor]
        · rw [MCTS.Node.update_children]
          intro c hc
          simp [MCTS.Node.ctor] at hc
  | descend n legalMoves i c r hc hl hu hr ih =>
    have hcn := hn.child c (List.getElem?_mem hc)
    have hcb : MCTS.Node.All (fun x => (x.children.map (fun c => c.visits)).sum ≤ x.visits)
        c.bump := MCTS.Node.All.mk _ hcn.here hcn.child
    have hr' := ih hcb
    obtain ⟨hv, _, _⟩ := MCTS.IterStep.root_stats ops st _ _ hr
    have hmap : (MCTS.Node.bumpLegal ops legalMoves n.children).map (fun c => c.visits)
        = n.children.map (fun c => c.visits) := by
      unfold MCTS.Node.bumpLegal
      rw [List.map_map]
      apply List.map_congr_left
      intro y _
      simp only [Function.comp]
      split <;> rfl
    refine MCTS.Node.All.mk _ ?_ ?_
    · have := hn.here
      simp only [MCTS.Node.update_children, MCTS.Node.update_visits] at this ⊢
      rw [List.map_set, hmap, hv]
      have hci : (n.children.map (fun c => c.visits))[i]? = some c.visits := by
        rw [List.getElem?_map, hc]
        rfl
      rw [show c.bump.visits = c.visits from rfl, List.sum_set_succ _ i _ hci]
      omega
    · rw [MCTS.Node.update_children]
      simp only []
      intro x hx
      rcases List.mem_or_eq_of_mem_set hx with hx | hx
      · unfold MCTS.Node.bumpLegal at hx
        obtain ⟨y, hy, rfl⟩ := List.mem_map.1 hx
        split
        · exact MCTS.Node.All.mk _ (hn.child y hy).here (hn.child y hy).child
        · exact hn.child y hy
      · subst hx
        exact hr'

/-- A completed `for` loop of `loop` adds `iters` to `visits` of the node it runs on. -/
theorem MCTS.loopFor_visits (ops : StateOps S Move K) (cm : CMath K) (exploration : K)
    (fuel : Nat) (state : S) (iters : Nat) (node : MCTS.Node Move K) (rnd : RandStream)
    (res : MCTS.Node Move K × RandStream)
    (h : MCTS.loopFor ops cm exploration fuel state iters node rnd = some res) :
    res.1.visits = node.visits + iters := by
  induction iters generalizing node rnd with
  | zero =>
    simp only [MCTS.loopFor, Option.some.injEq] at h
    subst h
    rfl
  | succ iters ih =>
    unfold MCTS.loopFor at h
    split at h
    · exact Option.noConfusion h
    · rename_i node1 st1 rnd1 hit
      have hs := MCTS.iterateNode_step ops cm exploration fuel node state rnd _ hit
      rw [ih node1 rnd1 h, (MCTS.IterStep.root_stats ops _ _ _ hs).1]
      omega

/-- Induction over the engines reached by searching only. -/
theorem MCTS.Searched.root_kept (ops : StateOps S Move K) (cm : CMath K) (exploration : K)
    (state : S) (Inv : MCTS.Node Move K → Prop)
    (h0 : Inv (MCTS.Node.ctor ops.null (-1)))
    (hstep : ∀ st n r, MCTS.IterStep ops st n r → Inv n → Inv r)
    (e : MCTS S Move K) (he : MCTS.Searched ops cm exploration state e) : Inv e.root := by
  induction he with
  | ctor => exact h0
  | iterate e e' fuel rnd rnd' st _ h ih =>
    unfold MCTS.iterate at h
    split at h
    · exact Option.noConfusion h
    · rename_i tree st1 rnd1 hit
      simp only [Option.some.injEq, Prod.mk.injEq] at h
      obtain ⟨h, _, _⟩ := h
      subst h
      exact hstep _ _ _ (MCTS.iterateNode_step ops cm e.exploration fuel e.root _ rnd _ hit) ih
  | loop e e' fuel iters rnd rnd' _ h ih =>
    exact MCTS.loop_inv ops cm Inv hstep fuel e iters rnd _ h ih
  | getMove e e' fuel iters rnd rnd' m _ h ih =>
    obtain ⟨hl, _⟩ := MCTS.getMove_eq_some ops cm fuel e iters rnd _ h
    exact MCTS.loop_inv ops cm Inv hstep fuel e iters rnd _ hl ih

end VisitLemmas

section EngineInvariantClaims
variable {S Move K : Type} [LinearOrderedField K]

/-- C33. In every reachable tree every node other than the root has `visits ≥ 1`; and
whenever a call of `select` on the root, with any state, calls `UCBSelectChild` on a node,
every child of that node (so every eligible one) has `visits ≥ 1`, and `visits` as a
`double` is not zero: the divisions in `ucb` are not by zero. -/
theorem C33_visited_below_root (ops : StateOps S Move K) (cm : CMath K) (exploration : K)
    (state : S) (e : MCTS S Move K) (he : MCTS.Reachable ops cm exploration state e) :
    (∀ (q : List Nat) (x : MCTS.Node Move K), q ≠ [] → e.root.nodeAt q = some x →
      1 ≤ x.visits) ∧
    ∀ (expl : K) (s : S) (x : MCTS.Node Move K) (legalMoves : List (MovePtr Move)),
      MCTS.SelectCalls ops cm expl s e.root x legalMoves →
      ∀ c ∈ x.children, 1 ≤ c.visits ∧ (c.visits : K) ≠ 0 := by
  have hinv : ∀ c ∈ e.root.children, MCTS.Node.All (fun x => 1 ≤ x.visits) c := by
    refine MCTS.Reachable.root_inv ops cm exploration state
      (fun n => ∀ c ∈ n.children, MCTS.Node.All (fun x => 1 ≤ x.visits) c) ?_ ?_ ?_ e he
    · intro m p c hc
      simp [MCTS.Node.ctor] at hc
    · intro st n r hstep hn
      refine MCTS.IterStep.below_inv ops _ ?_ ?_ ?_ st n r hstep hn
      · intro m p st
        rw [MCTS.Node.update_visits]
        omega
      · intro n r st _ hv _ _
        omega
      · intro a b hv _ _ ha
        omega
    · intro n c hn hc
      exact (hn c hc).child
  constructor
  · intro q x hq hx
    cases q with
    | nil => exact absurd rfl hq
    | cons i q =>
      rw [MCTS.Node.nodeAt_cons] at hx
      cases hci : e.root.children[i]? with
      | none =>
        rw [hci] at hx
        exact Option.noConfusion hx
      | some c =>
        rw [hci] at hx
        exact MCTS.Node.All.at_position c (hinv c (List.getElem?_mem hci)) q x hx
  · intro expl s x legalMoves hcall c hc
    have h1 : 1 ≤ c.visits :=
      (MCTS.SelectCalls.below_called ops cm expl (fun x => 1 ≤ x.visits)
        (fun a b hv _ _ ha => by omega) s e.root x legalMoves hcall hinv c hc).here
    refine ⟨h1, ?_⟩
    have : c.visits ≠ 0 := by omega
    exact_mod_cast this

/-- C34. In every reachable tree `visits` of every node is at least the sum of `visits`
of its children, and a completed `loop(iters)` adds exactly `iters` to `visits` of the
root. -/
theorem C34_visits_sum_of_children (ops : StateOps S Move K) (cm : CMath K) (exploration : K)
    (state : S) (e : MCTS S Move K) (he : MCTS.Reachable ops cm exploration state e) :
    (∀ (q : List Nat) (x : MCTS.Node Move K), e.root.nodeAt q = some x →
      (x.children.map (fun c => c.visits)).sum ≤ x.visits) ∧
    ∀ (fuel iters : Nat) (rnd rnd' : RandStream) (e' : MCTS S Move K),
      MCTS.loop ops cm fuel e iters rnd = some (e', rnd') →
      e'.root.visits = e.root.visits + iters := by
  constructor
  · have hall : MCTS.Node.All
        (fun x => (x.children.map (fun c => c.visits)).sum ≤ x.visits) e.root := by
      refine MCTS.Reachable.root_inv ops cm exploration state
        (fun n => MCTS.Node.All
          (fun x => (x.children.map (fun c => c.visits)).sum ≤ x.visits) n) ?_ ?_ ?_ e he
      · intro m p
        refine MCTS.Node.All.mk _ (by simp [MCTS.Node.ctor]) ?_
        intro c hc
        simp [MCTS.Node.ctor] at hc
      · intro st n r hstep hn
        exact MCTS.IterStep.visits_sum ops st n r hstep hn
      · intro n c hn hc
        exact hn.child c hc
    exact MCTS.Node.All.at_position e.root hall
  · intro fuel iters rnd rnd' e' h
    unfold MCTS.loop MCTS.loopNode at h
    simp only [] at h
    split at h
    · exact Option.noConfusion h
    · rename_i tree rnd1 hl
      simp only [Option.some.injEq, Prod.mk.injEq] at h
      obtain ⟨h, _⟩ := h
      subst h
      exact MCTS.loopFor_visits ops cm e.exploration fuel _ iters e.root _ _ hl

/-- C35. If `getResult` is between 0 and 1 for every state and player, then in every
reachable tree every node has `0 ≤ wins ≤ visits`; and as long as only `iterate`, `loop`
and `getMove` have been called, the root is the node the constructor made, with
`just_moved = -1` and `wins = 0`. -/
theorem C35_wins_between_zero_and_visits (ops : StateOps S Move K)
    (hres : ∀ s p, 0 ≤ ops.getResult s p ∧ ops.getResult s p ≤ 1)
    (cm : CMath K) (exploration : K)
    (state : S) (e : MCTS S Move K) (he : MCTS.Reachable ops cm exploration state e) :
    (∀ (q : List Nat) (x : MCTS.Node Move K), e.root.nodeAt q = some x →
      0 ≤ x.wins ∧ x.wins ≤ (x.visits : K)) ∧
    (MCTS.Searched ops cm exploration state e →
      e.root.move = ops.null ∧ e.root.just_moved = -1 ∧ e.root.wins = 0) := by
  have hupd : ∀ (n r : MCTS.Node Move K) (st : S), (0 ≤ n.wins ∧ n.wins ≤ (n.visits : K)) →
      r.visits = n.visits + 1 → r.wins = (n.update ops st).wins →
      r.just_moved = n.just_moved → (0 ≤ r.wins ∧ r.wins ≤ (r.visits : K)) := by
    intro n r st hn hv hw _
    rw [hw, hv, MCTS.Node.update_wins]
    push_cast
    obtain ⟨h0, h1⟩ := hres st n.just_moved
    split
    · exact ⟨hn.1, by linarith [hn.2]⟩
    · exact ⟨by linarith [hn.1], by linarith [hn.2]⟩
  constructor
  · have hall : MCTS.Node.All (fun x => 0 ≤ x.wins ∧ x.wins ≤ (x.visits : K)) e.root := by
      refine MCTS.Reachable.root_inv ops cm exploration state
        (fun n => MCTS.Node.All (fun x => 0 ≤ x.wins ∧ x.wins ≤ (x.visits : K)) n)
        ?_ ?_ ?_ e he
      · intro m p
        refine MCTS.Node.All.mk _ (by simp [MCTS.Node.ctor]) ?_
        intro c hc
        simp [MCTS.Node.ctor] at hc
      · intro st n r hstep hn
        refine MCTS.IterStep.all_inv ops _ ?_ hupd ?_ st n r hstep hn
        · intro m p st
          exact hupd (MCTS.Node.ctor m p) _ st (by simp [MCTS.Node.ctor])
            (MCTS.Node.update_visits _ _ _) rfl (MCTS.Node.update_just_moved _ _ _)
        · intro a b hv hw _ ha
          rw [← hv, ← hw]
          exact ha
      · intro n c hn hc
        exact hn.child c hc
    exact MCTS.Node.All.at_position e.root hall
  · intro hs
    refine MCTS.Searched.root_kept ops cm exploration state
      (fun n => n.move = ops.null ∧ n.just_moved = -1 ∧ n.wins = 0) ⟨rfl, rfl, rfl⟩ ?_ e hs
    intro st n r hstep hn
    obtain ⟨_, hw, hj⟩ := MCTS.IterStep.root_stats ops st n r hstep
    refine ⟨?_, hj.trans hn.2.1, ?_⟩
    · rw [(MCTS.IterStep.stats ops st n r hstep).2.2]
      exact hn.1
    · rw [hw, MCTS.Node.update_wins, if_pos hn.2.1]
      exact hn.2.2

end EngineInvariantClaims

/-! ## The node an iteration adds -/

section SizeLemmas
variable {S Move K : Type} [LinearOrderedField K]

end SizeLemmas

section ExpandClaims
variable {S Move K : Type} [LinearOrderedField K]

end ExpandClaims

/-! ## Tic-tac-toe: every game ends -/

section TicTacToeBits

theorem ttt.Spec.popcount_eq (b : Nat) :
    ttt.Spec.popcount b = ((List.range 9).map (fun p => (b.testBit p).toNat)).sum := by
  unfold ttt.Spec.popcount
  generalize List.range 9 = l
  induction l with
  | nil => rfl
  | cons p l ih =>
    simp only [List.filter_cons, List.map_cons, List.sum_cons]
    cases b.testBit p with
    | false => simp [ih]
    | true =>
      simp [ih]
      omega

theorem ttt.Spec.testBit_of_and_eq_zero (b m : Nat) (h : (b &&& (1 <<< m)) = 0) :
    b.testBit m = false := by
  have := congrArg (fun x => x.testBit m) h
  simpa [Nat.testBit_and, Nat.one_shiftLeft, Nat.testBit_two_pow_self] using this

theorem ttt.Spec.set_clear_bit (b m : Nat) (hb : b < 512) (hm : m < 9)
    (h : (b &&& (1 <<< m)) = 0) :
    b.testBit m = false ∧ b ||| 1 <<< m < 512 ∧
      ttt.Spec.popcount (b ||| 1 <<< m) = ttt.Spec.popcount b + 1 := by
  have ht := ttt.Spec.testBit_of_and_eq_zero b m h
  refine ⟨ht, ?_, ?_⟩
  · rw [Nat.one_shiftLeft]
    have h2 : 2 ^ m < 2 ^ 9 := Nat.pow_lt_pow_right (by decide) hm
    exact (Nat.or_lt_two_pow hb h2 : _ < 2 ^ 9)
  · rw [ttt.Spec.popcount_eq, ttt.Spec.popcount_eq, Nat.one_shiftLeft]
    have hr : List.range 9 = [0, 1, 2, 3, 4, 5, 6, 7, 8] := by decide
    rw [hr]
    simp only [List.map_cons, List.map_nil, List.sum_cons, List.sum_nil, Nat.testBit_or,
      Nat.testBit_two_pow]
    interval_cases m <;> (simp [ht]; omega)

set_option maxRecDepth 100000 in
theorem ttt.Spec.clear_bit_of_ne_full : ∀ b, b < 512 → b ≠ 511 →
    ttt.Spec.popcount b < 9 ∧ ∃ m, m < 9 ∧ (b &&& (1 <<< m)) = 0 := by
  decide

end TicTacToeBits

section TicTacToeBuilt

theorem ttt.Spec.lt_of_high_bits_clear (p : Nat) (hp : p < 2 ^ 32) (h : (p &&& 0xFFFFFE00) = 0) :
    p < 512 := by
  by_contra hge
  have hge' : p ≥ 2 ^ 9 := by
    have : ¬ p < 512 := hge
    show 2 ^ 9 ≤ p
    omega
  obtain ⟨i, hi, hbit⟩ := Nat.ge_two_pow_implies_high_bit_true hge'
  have hi32 : i < 32 := by
    by_contra h32
    have : p < 2 ^ i := lt_of_lt_of_le hp (Nat.pow_le_pow_right (by decide) (by omega))
    rw [Nat.testBit_lt_two_pow this] at hbit
    exact Bool.noConfusion hbit
  have hm : (0xFFFFFE00 : Nat).testBit i = true := by
    interval_cases i <;> rfl
  have := congrArg (fun x => x.testBit i) h
  simp only [Nat.testBit_and, hbit, hm, Nat.zero_testBit] at this
  exact Bool.noConfusion this

theorem ttt.State.checkTerminal_fields (s : ttt.State) :
    s.checkTerminal.player = s.player ∧ s.checkTerminal.opponent = s.opponent ∧
      s.checkTerminal.occupied = s.occupied ∧ s.checkTerminal.playerToMove = s.playerToMove ∧
      s.checkTerminal.terminal
        = (ttt.State.checkWin s.player || ttt.State.checkWin s.opponent ||
            decide (s.occupied = 0b111111111)) := by
  unfold ttt.State.checkTerminal
  by_cases h1 : ttt.State.checkWin s.player = true
  · simp [h1]
  · by_cases h2 : ttt.State.checkWin s.opponent = true
    · simp [h1, h2]
    · by_cases h3 : s.occupied = 0b111111111
      · simp [h1, h2, h3]
      · simp [h1, h2, h3]

/-- What a `makeMove` that returns has tested and done. -/
theorem ttt.State.makeMove_eq_ok (s s' : ttt.State) (m : Int)
    (h : s.makeMove m = CallResult.ok s') :
    0 ≤ m ∧ m ≤ 8 ∧ (s.occupied &&& (1 <<< m.toNat)) = 0 ∧
      s'.occupied = s.occupied ||| 1 <<< m.toNat ∧ s'.player = s.opponent ∧
      s'.opponent = s.player ||| 1 <<< m.toNat ∧
      s'.terminal = (ttt.State.checkWin (s.player ||| 1 <<< m.toNat) ||
        ttt.State.checkWin s.opponent ||
        decide (s.occupied ||| 1 <<< m.toNat = 0b111111111)) := by
  have hm : 0 ≤ m := by
    by_contra hneg
    unfold ttt.State.makeMove ttt.State.checkMove at h
    have h8 : ¬ m > 8 := by omega
    have h0 : m < 0 := by omega
    simp [h8, h0] at h
  have hc := ttt.State.checkMove_eq s m hm
  unfold ttt.State.makeMove at h
  rw [hc] at h
  by_cases h8 : m ≤ 8
  · by_cases hb : (s.occupied &&& (1 <<< m.toNat)) = 0
    · have hb' : ((s.occupied &&& (1 <<< m.toNat)) == 0) = true := by simpa using hb
      simp only [h8, decide_True, Bool.true_and, hb', CallResult.ok.injEq] at h
      subst h
      obtain ⟨f1, f2, f3, _, f5⟩ := ttt.State.checkTerminal_fields
        { s with occupied := s.occupied ||| 1 <<< m.toNat, player := s.player ||| 1 <<< m.toNat }
      exact ⟨hm, h8, hb, f3, f2, f1, f5⟩
    · have hb' : ((s.occupied &&& (1 <<< m.toNat)) == 0) = false := by simpa using hb
      simp [h8, hb'] at h
  · simp [h8] at h

/-- What holds of every `ttt::State` object: `occupied` is the union of the two masks,
which are disjoint and have nine bits, and `terminal` is as `checkTerminal` computes it. -/
theorem ttt.State.Built.masks_ok (s : ttt.State) (hs : ttt.State.Built s) :
    s.occupied = s.player ||| s.opponent ∧ s.player &&& s.opponent = 0 ∧
      s.player < 512 ∧ s.opponent < 512 ∧
      s.terminal = (ttt.State.checkWin s.player || ttt.State.checkWin s.opponent ||
        decide (s.occupied = 0b111111111)) := by
  induction hs with
  | default => exact ⟨rfl, rfl, by decide, by decide, by decide⟩
  | masks player opponent s hp ho h =>
    unfold ttt.State.ofMasks at h
    split at h
    · exact Returned.noConfusion h
    · rename_i hcond
      simp only [not_or, not_not] at hcond
      obtain ⟨h1, h2, h3⟩ := hcond
      simp only [Returned.value.injEq] at h
      subst h
      obtain ⟨f1, f2, f3, _, f5⟩ := ttt.State.checkTerminal_fields
        { player := player, opponent := opponent, occupied := player ||| opponent,
          terminal := false, score := 0, playerToMove := 1 }
      rw [f1, f2, f3, f5]
      exact ⟨rfl, h1, ttt.Spec.lt_of_high_bits_clear player hp h2,
        ttt.Spec.lt_of_high_bits_clear opponent ho h3, rfl⟩
  | move s s' m hs h ih =>
    obtain ⟨hocc, hdis, hp, ho, _⟩ := ih
    obtain ⟨hm0, hm8, hb, e1, e2, e3, e4⟩ := ttt.State.makeMove_eq_ok s s' m h
    have hbit : (1 <<< m.toNat : Nat) < 2 ^ 9 := by
      rw [Nat.one_shiftLeft]
      exact Nat.pow_lt_pow_right (by decide) (by omega)
    refine ⟨?_, ?_, ?_, ?_, ?_⟩
    · rw [e1, e2, e3, hocc, Nat.or_comm s.player s.opponent, Nat.or_assoc]
    · rw [e2, e3]
      apply Nat.eq_of_testBit_eq
      intro i
      have g1 := congrArg (fun x => x.testBit i) hdis
      have g2 := congrArg (fun x => x.testBit i) hb
      rw [hocc] at g2
      simp only [Nat.testBit_and, Nat.testBit_or, Nat.zero_testBit] at g1 g2 ⊢
      cases hbo : s.opponent.testBit i <;> cases hbp : s.player.testBit i <;>
        cases hbb : (1 <<< m.toNat).testBit i <;> simp_all
    · rw [e2]
      exact ho
    · rw [e3]
      exact (Nat.or_lt_two_pow hp hbit : _ < 2 ^ 9)
    · rw [e4, e1, e2, e3, Bool.or_comm (ttt.State.checkWin s.opponent)]
  | turn s p hs ih => exact ih

theorem ttt.State.Built.occupied_lt (s : ttt.State) (hs : ttt.State.Built s) :
    s.occupied < 512 := by
  obtain ⟨hocc, _, hp, ho, _⟩ := ttt.State.Built.masks_ok s hs
  rw [hocc]
  exact (Nat.or_lt_two_pow hp ho : _ < 2 ^ 9)

/-- In a `ttt::State` object every move out of `getMoves()` is accepted by `makeMove`, which
sets the one bit of the move in `occupied`, clear until then. -/
theorem ttt.State.Built.move_accepted (s : ttt.State) (hs : ttt.State.Built s) (m : Int)
    (hm : m ∈ s.getMoves) :
    ∃ s', s.makeMove m = CallResult.ok s' ∧ ttt.State.Built s' ∧ 0 ≤ m ∧ m < 9 ∧
      s.occupied.testBit m.toNat = false ∧ s'.occupied = s.occupied ||| 1 <<< m.toNat ∧
      s'.occupied.testBit m.toNat = true ∧
      ttt.Spec.popcount s'.occupied = ttt.Spec.popcount s.occupied + 1 := by
  have ht : s.terminal = false := by
    cases h : s.terminal with
    | false => rfl
    | true =>
      unfold ttt.State.getMoves at hm
      rw [h] at hm
      simp at hm
  obtain ⟨h0, h8, hb⟩ := (ttt.State.mem_getMoves s m ht).mp hm
  have hthrow := ttt.State.makeMove_throws_iff s m ht h0
  cases hmk : s.makeMove m with
  | undefined => exact absurd hmk hthrow.1
  | throws s1 => exact absurd hm (hthrow.2.1.mp ⟨s1, hmk⟩)
  | ok s' =>
    obtain ⟨_, _, _, e1, _⟩ := ttt.State.makeMove_eq_ok s s' m hmk
    obtain ⟨b1, _, b3⟩ := ttt.Spec.set_clear_bit s.occupied m.toNat
      (ttt.State.Built.occupied_lt s hs) (by omega) hb
    refine ⟨s', rfl, ttt.State.Built.move s s' m hs hmk, h0, by omega, b1, e1, ?_, ?_⟩
    · rw [e1, Nat.testBit_or, Nat.one_shiftLeft, Nat.testBit_two_pow_self, Bool.or_true]
    · rw [e1]
      exact b3

/-- In a `ttt::State` object that is not terminal `getMoves()` is not empty and fewer than
nine cells are occupied. -/
theorem ttt.State.Built.moves_ne_nil (s : ttt.State) (hs : ttt.State.Built s)
    (ht : s.isTerminal = false) : s.getMoves ≠ [] ∧ ttt.Spec.popcount s.occupied < 9 := by
  have ht' : s.terminal = false := ht
  obtain ⟨_, _, _, _, hterm⟩ := ttt.State.Built.masks_ok s hs
  rw [ht'] at hterm
  have hne : s.occupied ≠ 511 := by
    intro h
    rw [h] at hterm
    simp at hterm
  obtain ⟨hpc, m, hm9, hb⟩ := ttt.Spec.clear_bit_of_ne_full s.occupied
    (ttt.State.Built.occupied_lt s hs) hne
  refine ⟨?_, hpc⟩
  have hmem : (m : Int) ∈ s.getMoves :=
    (ttt.State.mem_getMoves s m ht').mpr ⟨by omega, by omega, by simpa using hb⟩
  exact List.ne_nil_of_mem hmem

theorem ttt.Spec.popcount_le (b : Nat) : ttt.Spec.popcount b ≤ 9 := by
  unfold ttt.Spec.popcount
  exact le_trans (List.length_filter_le _ _) (by simp)

/-- A list of moves, each out of `getMoves()`, played from a `ttt::State` object. -/
theorem ttt.State.Built.play_bound (ms : List Int) :
    ∀ s, ttt.State.Built s → ttt.State.legalPlay s ms = true →
      ms.length + ttt.Spec.popcount s.occupied ≤ 9 ∧
      ∃ s', ttt.State.play s ms = some s' ∧ ttt.State.Built s' ∧
        ttt.Spec.popcount s'.occupied = ttt.Spec.popcount s.occupied + ms.length := by
  induction ms with
  | nil =>
    intro s hs _
    exact ⟨by simpa using ttt.Spec.popcount_le s.occupied, s, rfl, hs, rfl⟩
  | cons m ms ih =>
    intro s hs hl
    unfold ttt.State.legalPlay at hl
    simp only [Bool.and_eq_true, decide_eq_true_eq] at hl
    obtain ⟨hm, hrest⟩ := hl
    obtain ⟨s1, hmk, hb1, _, _, _, _, _, hpc⟩ := ttt.State.Built.move_accepted s hs m hm
    rw [hmk] at hrest
    obtain ⟨hlen, s', hplay, hb', hpc'⟩ := ih s1 hb1 hrest
    refine ⟨?_, s', ?_, hb', ?_⟩
    · simp only [List.length_cons]
      omega
    · unfold ttt.State.play
      rw [hmk]
      exact hplay
    · simp only [List.length_cons]
      omega

/-- The rollout on a `ttt::State` object returns when it has one test of its loop condition
more than there are free cells. -/
theorem ttt.State.Built.rollout_returns (k : Nat) :
    ∀ s, ttt.State.Built s → 9 - ttt.Spec.popcount s.occupied ≤ k → ∀ rnd,
      ∃ s' rnd', ttt.State.rollout (k + 1) s rnd = some (s', rnd') ∧ s'.isTerminal = true := by
  induction k with
  | zero =>
    intro s hs hk rnd
    cases ht : s.isTerminal with
    | true =>
      refine ⟨s, rnd, ?_, ht⟩
      simp [ttt.State.rollout, ht]
    | false =>
      have := (ttt.State.Built.moves_ne_nil s hs ht).2
      omega
  | succ k ih =>
    intro s hs hk rnd
    cases ht : s.isTerminal with
    | true =>
      refine ⟨s, rnd, ?_, ht⟩
      simp [ttt.State.rollout, ht]
    | false =>
      obtain ⟨hne, hpc⟩ := ttt.State.Built.moves_ne_nil s hs ht
      have hlen : 0 < s.getMoves.length := List.length_pos.mpr hne
      have hidx : (rand rnd).1 % s.getMoves.length < s.getMoves.length := Nat.mod_lt _ hlen
      have hmem : s.getMoves[(rand rnd).1 % s.getMoves.length] ∈ s.getMoves :=
        List.getElem_mem _
      obtain ⟨s1, hmk, hb1, _, _, _, _, _, hpc1⟩ := ttt.State.Built.move_accepted s hs _ hmem
      obtain ⟨s', rnd', hroll, hterm⟩ := ih s1 hb1 (by omega) (rand rnd).2
      refine ⟨s', rnd', ?_, hterm⟩
      rw [ttt.State.rollout]
      simp only [ht, Bool.false_eq_true, if_false]
      have hrm : s.randomMove rnd
          = some (s.getMoves[(rand rnd).1 % s.getMoves.length], (rand rnd).2) := by
        unfold ttt.State.randomMove
        simp only []
        rw [if_neg (by omega), List.getElem?_eq_getElem hidx]
        rfl
      rw [hrm]
      simp only [hmk]
      exact hroll

end TicTacToeBuilt

/-! ## Statements about the new invariants, on the token game -/

section InvariantWitnesses

/-- C39, on the board `0b000000111`: `checkWin` holds, and the board contains the row of
cells 0, 1, 2. -/
theorem C39_checkWin_lines_witness :
    (7 : Nat) < 512 ∧ (ttt.State.checkWin 7 = true ↔
      ∃ line ∈ ttt.Spec.lines, line.length = 3 ∧ ∀ p ∈ line, (7 : Nat).testBit p = true) :=
  ⟨by decide, C39_checkWin_lines 7 (by decide)⟩

/-- C33, on the token game with one token: `loop(2)` on the fresh engine completes, and in
the tree it leaves every node below the root has been visited. -/
theorem C33_visited_below_root_witness :
    ∃ e rnd, MCTS.loop (nimOps ℝ) realMath 2 (MCTS.ctor (nimOps ℝ) (7 / 10) ⟨1, 1⟩) 2
        (fun _ => 0) = some (e, rnd) ∧
      MCTS.Reachable (nimOps ℝ) realMath (7 / 10) ⟨1, 1⟩ e ∧
      (∀ (q : List Nat) (x : MCTS.Node Int ℝ), q ≠ [] → e.root.nodeAt q = some x →
        1 ≤ x.visits) ∧
      ∀ (expl : ℝ) (s : Nim) (x : MCTS.Node Int ℝ) (legalMoves : List (MovePtr Int)),
        MCTS.SelectCalls (nimOps ℝ) realMath expl s e.root x legalMoves →
        ∀ c ∈ x.children, 1 ≤ c.visits ∧ (c.visits : ℝ) ≠ 0 := by
  have h := nim_two_iterations
  cases hres : MCTS.loop (nimOps ℝ) realMath 2 (MCTS.ctor (nimOps ℝ) (7 / 10) ⟨1, 1⟩) 2
      (fun _ => 0) with
  | none =>
    rw [hres] at h
    exact Option.noConfusion h
  | some r =>
    have hr : MCTS.Reachable (nimOps ℝ) realMath (7 / 10) ⟨1, 1⟩ r.1 :=
      MCTS.Reachable.loop _ _ 2 2 (fun _ => 0) r.2 MCTS.Reachable.ctor hres
    exact ⟨r.1, r.2, rfl, hr,
      C33_visited_below_root (nimOps ℝ) realMath (7 / 10) ⟨1, 1⟩ r.1 hr⟩

/-- C34, on the token game with one token: `loop(2)` on the fresh engine completes, the
visits of the children of every node of its tree sum to at most the visits of the node,
and the root has two visits more than before the call. -/
theorem C34_visits_sum_of_children_witness :
    MCTS.Reachable (nimOps ℝ) realMath (7 / 10) ⟨1, 1⟩ (MCTS.ctor (nimOps ℝ) (7 / 10) ⟨1, 1⟩) ∧
    ∃ e rnd, MCTS.loop (nimOps ℝ) realMath 2 (MCTS.ctor (nimOps ℝ) (7 / 10) ⟨1, 1⟩) 2
        (fun _ => 0) = some (e, rnd) ∧
      e.root.visits = (MCTS.ctor (nimOps ℝ) (7 / 10 : ℝ) ⟨1, 1⟩).root.visits + 2 ∧
      ∀ (q : List Nat) (x : MCTS.Node Int ℝ), e.root.nodeAt q = some x →
        (x.children.map (fun c => c.visits)).sum ≤ x.visits := by
  refine ⟨MCTS.Reachable.ctor, ?_⟩
  have h := nim_two_iterations
  cases hres : MCTS.loop (nimOps ℝ) realMath 2 (MCTS.ctor (nimOps ℝ) (7 / 10) ⟨1, 1⟩) 2
      (fun _ => 0) with
  | none =>
    rw [hres] at h
    exact Option.noConfusion h
  | some r =>
    have hr : MCTS.Reachable (nimOps ℝ) realMath (7 / 10) ⟨1, 1⟩ r.1 :=
      MCTS.Reachable.loop _ _ 2 2 (fun _ => 0) r.2 MCTS.Reachable.ctor hres
    exact ⟨r.1, r.2, rfl,
      (C34_visits_sum_of_children (nimOps ℝ) realMath (7 / 10) ⟨1, 1⟩ _ MCTS.Reachable.ctor).2
        2 2 (fun _ => 0) r.2 r.1 hres,
      (C34_visits_sum_of_children (nimOps ℝ) realMath (7 / 10) ⟨1, 1⟩ r.1 hr).1⟩

/-- C35, on the token game with one token, whose result is 0 or 1: `loop(2)` on the fresh
engine completes, every node of its tree has `0 ≤ wins ≤ visits`, and the root still has
`wins = 0`. -/
theorem C35_wins_between_zero_and_visits_witness :
    (∀ s p, (0 : ℝ) ≤ (nimOps ℝ).getResult s p ∧ (nimOps ℝ).getResult s p ≤ 1) ∧
    ∃ e rnd, MCTS.loop (nimOps ℝ) realMath 2 (MCTS.ctor (nimOps ℝ) (7 / 10) ⟨1, 1⟩) 2
        (fun _ => 0) = some (e, rnd) ∧
      MCTS.Reachable (nimOps ℝ) realMath (7 / 10) ⟨1, 1⟩ e ∧
      (∀ (q : List Nat) (x : MCTS.Node Int ℝ), e.root.nodeAt q = some x →
        0 ≤ x.wins ∧ x.wins ≤ (x.visits : ℝ)) ∧
      e.root.wins = 0 := by
  have hres01 : ∀ (s : Nim) (p : Int),
      (0 : ℝ) ≤ (nimOps ℝ).getResult s p ∧ (nimOps ℝ).getResult s p ≤ 1 := by
    intro s p
    show (0 : ℝ) ≤ (if p = s.playerToMove then 0 else 1) ∧
      (if p = s.playerToMove then (0 : ℝ) else 1) ≤ 1
    split <;> norm_num
  refine ⟨hres01, ?_⟩
  have h := nim_two_iterations
  cases hres : MCTS.loop (nimOps ℝ) realMath 2 (MCTS.ctor (nimOps ℝ) (7 / 10) ⟨1, 1⟩) 2
      (fun _ => 0) with
  | none =>
    rw [hres] at h
    exact Option.noConfusion h
  | some r =>
    have hr : MCTS.Reachable (nimOps ℝ) realMath (7 / 10) ⟨1, 1⟩ r.1 :=
      MCTS.Reachable.loop _ _ 2 2 (fun _ => 0) r.2 MCTS.Reachable.ctor hres
    have hs : MCTS.Searched (nimOps ℝ) realMath (7 / 10) ⟨1, 1⟩ r.1 :=
      MCTS.Searched.loop _ _ 2 2 (fun _ => 0) r.2 MCTS.Searched.ctor hres
    have hc := C35_wins_between_zero_and_visits (nimOps ℝ) hres01 realMath (7 / 10) ⟨1, 1⟩
      r.1 hr
    exact ⟨r.1, r.2, rfl, hr, hc.1, (hc.2 hs).2.2⟩

end InvariantWitnesses

/-! ## Determinization of a `DurakState` does not depend on its generator -/

section DeterminizeClaims

variable {G : Type}

/-- C36. The state `MCTS::determinize` returns for a `DurakState` does not depend on the
generator of its argument (the copy it shuffles is seeded with 5): it is the same for two
states that differ in `rd` only.  As the call leaves its argument as it was, a second call
on the same state returns the same state as the first, with the same hands and the same
deck in the same order. -/
theorem C36_determinize_is_deterministic (sh : Shuffler G) (s : DurakState G) :
    (∀ g : G, (MCTS.determinizeDurak sh { s with rd := g }).2 = (MCTS.determinizeDurak sh s).2) ∧
    (MCTS.determinizeDurak sh (MCTS.determinizeDurak sh s).1).2 = (MCTS.determinizeDurak sh s).2 ∧
    ∀ r1 r2, (MCTS.determinizeDurak sh s).2 = some r1 →
      (MCTS.determinizeDurak sh (MCTS.determinizeDurak sh s).1).2 = some r2 →
      r1.hands = r2.hands ∧ r1.deck = r2.deck ∧ r1.rd = r2.rd :=
  ⟨fun _ => rfl, rfl, fun r1 r2 h1 h2 => by
    have h : some r1 = some r2 := h1.symm.trans h2
    cases h
    exact ⟨rfl, rfl, rfl⟩⟩

end DeterminizeClaims

/-! ## Tic-tac-toe: statements about the end of every game -/

section TicTacToeEndClaims

/-- C40. For every `ttt::State` object: its `occupied` mask is the union of the two player
masks, which are disjoint and have nine bits; every move out of `getMoves()` is accepted
by `makeMove`, which sets the one bit of the move, clear until then, in `occupied`; a
sequence of moves, each out of `getMoves()` of the state it is made in, has at most
`9 - popcount(occupied)` moves, can be extended as long as the state it leads to is not
terminal, and leads to a terminal state if it has that many moves; and the rollout with a
random agent returns in a terminal state within that many moves. -/
theorem C40_rollout_terminates (s : ttt.State) (hs : ttt.State.Built s) :
    (s.occupied = s.player ||| s.opponent ∧ s.player &&& s.opponent = 0 ∧
      s.player < 512 ∧ s.opponent < 512) ∧
    (∀ m ∈ s.getMoves, ∃ s', s.makeMove m = CallResult.ok s' ∧ 0 ≤ m ∧ m < 9 ∧
      s.occupied.testBit m.toNat = false ∧ s'.occupied = s.occupied ||| 1 <<< m.toNat ∧
      ttt.Spec.popcount s'.occupied = ttt.Spec.popcount s.occupied + 1) ∧
    (∀ ms, s.legalPlay ms = true →
      ms.length ≤ 9 - ttt.Spec.popcount s.occupied ∧
      ∃ s', s.play ms = some s' ∧
        ttt.Spec.popcount s'.occupied = ttt.Spec.popcount s.occupied + ms.length ∧
        (s'.isTerminal = false → s'.getMoves ≠ []) ∧
        (ms.length = 9 - ttt.Spec.popcount s.occupied → s'.isTerminal = true)) ∧
    (∀ fuel rnd, 9 - ttt.Spec.popcount s.occupied < fuel →
      ∃ s' rnd', ttt.State.rollout fuel s rnd = some (s', rnd') ∧ s'.isTerminal = true) := by
  obtain ⟨h1, h2, h3, h4, _⟩ := ttt.State.Built.masks_ok s hs
  refine ⟨⟨h1, h2, h3, h4⟩, ?_, ?_, ?_⟩
  · intro m hm
    obtain ⟨s', hmk, _, h0, h9, hb, ho, _, hpc⟩ := ttt.State.Built.move_accepted s hs m hm
    exact ⟨s', hmk, h0, h9, hb, ho, hpc⟩
  · intro ms hl
    obtain ⟨hlen, s', hplay, hb', hpc⟩ := ttt.State.Built.play_bound ms s hs hl
    refine ⟨by omega, s', hplay, hpc, ?_, ?_⟩
    · intro ht
      exact (ttt.State.Built.moves_ne_nil s' hb' ht).1
    · intro hfull
      cases ht : s'.isTerminal with
      | true => rfl
      | false =>
        have := (ttt.State.Built.moves_ne_nil s' hb' ht).2
        omega
  · intro fuel rnd hf
    obtain ⟨k, rfl⟩ : ∃ k, fuel = k + 1 := ⟨fuel - 1, by omega⟩
    exact ttt.State.Built.rollout_returns k s hs (by omega) rnd

/-- C40, on the empty board: the rollout with ten tests of its loop condition returns in a
terminal state, whatever `rand()` returns. -/
theorem C40_rollout_terminates_witness :
    ttt.State.Built ttt.State.init ∧ ttt.Spec.popcount ttt.State.init.occupied = 0 ∧
    ∀ rnd, ∃ s' rnd', ttt.State.rollout 10 ttt.State.init rnd = some (s', rnd') ∧
      s'.isTerminal = true :=
  ⟨ttt.State.Built.default, by decide, fun rnd =>
    (C40_rollout_terminates ttt.State.init ttt.State.Built.default).2.2.2 10 rnd (by decide)⟩

end TicTacToeEndClaims

/-! ## `DurakState::makeMove`: where the cards go -/

section DurakCardCount

namespace DurakState

variable {G : Type}

theorem numbers_append (a b : List Card) : numbers (a ++ b) = numbers a + numbers b := by
  unfold numbers
  rw [List.map_append, ← Multiset.coe_add]

theorem numbers_nil : numbers [] = 0 := rfl

theorem numbers_singleton (c : Card) : numbers [c] = {c.n} := rfl

theorem numbers_reveal (c : Card) : numbers [c.reveal] = {c.n} := rfl

theorem numbers_of_coe_eq (a b : List Card) (h : (a : Multiset Card) = (b : Multiset Card)) :
    numbers a = numbers b := by
  unfold numbers
  rw [← Multiset.map_coe, ← Multiset.map_coe, h]

theorem findCard_eq_some (l : List Card) (card : Card) (i : Nat)
    (h : findCard l card = some i) : ∃ x, l[i]? = some x ∧ x.n = card.n := by
  unfold findCard at h
  obtain ⟨hi, hp, _⟩ := List.findIdx?_eq_some_iff_getElem.1 h
  exact ⟨l[i], List.getElem?_eq_getElem hi, by simpa using hp⟩

theorem coe_eraseIdx {α : Type} (l : List α) (i : Nat) (x : α) (h : l[i]? = some x) :
    ((l.eraseIdx i : List α) : Multiset α) + {x} = (l : Multiset α) := by
  induction l generalizing i with
  | nil => simp at h
  | cons y l ih =>
    cases i with
    | zero =>
      simp only [List.getElem?_cons_zero, Option.some.injEq] at h
      subst h
      simp only [List.eraseIdx_cons_zero]
      rw [← Multiset.cons_coe, add_comm, Multiset.singleton_add]
    | succ i =>
      simp only [List.getElem?_cons_succ] at h
      simp only [List.eraseIdx_cons_succ]
      rw [← Multiset.cons_coe, ← Multiset.cons_coe, Multiset.cons_add, ih i h]

theorem numbers_eraseIdx (l : List Card) (i : Nat) (x : Card) (h : l[i]? = some x) :
    numbers (l.eraseIdx i) + {x.n} = numbers l := by
  have := congrArg (Multiset.map (fun c : Card => c.n)) (coe_eraseIdx l i x h)
  simpa [numbers, Multiset.map_add] using this

theorem coe_flatten_set {α : Type} (hands : List (List α)) (i : Nat) (h h' : List α)
    (hi : hands[i]? = some h) :
    (((hands.set i h').flatten : List α) : Multiset α) + (h : Multiset α)
      = ((hands.flatten : List α) : Multiset α) + (h' : Multiset α) := by
  induction hands generalizing i with
  | nil => simp at hi
  | cons y hands ih =>
    cases i with
    | zero =>
      simp only [List.getElem?_cons_zero, Option.some.injEq] at hi
      subst hi
      simp only [List.set_cons_zero, List.flatten_cons, ← Multiset.coe_add]
      abel
    | succ i =>
      simp only [List.getElem?_cons_succ] at hi
      simp only [List.set_cons_succ, List.flatten_cons, ← Multiset.coe_add]
      rw [add_assoc, ih i hi, add_assoc]

theorem numbers_flatten_set (hands : List (List Card)) (i : Nat) (h h' : List Card)
    (hi : hands[i]? = some h) :
    numbers (hands.set i h').flatten + numbers h = numbers hands.flatten + numbers h' := by
  have := congrArg (Multiset.map (fun c : Card => c.n)) (coe_flatten_set hands i h h' hi)
  simpa [numbers, Multiset.map_add] using this

theorem pairCards_append (d : List (Card × Card)) (p : Card × Card) :
    pairCards (d ++ [p]) = pairCards d ++ [p.1, p.2] := by
  simp [pairCards]

theorem foldl_pairs (d : List (Card × Card)) (init : List Card) :
    d.foldl (fun h it => h ++ [it.1, it.2]) init = init ++ pairCards d := by
  induction d generalizing init with
  | nil => simp [pairCards]
  | cons p d ih =>
    rw [List.foldl_cons, ih]
    simp [pairCards]

/-- The loop of an attack moves cards from the hand to `attack`. -/
theorem attackLoop_numbers (cards attack hand : List Card) (r : List Card × List Card)
    (h : attackLoop cards attack hand = CallResult.ok r) :
    numbers r.1 + numbers r.2 = numbers attack + numbers hand := by
  induction cards generalizing attack hand with
  | nil =>
    simp only [attackLoop, CallResult.ok.injEq] at h
    subst h
    rfl
  | cons card cards ih =>
    unfold attackLoop at h
    split at h
    · exact CallResult.noConfusion h
    · rename_i i hf
      obtain ⟨x, hx, hn⟩ := findCard_eq_some hand card i hf
      rw [ih _ _ h, numbers_append, numbers_reveal, ← numbers_eraseIdx hand i x hx, hn]
      abel

/-- The loop of a throw-in moves cards from the hand to `attack`. -/
theorem throwInLoop_numbers (defended : List (Card × Card)) (cards attack hand : List Card)
    (r : List Card × List Card)
    (h : throwInLoop defended cards attack hand = CallResult.ok r) :
    numbers r.1 + numbers r.2 = numbers attack + numbers hand := by
  induction cards generalizing attack hand with
  | nil =>
    simp only [throwInLoop, CallResult.ok.injEq] at h
    subst h
    rfl
  | cons card cards ih =>
    unfold throwInLoop at h
    simp only [] at h
    split at h
    · exact CallResult.noConfusion h
    · split at h
      · exact CallResult.noConfusion h
      · rename_i i hf
        obtain ⟨x, hx, hn⟩ := findCard_eq_some hand card i hf
        rw [ih _ _ h, numbers_append, numbers_reveal, ← numbers_eraseIdx hand i x hx, hn]
        abel

/-- The loop of a defence moves cards from `attack` and from the hand to `defended`. -/
theorem defendLoop_numbers (cards : List (Card × Card)) (attack hand : List Card)
    (defended : List (Card × Card)) (r : List Card × List Card × List (Card × Card))
    (h : defendLoop cards attack hand defended = CallResult.ok r) :
    numbers r.1 + numbers r.2.1 + numbers (pairCards r.2.2)
      = numbers attack + numbers hand + numbers (pairCards defended) := by
  induction cards generalizing attack hand defended with
  | nil =>
    simp only [defendLoop, CallResult.ok.injEq] at h
    subst h
    rfl
  | cons p cards ih =>
    unfold defendLoop at h
    split at h
    · exact CallResult.noConfusion h
    · rename_i i hf
      split at h
      · exact CallResult.noConfusion h
      · rename_i j hg
        obtain ⟨x, hx, hn⟩ := findCard_eq_some attack p.1 i hf
        obtain ⟨y, hy, hm⟩ := findCard_eq_some hand p.2 j hg
        rw [ih _ _ _ h, pairCards_append, numbers_append,
          ← numbers_eraseIdx attack i x hx, ← numbers_eraseIdx hand j y hy, hn, hm]
        have : numbers [p.1.reveal, p.2.reveal] = {p.1.n} + {p.2.n} := rfl
        rw [this]
        abel

theorem cancel_hand {α : Type} (F F' P X : Multiset α) (h : F' + P = F + (P + X)) :
    F' = F + X := by
  have : F' + P = (F + X) + P := by
    rw [h]
    abel
  exact add_right_cancel this

/-- The dealing loop moves cards from the end of the deck to the hands: the hands and
the part of the deck not yet dealt hold the same cards before and after. -/
theorem dealLoop_cards (deck : List Card) (i : Nat) (player total : Int)
    (hands : List (List Card)) (r : List (List Card) × Int)
    (h : dealLoop deck i player total hands = CallResult.ok r)
    (h0 : 0 ≤ total) (hle : total ≤ (deck.length : Int)) :
    total ≤ r.2 ∧ r.2 ≤ (deck.length : Int) ∧
      ((r.1.flatten : List Card) : Multiset Card)
          + ((deck.take (deck.length - r.2.toNat) : List Card) : Multiset Card)
        = ((hands.flatten : List Card) : Multiset Card)
          + ((deck.take (deck.length - total.toNat) : List Card) : Multiset Card) := by
  induction i generalizing player total hands with
  | zero =>
    simp only [dealLoop, CallResult.ok.injEq] at h
    subst h
    exact ⟨le_refl _, hle, rfl⟩
  | succ i ih =>
    unfold dealLoop at h
    split at h
    · exact CallResult.noConfusion h
    · rename_i pHand hp
      simp only [] at h
      have hp' : hands[toSizeT (player - 1)]? = some pHand := hp
      split at h
      · exact ih _ _ _ h h0 hle
      · rename_i hget
        split at h
        · rename_i hall
          simp only [CallResult.ok.injEq] at h
          subst h
          refine ⟨hle, le_refl _, ?_⟩
          have hf := coe_flatten_set hands _ pHand
            (pHand ++ deck.take (deck.length - total.toNat)) hp'
          simp only [Int.toNat_ofNat, Nat.sub_self, List.take_zero, Multiset.coe_nil, add_zero]
          rw [← Multiset.coe_add pHand] at hf
          exact cancel_hand _ _ _ _ hf
        · rename_i hsome
          have hlt : total + (6 - (pHand.length : Int)) < (deck.length : Int) := by omega
          obtain ⟨h1, h2, h3⟩ := ih _ _ _ h (by omega) (by omega)
          refine ⟨by omega, h2, ?_⟩
          rw [h3]
          have hf := coe_flatten_set hands _ pHand
            (pHand ++ (deck.drop (deck.length - total.toNat - (6 - (pHand.length : Int)).toNat)).take
              (6 - (pHand.length : Int)).toNat) hp'
          have hsplit : deck.take (deck.length - total.toNat)
              = deck.take (deck.length - (total + (6 - (pHand.length : Int))).toNat)
                ++ (deck.drop (deck.length - total.toNat - (6 - (pHand.length : Int)).toNat)).take
                  (6 - (pHand.length : Int)).toNat := by
            have e1 : deck.length - total.toNat
                = (deck.length - (total + (6 - (pHand.length : Int))).toNat)
                  + (6 - (pHand.length : Int)).toNat := by omega
            have e2 : deck.length - total.toNat - (6 - (pHand.length : Int)).toNat
                = deck.length - (total + (6 - (pHand.length : Int))).toNat := by omega
            rw [e2]
            conv_lhs => rw [e1]
            rw [List.take_add]
          rw [hsplit, ← Multiset.coe_add (deck.take _)]
          rw [← Multiset.coe_add pHand] at hf
          rw [cancel_hand _ _ _ _ hf]
          abel

/-- The end of a round deals cards from the end of the deck to the hands and changes no
other pile. -/
theorem endRound_cards (s s' : DurakState G) (h : endRound s = CallResult.ok s') :
    ∃ dealt, s.deck = s'.deck ++ dealt ∧
      ((s'.hands.flatten : List Card) : Multiset Card)
        = ((s.hands.flatten : List Card) : Multiset Card) + (dealt : Multiset Card) ∧
      s'.attack = s.attack ∧ s'.defended = s.defended ∧ s'.discard = s.discard := by
  unfold endRound at h
  split at h
  · exact CallResult.noConfusion h
  · exact CallResult.noConfusion h
  · rename_i r hr
    simp only [CallResult.ok.injEq] at h
    subst h
    obtain ⟨h1, h2, h3⟩ := dealLoop_cards s.deck 2 s.attackingPlayer 0 s.hands r hr
      (le_refl _) (by omega)
    refine ⟨s.deck.drop (s.deck.length - r.2.toNat), ?_, ?_, rfl, rfl, rfl⟩
    · exact (List.take_append_drop _ _).symm
    · simp only [nextTurn]
      simp only [Int.toNat_zero, Nat.sub_zero, List.take_length] at h3
      have hd : (s.deck : Multiset Card)
          = ((s.deck.take (s.deck.length - r.2.toNat) : List Card) : Multiset Card)
            + ((s.deck.drop (s.deck.length - r.2.toNat) : List Card) : Multiset Card) := by
        rw [Multiset.coe_add, List.take_append_drop]
      rw [hd, ← add_assoc, add_comm, add_comm _ ((s.deck.take _ : List Card) : Multiset Card),
        add_assoc] at h3
      exact add_left_cancel h3

theorem numbers_allCards (s : DurakState G) :
    numbers s.allCards = numbers s.deck + numbers s.hands.flatten + numbers s.attack
      + numbers (pairCards s.defended) + numbers s.discard := by
  unfold allCards
  simp only [numbers_append]

theorem mem_of_coe_eq_add {α : Type} (a b d : List α)
    (h : (a : Multiset α) = (b : Multiset α) + (d : Multiset α)) : ∀ c ∈ d, c ∈ a := by
  intro c hc
  have : c ∈ (a : Multiset α) := by
    rw [h]
    exact Multiset.mem_add.2 (Or.inr (Multiset.mem_coe.2 hc))
  exact Multiset.mem_coe.1 this

/-- What a round that ends does to the cards, from the state just before the dealing. -/
theorem endRound_numbers (s0 s' : DurakState G) (h : endRound s0 = CallResult.ok s') :
    numbers s'.allCards = numbers s0.allCards ∧
      ∃ dealt, s0.deck = s'.deck ++ dealt ∧ ∀ c ∈ dealt, c ∈ s'.hands.flatten := by
  obtain ⟨dealt, hd, hh, ha, hdf, hdc⟩ := endRound_cards s0 s' h
  refine ⟨?_, dealt, hd, mem_of_coe_eq_add _ _ _ hh⟩
  rw [numbers_allCards, numbers_allCards, ha, hdf, hdc, hd, numbers_append]
  have hn : numbers s'.hands.flatten = numbers s0.hands.flatten + numbers dealt := by
    have := congrArg (Multiset.map (fun c : Card => c.n)) hh
    simpa [numbers, Multiset.map_add] using this
  rw [hn]
  abel

end DurakState

end DurakCardCount

/-! ## Statements about the cards a move keeps -/

section DurakCardClaims

open DurakState

/-- C38. Every `makeMove` that returns leaves the multiset of the numbers of the cards in
the deck, the hands, `attack`, `defended` and the discard pile, taken together, as it
was; the deck after the call is the deck before it without some cards at its end, and
each of these cards is in a hand after the call. -/
theorem C38_makeMove_keeps_cards {G : Type} (s s' : DurakState G) (m : Move)
    (h : s.makeMove m = CallResult.ok s') :
    numbers s'.allCards = numbers s.allCards ∧
      ∃ dealt, s.deck = s'.deck ++ dealt ∧ ∀ c ∈ dealt, c ∈ s'.hands.flatten := by
  cases m with
  | null =>
    simp only [makeMove, CallResult.ok.injEq] at h
    subst h
    exact ⟨rfl, [], by simp, by simp⟩
  | attack cards =>
    unfold makeMove at h
    simp only [] at h
    split at h
    · exact CallResult.noConfusion h
    · exact CallResult.noConfusion h
    · split at h
      · exact CallResult.noConfusion h
      · split at h
        · exact CallResult.noConfusion h
        · split at h
          · exact CallResult.noConfusion h
          · rename_i hand hh
            have hh' : s.hands[toSizeT (s.playerToMove - 1)]? = some hand := hh
            split at h
            · exact CallResult.noConfusion h
            · exact CallResult.noConfusion h
            · rename_i r hr
              simp only [CallResult.ok.injEq] at h
              subst h
              have hloop := attackLoop_numbers _ _ _ r hr
              have hat : (if s.attack.isEmpty = true then
                  { s with attackingPlayer := s.playerToMove } else s).attack = s.attack := by
                split <;> rfl
              have hhd : (if s.attack.isEmpty = true then
                  { s with attackingPlayer := s.playerToMove } else s).hands = s.hands := by
                split <;> rfl
              have hdk : (if s.attack.isEmpty = true then
                  { s with attackingPlayer := s.playerToMove } else s).deck = s.deck := by
                split <;> rfl
              have hdf : (if s.attack.isEmpty = true then
                  { s with attackingPlayer := s.playerToMove } else s).defended = s.defended := by
                split <;> rfl
              have hdc : (if s.attack.isEmpty = true then
                  { s with attackingPlayer := s.playerToMove } else s).discard = s.discard := by
                split <;> rfl
              rw [hat] at hloop
              have hset := numbers_flatten_set s.hands _ hand r.2 hh'
              refine ⟨?_, [], ?_, by simp⟩
              · rw [numbers_allCards, numbers_allCards]
                simp only [nextTurn, hhd, hdk, hdf, hdc]
                apply Multiset.ext.2
                intro a
                have e1 := congrArg (Multiset.count a) hloop
                have e2 := congrArg (Multiset.count a) hset
                simp only [Multiset.count_add] at e1 e2 ⊢
                omega
              · simp only [nextTurn, hdk, List.append_nil]
  | throwIn cards =>
    unfold makeMove at h
    simp only [] at h
    split at h
    · exact CallResult.noConfusion h
    · split at h
      · exact CallResult.noConfusion h
      · rename_i hand hh
        have hh' : s.hands[toSizeT (s.playerToMove - 1)]? = some hand := hh
        split at h
        · exact CallResult.noConfusion h
        · exact CallResult.noConfusion h
        · rename_i r hr
          simp only [CallResult.ok.injEq] at h
          subst h
          have hloop := throwInLoop_numbers _ _ _ _ r hr
          have hset := numbers_flatten_set s.hands _ hand r.2 hh'
          refine ⟨?_, [], by simp [nextTurn], by simp⟩
          rw [numbers_allCards, numbers_allCards]
          simp only [nextTurn]
          apply Multiset.ext.2
          intro a
          have e1 := congrArg (Multiset.count a) hloop
          have e2 := congrArg (Multiset.count a) hset
          simp only [Multiset.count_add] at e1 e2 ⊢
          omega
  | defend cards giveUp =>
    unfold makeMove at h
    simp only [] at h
    split at h
    · exact CallResult.noConfusion h
    · split at h
      · split at h
        · exact CallResult.noConfusion h
        · rename_i hand hh
          have hh' : s.hands[toSizeT (s.defendingPlayer - 1)]? = some hand := hh
          obtain ⟨hn, dealt, hd, hm⟩ := endRound_numbers _ s' h
          refine ⟨?_, dealt, hd, hm⟩
          rw [hn, numbers_allCards, numbers_allCards]
          simp only [foldl_pairs]
          have hset := numbers_flatten_set s.hands _ hand
            (hand ++ s.attack ++ pairCards s.defended) hh'
          simp only [numbers_append] at hset
          simp only [pairCards, List.map_nil, List.flatten_nil, numbers_nil]
          apply Multiset.ext.2
          intro a
          have e2 := congrArg (Multiset.count a) hset
          simp only [Multiset.count_add, Multiset.count_zero, pairCards] at e2 ⊢
          omega
      · split at h
        · obtain ⟨hn, dealt, hd, hm⟩ := endRound_numbers _ s' h
          refine ⟨?_, dealt, hd, hm⟩
          rw [hn, numbers_allCards, numbers_allCards]
          simp only [foldl_pairs, numbers_append]
          simp only [pairCards, List.map_nil, List.flatten_nil, numbers_nil]
          abel
        · split at h
          · exact CallResult.noConfusion h
          · rename_i hand hh
            have hh' : s.hands[toSizeT (s.defendingPlayer - 1)]? = some hand := hh
            split at h
            · exact CallResult.noConfusion h
            · exact CallResult.noConfusion h
            · rename_i r hr
              simp only [CallResult.ok.injEq] at h
              subst h
              have hloop := defendLoop_numbers _ _ _ _ r hr
              have hset := numbers_flatten_set s.hands _ hand r.2.1 hh'
              refine ⟨?_, [], by simp [nextTurn], by simp⟩
              rw [numbers_allCards, numbers_allCards]
              simp only [nextTurn]
              apply Multiset.ext.2
              intro a
              have e1 := congrArg (Multiset.count a) hloop
              have e2 := congrArg (Multiset.count a) hset
              simp only [Multiset.count_add] at e1 e2 ⊢
              omega

/-- C38, on a round that ends: player 2 has beaten the six of spades with the seven, the
attack is empty and three cards are in the deck; the defend move ends the round, the pair
goes to the discard pile and player 1, the attacker, is dealt the three cards. -/
theorem C38_makeMove_keeps_cards_witness :
    ∃ s', sampleRoundEnd.makeMove (Move.defend [] false) = CallResult.ok s' ∧
      s'.deck = [] ∧
      s'.hands = [[⟨14, false⟩, ⟨30, false⟩, ⟨31, true⟩, ⟨32, true⟩], [⟨19, false⟩]] ∧
      s'.discard = [⟨0, false⟩, ⟨4, false⟩] ∧
      numbers s'.allCards = numbers sampleRoundEnd.allCards ∧
      ∃ dealt, sampleRoundEnd.deck = s'.deck ++ dealt ∧ ∀ c ∈ dealt, c ∈ s'.hands.flatten :=
  ⟨_, rfl, rfl, rfl, rfl,
    C38_makeMove_keeps_cards sampleRoundEnd _ (Move.defend [] false) rfl⟩

end DurakCardClaims

/-! ## `DurakState::getMoves`: the defend move -/

section DefendOrder

namespace DurakState

theorem Card.n_eq_of_rank_suit (a b : Card) (hr : a.rank = b.rank) (hs : a.suit = b.suit) :
    a.n = b.n := by
  have ha := Int.tdiv_add_tmod a.n 4
  have hb := Int.tdiv_add_tmod b.n 4
  unfold Card.rank at hr
  unfold Card.suit at hs
  rw [← ha, ← hb, hr, hs]

theorem sortLess_asymm (t : Int) (a b : Card) (h : sortLess t a b = true) :
    sortLess t b a = false := by
  unfold sortLess at h ⊢
  generalize a.rank = ra at h ⊢
  generalize a.suit = sa at h ⊢
  generalize b.rank = rb at h ⊢
  generalize b.suit = sb at h ⊢
  split_ifs at h ⊢ <;> simp_all <;> omega

theorem sortLess_trans (t : Int) (a b c : Card) (h1 : sortLess t a b = true)
    (h2 : sortLess t b c = true) : sortLess t a c = true := by
  unfold sortLess at h1 h2 ⊢
  generalize a.rank = ra at h1 h2 ⊢
  generalize a.suit = sa at h1 h2 ⊢
  generalize b.rank = rb at h1 h2 ⊢
  generalize b.suit = sb at h1 h2 ⊢
  generalize c.rank = rc at h1 h2 ⊢
  generalize c.suit = sc at h1 h2 ⊢
  split_ifs at h1 h2 ⊢ <;> simp_all <;> omega

/-- Two cards that the comparison of `getMoves` does not order have the same number. -/
theorem sortLess_total (t : Int) (a b : Card) (h1 : sortLess t a b = false)
    (h2 : sortLess t b a = false) : a.n = b.n := by
  apply Card.n_eq_of_rank_suit
  · unfold sortLess at h1 h2
    generalize a.rank = ra at h1 h2 ⊢
    generalize a.suit = sa at h1 h2 ⊢
    generalize b.rank = rb at h1 h2 ⊢
    generalize b.suit = sb at h1 h2 ⊢
    split_ifs at h1 h2 <;> simp_all <;> omega
  · unfold sortLess at h1 h2
    generalize a.rank = ra at h1 h2 ⊢
    generalize a.suit = sa at h1 h2 ⊢
    generalize b.rank = rb at h1 h2 ⊢
    generalize b.suit = sb at h1 h2 ⊢
    split_ifs at h1 h2 <;> simp_all <;> omega

/-- A card sorted behind another card that beats an attack card which the other beats too
beats every card the other beats. -/
theorem beat_of_sorted (t : Int) (h h' a a' : Card) (hs : sortLess t h' h = false)
    (hne : h.n ≠ h'.n) (hb : h.beat a t = true) (hb' : h'.beat a t = true)
    (hba : h.beat a' t = true) : h'.beat a' t = true := by
  have hrs : ¬ (h.rank = h'.rank ∧ h.suit = h'.suit) :=
    fun hh => hne (Card.n_eq_of_rank_suit h h' hh.1 hh.2)
  unfold sortLess at hs
  unfold Card.beat at hb hb' hba ⊢
  generalize h.rank = r at hs hrs hb hb' hba ⊢
  generalize h.suit = s at hs hrs hb hb' hba ⊢
  generalize h'.rank = r' at hs hrs hb hb' hba ⊢
  generalize h'.suit = s' at hs hrs hb hb' hba ⊢
  generalize a.rank = ra at hs hrs hb hb' hba ⊢
  generalize a.suit = sa at hs hrs hb hb' hba ⊢
  generalize a'.rank = ra' at hs hrs hb hb' hba ⊢
  generalize a'.suit = sa' at hs hrs hb hb' hba ⊢
  split_ifs at hs hb hb' hba ⊢ <;> simp_all <;> omega

theorem insertSorted_perm (less : Card → Card → Bool) (x : Card) (l : List Card) :
    (insertSorted less x l).Perm (x :: l) := by
  induction l with
  | nil => exact List.Perm.refl _
  | cons y ys ih =>
    unfold insertSorted
    split
    · exact List.Perm.refl _
    · exact (List.Perm.cons y ih).trans (List.Perm.swap x y ys)

theorem foldl_insertSorted_perm (less : Card → Card → Bool) (l acc : List Card) :
    (l.foldl (fun sorted x => insertSorted less x sorted) acc).Perm (acc ++ l) := by
  induction l generalizing acc with
  | nil => simp
  | cons x l ih =>
    rw [List.foldl_cons]
    refine (ih _).trans ?_
    refine ((insertSorted_perm less x acc).append_right l).trans ?_
    simp only [List.cons_append]
    exact List.perm_middle.symm

/-- The sorted hand holds the cards of the hand. -/
theorem sortCards_perm (less : Card → Card → Bool) (l : List Card) :
    (sortCards less l).Perm l := by
  unfold sortCards
  simpa using foldl_insertSorted_perm less l []

theorem insertSorted_sorted (t : Int) (x : Card) (l : List Card)
    (h : l.Pairwise (fun a b => sortLess t b a = false)) :
    (insertSorted (sortLess t) x l).Pairwise (fun a b => sortLess t b a = false) := by
  induction l with
  | nil => simp [insertSorted]
  | cons y ys ih =>
    unfold insertSorted
    rw [List.pairwise_cons] at h
    split
    · rename_i hxy
      rw [List.pairwise_cons]
      refine ⟨?_, List.pairwise_cons.2 h⟩
      intro z hz
      rcases List.mem_cons.1 hz with rfl | hz
      · exact sortLess_asymm t x z hxy
      · cases hzx : sortLess t z x with
        | false => rfl
        | true =>
          have := sortLess_trans t z x y hzx hxy
          rw [h.1 z hz] at this
          exact Bool.noConfusion this
    · rename_i hxy
      rw [List.pairwise_cons]
      refine ⟨?_, ih h.2⟩
      intro z hz
      rcases List.mem_cons.1 ((insertSorted_perm (sortLess t) x ys).subset hz) with rfl | hz
      · simpa using hxy
      · exact h.1 z hz

/-- In the sorted hand no card is less, by the comparison of `getMoves`, than a card in
front of it. -/
theorem sortCards_sorted (t : Int) (l : List Card) :
    (sortCards (sortLess t) l).Pairwise (fun a b => sortLess t b a = false) := by
  unfold sortCards
  have : ∀ acc : List Card, acc.Pairwise (fun a b => sortLess t b a = false) →
      (l.foldl (fun sorted x => insertSorted (sortLess t) x sorted) acc).Pairwise
        (fun a b => sortLess t b a = false) := by
    induction l with
    | nil => exact fun acc h => h
    | cons x l ih =>
      intro acc h
      rw [List.foldl_cons]
      exact ih _ (insertSorted_sorted t x acc h)
  exact this [] List.Pairwise.nil

/-- What the search of one card for an attack card to beat has found. -/
theorem findIdx_beat_some (t : Int) (attack : List Card) (beaten : List Bool) (card : Card)
    (i : Nat)
    (h : (attack.zip beaten).findIdx? (fun ab => !ab.2 && card.beat ab.1 t) = some i) :
    ∃ a, attack[i]? = some a ∧ beaten[i]? = some false ∧ card.beat a t = true := by
  obtain ⟨hi, hp, _⟩ := List.findIdx?_eq_some_iff_getElem.1 h
  have hz : (attack.zip beaten)[i]? = some (attack.zip beaten)[i] := List.getElem?_eq_getElem hi
  obtain ⟨h1, h2⟩ := List.getElem?_zip_eq_some.1 hz
  simp only [Bool.and_eq_true, Bool.not_eq_true'] at hp
  refine ⟨_, h1, ?_, hp.2⟩
  rw [h2, hp.1]

theorem findIdx_beat_none (t : Int) (attack : List Card) (beaten : List Bool) (card : Card)
    (h : (attack.zip beaten).findIdx? (fun ab => !ab.2 && card.beat ab.1 t) = none) :
    ∀ (i : Nat) (a : Card), attack[i]? = some a → beaten[i]? = some false →
      card.beat a t = false := by
  intro i a ha hb
  have hz : (attack.zip beaten)[i]? = some (a, false) :=
    List.getElem?_zip_eq_some.2 ⟨ha, hb⟩
  have := List.findIdx?_eq_none_iff.1 h (a, false) (List.getElem?_mem hz)
  simpa using this

/-- The greedy search beats every attack card if the attack cards not yet beaten can be
assigned different cards of the sorted hand still to go through, each beating its attack
card. -/
theorem defendGreedy_complete (t : Int) (attack : List Card) :
    ∀ (hand : List Card) (beaten : List Bool) (cards : List (Card × Card)) (f : Nat → Card),
      beaten.length = attack.length →
      hand.Pairwise (fun a b => sortLess t b a = false) →
      (hand.map (fun c => c.n)).Nodup →
      (∀ (i : Nat) (a : Card), attack[i]? = some a → beaten[i]? = some false →
        f i ∈ hand ∧ (f i).beat a t = true) →
      (∀ i j : Nat, beaten[i]? = some false → beaten[j]? = some false → f i = f j → i = j) →
      (defendGreedy t attack hand beaten cards).1.all (fun b => b) = true := by
  intro hand
  induction hand with
  | nil =>
    intro beaten cards f hlen _ _ hf _
    simp only [defendGreedy, List.all_eq_true]
    intro b hb
    cases b with
    | true => rfl
    | false =>
      obtain ⟨i, hi⟩ := List.mem_iff_getElem?.1 hb
      have hlt : i < attack.length := by
        rw [← hlen]
        exact (List.getElem?_eq_some.1 hi).1
      have := (hf i attack[i] (List.getElem?_eq_getElem hlt) hi).1
      simp at this
  | cons h hand ih =>
    intro beaten cards f hlen hsort hnd hf hinj
    rw [List.pairwise_cons] at hsort
    rw [List.map_cons, List.nodup_cons] at hnd
    unfold defendGreedy
    split
    · rename_i hnone
      have hno := findIdx_beat_none t attack beaten h hnone
      refine ih beaten cards f hlen hsort.2 hnd.2 ?_ hinj
      intro i a ha hb
      obtain ⟨hmem, hbeat⟩ := hf i a ha hb
      refine ⟨?_, hbeat⟩
      rcases List.mem_cons.1 hmem with heq | hmem
      · rw [heq, hno i a ha hb] at hbeat
        exact Bool.noConfusion hbeat
      · exact hmem
    · rename_i i0 hsome
      obtain ⟨a0, ha0, hb0, hbeat0⟩ := findIdx_beat_some t attack beaten h i0 hsome
      rw [ha0]
      simp only []
      have hlen' : (beaten.set i0 true).length = attack.length := by
        rw [List.length_set]
        exact hlen
      have hunb : ∀ u : Nat, (beaten.set i0 true)[u]? = some false →
          beaten[u]? = some false ∧ u ≠ i0 := by
        intro u hu
        by_cases hui : i0 = u
        · subst hui
          rw [List.getElem?_set_self (List.getElem?_eq_some.1 hb0).1] at hu
          simp at hu
        · rw [List.getElem?_set_ne hui] at hu
          exact ⟨hu, fun h => hui h.symm⟩
      by_cases hex : ∃ j, beaten[j]? = some false ∧ j ≠ i0 ∧ f j = h
      · obtain ⟨j, hj, hji, hfj⟩ := hex
        obtain ⟨hm0, hbt0⟩ := hf i0 a0 ha0 hb0
        have hne0 : f i0 ≠ h := by
          intro h0
          exact hji (hinj j i0 hj hb0 (hfj.trans h0.symm))
        have hm0' : f i0 ∈ hand := by
          rcases List.mem_cons.1 hm0 with heq | hmem
          · exact absurd heq hne0
          · exact hmem
        have hnn : h.n ≠ (f i0).n := by
          intro hn
          exact hnd.1 (List.mem_map.2 ⟨f i0, hm0', hn.symm⟩)
        refine ih (beaten.set i0 true) _ (Function.update f j (f i0)) hlen' hsort.2 hnd.2 ?_ ?_
        · intro u a hau hu
          obtain ⟨hu', hui⟩ := hunb u hu
          by_cases huj : u = j
          · subst huj
            rw [Function.update_same]
            refine ⟨hm0', ?_⟩
            have hbj := (hf u a hau hu').2
            rw [hfj] at hbj
            exact beat_of_sorted t h (f i0) a0 a (hsort.1 _ hm0') hnn hbeat0 hbt0 hbj
          · rw [Function.update_noteq huj]
            obtain ⟨hmem, hbeat⟩ := hf u a hau hu'
            refine ⟨?_, hbeat⟩
            rcases List.mem_cons.1 hmem with heq | hmem
            · exact absurd (hinj u j hu' hj (heq.trans hfj.symm)) huj
            · exact hmem
        · intro u v hu hv huv
          obtain ⟨hu', hui⟩ := hunb u hu
          obtain ⟨hv', hvi⟩ := hunb v hv
          by_cases huj : u = j
          · by_cases hvj : v = j
            · rw [huj, hvj]
            · rw [huj, Function.update_same, Function.update_noteq hvj] at huv
              exact absurd (hinj i0 v hb0 hv' huv).symm hvi
          · by_cases hvj : v = j
            · rw [hvj, Function.update_same, Function.update_noteq huj] at huv
              exact absurd (hinj u i0 hu' hb0 huv) hui
            · rw [Function.update_noteq huj, Function.update_noteq hvj] at huv
              exact hinj u v hu' hv' huv
      · refine ih (beaten.set i0 true) _ f hlen' hsort.2 hnd.2 ?_ ?_
        · intro u a hau hu
          obtain ⟨hu', hui⟩ := hunb u hu
          obtain ⟨hmem, hbeat⟩ := hf u a hau hu'
          refine ⟨?_, hbeat⟩
          rcases List.mem_cons.1 hmem with heq | hmem
          · exact absurd ⟨u, hu', hui, heq⟩ hex
          · exact hmem
        · intro u v hu hv huv
          exact hinj u v (hunb u hu).1 (hunb v hv).1 huv

/-- Marking one more attack card as beaten adds it to the attack cards beaten. -/
theorem covered_set (attack : List Card) :
    ∀ (beaten : List Bool) (i : Nat) (a : Card), attack[i]? = some a →
      beaten[i]? = some false →
      (((attack.zip (beaten.set i true)).filter (fun ab => ab.2)).map (fun ab => ab.1)).Perm
        (a :: ((attack.zip beaten).filter (fun ab => ab.2)).map (fun ab => ab.1)) := by
  induction attack with
  | nil =>
    intro beaten i a ha
    simp at ha
  | cons x xs ih =>
    intro beaten i a ha hb
    cases beaten with
    | nil => simp at hb
    | cons b bs =>
      cases i with
      | zero =>
        simp only [List.getElem?_cons_zero, Option.some.injEq] at ha hb
        subst ha
        subst hb
        simp
      | succ i =>
        simp only [List.getElem?_cons_succ] at ha hb
        have := ih bs i a ha hb
        simp only [List.set_cons_succ, List.zip_cons_cons]
        cases b with
        | false => simpa using this
        | true =>
          simp only [List.filter_cons, if_true, List.map_cons]
          exact (List.Perm.cons x this).trans (List.Perm.swap a x _)

/-- When every attack card is marked, the attack cards beaten are the attack cards. -/
theorem covered_all (attack : List Card) :
    ∀ (beaten : List Bool), beaten.length = attack.length →
      beaten.all (fun b => b) = true →
      ((attack.zip beaten).filter (fun ab => ab.2)).map (fun ab => ab.1) = attack := by
  induction attack with
  | nil =>
    intro beaten _ _
    simp
  | cons x xs ih =>
    intro beaten hlen hall
    cases beaten with
    | nil => simp at hlen
    | cons b bs =>
      simp only [List.all_cons, Bool.and_eq_true] at hall
      simp only [List.length_cons, Nat.add_right_cancel_iff] at hlen
      simp [hall.1, ih bs hlen hall.2]

/-- What the greedy search returns: the pairs it adds pair the attack cards it marks, each
with a card of the hand that beats it, and no card of the hand is used twice. -/
theorem defendGreedy_sound (t : Int) (attack : List Card) :
    ∀ (hand : List Card) (beaten : List Bool) (cards : List (Card × Card)),
      beaten.length = attack.length →
      (hand.map (fun c => c.n)).Nodup →
      (∀ p ∈ cards, ∀ c ∈ hand, p.2.n ≠ c.n) →
      ((cards.map (fun p => p.2)).map (fun c => c.n)).Nodup →
      (cards.map (fun p => p.1)).Perm
        (((attack.zip beaten).filter (fun ab => ab.2)).map (fun ab => ab.1)) →
      (defendGreedy t attack hand beaten cards).1.length = attack.length ∧
      ((defendGreedy t attack hand beaten cards).2.map (fun p => p.1)).Perm
        (((attack.zip (defendGreedy t attack hand beaten cards).1).filter
          (fun ab => ab.2)).map (fun ab => ab.1)) ∧
      (((defendGreedy t attack hand beaten cards).2.map (fun p => p.2)).map
        (fun c => c.n)).Nodup ∧
      ∀ p ∈ (defendGreedy t attack hand beaten cards).2,
        p ∈ cards ∨ (p.2 ∈ hand ∧ p.2.beat p.1 t = true) := by
  intro hand
  induction hand with
  | nil =>
    intro beaten cards hlen _ _ hnd hperm
    simp only [defendGreedy]
    exact ⟨hlen, hperm, hnd, fun p hp => Or.inl hp⟩
  | cons h hand ih =>
    intro beaten cards hlen hhand hdis hnd hperm
    rw [List.map_cons, List.nodup_cons] at hhand
    have hdis' : ∀ p ∈ cards, ∀ c ∈ hand, p.2.n ≠ c.n :=
      fun p hp c hc => hdis p hp c (List.mem_cons_of_mem _ hc)
    unfold defendGreedy
    split
    · obtain ⟨h1, h2, h3, h4⟩ := ih beaten cards hlen hhand.2 hdis' hnd hperm
      refine ⟨h1, h2, h3, ?_⟩
      intro p hp
      rcases h4 p hp with h | ⟨h, h'⟩
      · exact Or.inl h
      · exact Or.inr ⟨List.mem_cons_of_mem _ h, h'⟩
    · rename_i i0 hsome
      obtain ⟨a0, ha0, hb0, hbeat0⟩ := findIdx_beat_some t attack beaten h i0 hsome
      rw [ha0]
      simp only []
      have hlen' : (beaten.set i0 true).length = attack.length := by
        rw [List.length_set]
        exact hlen
      obtain ⟨h1, h2, h3, h4⟩ := ih (beaten.set i0 true) (cards ++ [(a0, h)]) hlen' hhand.2
        (by
          intro p hp c hc
          rcases List.mem_append.1 hp with hp | hp
          · exact hdis' p hp c hc
          · simp only [List.mem_singleton] at hp
            subst hp
            intro hn
            exact hhand.1 (List.mem_map.2 ⟨c, hc, hn.symm⟩))
        (by
          simp only [List.map_append, List.map_cons, List.map_nil]
          rw [List.nodup_append]
          refine ⟨hnd, List.nodup_singleton _, ?_⟩
          intro x hx hx'
          simp only [List.mem_singleton] at hx'
          subst hx'
          obtain ⟨c, hc, hcn⟩ := List.mem_map.1 hx
          obtain ⟨p, hp, hpc⟩ := List.mem_map.1 hc
          subst hpc
          exact hdis p hp h (List.mem_cons_self _ _) hcn)
        (by
          simp only [List.map_append, List.map_cons, List.map_nil]
          refine (List.perm_append_comm).trans ?_
          simp only [List.singleton_append]
          exact (List.Perm.cons a0 hperm).trans (covered_set attack beaten i0 a0 ha0 hb0).symm)
      refine ⟨h1, h2, h3, ?_⟩
      intro p hp
      rcases h4 p hp with h | ⟨h, h'⟩
      · rcases List.mem_append.1 h with h | h
        · exact Or.inl h
        · simp only [List.mem_singleton] at h
          subst h
          exact Or.inr ⟨List.mem_cons_self _ _, hbeat0⟩
      · exact Or.inr ⟨List.mem_cons_of_mem _ h, h'⟩

theorem Card.n_bounds (c : Card) : 4 * c.rank - 3 ≤ c.n ∧ c.n ≤ 4 * c.rank + 3 := by
  unfold Card.rank
  by_cases h : 0 ≤ c.n
  · rw [Int.tdiv_eq_ediv h (by decide)]
    omega
  · have hneg : c.n = -(-c.n) := by omega
    have : Int.tdiv c.n 4 = -((-c.n) / 4) := by
      conv_lhs => rw [hneg]
      rw [Int.neg_tdiv, Int.tdiv_eq_ediv (by omega) (by decide)]
    rw [this]
    omega

/-- A hand without a repeated card has at most seven cards of one rank. -/
theorem rank_filter_length (hand : List Card) (r : Int)
    (hnd : (hand.map (fun c => c.n)).Nodup) :
    (hand.filter (fun c => c.rank == r)).length ≤ 7 := by
  have hsub : ((hand.filter (fun c => c.rank == r)).map (fun c => c.n)).Sublist
      (hand.map (fun c => c.n)) := (List.filter_sublist _).map _
  have hnd' := hnd.sublist hsub
  have hcard := List.toFinset_card_of_nodup hnd'
  rw [List.length_map] at hcard
  rw [← hcard]
  have hss : ((hand.filter (fun c => c.rank == r)).map (fun c => c.n)).toFinset
      ⊆ Finset.Icc (4 * r - 3) (4 * r + 3) := by
    intro x hx
    simp only [List.mem_toFinset, List.mem_map, List.mem_filter, beq_iff_eq] at hx
    obtain ⟨c, ⟨_, hr⟩, rfl⟩ := hx
    have := Card.n_bounds c
    rw [hr] at this
    exact Finset.mem_Icc.2 this
  have := Finset.card_le_card hss
  rw [Int.card_Icc] at this
  have e : (4 * r + 3 + 1 - (4 * r - 3)).toNat = 7 := by
    have : 4 * r + 3 + 1 - (4 * r - 3) = 7 := by ring
    rw [this]
    rfl
  omega

/-- From pairs whose first components are a reordering of a list, a reordering of the
pairs whose first components are the list. -/
theorem exists_perm_map_fst {α β : Type} (l : List α) :
    ∀ (pairs : List (α × β)), (pairs.map (fun p => p.1)).Perm l →
      ∃ pairs' : List (α × β), pairs'.Perm pairs ∧ pairs'.map (fun p => p.1) = l := by
  intro pairs h
  generalize hm : pairs.map (fun p => p.1) = m at h
  induction h generalizing pairs with
  | nil =>
    cases pairs with
    | nil => exact ⟨[], List.Perm.refl _, rfl⟩
    | cons p ps => simp at hm
  | cons x _ ih =>
    cases pairs with
    | nil => simp at hm
    | cons p ps =>
      simp only [List.map_cons, List.cons.injEq] at hm
      obtain ⟨ps', hp, hmap⟩ := ih ps hm.2
      exact ⟨p :: ps', List.Perm.cons p hp, by simp [hmap, hm.1]⟩
  | swap x y l =>
    cases pairs with
    | nil => simp at hm
    | cons p ps =>
      cases ps with
      | nil => simp at hm
      | cons q ps =>
        simp only [List.map_cons, List.cons.injEq] at hm
        exact ⟨q :: p :: ps, List.Perm.swap p q ps, by simp [hm.1, hm.2.1, hm.2.2]⟩
  | trans _ _ ih1 ih2 =>
    obtain ⟨p1, hp1, hm1⟩ := ih1 pairs hm
    obtain ⟨p2, hp2, hm2⟩ := ih2 p1 hm1
    exact ⟨p2, hp2.trans hp1, hm2⟩

theorem covered_replicate (attack : List Card) (k : Nat) :
    ((attack.zip (List.replicate k false)).filter (fun ab => ab.2)).map (fun ab => ab.1) = [] := by
  rw [List.map_eq_nil_iff, List.filter_eq_nil_iff]
  intro ab hab
  have := (List.of_mem_zip hab).2
  rw [List.mem_replicate] at this
  simp [this.2]

/-- The moves `getMoves()` returns when the defending player is to move: moves passing the
attack on, the move giving up, and the defend move of the greedy search if it has beaten
every attack card. -/
theorem getMoves_defender {G : Type} (s : DurakState G) (hand : List Card)
    (ht : s.isTerminal = false) (hd : s.defending = true)
    (hp : s.playerToMove = s.defendingPlayer)
    (hh : handAt s.hands (s.playerToMove - 1) = some hand)
    (moves : List Move) (s1 : DurakState G) (hg : s.getMoves = some (moves, s1)) :
    ∃ remitMoves : List Move, (∀ m ∈ remitMoves, ∃ cs, m = Move.throwIn cs) ∧
      moves = remitMoves ++ [Move.defend [] true] ++
        (if (defendGreedy s.trump s.attack (sortCards (sortLess s.trump) hand)
              (List.replicate s.attack.length false) []).1.all (fun b => b) = true
          then [Move.defend (defendGreedy s.trump s.attack (sortCards (sortLess s.trump) hand)
              (List.replicate s.attack.length false) []).2 false]
          else []) := by
  unfold getMoves at hg
  rw [ht] at hg
  simp only [Bool.false_eq_true, if_false, hh, hd, if_true, hp ▸ hp] at hg
  rw [if_pos hp] at hg
  split at hg
  · exact Option.noConfusion hg
  · rename_i remitMoves hrem
    simp only [Option.some.injEq, Prod.mk.injEq] at hg
    refine ⟨remitMoves, ?_, hg.1.symm⟩
    split at hrem
    · split at hrem
      · split at hrem
        · cases hm : handAt s.hands (Int.tmod s.playerToMove 2) with
          | none =>
            rw [hm] at hrem
            exact Option.noConfusion hrem
          | some other =>
            rw [hm] at hrem
            simp only [Option.map_some', Option.some.injEq] at hrem
            subst hrem
            intro m hm'
            simp at hm'
        · exact Option.noConfusion hrem
      · split at hrem
        · simp only [Option.some.injEq] at hrem
          subst hrem
          intro m hm
          obtain ⟨cs, _, rfl⟩ := List.mem_map.1 hm
          exact ⟨cs, rfl⟩
        · exact Option.noConfusion hrem
    · simp only [Option.some.injEq] at hrem
      subst hrem
      intro m hm
      simp at hm

/-- The call returns when the other player has a hand and the attack is not empty. -/
theorem getMoves_defender_returns {G : Type} (s : DurakState G) (hand : List Card)
    (ht : s.isTerminal = false) (hd : s.defending = true)
    (hp : s.playerToMove = s.defendingPlayer) (ha : s.attack ≠ [])
    (hh : handAt s.hands (s.playerToMove - 1) = some hand)
    (hnd : (hand.map (fun c => c.n)).Nodup)
    (ho : handAt s.hands (Int.tmod s.playerToMove 2) ≠ none) :
    ∃ moves s1, s.getMoves = some (moves, s1) := by
  unfold getMoves
  rw [ht]
  simp only [Bool.false_eq_true, if_false, hh, hd, if_true, hp ▸ hp]
  rw [if_pos hp]
  cases hat : s.attack with
  | nil => exact absurd hat ha
  | cons a rest =>
    cases hm : handAt s.hands (Int.tmod s.playerToMove 2) with
    | none => exact absurd hm ho
    | some other =>
      have hsub : subsetsOf (hand.filter (fun card => card.rank == a.rank))
          = some ((List.range (2 ^ (hand.filter (fun card => card.rank == a.rank)).length)).tail.map
              (fun i => ((hand.filter (fun card => card.rank == a.rank)).enum.filter
                (fun jc => (i &&& (1 <<< jc.1)) != 0)).map (fun jc => jc.2))) := by
        unfold subsetsOf
        have := rank_filter_length hand a.rank hnd
        rw [if_neg (by omega)]
      by_cases hc : ((rest.all fun c => a.rank == c.rank) && s.defended.isEmpty) = true
      · simp only [hc, if_true, hsub]
        exact ⟨_, _, rfl⟩
      · simp only [hc, if_false]
        exact ⟨_, _, rfl⟩

end DurakState

end DefendOrder

/-! ## Statements about the defend move of `getMoves` -/

section DefendClaims

open DurakState

/-- C37 fails in a terminal state.  Player 1 holds the six of spades as the last card and
attacks with it, a move out of `getMoves()`; player 2, the defender, is to move against an
attack that is not empty, holding the seven of spades, which beats the six; but the hand
of player 1 is empty, the state is terminal, and `getMoves()` returns no move. -/
theorem C37_counterexample :
    sampleOneCard.isTerminal = false ∧
    sampleOneCard.playLegal [Move.attack [⟨0, false⟩]] = some sampleLastCard ∧
    sampleLastCard.defending = true ∧
    sampleLastCard.playerToMove = sampleLastCard.defendingPlayer ∧
    sampleLastCard.attack = [⟨0, false⟩] ∧
    handAt sampleLastCard.hands (sampleLastCard.playerToMove - 1) = some [⟨4, false⟩] ∧
    Spec.Covers sampleLastCard.trump sampleLastCard.attack [⟨4, false⟩] [⟨4, false⟩] ∧
    sampleLastCard.isTerminal = true ∧
    sampleLastCard.getMoves = some ([], sampleLastCard) := by
  refine ⟨rfl, rfl, rfl, rfl, rfl, rfl, ⟨?_, by decide, by simp⟩, rfl, rfl⟩
  exact List.Forall₂.cons (by decide) List.Forall₂.nil

/-- C37, amended.  In every state that is not terminal where the defending player is to
move, the attack is not empty and the hand of the defender has no repeated card:
`getMoves()` returns if the other player has a hand; the list it returns contains a defend
move that does not give up if and only if every attack card can be assigned a card of the
hand of the defender that beats it, no card being assigned twice; and the pairs of such a
move are the attack cards, each once, each with a card of the hand that beats it, no card
of the hand twice. -/
theorem C37_defend_move_iff_cover {G : Type} (s : DurakState G) (hand : List Card)
    (ht : s.isTerminal = false) (hd : s.defending = true)
    (hp : s.playerToMove = s.defendingPlayer) (ha : s.attack ≠ [])
    (hh : handAt s.hands (s.playerToMove - 1) = some hand)
    (hnd : (hand.map (fun c => c.n)).Nodup) :
    (handAt s.hands (Int.tmod s.playerToMove 2) ≠ none →
      ∃ moves s1, s.getMoves = some (moves, s1)) ∧
    ∀ moves s1, s.getMoves = some (moves, s1) →
      ((∃ pairs, Move.defend pairs false ∈ moves) ↔
        ∃ assign, Spec.Covers s.trump s.attack hand assign) ∧
      ∀ pairs, Move.defend pairs false ∈ moves →
        (pairs.map (fun p => p.1)).Perm s.attack ∧
        ((pairs.map (fun p => p.2)).map (fun c => c.n)).Nodup ∧
        ∀ p ∈ pairs, p.2 ∈ hand ∧ p.2.beat p.1 s.trump = true := by
  refine ⟨getMoves_defender_returns s hand ht hd hp ha hh hnd, ?_⟩
  intro moves s1 hg
  obtain ⟨remitMoves, hrem, hmoves⟩ := getMoves_defender s hand ht hd hp hh moves s1 hg
  have hperm := sortCards_perm (sortLess s.trump) hand
  have hsorted := sortCards_sorted s.trump hand
  have hnd' : ((sortCards (sortLess s.trump) hand).map (fun c => c.n)).Nodup :=
    (List.Perm.nodup_iff (hperm.map _)).2 hnd
  obtain ⟨g1, g2, g3, g4⟩ := defendGreedy_sound s.trump s.attack
    (sortCards (sortLess s.trump) hand) (List.replicate s.attack.length false) []
    (List.length_replicate _ _) hnd' (by simp) (by simp)
    (by rw [covered_replicate]; exact List.Perm.refl _)
  have hmem : ∀ pairs, Move.defend pairs false ∈ moves ↔
      (defendGreedy s.trump s.attack (sortCards (sortLess s.trump) hand)
        (List.replicate s.attack.length false) []).1.all (fun b => b) = true ∧
      pairs = (defendGreedy s.trump s.attack (sortCards (sortLess s.trump) hand)
        (List.replicate s.attack.length false) []).2 := by
    intro pairs
    rw [hmoves]
    simp only [List.mem_append, List.mem_singleton]
    constructor
    · rintro ((h | h) | h)
      · obtain ⟨cs, hcs⟩ := hrem _ h
        exact Move.noConfusion hcs
      · simp at h
      · split at h
        · rename_i hall
          simp only [List.mem_singleton, Move.defend.injEq, and_true] at h
          exact ⟨hall, h⟩
        · simp at h
    · rintro ⟨hall, rfl⟩
      right
      rw [if_pos hall]
      exact List.mem_singleton.2 rfl
  have hprop : ∀ pairs, Move.defend pairs false ∈ moves →
      (pairs.map (fun p => p.1)).Perm s.attack ∧
      ((pairs.map (fun p => p.2)).map (fun c => c.n)).Nodup ∧
      ∀ p ∈ pairs, p.2 ∈ hand ∧ p.2.beat p.1 s.trump = true := by
    intro pairs hin
    obtain ⟨hall, rfl⟩ := (hmem pairs).1 hin
    refine ⟨?_, g3, ?_⟩
    · rw [covered_all s.attack _ g1 hall] at g2
      exact g2
    · intro p hpin
      rcases g4 p hpin with h | ⟨h, h'⟩
      · simp at h
      · exact ⟨hperm.subset h, h'⟩
  refine ⟨⟨?_, ?_⟩, hprop⟩
  · rintro ⟨pairs, hin⟩
    obtain ⟨h1, h2, h3⟩ := hprop pairs hin
    obtain ⟨pairs', hpp, hfst⟩ := exists_perm_map_fst s.attack pairs h1
    refine ⟨pairs'.map (fun p => p.2), ?_, ?_, ?_⟩
    · rw [← hfst, List.forall₂_map_left_iff, List.forall₂_map_right_iff, List.forall₂_same]
      intro p hpin
      exact (h3 p (hpp.subset hpin)).2
    · exact (List.Perm.nodup_iff ((hpp.map _).map _)).2 h2
    · intro c hc
      obtain ⟨p, hpin, rfl⟩ := List.mem_map.1 hc
      exact (h3 p (hpp.subset hpin)).1
  · rintro ⟨assign, hcov, hnda, hsub⟩
    have hlen := hcov.length_eq
    have hall := defendGreedy_complete s.trump s.attack (sortCards (sortLess s.trump) hand)
      (List.replicate s.attack.length false) []
      (fun i => (assign[i]?).getD ⟨0, false⟩) (List.length_replicate _ _) hsorted hnd' ?_ ?_
    · exact ⟨_, (hmem _).2 ⟨hall, rfl⟩⟩
    · intro i a hai _
      have hlt : i < assign.length := by
        rw [← hlen]
        exact (List.getElem?_eq_some.1 hai).1
      have hci : assign[i]? = some assign[i] := List.getElem?_eq_getElem hlt
      simp only [hci, Option.getD_some]
      refine ⟨hperm.symm.subset (hsub _ (List.getElem_mem _)), ?_⟩
      have hz : (a, assign[i]) ∈ s.attack.zip assign :=
        List.getElem?_mem (List.getElem?_zip_eq_some.2 ⟨hai, hci⟩)
      exact (List.forall₂_iff_zip.1 hcov).2 hz
    · intro i j hi hj hij
      have hli : i < assign.length := by
        have := (List.getElem?_eq_some.1 hi).1
        rw [List.length_replicate] at this
        omega
      have hlj : j < assign.length := by
        have := (List.getElem?_eq_some.1 hj).1
        rw [List.length_replicate] at this
        omega
      simp only [List.getElem?_eq_getElem hli, List.getElem?_eq_getElem hlj,
        Option.getD_some] at hij
      exact (List.Nodup.getElem_inj_iff (List.Nodup.of_map _ hnda)).1 hij

/-- C37, amended, on a state where player 2 defends against the six of spades with the six
of clubs and the seven of spades in hand: `getMoves()` returns, and lists a defend move
since the seven of spades beats the six. -/
theorem C37_defend_move_iff_cover_witness :
    sampleDefend.isTerminal = false ∧ sampleDefend.defending = true ∧
    sampleDefend.playerToMove = sampleDefend.defendingPlayer ∧ sampleDefend.attack ≠ [] ∧
    handAt sampleDefend.hands (sampleDefend.playerToMove - 1)
      = some [⟨1, false⟩, ⟨4, false⟩] ∧
    (([⟨1, false⟩, ⟨4, false⟩] : List Card).map (fun c => c.n)).Nodup ∧
    (∃ moves s1, sampleDefend.getMoves = some (moves, s1)) ∧
    ∀ moves s1, sampleDefend.getMoves = some (moves, s1) →
      ((∃ pairs, Move.defend pairs false ∈ moves) ↔
        ∃ assign, Spec.Covers sampleDefend.trump sampleDefend.attack
          [⟨1, false⟩, ⟨4, false⟩] assign) ∧
      ∀ pairs, Move.defend pairs false ∈ moves →
        (pairs.map (fun p => p.1)).Perm sampleDefend.attack ∧
        ((pairs.map (fun p => p.2)).map (fun c => c.n)).Nodup ∧
        ∀ p ∈ pairs, p.2 ∈ ([⟨1, false⟩, ⟨4, false⟩] : List Card) ∧
          p.2.beat p.1 sampleDefend.trump = true :=
  ⟨rfl, rfl, rfl, by simp [sampleDefend], rfl, by decide,
    (C37_defend_move_iff_cover sampleDefend [⟨1, false⟩, ⟨4, false⟩] rfl rfl rfl
      (by simp [sampleDefend]) rfl (by decide)).1 (by decide),
    (C37_defend_move_iff_cover sampleDefend [⟨1, false⟩, ⟨4, false⟩] rfl rfl rfl
      (by simp [sampleDefend]) rfl (by decide)).2⟩

end DefendClaims

/-! ## The engine on `DurakState`: moves without cards, turns -/

section DurakEngineLemmas

open DurakState

variable {G : Type}

/-- The function `operator==` on moves is symmetric and transitive: of the requirements of
`std::unordered_set`, the moves of `DurakState` fail only the one on the hash. -/
theorem DurakState.Move.eq_equiv :
    (∀ m1 m2 : Move, Move.eq m1 m2 = true → Move.eq m2 m1 = true) ∧
    (∀ m1 m2 m3 : Move, Move.eq m1 m2 = true → Move.eq m2 m3 = true → Move.eq m1 m3 = true) := by
  constructor
  · intro m1 m2 h
    cases m1 <;> cases m2 <;> simp only [Move.eq, Move.isNull, beq_iff_eq] at h ⊢ <;>
      first
      | exact h.symm
      | exact Bool.noConfusion h
  · intro m1 m2 m3 h1 h2
    cases m1 <;> cases m2 <;> cases m3 <;>
      simp only [Move.eq, Move.isNull, beq_iff_eq] at h1 h2 ⊢ <;>
      first
      | exact h1.trans h2
      | exact Bool.noConfusion h1
      | exact Bool.noConfusion h2

theorem DurakState.randomizeHiddenState_playerToMove (sh : Shuffler G) (s s' : DurakState G)
    (observer : Int) (h : s.randomizeHiddenState sh observer = some s') :
    s'.playerToMove = s.playerToMove := by
  unfold DurakState.randomizeHiddenState at h
  simp only [] at h
  split at h
  · exact Option.noConfusion h
  · split at h
    · exact Option.noConfusion h
    · split at h
      · simp only [Option.some.injEq] at h
        subst h
        rfl
      · exact Option.noConfusion h

theorem DurakState.endRound_playerToMove (s t : DurakState G)
    (h : s.endRound = CallResult.ok t) : t.playerToMove = Int.tmod s.playerToMove 2 + 1 := by
  unfold DurakState.endRound at h
  split at h
  · exact CallResult.noConfusion h
  · exact CallResult.noConfusion h
  · simp only [CallResult.ok.injEq] at h
    subst h
    rfl

theorem DurakState.makeMove_playerToMove (s t : DurakState G) (m : Move)
    (hm : m.isNull = false) (h : s.makeMove m = CallResult.ok t) :
    t.playerToMove = Int.tmod s.playerToMove 2 + 1 := by
  cases m with
  | null => exact Bool.noConfusion hm
  | attack cards =>
    simp only [DurakState.makeMove] at h
    split at h
    · exact CallResult.noConfusion h
    · exact CallResult.noConfusion h
    · split at h
      · exact CallResult.noConfusion h
      · split at h
        · exact CallResult.noConfusion h
        · split at h
          · exact CallResult.noConfusion h
          · split at h
            · exact CallResult.noConfusion h
            · exact CallResult.noConfusion h
            · simp only [CallResult.ok.injEq] at h
              subst h
              simp only [DurakState.nextTurn]
              split <;> rfl
  | defend cards giveUp =>
    simp only [DurakState.makeMove] at h
    split at h
    · exact CallResult.noConfusion h
    · split at h
      · split at h
        · exact CallResult.noConfusion h
        · have := DurakState.endRound_playerToMove _ _ h
          exact this
      · split at h
        · have := DurakState.endRound_playerToMove _ _ h
          exact this
        · split at h
          · exact CallResult.noConfusion h
          · split at h
            · exact CallResult.noConfusion h
            · exact CallResult.noConfusion h
            · simp only [CallResult.ok.injEq] at h
              subst h
              rfl
  | throwIn cards =>
    simp only [DurakState.makeMove] at h
    split at h
    · exact CallResult.noConfusion h
    · split at h
      · exact CallResult.noConfusion h
      · split at h
        · exact CallResult.noConfusion h
        · exact CallResult.noConfusion h
        · simp only [CallResult.ok.injEq] at h
          subst h
          rfl

theorem DurakState.getMoves_playerToMove (s s1 : DurakState G) (moves : List Move)
    (h : s.getMoves = some (moves, s1)) :
    s1.playerToMove = s.playerToMove ∧ ∀ m ∈ moves, m.isNull = false := by
  unfold DurakState.getMoves at h
  split at h
  · simp only [Option.some.injEq, Prod.mk.injEq] at h
    obtain ⟨h1, h2⟩ := h
    subst h1
    subst h2
    exact ⟨rfl, fun m hm => absurd hm (List.not_mem_nil m)⟩
  · split at h
    · exact Option.noConfusion h
    · split at h
      · split at h
        · simp only [] at h
          split at h
          · exact Option.noConfusion h
          · rename_i remitMoves hrem
            simp only [Option.some.injEq, Prod.mk.injEq] at h
            obtain ⟨h1, h2⟩ := h
            subst h1
            subst h2
            refine ⟨rfl, ?_⟩
            intro m hm
            simp only [List.mem_append, List.mem_singleton] at hm
            rcases hm with (hm | hm) | hm
            · -- remit moves are throw-in moves
              split at hrem
              · split at hrem
                · split at hrem
                  · simp only [Option.map_eq_some'] at hrem
                    obtain ⟨_, _, hr⟩ := hrem
                    rw [← hr] at hm
                    exact absurd hm (List.not_mem_nil m)
                  · exact Option.noConfusion hrem
                · split at hrem
                  · simp only [Option.some.injEq] at hrem
                    rw [← hrem] at hm
                    obtain ⟨c, _, rfl⟩ := List.mem_map.1 hm
                    rfl
                  · exact Option.noConfusion hrem
              · simp only [Option.some.injEq] at hrem
                rw [← hrem] at hm
                exact absurd hm (List.not_mem_nil m)
            · subst hm
              rfl
            · split at hm
              · rw [List.mem_singleton] at hm
                subst hm
                rfl
              · exact absurd hm (List.not_mem_nil m)
        · split at h
          · exact Option.noConfusion h
          · split at h
            · split at h
              · exact Option.noConfusion h
              · simp only [Option.some.injEq, Prod.mk.injEq] at h
                obtain ⟨h1, h2⟩ := h
                subst h1
                subst h2
                refine ⟨rfl, ?_⟩
                intro m hm
                simp only [List.mem_append, List.mem_singleton, List.mem_map] at hm
                rcases hm with ⟨c, _, rfl⟩ | rfl <;> rfl
            · exact Option.noConfusion h
      · split at h
        · exact Option.noConfusion h
        · split at h
          · exact Option.noConfusion h
          · simp only [Option.some.injEq, Prod.mk.injEq] at h
            obtain ⟨h1, h2⟩ := h
            subst h1
            subst h2
            refine ⟨rfl, ?_⟩
            intro m hm
            obtain ⟨c, _, rfl⟩ := List.mem_map.1 hm
            rfl

/-- The moves of which the turn contract of `DurakState` speaks: every move but the null
move. -/
theorem durakOps_turns (K : Type) [LinearOrderedField K] (sh : Shuffler G) (draw : G → Nat × G)
    (a b : Nat) :
    (∀ s rnd, (durakOps K sh draw a b).playerToMove
        ((durakOps K sh draw a b).randomizeHiddenState s rnd).1
      = (durakOps K sh draw a b).playerToMove s) ∧
    (∀ s, (durakOps K sh draw a b).playerToMove ((durakOps K sh draw a b).getMoves s).2
      = (durakOps K sh draw a b).playerToMove s) ∧
    (∀ s, ∀ m ∈ ((durakOps K sh draw a b).getMoves s).1, m.val.isNull = false) ∧
    (∀ s m t, m.val.isNull = false → (durakOps K sh draw a b).makeMove s m = some t →
      (durakOps K sh draw a b).playerToMove t
        = Int.tmod ((durakOps K sh draw a b).playerToMove s) 2 + 1) := by
  refine ⟨?_, ?_, ?_, ?_⟩
  · intro s rnd
    simp only [durakOps]
    split
    · rfl
    · split
      · rfl
      · rename_i s1 h1
        simp only [MCTS.determinizeDurak, DurakState.randomizeHiddenStateDefault] at h1
        have := DurakState.randomizeHiddenState_playerToMove sh _ _ _ h1
        simpa [DurakState.copy] using this
  · intro s
    simp only [durakOps]
    split
    · rfl
    · split
      · rfl
      · rename_i moves s1 h1
        exact (DurakState.getMoves_playerToMove _ _ _ h1).1
  · intro s m hm
    simp only [durakOps] at hm
    split at hm
    · exact absurd hm (List.not_mem_nil m)
    · split at hm
      · exact absurd hm (List.not_mem_nil m)
      · rename_i moves s1 h1
        obtain ⟨im, him, rfl⟩ := List.mem_map.1 hm
        have : im.2 ∈ moves := List.snd_mem_of_mem_enum him
        exact (DurakState.getMoves_playerToMove _ _ _ h1).2 _ this
  · intro s m t hm h
    simp only [durakOps] at h ⊢
    split at h
    · exact Option.noConfusion h
    · split at h
      · rename_i s1 h1
        simp only [Option.some.injEq] at h
        subst h
        exact DurakState.makeMove_playerToMove _ _ _ hm h1
      · exact Option.noConfusion h

/-- One iteration of the fresh engine on `samplePass` completes and gives the root a child
for the pass, but `getMove(1)` does not return. -/
theorem samplePass_getMove :
    (MCTS.loop sampleOps realMath 5 (MCTS.ctor sampleOps (7 / 10) ⟨samplePass, false⟩) 1
        (fun _ => 0)).map (fun r => r.1.root.children.map (fun c => (c.move.val, c.visits)))
      = some [(Move.throwIn [], 1)] ∧
    (MCTS.getMove sampleOps realMath 5 (MCTS.ctor sampleOps (7 / 10) ⟨samplePass, false⟩) 1
        (fun _ => 0)).isNone = true := by
  constructor
  · decide!
  · rfl

/-- One iteration of the fresh engine on `sampleBeaten` completes and gives the root the
child for `DefendMove(true)`, at address 1. -/
theorem sampleBeaten_first_iteration :
    (MCTS.iterate sampleOps realMath 5 (MCTS.ctor sampleOps (7 / 10) ⟨sampleBeaten, false⟩)
        (fun _ => 0)).map (fun r =>
          (r.1.root.children.map (fun c => (c.move.addr, c.move.val, c.just_moved)),
            r.1.root_state.state.playerToMove, r.1.root_state.thrown))
      = some ([(1, sampleGiveUp, 2)], 2, false) := by
  decide!

/-- Determinizing `samplePass` changes the generator only: both hands are face up. -/
theorem samplePass_determinized (rnd : RandStream) :
    (sampleOps.randomizeHiddenState ⟨samplePass, false⟩ rnd).1
      = ⟨{ samplePass with rd := 5 }, false⟩ := by
  rfl

/-- In every determinization of `samplePass` the pass is the one move listed. -/
theorem samplePass_moves (rnd : RandStream) :
    (sampleOps.getMoves (sampleOps.randomizeHiddenState ⟨samplePass, false⟩ rnd).1).1
      = [⟨1, Move.throwIn []⟩] := by
  rw [samplePass_determinized]
  rfl

end DurakEngineLemmas

/-! ## Statements about the engine on `DurakState` -/

section DurakEngineClaims

open DurakState

/-- C13, on `DurakState`, which meets the turn contract with the turn order
`p % 2 + 1`: on the fresh engine on `sampleBeaten`, where player 2 is to move, one
iteration adds the child for `DefendMove(true)`; committing the move of that child makes
the child the root, recorded for player 2, on the state in which player 1 is to move. -/
theorem C13_makeMove_in_step_witness :
    ∃ e1 st rnd, MCTS.iterate sampleOps realMath 5
        (MCTS.ctor sampleOps (7 / 10) ⟨sampleBeaten, false⟩) (fun _ => 0) = some (e1, st, rnd) ∧
      e1.root.children.map (fun c => (c.move.addr, c.move.val, c.just_moved))
        = [(1, sampleGiveUp, 2)] ∧
      ∃ e2, MCTS.makeMove sampleOps e1 ⟨1, sampleGiveUp⟩ = some e2 ∧ e2.root.move.addr = 1 ∧
        e2.root.just_moved = 2 ∧ e2.root_state.state.playerToMove = 1 := by
  have h := sampleBeaten_first_iteration
  cases h1 : MCTS.iterate sampleOps realMath 5
      (MCTS.ctor sampleOps (7 / 10) ⟨sampleBeaten, false⟩) (fun _ => 0) with
  | none =>
    rw [h1] at h
    exact Option.noConfusion h
  | some r =>
    rw [h1] at h
    simp only [Option.map_some', Option.some.injEq, Prod.mk.injEq] at h
    obtain ⟨hch, hpl, hth⟩ := h
    have hcontract := durakOps_turns ℝ revShuffler sampleDraw 1 2
    have hroot : r.1.root_state = ⟨sampleBeaten, false⟩ := by
      have h3 := h1
      unfold MCTS.iterate at h3
      split at h3
      · exact Option.noConfusion h3
      · simp only [Option.some.injEq] at h3
        rw [← h3]
        rfl
    obtain ⟨e2, h2, ha, _, hj, hs, _⟩ := C13_makeMove_in_step sampleOps realMath (7 / 10)
      ⟨sampleBeaten, false⟩ (fun m => m.val.isNull = false) (fun p => Int.tmod p 2 + 1)
      hcontract.1 hcontract.2.1 hcontract.2.2.1 hcontract.2.2.2
      r.1 (MCTS.ReachableBy.iterate _ r.1 5 (fun _ => 0) r.2.2 r.2.1 MCTS.ReachableBy.ctor h1)
      ⟨1, sampleGiveUp⟩ _ rfl (by rw [hroot]; rfl)
    refine ⟨r.1, r.2.1, r.2.2, rfl, hch, e2, h2, ha, ?_, ?_⟩
    · rw [hj]
      exact hpl
    · rw [hs]
      rfl

/-- C16, as stated, fails in two ways.  On the card game: a fresh engine on the start
state (card low), with every redrawn card high, runs `getMove(4)`, which returns `pass`,
and commits it.  The root state then is not terminal and has the one legal move `low`, in
every determinization; the root kept its child for `high`, visited three times.
`getMove(1)` adds the child for `low`, visited once, and returns `high`.  In the game
`DurakState`: the state `samplePass` is not terminal and has the one legal move
`ThrowInMove` without cards, the pass, in every determinization; on the fresh engine the
iteration of `getMove(1)` completes, but the call does not return, as the conversion of
the pass to `std::string`, made for the printing of the children, is undefined. -/
theorem C16_counterexample :
    ((MCTS.getMove (sealedOps ℝ) realMath 5 (MCTS.ctor (sealedOps ℝ) (7 / 10) ⟨0, false⟩) 4
        (fun _ => 1)).bind (fun r1 =>
      (MCTS.makeMove (sealedOps ℝ) r1.2.1 r1.1).bind (fun e2 =>
        (MCTS.getMove (sealedOps ℝ) realMath 5 e2 1 (fun _ => 1)).map (fun r3 =>
          (r1.1.val, e2.root_state.stage, e2.root_state.high,
            e2.root.children.map (fun c => (c.move.val, c.visits)),
            r3.2.1.root.children.map (fun c => (c.move.val, c.visits)), r3.1.val)))))
      = some (1, 1, false, [(2, 3)], [(2, 3), (3, 1)], 2) ∧
    (sealedOps ℝ).isTerminal ⟨1, false⟩ = false ∧
    (∀ rnd, ((sealedOps ℝ).getMoves
      ((sealedOps ℝ).randomizeHiddenState ⟨1, false⟩ rnd).1).1 = [⟨3, 3⟩]) ∧
    SharedEqual (sealedOps ℝ) ⟨2, 2⟩ ⟨3, 3⟩ = false ∧
    sampleOps.isTerminal ⟨samplePass, false⟩ = false ∧
    (∀ rnd, (sampleOps.getMoves
      (sampleOps.randomizeHiddenState ⟨samplePass, false⟩ rnd).1).1 = [⟨1, Move.throwIn []⟩]) ∧
    (MCTS.loop sampleOps realMath 5 (MCTS.ctor sampleOps (7 / 10) ⟨samplePass, false⟩) 1
        (fun _ => 0)).map (fun r => r.1.root.children.map (fun c => (c.move.val, c.visits)))
      = some [(Move.throwIn [], 1)] ∧
    MCTS.getMove sampleOps realMath 5
      (MCTS.ctor sampleOps (7 / 10) ⟨samplePass, false⟩) 1 (fun _ => 0) = none :=
  ⟨rfl, rfl, fun _ => rfl, rfl, rfl, samplePass_moves, samplePass_getMove.1,
    Option.isNone_iff_eq_none.1 samplePass_getMove.2⟩

/-- C30 fails as stated.  The defend move that beats the six of spades with the seven of
spades has the text `Defend move:` and, on a new line, `- beat 6S with 7S`; `stringToMove`
throws on that text.  The attack with the six of spades has the text `Attack move: 6S`,
and `stringToMove` throws on it as well. -/
theorem C30_counterexample :
    (Move.defend [(⟨0, false⟩, ⟨4, false⟩)] false).toString
      = some "Defend move:\n- beat 6S with 7S".toList ∧
    stringToMove "Defend move:\n- beat 6S with 7S".toList = Returned.throws ∧
    (Move.attack [⟨0, false⟩]).toString = some "Attack move: 6S".toList ∧
    stringToMove "Attack move: 6S".toList = Returned.throws :=
  ⟨rfl, rfl, rfl, rfl⟩

end DurakEngineClaims
